import Mathlib

/-!
# bittorrent-trace: reassembly, demultiplexing and peer-wire dissection

A shallow embedding of `tcp_state.hpp`, `utp_state.hpp`, `stream_key.hpp`,
`bittorrent.hpp` and the routing part of `main.cpp`, followed by theorems about it.

Conventions of the embedding.
* Machine integers are natural numbers; every place where the C++ code truncates
  (`std::uint32_t`, `std::uint16_t`) carries an explicit `% u32` or `% u16`.
  `span::size()` is a 64 bit `std::ptrdiff_t`, so sums with it do not wrap.
* Bytes (`unsigned char`) are natural numbers below 256.
* `std::map<K, V>` is an association list with unique keys.  The program never
  iterates over one of its maps, so the order of the entries is not observable and
  new entries are simply appended.
* `array<T, 2, dir_t>` is a record with one field per direction.
* The `Handler` template parameter of the reassemblers is a record of functions
  on an explicit handler state.
-/

namespace BtTrace

/-! ## Machine integers -/

/-- Number of values of a `std::uint32_t`. -/
def u32 : Nat := 4294967296

/-- Number of values of a `std::uint16_t`. -/
def u16 : Nat := 65536

/-! ## `std::map` -/

/-- The type `std::map<K, V>`. -/
abbrev map (K V : Type) := List (K × V)

namespace map

variable {K V : Type} [DecidableEq K]

/-- The call `m.find(k)`: the value stored under `k`, `none` standing for `m.end()`. -/
def find : map K V → K → Option V
  | [], _ => none
  | (a, b) :: t, k => if a = k then some b else find t k

/-- The call `m.erase(it)` for an iterator `it` pointing at key `k`. -/
def erase : map K V → K → map K V
  | [], _ => []
  | (a, b) :: t, k => if a = k then erase t k else (a, b) :: erase t k

/-- The call `m.emplace(k, v)`: inserts only when `k` is not yet a key. -/
def emplace (m : map K V) (k : K) (v : V) : map K V :=
  match find m k with
  | some _ => m
  | none => m ++ [(k, v)]

/-- Overwriting the value an iterator at key `k` points to (`it->second = v`). -/
def replace : map K V → K → V → map K V
  | [], _, _ => []
  | (a, b) :: t, k, v => if a = k then (a, v) :: t else (a, b) :: replace t k v

/-- The statement `m[k] = v`. -/
def assign (m : map K V) (k : K) (v : V) : map K V :=
  match find m k with
  | some _ => replace m k v
  | none => m ++ [(k, v)]

end map

/-! ## `tcp_state.hpp`: directions, events, handler -/

/-- The enumeration `dir_t`. -/
inductive dir_t where
  | in_
  | out
  deriving DecidableEq, Repr

/-- The enumeration `socket_event_t`. -/
inductive socket_event_t where
  | reset
  | fin
  | seqnr_mismatch
  deriving DecidableEq, Repr

/-- The type `array<T, 2, dir_t>`. -/
structure dir_array (T : Type) where
  in_ : T
  out : T
  deriving DecidableEq, Repr

/-- Indexing `a[d]`. -/
def dir_array.get {T : Type} (a : dir_array T) : dir_t → T
  | .in_ => a.in_
  | .out => a.out

/-- Assignment `a[d] = v`. -/
def dir_array.set {T : Type} (a : dir_array T) (d : dir_t) (v : T) : dir_array T :=
  match d with
  | .in_ => { a with in_ := v }
  | .out => { a with out := v }

/-- The struct `timeval`. -/
structure timeval where
  tv_sec : Nat
  tv_usec : Nat
  deriving DecidableEq, Repr

/-- The struct `stream_key` of `stream_key.hpp`; addresses are 32 bit numbers. -/
structure stream_key where
  src : Nat
  dst : Nat
  src_port : Nat
  dst_port : Nat
  deriving DecidableEq, Repr

/-- The function `swap(stream_key const&)`. -/
def swap (k : stream_key) : stream_key :=
  { src := k.dst, dst := k.src, src_port := k.dst_port, dst_port := k.src_port }

/-- The struct `utp_stream_key`. -/
structure utp_stream_key where
  ip : stream_key
  connid : Nat
  deriving DecidableEq, Repr

/-- The function `swap(utp_stream_key const&, int offset)`; `offset` is a C++ `int`. -/
def swap_utp (k : utp_stream_key) (offset : Int) : utp_stream_key :=
  { ip := swap k.ip, connid := (((k.connid : Int) + offset) % (u16 : Int)).toNat }

/-- The function `inc_connid`. -/
def inc_connid (k : utp_stream_key) (offset : Int) : utp_stream_key :=
  { ip := k.ip, connid := (((k.connid : Int) + offset) % (u16 : Int)).toNat }

/-- The operations a `Handler` template argument provides, on an explicit handler
state `H`: construction from the flow key, `data(ts, buf, d)` and `event(ts, e, d)`. -/
structure Handler (H : Type) where
  init : stream_key → H
  data : H → timeval → List Nat → dir_t → H
  event : H → timeval → socket_event_t → dir_t → H

/-- One call made on a handler. -/
inductive call where
  | data (ts : timeval) (buf : List Nat) (d : dir_t)
  | event (ts : timeval) (e : socket_event_t) (d : dir_t)
  deriving DecidableEq, Repr

/-- The handler that records the calls made on it, oldest first. -/
def recorder : Handler (List call) where
  init := fun _ => []
  data := fun h ts buf d => h ++ [call.data ts buf d]
  event := fun h ts e d => h ++ [call.event ts e d]

/-- The payloads handed to `data` for direction `d`, oldest first. -/
def payloads (d : dir_t) : List call → List (List Nat)
  | [] => []
  | call.data _ buf d' :: t => if d' = d then buf :: payloads d t else payloads d t
  | call.event _ _ _ :: t => payloads d t

/-- The events of kind `e` passed to `event` for direction `d`. -/
def events (e : socket_event_t) (d : dir_t) : List call → Nat
  | [] => 0
  | call.data _ _ _ :: t => events e d t
  | call.event _ e' d' :: t => (if e' = e ∧ d' = d then 1 else 0) + events e d t

/-! ## `tcp_state.hpp`: the TCP reassembler -/

/-- The fields of `tcphdr` the program reads, in host byte order. -/
structure tcphdr where
  seq : Nat
  syn : Bool
  ack : Bool
  fin : Bool
  rst : Bool
  deriving DecidableEq, Repr

/-- The struct `tcp_side_state`. -/
structure tcp_side_state where
  closed : Bool := false
  seqnr : Nat := 0
  ooo_ : map Nat (List Nat) := []
  deriving DecidableEq, Repr

/-- The struct `tcp_state<Handler>`. -/
structure tcp_state (H : Type) where
  key : stream_key
  state_ : dir_array tcp_side_state
  handler : H
  deriving DecidableEq

/-- The constructor `tcp_state(stream_key const& k)`. -/
def tcp_state.mk_ {H : Type} (hd : Handler H) (k : stream_key) : tcp_state H :=
  { key := k, state_ := { in_ := {}, out := {} }, handler := hd.init k }

/-- The member `tcp_state::syn`. -/
def tcp_state.syn {H : Type} (st : tcp_state H) (hdr : tcphdr) (d : dir_t) : tcp_state H :=
  { st with state_ := st.state_.set d { st.state_.get d with seqnr := (hdr.seq + 1) % u32 } }

/-- The expression `(d == dir_t::out) ? dir_t::in : dir_t::out` of `fin`. -/
def other_dir (d : dir_t) : dir_t :=
  if d = dir_t.out then dir_t.in_ else dir_t.out

/-- The member `tcp_state::fin`: the new state and the returned flag. -/
def tcp_state.fin {H : Type} (hd : Handler H) (st : tcp_state H) (ts : timeval) (d : dir_t) :
    tcp_state H × Bool :=
  let state1 := st.state_.set d { st.state_.get d with closed := true }
  ({ st with state_ := state1, handler := hd.event st.handler ts socket_event_t.fin d },
    (state1.get (other_dir d)).closed)

/-- The member `tcp_state::rst`. -/
def tcp_state.rst {H : Type} (hd : Handler H) (st : tcp_state H) (ts : timeval) (d : dir_t) :
    tcp_state H :=
  { st with handler := hd.event st.handler ts socket_event_t.reset d }

/-- The `while (it != s.ooo_.end())` loop of `tcp_state::packet`.  Every iteration
erases one entry, so the size of the map bounds the number of iterations; `fuel`
counts them. -/
def tcp_drain {H : Type} (hd : Handler H) (ts : timeval) (d : dir_t) :
    Nat → tcp_side_state × H → tcp_side_state × H
  | 0, sh => sh
  | fuel + 1, (s, h) =>
    match s.ooo_.find s.seqnr with
    | none => (s, h)
    | some p =>
      tcp_drain hd ts d fuel
        ({ s with seqnr := (s.seqnr + p.length) % u32, ooo_ := s.ooo_.erase s.seqnr },
          hd.data h ts p d)

/-- The member `tcp_state::packet`. -/
def tcp_state.packet {H : Type} (hd : Handler H) (st : tcp_state H) (ts : timeval)
    (hdr : tcphdr) (buf : List Nat) (d : dir_t) : tcp_state H :=
  if buf.length = 0 then st
  else
    let s := st.state_.get d
    let incoming_seqnr := hdr.seq
    if incoming_seqnr ≠ s.seqnr then
      if (incoming_seqnr + u32 - s.seqnr) % u32 < (u32 - 1) / 2 then
        { st with state_ := st.state_.set d { s with ooo_ := s.ooo_.emplace incoming_seqnr buf } }
      else if incoming_seqnr + buf.length ≠ s.seqnr then
        { st with handler := hd.event st.handler ts socket_event_t.seqnr_mismatch d }
      else st
    else
      let s1 := { s with seqnr := (s.seqnr + buf.length) % u32 }
      let h1 := hd.data st.handler ts buf d
      let r := tcp_drain hd ts d s1.ooo_.length (s1, h1)
      { st with state_ := st.state_.set d r.1, handler := r.2 }

/-! ## `utp_state.hpp`: the uTP reassembler -/

/-- The fields of `utphdr` the program reads, in host byte order. -/
structure utphdr where
  type_ver : Nat
  extension : Nat
  connection_id : Nat
  seq_nr : Nat
  deriving DecidableEq, Repr

/-- The member `utphdr::get_type`. -/
def utphdr.get_type (h : utphdr) : Nat := h.type_ver / 16

/-- The member `utphdr::get_version`. -/
def utphdr.get_version (h : utphdr) : Nat := h.type_ver % 16

/-- The enumerators of `utp_socket_state_t`. -/
def ST_DATA : Nat := 0
/-- See `ST_DATA`. -/
def ST_FIN : Nat := 1
/-- See `ST_DATA`. -/
def ST_STATE : Nat := 2
/-- See `ST_DATA`. -/
def ST_RESET : Nat := 3
/-- See `ST_DATA`. -/
def ST_SYN : Nat := 4
/-- See `ST_DATA`. -/
def NUM_TYPES : Nat := 5

/-- The struct `utp_side_state`. -/
structure utp_side_state where
  closed : Bool := false
  connected : Bool := false
  seqnr : Nat := 0
  connid : Nat := 0
  ooo_ : map Nat (List Nat) := []
  deriving DecidableEq, Repr

/-- The struct `utp_state<Handler>`. -/
structure utp_state (H : Type) where
  key : utp_stream_key
  state_ : dir_array utp_side_state
  handler : H
  deriving DecidableEq

/-- The constructor `utp_state(utp_stream_key const& k)`. -/
def utp_state.mk_ {H : Type} (hd : Handler H) (k : utp_stream_key) : utp_state H :=
  { key := k, state_ := { in_ := {}, out := {} }, handler := hd.init k.ip }

/-- The member `utp_state::syn`. -/
def utp_state.syn {H : Type} (st : utp_state H) (hdr : utphdr) (d : dir_t) : utp_state H :=
  let s := st.state_.get d
  let s1 := { s with connected := true, seqnr := (hdr.seq_nr + 1) % u16,
                     connid := hdr.connection_id }
  { st with state_ := st.state_.set d s1 }

/-- The member `utp_state::fin`: the new state and the returned flag. -/
def utp_state.fin {H : Type} (hd : Handler H) (st : utp_state H) (ts : timeval) (d : dir_t) :
    utp_state H × Bool :=
  let state1 := st.state_.set d { st.state_.get d with closed := true }
  ({ st with state_ := state1, handler := hd.event st.handler ts socket_event_t.fin d },
    (state1.get (other_dir d)).closed)

/-- The member `utp_state::rst`. -/
def utp_state.rst {H : Type} (hd : Handler H) (st : utp_state H) (ts : timeval) (d : dir_t) :
    utp_state H :=
  { st with handler := hd.event st.handler ts socket_event_t.reset d }

/-- The `while (it != s.ooo_.end())` loop of `utp_state::packet`; `fuel` as in
`tcp_drain`. -/
def utp_drain {H : Type} (hd : Handler H) (ts : timeval) (d : dir_t) :
    Nat → utp_side_state × H → utp_side_state × H
  | 0, sh => sh
  | fuel + 1, (s, h) =>
    match s.ooo_.find s.seqnr with
    | none => (s, h)
    | some p =>
      utp_drain hd ts d fuel
        ({ s with seqnr := (s.seqnr + 1) % u16, ooo_ := s.ooo_.erase s.seqnr },
          hd.data h ts p d)

/-- The first statement of `utp_state::packet`: initialisation from the first packet
of a direction that is not connected. -/
def utp_connect (s : utp_side_state) (hdr : utphdr) : utp_side_state :=
  if s.connected then s
  else { s with seqnr := hdr.seq_nr, connected := true, connid := hdr.connection_id }

/-- The member `utp_state::packet`. -/
def utp_state.packet {H : Type} (hd : Handler H) (st : utp_state H) (ts : timeval)
    (hdr : utphdr) (buf : List Nat) (d : dir_t) : utp_state H :=
  let s := utp_connect (st.state_.get d) hdr
  if buf.length = 0 then { st with state_ := st.state_.set d s }
  else if hdr.seq_nr ≠ s.seqnr then
    if (hdr.seq_nr + u16 - s.seqnr) % u16 < (u16 - 1) / 2 then
      { st with state_ := st.state_.set d { s with ooo_ := s.ooo_.emplace hdr.seq_nr buf } }
    else { st with state_ := st.state_.set d s }
  else
    let s1 := { s with seqnr := (s.seqnr + 1) % u16 }
    let h1 := hd.data st.handler ts buf d
    let r := utp_drain hd ts d s1.ooo_.length (s1, h1)
    { st with state_ := st.state_.set d r.1, handler := r.2 }

/-! ## The drain of the out-of-order map, as the specification words it -/

/-- The advance of the expected sequence number by one delivered payload: by its
size modulo 2^32 for TCP. -/
def tcp_advance (e : Nat) (p : List Nat) : Nat := (e + p.length) % u32

/-- The advance of the expected sequence number by one delivered payload: by one
modulo 2^16 for uTP. -/
def utp_advance (e : Nat) (_p : List Nat) : Nat := (e + 1) % u16

/-- The drain in the words of the specification: while the map has an entry keyed by
the current expected sequence number, that entry's payload is handed over, the
expected sequence number advances and the entry is removed.  `Drains adv m e ps m1 e1`
says that starting from map `m` and expected number `e` the payloads `ps` are handed
over in this order and the drain stops with map `m1` and expected number `e1`. -/
inductive Drains (adv : Nat → List Nat → Nat) :
    map Nat (List Nat) → Nat → List (List Nat) → map Nat (List Nat) → Nat → Prop where
  | stop (m : map Nat (List Nat)) (e : Nat) (h : map.find m e = none) : Drains adv m e [] m e
  | step (m : map Nat (List Nat)) (e : Nat) (p : List Nat) (ps : List (List Nat))
      (m1 : map Nat (List Nat)) (e1 : Nat) (h : map.find m e = some p)
      (t : Drains adv (map.erase m e) (adv e p) ps m1 e1) : Drains adv m e (p :: ps) m1 e1

/-- The keys under which a drain starting at `e` removes the payloads `ps`. -/
def drain_keys (adv : Nat → List Nat → Nat) : Nat → List (List Nat) → List Nat
  | _, [] => []
  | e, p :: ps => e :: drain_keys adv (adv e p) ps

/-! ## Example states -/


/-- A TCP state whose `out` direction expects 100 and buffers two later segments. -/
def c3_tcp : tcp_state (List call) :=
  { key := { src := 1, dst := 2, src_port := 3, dst_port := 4 },
    state_ := { in_ := {}, out := { seqnr := 100, ooo_ := [(102, [7, 8, 9]), (200, [5])] } },
    handler := [] }

/-- A uTP state whose `in` direction expects 65535 and buffers packets 0 and 7. -/
def c3_utp : utp_state (List call) :=
  { key := { ip := { src := 1, dst := 2, src_port := 3, dst_port := 4 }, connid := 9 },
    state_ := { in_ := { connected := true, seqnr := 65535, ooo_ := [(0, [4]), (7, [5])] },
                out := {} },
    handler := [] }

/-! ## Streams of TCP segments -/

/-- The segments with payloads `segs` laid end to end from sequence number `start`,
each paired with its sequence number modulo 2^32. -/
def tile (start : Nat) : List (List Nat) → List (Nat × List Nat)
  | [] => []
  | p :: ps => (start % u32, p) :: tile (start + p.length) ps

/-- The sequence number and the payload of a TCP packet. -/
def seq_payload (x : timeval × tcphdr × List Nat) : Nat × List Nat := (x.2.1.seq, x.2.2)

/-- Calling `tcp_state::packet` for direction `d` on the packets `pkts` (time stamp,
header, payload), in order. -/
def tcp_feed {H : Type} (hd : Handler H) (d : dir_t) (st : tcp_state H)
    (pkts : List (timeval × tcphdr × List Nat)) : tcp_state H :=
  pkts.foldl (fun s x => s.packet hd x.1 x.2.1 x.2.2 d) st

/-- Segments that follow one another: `Chain32 e T e1` says that the first segment of
`T` has sequence number `e`, each next one starts where the previous one ends modulo
2^32, no payload is empty, and the stream ends at `e1`. -/
inductive Chain32 : Nat → List (Nat × List Nat) → Nat → Prop where
  | nil (e : Nat) : Chain32 e [] e
  | cons (e : Nat) (p : List Nat) (t : List (Nat × List Nat)) (e1 : Nat) (hp : p ≠ [])
      (h : Chain32 ((e + p.length) % u32) t e1) : Chain32 e ((e, p) :: t) e1

/-- Segment `b` is ahead of segment `a` by the test of `tcp_state::packet`. -/
def ahead32 (a b : Nat × List Nat) : Prop :=
  b.1 ≠ a.1 ∧ (b.1 + u32 - a.1) % u32 < (u32 - 1) / 2

/-- The state of one direction of the TCP reassembler while the segments `T` arrive:
`e` is the expected sequence number, `m` the out-of-order map, `del` the payloads
delivered so far, `A` the segments that have arrived, `done` the delivered ones and
`todo` the others, in stream order. -/
structure ReasmInv (T A : List (Nat × List Nat)) (start : Nat) (e1 : Nat)
    (e : Nat) (m : map Nat (List Nat)) (del : List (List Nat))
    (done todo : List (Nat × List Nat)) : Prop where
  split : T = done ++ todo
  del_eq : del = done.map Prod.snd
  seq_eq : e = (start + (done.map Prod.snd).flatten.length) % u32
  chain : Chain32 e todo e1
  buf_sound : ∀ q p, map.find m q = some p → (q, p) ∈ todo ∧ (q, p) ∈ A
  buf_complete : ∀ x ∈ todo, x ∈ A → map.find m x.1 = some x.2
  done_arrived : ∀ x ∈ done, x ∈ A

/-- The invariant of `tcp_state::packet` on direction `d` while the segments `T`
arrive: `ReasmInv` holds and the first segment not yet delivered has not arrived. -/
def TcpInv (T : List (Nat × List Nat)) (start e1 : Nat) (d : dir_t)
    (st : tcp_state (List call)) (A : List (Nat × List Nat)) : Prop :=
  ∃ done todo, ReasmInv T A start e1 (st.state_.get d).seqnr (st.state_.get d).ooo_
      (payloads d st.handler) done todo
    ∧ ∀ x, todo.head? = some x → x ∉ A

/-- A fresh TCP connection with a recording handler. -/
def c1_fresh : tcp_state (List call) :=
  tcp_state.mk_ recorder { src := 1, dst := 2, src_port := 3, dst_port := 4 }

/-- A SYN with the largest initial sequence number, so that the stream starts at 0. -/
def c1_syn : tcphdr := { seq := 4294967295, syn := true, ack := false, fin := false, rst := false }

/-- A data packet with sequence number `q` and payload `p`. -/
def c1_pkt (q : Nat) (p : List Nat) : timeval × tcphdr × List Nat :=
  (⟨7, 0⟩, { seq := q, syn := false, ack := true, fin := false, rst := false }, p)

/-! ## Sequences of uTP packets -/

/-- Calling `utp_state::packet` for direction `d` on the packets `pkts` (time stamp,
header, payload), in order. -/
def utp_feed {H : Type} (hd : Handler H) (d : dir_t) (st : utp_state H)
    (pkts : List (timeval × utphdr × List Nat)) : utp_state H :=
  pkts.foldl (fun s x => s.packet hd x.1 x.2.1 x.2.2 d) st

/-- The expected sequence number a direction is initialised with: the one set by `syn`
when the direction is connected, and otherwise the sequence number of the first
packet (cold start). -/
def utp_initial_seq (s : utp_side_state) (pkts : List (timeval × utphdr × List Nat)) : Nat :=
  if s.connected then s.seqnr
  else match pkts with
    | [] => s.seqnr
    | x :: _ => x.2.1.seq_nr

/-- Some packet of `P` has sequence number `q` and payload `p`. -/
def received (P : List (timeval × utphdr × List Nat)) (q : Nat) (p : List Nat) : Prop :=
  ∃ x ∈ P, x.2.1.seq_nr = q ∧ x.2.2 = p

/-- The invariant of one connected direction of the uTP reassembler: `e0` is the
sequence number it was initialised with, `P` the packets processed since, `s` its
state and `D` the payloads delivered. -/
structure UtpInv (e0 : Nat) (P : List (timeval × utphdr × List Nat))
    (s : utp_side_state) (D : List (List Nat)) : Prop where
  connected : s.connected = true
  seq_eq : s.seqnr = (e0 + D.length) % u16
  delivered : ∀ k p, D[k]? = some p → received P ((e0 + k) % u16) p
  buffered : ∀ q p, map.find s.ooo_ q = some p → received P q p

/-- A fresh uTP connection with a recording handler. -/
def c2_fresh : utp_state (List call) :=
  utp_state.mk_ recorder { ip := { src := 1, dst := 2, src_port := 3, dst_port := 4 }, connid := 8 }

/-- A uTP data packet with sequence number `q` and payload `p`. -/
def c2_pkt (q : Nat) (p : List Nat) : timeval × utphdr × List Nat :=
  (⟨7, 0⟩, { type_ver := 1, extension := 0, connection_id := 8, seq_nr := q }, p)

/-- Three packets of one direction: 65535 first, then 1 ahead of its turn, then 0. -/
def c2_pkts : List (timeval × utphdr × List Nat) :=
  [c2_pkt 65535 [1], c2_pkt 1 [3], c2_pkt 0 [2]]

/-! ## `main.cpp`: the demultiplexer

`processor::process` is embedded from the point where a packet has passed the
Ethernet, IPv4 and TCP (or UDP and uTP) header checks: `process_tcp` is the TCP branch
from the `syn && ack` test on, `process_utp` the uTP branch from the construction of
the `utp_stream_key` on.  Diagnostics written to `std::cout` are not modelled. -/

/-- The data members of `processor<Handler>`.  The field `destroyed_` is not in the
source: it keeps the handlers of erased connections, oldest first, so that what a
handler received before its connection was erased stays observable (a transcript
stays on disk when its connection is destroyed). -/
structure processor (H : Type) where
  tcp_streams_ : map stream_key (tcp_state H)
  utp_streams_ : map utp_stream_key (utp_state H)
  destroyed_ : List H
  deriving DecidableEq

/-- An iterator obtained from `m.find(k)`: the entry it points to, `none` for `end()`. -/
def map.find_it {K V : Type} [DecidableEq K] (m : map K V) (k : K) : Option (K × V) :=
  match map.find m k with
  | some v => some (k, v)
  | none => none

/-- The member `processor::find_utp_stream`. -/
def processor.find_utp_stream {H : Type} (p : processor H) (s : utp_stream_key) :
    Option (utp_stream_key × utp_state H) × dir_t :=
  match map.find_it p.utp_streams_ s with
  | some it => (some it, dir_t.out)
  | none =>
    match map.find_it p.utp_streams_ (swap_utp s 0) with
    | some it => (some it, dir_t.in_)
    | none =>
      match map.find_it p.utp_streams_ (swap_utp s 1) with
      | some it => (some it, dir_t.in_)
      | none =>
        match map.find_it p.utp_streams_ (swap_utp s (-1)) with
        | some it => (some it, dir_t.in_)
        | none => (none, dir_t.out)

/-- The `fin` / `rst` / `packet` dispatch of the TCP branch of `process` on the
connection `st` found under key `k`, with direction `d` (the same statements are
written out once for `dir_t::out` and once for `dir_t::in` in the source). -/
def tcp_dispatch {H : Type} (hd : Handler H) (p : processor H) (ts : timeval)
    (k : stream_key) (st : tcp_state H) (tcp_header : tcphdr) (pkt : List Nat) (d : dir_t) :
    processor H :=
  if tcp_header.fin then
    let r := st.fin hd ts d
    if r.2 then
      { p with tcp_streams_ := map.erase p.tcp_streams_ k,
               destroyed_ := p.destroyed_ ++ [r.1.handler] }
    else { p with tcp_streams_ := map.replace p.tcp_streams_ k r.1 }
  else if tcp_header.rst then
    let st1 := st.rst hd ts d
    { p with tcp_streams_ := map.erase p.tcp_streams_ k,
             destroyed_ := p.destroyed_ ++ [st1.handler] }
  else
    { p with tcp_streams_ := map.replace p.tcp_streams_ k (st.packet hd ts tcp_header pkt d) }

/-- The TCP branch of `processor::process` for an accepted segment with flow key `s`,
header `tcp_header` and payload `pkt`. -/
def process_tcp {H : Type} (hd : Handler H) (p : processor H) (ts : timeval)
    (s : stream_key) (tcp_header : tcphdr) (pkt : List Nat) : processor H :=
  if tcp_header.syn && tcp_header.ack then
    match map.find p.tcp_streams_ (swap s) with
    | none => p
    | some st =>
      { p with tcp_streams_ := map.replace p.tcp_streams_ (swap s) (st.syn tcp_header dir_t.in_) }
  else if tcp_header.syn then
    match map.find p.tcp_streams_ s with
    | some _ => p
    | none =>
      let m1 := map.emplace p.tcp_streams_ s (tcp_state.mk_ hd s)
      match map.find m1 s with
      | some st => { p with tcp_streams_ := map.replace m1 s (st.syn tcp_header dir_t.out) }
      | none => { p with tcp_streams_ := m1 }
  else
    match map.find p.tcp_streams_ s with
    | some st => tcp_dispatch hd p ts s st tcp_header pkt dir_t.out
    | none =>
      match map.find p.tcp_streams_ (swap s) with
      | some st => tcp_dispatch hd p ts (swap s) st tcp_header pkt dir_t.in_
      | none => p

/-- The uTP branch of `processor::process` for an accepted packet with transport key
`k`, header `utp_header` and payload `pkt` (what follows the extension headers). -/
def process_utp {H : Type} (hd : Handler H) (p : processor H) (ts : timeval)
    (k : stream_key) (utp_header : utphdr) (pkt : List Nat) : processor H :=
  let s : utp_stream_key := { ip := k, connid := utp_header.connection_id % u16 }
  let r := p.find_utp_stream s
  let d := r.2
  if utp_header.get_type = ST_SYN then
    match r.1 with
    | some it =>
      { p with utp_streams_ := map.replace p.utp_streams_ it.1 (it.2.syn utp_header d) }
    | none =>
      let m1 := map.emplace p.utp_streams_ (inc_connid s 1) (utp_state.mk_ hd s)
      match map.find m1 (inc_connid s 1) with
      | some st =>
        { p with utp_streams_ := map.replace m1 (inc_connid s 1) (st.syn utp_header dir_t.out) }
      | none => { p with utp_streams_ := m1 }
  else
    match r.1 with
    | none => p
    | some it =>
      if utp_header.get_type = ST_FIN then
        let f := it.2.fin hd ts d
        if f.2 then
          { p with utp_streams_ := map.erase p.utp_streams_ it.1,
                   destroyed_ := p.destroyed_ ++ [f.1.handler] }
        else { p with utp_streams_ := map.replace p.utp_streams_ it.1 f.1 }
      else if utp_header.get_type = ST_RESET then
        let st1 := it.2.rst hd ts d
        { p with utp_streams_ := map.erase p.utp_streams_ it.1,
                 destroyed_ := p.destroyed_ ++ [st1.handler] }
      else
        { p with utp_streams_ := map.replace p.utp_streams_ it.1
                   (it.2.packet hd ts utp_header pkt d) }

/-! ## Routing, as the specification words it -/

/-- The probes of the uTP lookup for transport key `T` and connection id `C`, in
order, each with the direction it assigns. -/
def utp_probes (T : stream_key) (C : Nat) : List (utp_stream_key × dir_t) :=
  [({ ip := T, connid := C }, dir_t.out),
   ({ ip := swap T, connid := C }, dir_t.in_),
   ({ ip := swap T, connid := (C + 1) % u16 }, dir_t.in_),
   ({ ip := swap T, connid := (C + u16 - 1) % u16 }, dir_t.in_)]

/-- The first probe whose key is in the table, with its entry and its direction. -/
def first_present {K V : Type} [DecidableEq K] (m : map K V) :
    List (K × dir_t) → Option ((K × V) × dir_t)
  | [] => none
  | (k, d) :: t =>
    match map.find m k with
    | some v => some ((k, v), d)
    | none => first_present m t

/-- The connection a TCP segment without SYN and with flow key `K` is routed to: the
one stored under `K`, with direction `out`, else the one stored under `reverse(K)`,
with direction `in`. -/
def tcp_route {H : Type} (p : processor H) (K : stream_key) :
    Option ((stream_key × tcp_state H) × dir_t) :=
  first_present p.tcp_streams_ [(K, dir_t.out), (swap K, dir_t.in_)]

/-- Delivering a TCP segment without SYN to a connection as FIN, RST or data. -/
def tcp_deliver {H : Type} (hd : Handler H) (st : tcp_state H) (ts : timeval)
    (hdr : tcphdr) (pkt : List Nat) (d : dir_t) : tcp_state H :=
  if hdr.fin then (st.fin hd ts d).1
  else if hdr.rst then st.rst hd ts d
  else st.packet hd ts hdr pkt d

/-- A flow key used in the examples. -/
def ex_key : stream_key := { src := 10, dst := 20, src_port := 6881, dst_port := 51413 }

/-- A processor whose uTP table holds one connection, stored under the reverse of
`ex_key` with connection id 0. -/
def c8_proc : processor (List call) :=
  { tcp_streams_ := [],
    utp_streams_ := [({ ip := swap ex_key, connid := 0 },
      utp_state.mk_ recorder { ip := swap ex_key, connid := 65535 })],
    destroyed_ := [] }

/-- An established TCP connection under `ex_key`: SYN with sequence number 99 from the
initiator, SYN+ACK with sequence number 499 from the responder. -/
def c9_conn : tcp_state (List call) :=
  ((tcp_state.mk_ recorder ex_key).syn ⟨99, true, false, false, false⟩ dir_t.out).syn
    ⟨499, true, true, false, false⟩ dir_t.in_

/-- A processor whose TCP table holds `c9_conn` under `ex_key`. -/
def c9_proc : processor (List call) :=
  { tcp_streams_ := [(ex_key, c9_conn)], utp_streams_ := [], destroyed_ := [] }

/-! ## `bittorrent.hpp`: the peer-wire dissector

Conventions of this part.
* A call that ends abnormally yields a `fault`: undefined behaviour of the C++ code
  (`ensure_buffer` asked for a negative number of bytes), an exception
  (`read_u32` / `read_u16` on a short buffer), or a loop that does not finish
  within the iterations granted to it.
* The sizes of spans and vectors are below 2^31, so that `buf.size()` converts to
  `std::uint32_t` and to `int` without change.
* Of the transcript `log_` the state keeps the flag `is_open`; the lines a call
  writes are returned with its result, oldest first.  A line is a direction, an
  optional time stamp and an event; `render_line` gives its text.  Output to a
  stream that is not open is lost.  Creating the directories and opening the file
  is assumed to succeed; the file name is not modelled.
* `parse_bittorrent::data` is a sequence of blocks, one per parser state (or group
  of states).  Each block is embedded as a `block`: its states, the number of bytes
  it waits for, and its statements after the size check, which yield an `outcome`:
  what the block writes to `log_`, the new value of `state_[d]`, whether it
  opens `log_` first and whether it disables the dissector and returns.
* The bencode decoder of libtorrent is a parameter (`bdecode_fn`): the dissector
  only uses the error message, the printed entry and the `"m"` dictionary of its
  result.
-/

/-- Number of values of a `std::uint64_t`. -/
def u64 : Nat := 18446744073709551616

/-- Abnormal ends of a call. -/
inductive fault where
  | undefined_behaviour
  | exception
  | diverges
  deriving DecidableEq, Repr

/-- The enumeration `state_t`. -/
inductive state_t where
  | protocol
  | reserved
  | info_hash
  | peer_id
  | length
  | msg
  | have_
  | dht_port
  | allowed_fast
  | request
  | piece
  | cancel
  | suggest
  | reject
  | bitfield
  | extension
  | extension_handshake
  | skip
  deriving DecidableEq, Repr

/-- The struct `bittorrent_side_state`. -/
structure bittorrent_side_state where
  skip_ : Nat := 0
  offset_ : Nat := 0
  state_ : state_t := state_t.protocol
  buffer_ : List Nat := []
  reserved_ : List Nat := []
  extensions_ : map Int String := []
  deriving DecidableEq, Repr

/-- Conversion of a `std::uint32_t` to `int`. -/
def int_of_u32 (n : Nat) : Int :=
  if n < 2147483648 then (n : Int) else ((n % 4294967296 : Nat) : Int) - 4294967296

/-- Conversion of a 64 bit integer to `int`. -/
def int_of_i64 (v : Int) : Int :=
  (v + 2147483648) % 4294967296 - 2147483648

/-- The member `bittorrent_side_state::ensure_buffer`: the new state and the rest of
`buf`.  With `bytes < 0` the range handed to `buffer_.insert` is not valid. -/
def ensure_buffer (s : bittorrent_side_state) (buf : List Nat) (bytes : Int) :
    Except fault (bittorrent_side_state × List Nat) :=
  if bytes < 0 then Except.error fault.undefined_behaviour
  else if bytes.toNat ≤ s.buffer_.length then Except.ok (s, buf)
  else
    let overlap := min buf.length (bytes.toNat - s.buffer_.length)
    Except.ok ({ s with buffer_ := s.buffer_ ++ buf.take overlap }, buf.drop overlap)

/-- The function `msg_type_name`. -/
def msg_type_name (msg : Int) : String :=
  let message_name : List String :=
    ["choke", "unchoke", "interested", "not_interested", "have", "bitfield", "request",
     "piece", "cancel", "dht_port", "??", "??", "??", "suggest_piece", "have_all", "have_none",
     "reject_request", "allowed_fast", "??", "??", "extension-msg"]
  if 0 ≤ msg ∧ msg.toNat < message_name.length then message_name.getD msg.toNat ""
  else "?? (" ++ toString msg ++ ")"

/-- The function `read_u32`. -/
def read_u32 (buf : List Nat) : Except fault Nat :=
  if buf.length < 4 then Except.error fault.exception
  else Except.ok ((buf.getD 0 0 <<< 24) ||| (buf.getD 1 0 <<< 16) ||| (buf.getD 2 0 <<< 8)
    ||| buf.getD 3 0)

/-- The function `read_u16`. -/
def read_u16 (buf : List Nat) : Except fault Nat :=
  if buf.length < 2 then Except.error fault.exception
  else Except.ok (((buf.getD 0 0 <<< 8) ||| buf.getD 1 0) % u16)

/-- The function `opposite`. -/
def opposite (d : dir_t) : dir_t :=
  if d = dir_t.in_ then dir_t.out else dir_t.in_

/-- The function `printable`. -/
def printable (bytes : List Nat) : String :=
  String.mk (bytes.map (fun c => if 32 ≤ c ∧ c < 127 then Char.ofNat c else '.'))

/-- The events a transcript line can carry. -/
inductive log_event where
  | socket (e : socket_event_t)
  | unexpected_bytes (skip : Nat)
  | ack
  | handshake
  | reserved (bytes : List Nat)
  | info_hash (bytes : List Nat)
  | peer_id (bytes : List Nat)
  | too_large (length : Nat)
  | keep_alive
  | choke
  | unchoke
  | interested
  | not_interested
  | have_all
  | have_none
  | msg (id : Nat)
  | have_ (piece : Nat)
  | suggest (piece : Nat)
  | allowed_fast (piece : Nat)
  | extension_unknown (id : Nat)
  | extension_msg (name : String)
  | extension_handshake_error (message : String)
  | extension_handshake (entry : String)
  | request (piece start length : Nat)
  | cancel (piece start length : Nat)
  | reject (piece start length : Nat)
  | piece (piece start : Nat)
  | dht_port (port : Nat)
  | bitfield (bytes : List Nat)
  | payload (overlap left : Nat)
  deriving DecidableEq, Repr

/-- One line of the transcript: `log_ << d << ' ' << ts << ...`; `check_zero` writes
its line without a time stamp. -/
structure line where
  d : dir_t
  ts : Option timeval
  ev : log_event
  deriving DecidableEq, Repr

/-- What a statement writes to `log_` after the direction: `stamped ev` stands for
`log_ << d << ' ' << ts << ev`, `bare ev` for `log_ << d << ev`. -/
inductive entry where
  | stamped (ev : log_event)
  | bare (ev : log_event)
  deriving DecidableEq, Repr

/-- The line an entry makes in a call with time stamp `ts` and direction `d`. -/
def entry.line (ts : timeval) (d : dir_t) : entry → line
  | entry.stamped ev => ⟨d, some ts, ev⟩
  | entry.bare ev => ⟨d, none, ev⟩

/-- The state of the `std::ofstream log_`. -/
structure ofstream where
  is_open : Bool := false
  deriving DecidableEq, Repr

/-- What the dissector uses of a decoded extension handshake: `print_entry(e)` and the
entries of `e.dict_find_dict("m")` in order, each value being `some v` when it is an
integer (`int_value()`) and `none` otherwise. -/
structure bdecode_result where
  printed : String
  m : Option (List (String × Option Int))

/-- The decoder `bdecode` with its error message (`ec.message()`) on failure. -/
abbrev bdecode_fn := List Nat → Except String bdecode_result

/-- The data members of `parse_bittorrent`. -/
structure parse_bittorrent where
  key_ : stream_key
  log_ : ofstream := {}
  state_ : dir_array bittorrent_side_state := { in_ := {}, out := {} }
  disabled_ : Bool := false
  deriving DecidableEq, Repr

/-- The constructor `parse_bittorrent(stream_key const& key)`. -/
def parse_bittorrent.mk_ (key : stream_key) : parse_bittorrent := { key_ := key }

/-- Assignment to `state_[d]`. -/
def parse_bittorrent.set (P : parse_bittorrent) (d : dir_t) (s : bittorrent_side_state) :
    parse_bittorrent :=
  { P with state_ := P.state_.set d s }

/-- The member `parse_bittorrent::event`: the state and the line written. -/
def parse_bittorrent.event (P : parse_bittorrent) (ts : timeval) (e : socket_event_t)
    (d : dir_t) : parse_bittorrent × List line :=
  (P, if P.log_.is_open then [⟨d, some ts, log_event.socket e⟩] else [])

/-- The bytes `"\x13" "BitTorrent protocol"`. -/
def handshake_bytes : List Nat :=
  [19, 66, 105, 116, 84, 111, 114, 114, 101, 110, 116, 32, 112, 114, 111, 116, 111, 99, 111, 108]

/-- What the statements of a block do: `lines` are written to `log_`, after `log_`
was opened when `opens` is set; `s` is the new value of `state_[d]`; with `stop` set
the block ends with `disabled_ = true; return;`. -/
structure outcome where
  stop : Bool := false
  opens : Bool := false
  lines : List entry := []
  s : bittorrent_side_state

/-- The member `parse_bittorrent::check_zero` on the state `s`: what it writes and
the new state. -/
def check_zero (s : bittorrent_side_state) : List entry × bittorrent_side_state :=
  if s.skip_ = 0 then ([], { s with state_ := state_t.length })
  else ([entry.bare (log_event.unexpected_bytes s.skip_)], { s with state_ := state_t.skip })

/-- One block `if (s.state_ == ...) { buf = s.ensure_buffer(buf, n);
if (s.buffer_.size() < n) return; ... }` of `parse_bittorrent::data`: the states it is
for, the number `n` of bytes it waits for (a constant, or `s.skip_`: `need` gets
`s.skip_`) and the statements after the size check.  The statements see
`log_.is_open()`, `state_[d]` and `state_[opposite(d)]`. -/
structure block where
  guard : state_t → Bool
  need : Nat → Nat
  body : Bool → bittorrent_side_state → bittorrent_side_state → Except fault outcome

/-- The effect of the statements of a block on the dissector state. -/
def parse_bittorrent.apply (P : parse_bittorrent) (d : dir_t) (o : outcome) : parse_bittorrent :=
  { P with
    log_ := { is_open := P.log_.is_open || o.opens },
    state_ := P.state_.set d o.s,
    disabled_ := P.disabled_ || o.stop }

/-- The lines the statements of a block add to the transcript. -/
def parse_bittorrent.written (P : parse_bittorrent) (ts : timeval) (d : dir_t) (o : outcome) :
    List line :=
  if P.log_.is_open || o.opens then o.lines.map (entry.line ts d) else []

/-- How a block of `data` ends: `ret` is a `return`, `next` falls through with the
rest of the slice; `out` are the lines written. -/
inductive flow where
  | ret (P : parse_bittorrent) (out : List line)
  | next (P : parse_bittorrent) (buf : List Nat) (out : List line)

/-- The flow `f` after the lines `o` were written. -/
def flow.after (o : List line) : flow → flow
  | flow.ret P out => flow.ret P (o ++ out)
  | flow.next P buf out => flow.next P buf (o ++ out)

/-- Execution of one block on the dissector state and the slice. -/
def run_block (b : block) (ts : timeval) (d : dir_t) (P : parse_bittorrent) (buf : List Nat) :
    Except fault flow :=
  if b.guard (P.state_.get d).state_ then
    match ensure_buffer (P.state_.get d) buf (int_of_u32 (b.need (P.state_.get d).skip_)) with
    | Except.error e => Except.error e
    | Except.ok (s, rest) =>
      if s.buffer_.length < b.need (P.state_.get d).skip_ then
        Except.ok (flow.ret (P.set d s) [])
      else
        match b.body P.log_.is_open s (P.state_.get (opposite d)) with
        | Except.error e => Except.error e
        | Except.ok o =>
          if o.stop then Except.ok (flow.ret (P.apply d o) (P.written ts d o))
          else Except.ok (flow.next (P.apply d o) rest (P.written ts d o))
  else Except.ok (flow.next P buf [])

/-- Execution of consecutive blocks. -/
def run_blocks (ts : timeval) (d : dir_t) : List block → parse_bittorrent → List Nat →
    Except fault flow
  | [], P, buf => Except.ok (flow.next P buf [])
  | b :: t, P, buf =>
    match run_block b ts d P buf with
    | Except.error e => Except.error e
    | Except.ok (flow.ret Q out) => Except.ok (flow.ret Q out)
    | Except.ok (flow.next Q rest out) => (run_blocks ts d t Q rest).map (flow.after out)

/-- The block for state `protocol`. -/
def protocol_block : block where
  guard := fun st => st = state_t.protocol
  need := fun _ => 20
  body := fun is_open s _ =>
    if s.buffer_.take 20 ≠ handshake_bytes then Except.ok { stop := true, s := s }
    else
      Except.ok
        { lines := if is_open then [entry.stamped (log_event.handshake)] else [],
          s := { s with buffer_ := [], offset_ := (s.offset_ + 20) % u64,
                        state_ := state_t.reserved } }

/-- The block for state `reserved`. -/
def reserved_block : block where
  guard := fun st => st = state_t.reserved
  need := fun _ => 8
  body := fun is_open s _ =>
    Except.ok
      { lines := if is_open then [entry.stamped (log_event.reserved s.buffer_)] else [],
        s := { s with reserved_ := if is_open then s.reserved_ else s.buffer_,
                      buffer_ := [], offset_ := (s.offset_ + 8) % u64,
                      state_ := state_t.info_hash } }

/-- The block for state `info_hash`; it opens the transcript when it is not open. -/
def info_hash_block : block where
  guard := fun st => st = state_t.info_hash
  need := fun _ => 20
  body := fun is_open s _ =>
    Except.ok
      { opens := !is_open,
        lines :=
          (if !is_open then
            [entry.stamped (log_event.handshake), entry.stamped (log_event.reserved s.reserved_)]
          else []) ++ [entry.stamped (log_event.info_hash s.buffer_)],
        s := { s with buffer_ := [], offset_ := (s.offset_ + 20) % u64,
                      state_ := state_t.peer_id } }

/-- The block for state `peer_id`. -/
def peer_id_block : block where
  guard := fun st => st = state_t.peer_id
  need := fun _ => 20
  body := fun _ s _ =>
    Except.ok
      { lines := [entry.stamped (log_event.peer_id s.buffer_)],
        s := { s with buffer_ := [], offset_ := (s.offset_ + 20) % u64,
                      state_ := state_t.length } }

/-- The block for state `length`. -/
def length_block : block where
  guard := fun st => st = state_t.length
  need := fun _ => 4
  body := fun _ s _ =>
    match read_u32 s.buffer_ with
    | Except.error e => Except.error e
    | Except.ok length =>
      let too_large : List entry :=
        if length > 1048576 then [entry.stamped (log_event.too_large length)] else []
      let s1 := { s with offset_ := (s.offset_ + 4) % u64, buffer_ := [] }
      if length = 0 then
        Except.ok { lines := too_large ++ [entry.stamped (log_event.keep_alive)], s := s1 }
      else
        Except.ok { lines := too_large, s := { s1 with skip_ := length, state_ := state_t.msg } }

/-- The `switch (msg)` of the block for state `msg`, on the state `s` after the message
id was consumed: what it writes and the new state. -/
def msg_switch (s : bittorrent_side_state) (msg : Nat) : List entry × bittorrent_side_state :=
  match msg with
  | 0 => ([entry.stamped (log_event.choke)] ++ (check_zero s).1, (check_zero s).2)
  | 1 => ([entry.stamped (log_event.unchoke)] ++ (check_zero s).1, (check_zero s).2)
  | 2 => ([entry.stamped (log_event.interested)] ++ (check_zero s).1, (check_zero s).2)
  | 3 => ([entry.stamped (log_event.not_interested)] ++ (check_zero s).1, (check_zero s).2)
  | 4 => ([], { s with state_ := state_t.have_ })
  | 5 => ([], { s with state_ := state_t.bitfield })
  | 6 => ([], { s with state_ := state_t.request })
  | 7 => ([], { s with state_ := state_t.piece })
  | 8 => ([], { s with state_ := state_t.cancel })
  | 9 => ([], { s with state_ := state_t.dht_port })
  | 13 => ([], { s with state_ := state_t.suggest })
  | 14 => ([entry.stamped (log_event.have_all)] ++ (check_zero s).1, (check_zero s).2)
  | 15 => ([entry.stamped (log_event.have_none)] ++ (check_zero s).1, (check_zero s).2)
  | 16 => ([], { s with state_ := state_t.reject })
  | 17 => ([], { s with state_ := state_t.allowed_fast })
  | 20 => ([], { s with state_ := state_t.extension })
  | _ => ([entry.stamped (log_event.msg msg)], { s with state_ := state_t.skip })

/-- The block for state `msg`. -/
def msg_block : block where
  guard := fun st => st = state_t.msg
  need := fun _ => 1
  body := fun _ s _ =>
    let msg := s.buffer_.getD 0 0
    let s1 := { s with offset_ := (s.offset_ + 1) % u64, buffer_ := [],
                       skip_ := (s.skip_ + u32 - 1) % u32 }
    Except.ok { lines := (msg_switch s1 msg).1, s := (msg_switch s1 msg).2 }

/-- The block for the states `have`, `allowed_fast` and `suggest`. -/
def have_block : block where
  guard := fun st => st = state_t.have_ ∨ st = state_t.allowed_fast ∨ st = state_t.suggest
  need := fun _ => 4
  body := fun _ s _ =>
    match read_u32 s.buffer_ with
    | Except.error e => Except.error e
    | Except.ok piece =>
      let l : List entry :=
        match s.state_ with
        | state_t.have_ => [entry.stamped (log_event.have_ piece)]
        | state_t.suggest => [entry.stamped (log_event.suggest piece)]
        | state_t.allowed_fast => [entry.stamped (log_event.allowed_fast piece)]
        | _ => []
      let s1 := { s with offset_ := (s.offset_ + 4) % u64, buffer_ := [],
                         skip_ := (s.skip_ + u32 - 4) % u32 }
      Except.ok { lines := l ++ (check_zero s1).1, s := (check_zero s1).2 }

/-- The block for state `extension`; `other` is `state_[opposite(d)]`. -/
def extension_block : block where
  guard := fun st => st = state_t.extension
  need := fun _ => 1
  body := fun _ s other =>
    let extension_msg := s.buffer_.getD 0 0
    let s1 := { s with offset_ := (s.offset_ + 1) % u64, buffer_ := [],
                       skip_ := (s.skip_ + u32 - 1) % u32 }
    if extension_msg = 0 then
      Except.ok { s := { s1 with state_ := state_t.extension_handshake } }
    else
      let l : List entry :=
        match map.find other.extensions_ (int_of_u32 extension_msg) with
        | none => [entry.stamped (log_event.extension_unknown extension_msg)]
        | some name => [entry.stamped (log_event.extension_msg name)]
      Except.ok { lines := l, s := { s1 with state_ := state_t.skip } }

/-- The loop over the `"m"` dictionary of the extension handshake:
`s.extensions_[val.int_value()] = std::string(name)` for every integer value. -/
def learn_extensions : map Int String → List (String × Option Int) → map Int String
  | ext, [] => ext
  | ext, (name, some v) :: t => learn_extensions (map.assign ext (int_of_i64 v) name) t
  | ext, (_, none) :: t => learn_extensions ext t

/-- The block for state `extension_handshake`. -/
def extension_handshake_block (bdecode : bdecode_fn) : block where
  guard := fun st => st = state_t.extension_handshake
  need := fun skip => skip
  body := fun _ s _ =>
    let r : List entry × map Int String :=
      match bdecode s.buffer_ with
      | Except.error message =>
        ([entry.stamped (log_event.extension_handshake_error message)], s.extensions_)
      | Except.ok e =>
        ([entry.stamped (log_event.extension_handshake e.printed)],
          match e.m with
          | some m => learn_extensions s.extensions_ m
          | none => s.extensions_)
    Except.ok
      { lines := r.1,
        s := { s with extensions_ := r.2, offset_ := (s.offset_ + s.skip_) % u64,
                      buffer_ := [], skip_ := 0, state_ := state_t.length } }

/-- The block for the states `request`, `reject` and `cancel`. -/
def request_block : block where
  guard := fun st => st = state_t.request ∨ st = state_t.reject ∨ st = state_t.cancel
  need := fun _ => 12
  body := fun _ s _ =>
    match read_u32 s.buffer_, read_u32 (s.buffer_.drop 4), read_u32 (s.buffer_.drop 8) with
    | Except.ok piece, Except.ok start, Except.ok length =>
      let l : List entry :=
        match s.state_ with
        | state_t.request => [entry.stamped (log_event.request piece start length)]
        | state_t.cancel => [entry.stamped (log_event.cancel piece start length)]
        | state_t.reject => [entry.stamped (log_event.reject piece start length)]
        | _ => []
      let s1 := { s with offset_ := (s.offset_ + 12) % u64, buffer_ := [],
                         skip_ := (s.skip_ + u32 - 12) % u32 }
      Except.ok { lines := l ++ (check_zero s1).1, s := (check_zero s1).2 }
    | _, _, _ => Except.error fault.exception

/-- The block for state `piece`. -/
def piece_block : block where
  guard := fun st => st = state_t.piece
  need := fun _ => 8
  body := fun _ s _ =>
    match read_u32 s.buffer_, read_u32 (s.buffer_.drop 4) with
    | Except.ok piece, Except.ok start =>
      Except.ok
        { lines := [entry.stamped (log_event.piece piece start)],
          s := { s with offset_ := (s.offset_ + 8) % u64, buffer_ := [],
                        skip_ := (s.skip_ + u32 - 8) % u32, state_ := state_t.skip } }
    | _, _ => Except.error fault.exception

/-- The block for state `dht_port`. -/
def dht_port_block : block where
  guard := fun st => st = state_t.dht_port
  need := fun _ => 2
  body := fun _ s _ =>
    match read_u16 s.buffer_ with
    | Except.error e => Except.error e
    | Except.ok port =>
      let s1 := { s with offset_ := (s.offset_ + 2) % u64, buffer_ := [],
                         skip_ := (s.skip_ + u32 - 2) % u32 }
      Except.ok
        { lines := [entry.stamped (log_event.dht_port port)] ++ (check_zero s1).1,
          s := (check_zero s1).2 }

/-- The block for state `bitfield`. -/
def bitfield_block : block where
  guard := fun st => st = state_t.bitfield
  need := fun skip => skip
  body := fun _ s _ =>
    Except.ok
      { lines := [entry.stamped (log_event.bitfield s.buffer_)],
        s := { s with offset_ := (s.offset_ + s.skip_) % u64, buffer_ := [], skip_ := 0,
                      state_ := state_t.length } }

/-- The statements for state `skip` at the end of the message loop, on `state_[d]` and
the slice: what is written, the new state and the rest of the slice. -/
def skip_step (s : bittorrent_side_state) (buf : List Nat) :
    List entry × bittorrent_side_state × List Nat :=
  let overlap := min buf.length s.skip_
  let s1 := { s with skip_ := s.skip_ - overlap, offset_ := (s.offset_ + overlap) % u64 }
  ([entry.stamped (log_event.payload overlap s1.skip_)],
    if s1.skip_ = 0 then { s1 with state_ := state_t.length } else s1,
    buf.drop overlap)

/-- The `if (s.state_ == state_t::skip)` block at the end of the message loop: the new
state, the rest of the slice and the lines written. -/
def skip_block (ts : timeval) (d : dir_t) (P : parse_bittorrent) (buf : List Nat) :
    parse_bittorrent × List Nat × List line :=
  if (P.state_.get d).state_ = state_t.skip then
    (P.apply d { lines := (skip_step (P.state_.get d) buf).1,
                 s := (skip_step (P.state_.get d) buf).2.1 },
      (skip_step (P.state_.get d) buf).2.2,
      P.written ts d { lines := (skip_step (P.state_.get d) buf).1,
                       s := (skip_step (P.state_.get d) buf).2.1 })
  else (P, buf, [])

/-- The blocks of `data` before the message loop, in source order. -/
def handshake_blocks : List block :=
  [protocol_block, reserved_block, info_hash_block, peer_id_block]

/-- The blocks of one iteration of the message loop up to `if (buf.size() == 0) break;`,
in source order. -/
def message_blocks (bdecode : bdecode_fn) : List block :=
  [length_block, msg_block, have_block, extension_block, extension_handshake_block bdecode,
   request_block, piece_block, dht_port_block, bitfield_block]

/-- The result of a call: the new state and the lines written. -/
abbrev result := Except fault (parse_bittorrent × List line)

/-- The result `r` after the lines `o` were written. -/
def result.after (o : List line) (r : result) : result :=
  r.map (fun x => (x.1, o ++ x.2))

/-- The loop `while (buf.size() > 0)` of `data`; `fuel` bounds the number of
iterations. -/
def message_loop (bdecode : bdecode_fn) (ts : timeval) (d : dir_t) :
    Nat → parse_bittorrent → List Nat → result
  | _, P, [] => Except.ok (P, [])
  | 0, _, _ :: _ => Except.error fault.diverges
  | fuel + 1, P, a :: t =>
    match run_blocks ts d (message_blocks bdecode) P (a :: t) with
    | Except.error e => Except.error e
    | Except.ok (flow.ret Q out) => Except.ok (Q, out)
    | Except.ok (flow.next Q [] out) => Except.ok (Q, out)
    | Except.ok (flow.next Q (b :: rest) out) =>
      result.after (out ++ (skip_block ts d Q (b :: rest)).2.2)
        (message_loop bdecode ts d fuel (skip_block ts d Q (b :: rest)).1
          (skip_block ts d Q (b :: rest)).2.1)

/-- The member `parse_bittorrent::data`: the new state and the lines written.  Three
iterations of the message loop per byte of the slice, and three more, are granted. -/
def parse_bittorrent.data (bdecode : bdecode_fn) (P : parse_bittorrent) (ts : timeval)
    (buf : List Nat) (d : dir_t) : result :=
  if P.disabled_ then Except.ok (P, [])
  else if buf.isEmpty then
    Except.ok (P, if P.log_.is_open then [⟨d, some ts, log_event.ack⟩] else [])
  else
    match run_blocks ts d handshake_blocks P buf with
    | Except.error e => Except.error e
    | Except.ok (flow.ret Q out) => Except.ok (Q, out)
    | Except.ok (flow.next Q rest out) =>
      result.after out (message_loop bdecode ts d (3 * rest.length + 3) Q rest)

/-- The dissector as the `Handler` of a reassembler: its state together with the
transcript written so far.  A call on a dissector that has ended abnormally does
nothing. -/
def bittorrent_handler (bdecode : bdecode_fn) : Handler result where
  init := fun k => Except.ok (parse_bittorrent.mk_ k, [])
  data := fun h ts buf d => h.bind (fun x => result.after x.2 (x.1.data bdecode ts buf d))
  event := fun h ts e d => h.map (fun x => ((x.1.event ts e d).1, x.2 ++ (x.1.event ts e d).2))

/-- Calling `data` for direction `d` on the deliveries `chunks` (time stamp and bytes),
in order, starting from state `P`: the final state and all lines written. -/
def feed_data (bdecode : bdecode_fn) (d : dir_t) (P : parse_bittorrent) :
    List (timeval × List Nat) → result
  | [] => Except.ok (P, [])
  | c :: t =>
    match P.data bdecode c.1 c.2 d with
    | Except.error e => Except.error e
    | Except.ok (Q, out) => result.after out (feed_data bdecode d Q t)

/-! ## The text of the transcript -/

/-- The `operator<<` for `dir_t`. -/
def render_dir : dir_t → String
  | dir_t.in_ => "\x1b[34m<<"
  | dir_t.out => "\x1b[33m>>"

/-- The `operator<<` for `socket_event_t`. -/
def render_socket_event : socket_event_t → String
  | socket_event_t.reset => "RESET"
  | socket_event_t.fin => "FIN"
  | socket_event_t.seqnr_mismatch => "(transport layer: mismatching sequence numbers)"

/-- Output of a number with `std::setw(w) << std::setfill('0')` in the given base. -/
def pad_number (base w n : Nat) : String :=
  String.mk (List.replicate (w - (Nat.toDigits base n).length) '0' ++ Nat.toDigits base n)

/-- The `operator<<` for `timeval`. -/
def render_ts (ts : timeval) : String :=
  toString ts.tv_sec ++ "." ++ pad_number 10 3 (ts.tv_usec / 1000)

/-- The loop `for (auto const c : bytes) log_ << std::setw(2) << std::setfill('0') << int(c)`
under `std::hex`. -/
def hex_bytes (bytes : List Nat) : String :=
  String.join (bytes.map (pad_number 16 2))

/-- Output of `std::bitset<8>(c)` for every byte. -/
def bit_string (bytes : List Nat) : String :=
  String.join (bytes.map (fun c => pad_number 2 8 (c % 256)))

/-- The text a line carries after its direction and time stamp. -/
def render_event : log_event → String
  | log_event.socket e => " " ++ render_socket_event e
  | log_event.unexpected_bytes n => " ERROR: unexpected bytes after message: " ++ toString n
  | log_event.ack => " ACK"
  | log_event.handshake => " HANDSHAKE"
  | log_event.reserved b => " RESERVED " ++ hex_bytes b
  | log_event.info_hash b => " INFO-HASH " ++ hex_bytes b
  | log_event.peer_id b => " PEER-ID " ++ hex_bytes b ++ " [" ++ printable b ++ "]"
  | log_event.too_large n =>
    " ERROR: message too large! " ++ toString n ++ " (" ++ String.mk (Nat.toDigits 16 n) ++ ")"
  | log_event.keep_alive => " KEEP-ALIVE"
  | log_event.choke => " CHOKE"
  | log_event.unchoke => " UNCHOKE"
  | log_event.interested => " INTERESTED"
  | log_event.not_interested => " NOT-INTERESTED"
  | log_event.have_all => " HAVE-ALL"
  | log_event.have_none => " HAVE-NONE"
  | log_event.msg id => " msg: " ++ msg_type_name id
  | log_event.have_ p => " HAVE " ++ toString p
  | log_event.suggest p => " SUGGEST " ++ toString p
  | log_event.allowed_fast p => " ALLOWED-FAST " ++ toString p
  | log_event.extension_unknown n => " EXTENSION-MSG: ?? (" ++ toString n ++ ")"
  | log_event.extension_msg name => " EXTENSION-MSG: " ++ name
  | log_event.extension_handshake_error m => " EXTENSION-HANDSHAKE " ++ m
  | log_event.extension_handshake e => " EXTENSION-HANDSHAKE " ++ e
  | log_event.request p s l =>
    " REQUEST " ++ toString p ++ " " ++ toString s ++ " " ++ toString l
  | log_event.cancel p s l =>
    " CANCEL " ++ toString p ++ " " ++ toString s ++ " " ++ toString l
  | log_event.reject p s l =>
    " REJECT " ++ toString p ++ " " ++ toString s ++ " " ++ toString l
  | log_event.piece p s => " PIECE " ++ toString p ++ " " ++ toString s
  | log_event.dht_port p => " DHT-PORT " ++ toString p
  | log_event.bitfield b => " BITFIELD " ++ bit_string b
  | log_event.payload o l => "   - payload: " ++ toString o ++ " (left: " ++ toString l ++ ")"

/-- The text of a transcript line. -/
def render_line (l : line) : String :=
  render_dir l.d
    ++ (match l.ts with
        | some ts => " " ++ render_ts ts
        | none => "")
    ++ render_event l.ev ++ "\n"

/-- The `- payload:` progress lines of the `skip` state. -/
def line.is_progress (l : line) : Bool :=
  match l.ev with
  | log_event.payload _ _ => true
  | _ => false

/-! ## Chunking of the slice -/

/-- What a run of blocks `run` does on the slice `x ++ y`, from what it does on `x`:
an abnormal end stays; falling through with rest `x1` becomes falling through with
rest `x1 ++ y`; a `return` stays when the dissector was disabled, and otherwise it
was a block, with guard in `G`, waiting for more bytes: the run on `x ++ y` then does
what the run on `y` does from the state reached. -/
structure chunk_rel (run : parse_bittorrent → List Nat → Except fault flow) (d : dir_t)
    (G : state_t → Prop) (P : parse_bittorrent) (x y : List Nat) : Prop where
  err : ∀ e, run P x = Except.error e → run P (x ++ y) = Except.error e
  next : ∀ Q x1 out, run P x = Except.ok (flow.next Q x1 out) →
    run P (x ++ y) = Except.ok (flow.next Q (x1 ++ y) out)
  ret : ∀ Q out, run P x = Except.ok (flow.ret Q out) →
    (Q.disabled_ = true ∧ run P (x ++ y) = Except.ok (flow.ret Q out))
    ∨ (G (Q.state_.get d).state_ ∧ Q.disabled_ = P.disabled_
        ∧ run P (x ++ y) = (run Q y).map (flow.after out))

/-- No two blocks of the list are for the same state. -/
def disjoint_guards (bs : List block) : Prop :=
  bs.Pairwise (fun a b => ∀ st, ¬ (a.guard st = true ∧ b.guard st = true))

/-! ## The order of the blocks -/

/-- The position, in source order, of the block that handles a state: the four blocks
before the message loop, the nine blocks of the loop, and last the `skip` block. -/
def rank : state_t → Nat
  | state_t.protocol => 0
  | state_t.reserved => 1
  | state_t.info_hash => 2
  | state_t.peer_id => 3
  | state_t.length => 4
  | state_t.msg => 5
  | state_t.have_ => 6
  | state_t.allowed_fast => 6
  | state_t.suggest => 6
  | state_t.extension => 7
  | state_t.extension_handshake => 8
  | state_t.request => 9
  | state_t.reject => 9
  | state_t.cancel => 9
  | state_t.piece => 10
  | state_t.dht_port => 11
  | state_t.bitfield => 12
  | state_t.skip => 13

/-- What the proofs use of the block at position `r`: it is for the states of rank
`r`; when its statements fall through they leave `buffer_` empty and a state that
is `length` or is handled further down; blocks of the message loop do not disable
the dissector; the statements do not loop; the `length` block waits for at least
one byte. -/
structure block_ok (b : block) (r : Nat) : Prop where
  guard_iff : ∀ st, b.guard st = true ↔ rank st = r
  fwd : ∀ io s other o, b.guard s.state_ = true → b.body io s other = Except.ok o →
    o.stop = false → o.s.buffer_ = [] ∧ (o.s.state_ = state_t.length ∨ r < rank o.s.state_)
  nostop : 4 ≤ r → ∀ io s other o, b.body io s other = Except.ok o → o.stop = false
  no_div : ∀ io s other, b.body io s other ≠ Except.error fault.diverges
  need_length : r = 4 → ∀ k, 0 < b.need k

/-- The blocks of the list are at the positions `r`, `r + 1`, ... -/
def ranked : List block → Nat → Prop
  | [], _ => True
  | b :: t, r => block_ok b r ∧ ranked t (r + 1)

/-- The number of iterations of the message loop that can pass from a state without
a byte of the slice being consumed. -/
def idle (s : bittorrent_side_state) : Nat :=
  if s.state_ = state_t.skip then 2
  else if s.state_ = state_t.length ∧ s.buffer_ = [] then 0
  else 1

/-- The side state made progress possible without a byte being consumed: it is
neither skipping nor waiting for the first byte of a length prefix. -/
def nonidle (s : bittorrent_side_state) : Prop :=
  s.state_ ≠ state_t.skip ∧ ¬ (s.state_ = state_t.length ∧ s.buffer_ = [])

/-- The dissector state a flow ends in. -/
def flow.state : flow → parse_bittorrent
  | flow.ret P _ => P
  | flow.next P _ _ => P

/-- The message lines of a transcript: all lines but the `- payload:` progress lines. -/
def message_lines (out : List line) : List line :=
  out.filter (fun l => !l.is_progress)

/-- A result with the progress lines left out of its transcript. -/
def result.messages (r : result) : result :=
  r.map (fun x => (x.1, message_lines x.2))

/-- The line `l` as a call with time stamp `ts` writes it. -/
def line.restamp (ts : timeval) (l : line) : line :=
  { l with ts := l.ts.map (fun _ => ts) }

/-- A result with its transcript as a call with time stamp `ts` writes it. -/
def result.restamp (ts : timeval) (r : result) : result :=
  r.map (fun x => (x.1, x.2.map (line.restamp ts)))

/-- The result `r` followed by the call `k` on the state `r` ends in. -/
def result.and_then (r : result) (k : parse_bittorrent → result) : result :=
  match r with
  | Except.error e => Except.error e
  | Except.ok x => result.after x.2 (k x.1)

/-! ## Example deliveries for the dissector -/

/-- The bytes `d1:md11:ut_metadatai3eee`, the bencoding of `{"m": {"ut_metadata": 3}}`. -/
def ex_payload : List Nat :=
  [100, 49, 58, 109, 100, 49, 49, 58, 117, 116, 95, 109, 101, 116, 97, 100, 97, 116, 97,
   105, 51, 101, 101, 101]

/-- A decoder for the examples: it decodes `ex_payload` and nothing else. -/
def ex_bdecode : bdecode_fn :=
  fun b =>
    if b = ex_payload then
      Except.ok { printed := "m: ut_metadata: 3", m := some [("ut_metadata", some 3)] }
    else Except.error "unexpected end of file in bencoded string"

/-- A time stamp for the examples. -/
def ex_ts : timeval := { tv_sec := 1, tv_usec := 500 }

/-- A fresh dissector. -/
def c4_state : parse_bittorrent := parse_bittorrent.mk_ ex_key

/-- The first 25 bytes of a handshake. -/
def c4_x : List Nat := handshake_bytes ++ [0, 0, 0, 0, 0]

/-- The other 43 bytes of the handshake, then an `unchoke` message, then the length
prefix and two of the five bytes of an unknown message 10. -/
def c4_y : List Nat :=
  [0, 0, 0] ++ List.replicate 20 171 ++ List.replicate 20 65 ++ [0, 0, 0, 1, 1]
    ++ [0, 0, 0, 5, 10, 7]

/-- Twenty bytes that are not the protocol string: its first byte is 18. -/
def c7_buf : List Nat :=
  [18, 66, 105, 116, 84, 111, 114, 114, 101, 110, 116, 32, 112, 114, 111, 116, 111, 99, 111, 108]

/-- A handshake: the protocol string, eight reserved zero bytes, an info-hash and a
peer id. -/
def c6_handshake : List Nat :=
  handshake_bytes ++ List.replicate 8 0 ++ List.replicate 20 171 ++ List.replicate 20 65

/-- Both directions send their handshake; `out` sends an extension handshake with
`m = {ut_metadata: 3}`; `in` sends the length prefix 7 and the message id 20 of an
extension message. -/
def c6_run : result :=
  (((c4_state.data ex_bdecode ex_ts c6_handshake dir_t.out).and_then
      (fun Q => Q.data ex_bdecode ex_ts c6_handshake dir_t.in_)).and_then
      (fun Q => Q.data ex_bdecode ex_ts ([0, 0, 0, 26, 20, 0] ++ ex_payload) dir_t.out)).and_then
    (fun Q => Q.data ex_bdecode ex_ts [0, 0, 0, 7, 20] dir_t.in_)

/-- The state `c6_run` ends in. -/
def c6_state : parse_bittorrent :=
  match c6_run with
  | Except.ok x => x.1
  | Except.error _ => c4_state

/-- A flow with its lines as a call with time stamp `ts` writes them. -/
def flow.restamp (ts : timeval) : flow → flow
  | flow.ret P out => flow.ret P (out.map (line.restamp ts))
  | flow.next P buf out => flow.next P buf (out.map (line.restamp ts))

/-- A handshake delivered in a slice of 30 and a slice of 38 bytes. -/
def c5_chunks : List (timeval × List Nat) :=
  [(⟨1, 0⟩, c6_handshake.take 30), (⟨2, 0⟩, c6_handshake.drop 30)]

/-- Four zero bytes delivered in a slice of one and a slice of three bytes. -/
def c5_zeros : List (timeval × List Nat) :=
  [(⟨3, 0⟩, [0]), (⟨4, 0⟩, [0, 0, 0])]

/-! ## Example states for the reassemblers -/

/-- A TCP connection whose `out` direction expects sequence number 10. -/
def c11_tcp : tcp_state (List call) :=
  { key := ex_key, state_ := { in_ := {}, out := { seqnr := 10 } }, handler := [] }

/-- A uTP connection whose `out` direction is connected and expects sequence number 10. -/
def c11_utp : utp_state (List call) :=
  { key := { ip := ex_key, connid := 7 },
    state_ := { in_ := {}, out := { connected := true, seqnr := 10, connid := 7 } },
    handler := [] }

/-- A TCP header with sequence number `q` and no flag set. -/
def seg_hdr (q : Nat) : tcphdr := { seq := q, syn := false, ack := false, fin := false, rst := false }

/-- A uTP `ST_DATA` header, version 1, with connection id 7 and sequence number `q`. -/
def data_hdr (q : Nat) : utphdr := { type_ver := 1, extension := 0, connection_id := 7, seq_nr := q }

/-- The number of payload bytes an out-of-order map holds. -/
def buffered_bytes (m : map Nat (List Nat)) : Nat :=
  (m.map (fun x => x.2.length)).sum

/-- What holds of a direction of the uTP reassembler after initialisation and any
number of `packet` calls: every buffered sequence number is ahead of the expected one,
and a direction that is not connected has buffered nothing. -/
structure utp_window (s : utp_side_state) : Prop where
  seq_lt : s.seqnr < u16
  fresh : s.connected = false → s.ooo_ = []
  ahead : ∀ q p, map.find s.ooo_ q = some p →
    q < u16 ∧ q ≠ s.seqnr ∧ (q + u16 - s.seqnr) % u16 < 32767

/-- The states of a uTP connection reachable by `packet` calls after initialisation:
initially neither direction has buffered a packet. -/
inductive utp_reachable {H : Type} (hd : Handler H) : utp_state H → Prop where
  | init (st : utp_state H)
      (h : ∀ d, (st.state_.get d).ooo_ = [] ∧ (st.state_.get d).seqnr < u16) :
      utp_reachable hd st
  | packet (st : utp_state H) (ts : timeval) (hdr : utphdr) (buf : List Nat) (d : dir_t)
      (h : utp_reachable hd st) (hq : hdr.seq_nr < u16) :
      utp_reachable hd (st.packet hd ts hdr buf d)

/-- A uTP connection whose direction `in` was initialised with expected sequence
number 5. -/
def c14_init : utp_state (List call) :=
  { key := { ip := ex_key, connid := 7 },
    state_ := { in_ := { connected := true, seqnr := 5, connid := 7 }, out := {} },
    handler := [] }

/-- The connection `c14_init` after packet 7 arrived for direction `in`: it expects 5
and buffers packet 7. -/
def c14_utp : utp_state (List call) :=
  c14_init.packet recorder ⟨1, 0⟩ (data_hdr 7) [70] dir_t.in_

/-- A processor without connections. -/
def c16_empty : processor (List call) :=
  { tcp_streams_ := [], utp_streams_ := [], destroyed_ := [] }

/-- An `ST_SYN` header, version 1, with connection id 7 and sequence number 100. -/
def c16_syn : utphdr := { type_ver := 65, extension := 0, connection_id := 7, seq_nr := 100 }

/-- The first `ST_DATA` header of the initiator of the connection `c16_syn` opens:
connection id 8, sequence number 101. -/
def c16_data : utphdr := { type_ver := 1, extension := 0, connection_id := 8, seq_nr := 101 }

/-- The processor after the `ST_SYN` and the three bytes of the first data packet. -/
def c16_proc : processor (List call) :=
  process_utp recorder (process_utp recorder c16_empty ⟨1, 0⟩ ex_key c16_syn []) ⟨2, 0⟩ ex_key
    c16_data [1, 2, 3]

/-- The dissector after the handshake of direction `out`: the direction is in state
`length`. -/
def c18_state : parse_bittorrent :=
  match c4_state.data ex_bdecode ex_ts c6_handshake dir_t.out with
  | Except.ok x => x.1
  | Except.error _ => c4_state

/-- The dissector `c18_state` after the length prefix 1: direction `out` is in state
`msg`. -/
def c17_state : parse_bittorrent :=
  match c18_state.data ex_bdecode ex_ts [0, 0, 0, 1] dir_t.out with
  | Except.ok x => x.1
  | Except.error _ => c4_state

/-- A `have` message for piece 258 in three deliveries. -/
def c19_chunks : List (timeval × List Nat) :=
  [(⟨2, 0⟩, [0, 0]), (⟨2, 500⟩, [0, 5, 4, 0, 0]), (⟨3, 0⟩, [1, 2])]

/-- A `piece` message with length prefix 12 in three deliveries: piece 1, offset 16384
and a block of three bytes. -/
def c20_chunks : List (timeval × List Nat) :=
  [(⟨2, 0⟩, [0, 0, 0, 12, 7, 0, 0]), (⟨2, 500⟩, [0, 1, 0, 0, 64, 0, 9]), (⟨3, 0⟩, [9, 9])]

/-- A `piece` message with length prefix 9 in one delivery: piece 1, offset 16384 and
no block bytes. -/
def c20_empty : List (timeval × List Nat) :=
  [(⟨2, 0⟩, [0, 0, 0, 9, 7, 0, 0, 0, 1, 0, 0, 64, 0])]

/-! ## `main.cpp`: the UDP branch of the extractor

The branch `else if (ip_header.ip_p == IPPROTO_UDP && pkt.size() >= sizeof(utphdr) +
sizeof(udphdr))` of `processor::process`, on the bytes `pkt` that follow the IP header.
The Ethernet and IP headers are not modelled: the branch gets the two addresses
(`ntohl` of `ip_src` and `ip_dst`) and the field `ip_off` with the value the program
reads (the source does not apply `ntohs` to it). -/

/-- A 16 bit field in network byte order at offset `i` of `pkt`: `ntohs` of a field of
`udphdr`, or the conversion operator of `be_uint16`. -/
def net16 (pkt : List Nat) (i : Nat) : Nat :=
  ((pkt.getD i 0 <<< 8) ||| pkt.getD (i + 1) 0) % u16

/-- The struct `utphdr` laid over the start of `pkt` (`cast<utphdr const>(pkt)`):
`type_ver` at offset 0, `extension` at 1, `connection_id` at 2 and `seq_nr` at 16. -/
def utphdr.read (pkt : List Nat) : utphdr :=
  { type_ver := pkt.getD 0 0, extension := pkt.getD 1 0, connection_id := net16 pkt 2,
    seq_nr := net16 pkt 16 }

/-- The loop `while (extension != 0)` over the uTP extension headers: `some pkt` is
what is left of the packet when the loop ends, `none` stands for the `return` of a
header that is cut short.  Every iteration takes at least two bytes off the packet;
`fuel` bounds the number of iterations. -/
def utp_options : Nat → Nat → List Nat → Except fault (Option (List Nat))
  | _, 0, pkt => Except.ok (some pkt)
  | 0, _ + 1, _ => Except.error fault.diverges
  | fuel + 1, _ + 1, pkt =>
    if pkt.length < 2 then Except.ok none
    else if pkt.length < pkt.getD 1 0 + 2 then Except.ok none
    else utp_options fuel (pkt.getD 0 0) (pkt.drop (2 + pkt.getD 1 0))

/-- The test `(ip_header.ip_off & IP_OFFMASK) != 0 && (ip_header.ip_off & IP_MF) != 0`,
with `IP_OFFMASK = 0x1fff` and `IP_MF = 0x2000`. -/
def ip_fragmented (ip_off : Nat) : Bool :=
  (ip_off &&& 8191 != 0) && (ip_off &&& 8192 != 0)

/-- The checks of the UDP branch up to the construction of the `utp_stream_key`:
`none` stands for a `return` (the packet is dropped), `some (k, utp_header, pkt)` is
the transport key, the header and the payload the rest of the branch works on. -/
def utp_accept (ip_src ip_dst ip_off : Nat) (pkt : List Nat) :
    Except fault (Option (stream_key × utphdr × List Nat)) :=
  if pkt.length < 28 then Except.ok none
  else
    let utp_header := utphdr.read (pkt.drop 8)
    let k : stream_key :=
      { src := ip_src, dst := ip_dst, src_port := net16 pkt 0, dst_port := net16 pkt 2 }
    if utp_header.get_version ≠ 1 then Except.ok none
    else if utp_header.get_type ≥ NUM_TYPES then Except.ok none
    else if utp_header.extension ≥ 3 then Except.ok none
    else if k.src_port = 443 then Except.ok none
    else if k.dst_port = 443 then Except.ok none
    else
      match utp_options ((pkt.drop 28).length + 1) utp_header.extension (pkt.drop 28) with
      | Except.error e => Except.error e
      | Except.ok none => Except.ok none
      | Except.ok (some payload) =>
        if ip_fragmented ip_off then Except.ok none
        else Except.ok (some (k, utp_header, payload))

/-- The UDP branch of `processor::process`. -/
def process_udp {H : Type} (hd : Handler H) (p : processor H) (ts : timeval)
    (ip_src ip_dst ip_off : Nat) (pkt : List Nat) : Except fault (processor H) :=
  match utp_accept ip_src ip_dst ip_off pkt with
  | Except.error e => Except.error e
  | Except.ok none => Except.ok p
  | Except.ok (some x) => Except.ok (process_utp hd p ts x.1 x.2.1 x.2.2)

/-- The chain of extension headers as the specification words it: every link is
`next_ext`, `len` and `len` bytes, the chain ends at a link whose `next_ext` is 0.
`utp_chain ext pkt n` says that the chain announced by `ext` is complete in `pkt` and
that the sum of `2 + len` over its links is `n`. -/
inductive utp_chain : Nat → List Nat → Nat → Prop where
  | done (pkt : List Nat) : utp_chain 0 pkt 0
  | link (ext next len : Nat) (body rest : List Nat) (n : Nat) (h : ext ≠ 0)
      (hl : body.length = len) (ht : utp_chain next rest n) :
      utp_chain ext (next :: len :: (body ++ rest)) (2 + len + n)

/-- A UDP datagram from port 6881 to port 51413 that carries an `ST_SYN`, version 1,
with connection id 7 and sequence number 100, one extension header of type 1 and
length 3, and the payload `[9, 9]`. -/
def c26_ext : List Nat :=
  [26, 225, 200, 213, 0, 35, 0, 0,
   65, 1, 0, 7, 0, 0, 0, 0, 0, 0, 0, 0, 0, 0, 0, 0, 0, 100, 0, 0,
   0, 3, 1, 2, 3, 9, 9]

/-! ## The transcript's existence -/

/-- The calls `cs` made on a handler, in order. -/
def replay {H : Type} (hd : Handler H) (h : H) : List call → H
  | [] => h
  | call.data ts buf d :: t => replay hd (hd.data h ts buf d) t
  | call.event ts e d :: t => replay hd (hd.event h ts e d) t

/-- What the statements of a block do to the transcript's existence: statements for a
state from `peer_id` on leave a state from `peer_id` on and do not open the
transcript; statements for an earlier state either leave an earlier state and do not
open it, or leave a state from `peer_id` on with the transcript open. -/
def block_log (b : block) : Prop :=
  ∀ io s other o, b.guard s.state_ = true → b.body io s other = Except.ok o →
    (3 ≤ rank s.state_ → 3 ≤ rank o.s.state_ ∧ o.opens = false)
    ∧ (rank s.state_ ≤ 2 →
        (rank o.s.state_ ≤ 2 ∧ o.opens = false)
        ∨ (3 ≤ rank o.s.state_ ∧ (io || o.opens) = true))

/-- What statements for direction `d` that lead from the dissector state `P` to `Q`
do to the transcript's existence: the other direction is untouched; a direction that
is past `info_hash` stays so and `log_` stays as it is; a direction that is not
either stays so, with `log_` as it is, or gets past `info_hash`, with `log_` open. -/
structure log_step (d : dir_t) (P Q : parse_bittorrent) : Prop where
  other : Q.state_.get (opposite d) = P.state_.get (opposite d)
  past : 3 ≤ rank (P.state_.get d).state_ →
    3 ≤ rank (Q.state_.get d).state_ ∧ Q.log_.is_open = P.log_.is_open
  before : rank (P.state_.get d).state_ ≤ 2 →
    (rank (Q.state_.get d).state_ ≤ 2 ∧ Q.log_.is_open = P.log_.is_open)
    ∨ (3 ≤ rank (Q.state_.get d).state_ ∧ Q.log_.is_open = true)

/-- Direction `out` sends a handshake, then direction `in` sends twenty bytes that
are not the protocol string. -/
def c22_calls : List call :=
  [call.data ex_ts c6_handshake dir_t.out, call.data ⟨2, 0⟩ c7_buf dir_t.in_]

/-- The dissector after the calls `c22_calls`: the transcript is open and the
dissector is disabled. -/
def c23_state : parse_bittorrent :=
  match c18_state.data ex_bdecode ⟨2, 0⟩ c7_buf dir_t.in_ with
  | Except.ok x => x.1
  | Except.error _ => c4_state

/-- A TCP connection of the dissector after the handshake of direction `out`: the
transcript is open; direction `out` expects sequence number 10. -/
def c29_conn : tcp_state result :=
  { key := ex_key, state_ := { in_ := {}, out := { seqnr := 10 } },
    handler := Except.ok (c18_state, []) }

/-- The bytes `d1:md1:ai3e1:bi4294967299eee`, the bencoding of
`{"m": {"a": 3, "b": 4294967299}}`. -/
def c21_payload : List Nat :=
  [100, 49, 58, 109, 100, 49, 58, 97, 105, 51, 101, 49, 58, 98, 105, 52, 50, 57, 52, 57, 54,
   55, 50, 57, 57, 101, 101, 101]

/-- A decoder for the example of two ids that agree modulo 2^32: it decodes
`c21_payload` and nothing else. -/
def c21_bdecode : bdecode_fn :=
  fun b =>
    if b = c21_payload then
      Except.ok { printed := "m: a: 3 b: 4294967299",
                  m := some [("a", some 3), ("b", some 4294967299)] }
    else Except.error "unexpected end of file in bencoded string"

/-- The dissector `c18_state` after the length prefix 30, the message id 20 and the
extension id 0 of direction `out`: the direction is in state `extension_handshake`
and waits for 28 bytes. -/
def c21_state : parse_bittorrent :=
  match c18_state.data c21_bdecode ex_ts [0, 0, 0, 30, 20, 0] dir_t.out with
  | Except.ok x => x.1
  | Except.error _ => c4_state

/-! ## The format of the lines, the out-of-order map, `skip_` and the loop -/

/-- A line of a call with time stamp `ts` for direction `d`: it carries the direction
and, unless it is the line `check_zero` writes, the time stamp. -/
def line.of_call (ts : timeval) (d : dir_t) (l : line) : Prop :=
  l.d = d ∧ (l.ts = some ts ∨ ∃ n, l.ev = log_event.unexpected_bytes n)

/-- The statements of the block write with a time stamp, but for the line of
`check_zero`. -/
def block_stamped (b : block) : Prop :=
  ∀ io s other o, b.body io s other = Except.ok o →
    ∀ e ∈ o.lines, ∀ ev, e = entry.bare ev → ∃ n, ev = log_event.unexpected_bytes n

/-- The lines a flow carries. -/
def flow.lines : flow → List line
  | flow.ret _ out => out
  | flow.next _ _ out => out

/-- A `choke` message with length prefix 2: one byte follows the message id. -/
def c31_choke : List Nat := [0, 0, 0, 2, 0]

/-- A fresh connection that gets the three bytes 7 8 9 at sequence number 2 and then
the five bytes 1 2 3 4 5 at sequence number 0, both for direction `out`. -/
def c32_overlap : tcp_state (List call) :=
  ((tcp_state.mk_ recorder ex_key).packet recorder ⟨1, 0⟩ (seg_hdr 2) [7, 8, 9] dir_t.out).packet
    recorder ⟨2, 0⟩ (seg_hdr 0) [1, 2, 3, 4, 5] dir_t.out

/-- A fresh connection that gets one byte at sequence number 5 for direction `in` and
then the `syn` of that direction with sequence number 9. -/
def c32_late_syn : tcp_state (List call) :=
  ((tcp_state.mk_ recorder ex_key).packet recorder ⟨1, 0⟩ (seg_hdr 5) [1] dir_t.in_).syn
    ⟨9, true, true, false, false⟩ dir_t.in_

/-- A `have` message with length prefix 1, followed by the length prefix 7 of the
next message. -/
def c33_have : List Nat := [0, 0, 0, 1, 4, 0, 0, 0, 7]

/-- A handshake with the reserved bytes 0 0 0 0 0 16 0 5. -/
def c35_handshake : List Nat :=
  handshake_bytes ++ [0, 0, 0, 0, 0, 16, 0, 5] ++ List.replicate 20 171 ++ List.replicate 20 66

/-- Direction `in` delivers the first 28 bytes of its handshake, direction `out` its
whole handshake, then direction `in` the other 40 bytes. -/
def c35_calls : List call :=
  [call.data ⟨1, 0⟩ (c35_handshake.take 28) dir_t.in_,
   call.data ⟨2, 0⟩ c6_handshake dir_t.out,
   call.data ⟨3, 0⟩ (c35_handshake.drop 28) dir_t.in_]

/-- The dissector `c18_state` after a `piece` message with length prefix 9 of direction
`out`: the direction is in state `skip` with `skip_ = 0`. -/
def c36_skip : parse_bittorrent :=
  match c18_state.data ex_bdecode ⟨2, 0⟩ [0, 0, 0, 9, 7, 0, 0, 0, 1, 0, 0, 64, 0] dir_t.out with
  | Except.ok x => x.1
  | Except.error _ => c4_state

/-! ## Datagrams, foreign text and the buffer between calls -/

/-- The field `ip_off` as the program reads it (the source applies no `ntohs`) from the
16 bits `w` of flags and fragment offset in network byte order: `w` itself on a host
with that byte order, `w` with its two bytes exchanged on a little-endian host. -/
def ip_off_read (little_endian : Bool) (w : Nat) : Nat :=
  if little_endian then w % 256 * 256 + w / 256 % 256 else w

/-- The events whose text is not made by the dissector: the name of an extension, which
the peer has chosen, the printed extension handshake and the error message of the
decoder. -/
def log_event.foreign_text : log_event → Bool
  | log_event.extension_msg _ => true
  | log_event.extension_handshake_error _ => true
  | log_event.extension_handshake _ => true
  | _ => false

/-- The bytes `d1:md3:a` LF `bi1eee`, the bencoding of a dictionary `m` with one
extension whose name is `a`, a line feed and `b`, with id 1. -/
def c31_payload : List Nat :=
  [100, 49, 58, 109, 100, 51, 58, 97, 10, 98, 105, 49, 101, 101, 101]

/-- A decoder for the example of a name with a line feed: it decodes `c31_payload` and
nothing else. -/
def c31_bdecode : bdecode_fn :=
  fun b =>
    if b = c31_payload then
      Except.ok { printed := "m: a\nb: 1", m := some [("a\nb", some 1)] }
    else Except.error "unexpected end of file in bencoded string"

/-- Both directions send their handshake; `out` sends an extension handshake that
names the extension 1 `a`, line feed, `b`; `in` sends an extension message with id 1. -/
def c31_run : result :=
  (((c4_state.data c31_bdecode ex_ts c6_handshake dir_t.out).and_then
      (fun Q => Q.data c31_bdecode ex_ts c6_handshake dir_t.in_)).and_then
      (fun Q => Q.data c31_bdecode ex_ts ([0, 0, 0, 17, 20, 0] ++ c31_payload) dir_t.out)).and_then
    (fun Q => Q.data c31_bdecode ex_ts [0, 0, 0, 2, 20, 1] dir_t.in_)

/-- The buffer of a direction as `data` leaves it: in a state of the message loop
`buffer_` is empty in state `skip`, and in every other state it is empty or holds
fewer bytes than the block of the state waits for. -/
def side_ready (bdecode : bdecode_fn) (s : bittorrent_side_state) : Prop :=
  4 ≤ rank s.state_ →
    (s.state_ = state_t.skip → s.buffer_ = [])
    ∧ ∀ b ∈ message_blocks bdecode, b.guard s.state_ = true →
        s.buffer_ = [] ∨ s.buffer_.length < b.need s.skip_

/-! # Theorems -/

/-! ## Lemmas on `std::map` -/

namespace map
variable {K V : Type} [DecidableEq K]

theorem find_erase (m : map K V) (k k' : K) :
    find (erase m k) k' = if k' = k then none else find m k' := by
  induction m with
  | nil => simp [erase, find]
  | cons x t ih =>
    obtain ⟨a, b⟩ := x
    by_cases h : a = k
    · subst h
      by_cases h' : k' = a
      · subst h'; simp [erase, find, ih]
      · have : ¬ a = k' := fun e => h' e.symm
        simp [erase, find, ih, h', this]
    · by_cases h' : k' = k
      · subst h'
        simp [erase, find, ih, h]
      · simp [erase, find, ih, h, h']

theorem erase_length_le (m : map K V) (k : K) : (erase m k).length ≤ m.length := by
  induction m with
  | nil => simp [erase]
  | cons x t ih =>
    obtain ⟨a, b⟩ := x
    by_cases h : a = k
    · simp [erase, h]; omega
    · simp [erase, h]; omega

theorem erase_length_lt (m : map K V) (k : K) (v : V) (h : find m k = some v) :
    (erase m k).length < m.length := by
  induction m with
  | nil => simp [find] at h
  | cons x t ih =>
    obtain ⟨a, b⟩ := x
    by_cases h' : a = k
    · have := erase_length_le t k
      simp [erase, h']; omega
    · simp [find, h'] at h
      have := ih h
      simp [erase, h']; omega

theorem find_append_none (m : map K V) (k k' : K) (v : V) (h : find m k = none) :
    find (m ++ [(k, v)]) k' = if k' = k then some v else find m k' := by
  induction m with
  | nil =>
    by_cases h' : k' = k
    · subst h'; simp [find]
    · have : ¬ k = k' := fun e => h' e.symm
      simp [find, h', this]
  | cons x t ih =>
    obtain ⟨a, b⟩ := x
    by_cases ha : a = k
    · simp [find, ha] at h
    · simp only [find, ha, if_false] at h
      by_cases h' : a = k'
      · subst h'
        have : ¬ a = k := ha
        simp [find, this]
      · simp [find, h', ih h]

theorem find_emplace (m : map K V) (k k' : K) (v : V) (h : find m k = none) :
    find (emplace m k v) k' = if k' = k then some v else find m k' := by
  simp only [emplace, h]
  exact find_append_none m k k' v h

theorem eq_nil_of_find (m : map K V) (h : ∀ k, find m k = none) : m = [] := by
  cases m with
  | nil => rfl
  | cons x t =>
    obtain ⟨a, b⟩ := x
    have := h a
    simp [find] at this

end map

/-! ## The drain loops -/

theorem Drains.find_final {adv : Nat → List Nat → Nat} {m m1 : map Nat (List Nat)} {e e1 : Nat}
    {ps : List (List Nat)} (h : Drains adv m e ps m1 e1) : map.find m1 e1 = none := by
  induction h with
  | stop m e h => exact h
  | step m e p ps m1 e1 _ _ ih => exact ih

theorem Drains.find_rest {adv : Nat → List Nat → Nat} {m m1 : map Nat (List Nat)} {e e1 : Nat}
    {ps : List (List Nat)} (h : Drains adv m e ps m1 e1) (k : Nat) :
    map.find m1 k = if k ∈ drain_keys adv e ps then none else map.find m k := by
  induction h with
  | stop m e h => simp [drain_keys]
  | step m e p ps m1 e1 _ _ ih =>
    rw [ih, map.find_erase]
    by_cases hk : k = e
    · simp [drain_keys, hk]
    · by_cases hk' : k ∈ drain_keys adv (adv e p) ps
      · simp [drain_keys, hk']
      · simp [drain_keys, hk, hk']

theorem tcp_drain_spec {H : Type} (hd : Handler H) (ts : timeval) (d : dir_t) (fuel : Nat) :
    ∀ (s : tcp_side_state) (h : H), s.ooo_.length ≤ fuel →
      ∃ ps, Drains tcp_advance s.ooo_ s.seqnr ps
          (tcp_drain hd ts d fuel (s, h)).1.ooo_ (tcp_drain hd ts d fuel (s, h)).1.seqnr
        ∧ (tcp_drain hd ts d fuel (s, h)).2 = ps.foldl (fun a p => hd.data a ts p d) h
        ∧ (tcp_drain hd ts d fuel (s, h)).1.closed = s.closed := by
  induction fuel with
  | zero =>
    intro s h hl
    have hnil : s.ooo_ = [] := List.length_eq_zero.mp (Nat.le_zero.mp hl)
    refine ⟨[], ?_, rfl, rfl⟩
    simp only [tcp_drain]
    exact Drains.stop _ _ (by rw [hnil]; rfl)
  | succ n ih =>
    intro s h hl
    cases hf : map.find s.ooo_ s.seqnr with
    | none =>
      refine ⟨[], ?_, ?_, ?_⟩ <;> simp only [tcp_drain, hf]
      · exact Drains.stop _ _ hf
      · rfl
    | some p =>
      have hlt := map.erase_length_lt s.ooo_ s.seqnr p hf
      obtain ⟨ps, h1, h2, h3⟩ := ih
        { s with seqnr := (s.seqnr + p.length) % u32, ooo_ := map.erase s.ooo_ s.seqnr }
        (hd.data h ts p d) (by simp only; omega)
      refine ⟨p :: ps, ?_, ?_, ?_⟩ <;> simp only [tcp_drain, hf]
      · exact Drains.step _ _ p ps _ _ hf h1
      · simpa using h2
      · simpa using h3

theorem utp_drain_spec {H : Type} (hd : Handler H) (ts : timeval) (d : dir_t) (fuel : Nat) :
    ∀ (s : utp_side_state) (h : H), s.ooo_.length ≤ fuel →
      ∃ ps, Drains utp_advance s.ooo_ s.seqnr ps
          (utp_drain hd ts d fuel (s, h)).1.ooo_ (utp_drain hd ts d fuel (s, h)).1.seqnr
        ∧ (utp_drain hd ts d fuel (s, h)).2 = ps.foldl (fun a p => hd.data a ts p d) h
        ∧ (utp_drain hd ts d fuel (s, h)).1.closed = s.closed
        ∧ (utp_drain hd ts d fuel (s, h)).1.connected = s.connected
        ∧ (utp_drain hd ts d fuel (s, h)).1.connid = s.connid := by
  induction fuel with
  | zero =>
    intro s h hl
    have hnil : s.ooo_ = [] := List.length_eq_zero.mp (Nat.le_zero.mp hl)
    refine ⟨[], ?_, rfl, rfl, rfl, rfl⟩
    simp only [utp_drain]
    exact Drains.stop _ _ (by rw [hnil]; rfl)
  | succ n ih =>
    intro s h hl
    cases hf : map.find s.ooo_ s.seqnr with
    | none =>
      refine ⟨[], ?_, ?_, ?_, ?_, ?_⟩ <;> simp only [utp_drain, hf]
      · exact Drains.stop _ _ hf
      · rfl
    | some p =>
      have hlt := map.erase_length_lt s.ooo_ s.seqnr p hf
      obtain ⟨ps, h1, h2, h3, h4, h5⟩ := ih
        { s with seqnr := (s.seqnr + 1) % u16, ooo_ := map.erase s.ooo_ s.seqnr }
        (hd.data h ts p d) (by simp only; omega)
      refine ⟨p :: ps, ?_, ?_, ?_, ?_, ?_⟩ <;> simp only [utp_drain, hf]
      · exact Drains.step _ _ p ps _ _ hf h1
      · simpa using h2
      · simpa using h3
      · simpa using h4
      · simpa using h5

theorem dir_array.get_set {T : Type} (a : dir_array T) (d : dir_t) (v : T) :
    (a.set d v).get d = v := by
  cases d <;> rfl

theorem dir_array.get_set_other {T : Type} (a : dir_array T) (d : dir_t) (v : T) :
    (a.set d v).get (other_dir d) = a.get (other_dir d) := by
  cases d <;> rfl

theorem dir_array.get_set_ne {T : Type} (a : dir_array T) (d d' : dir_t) (v : T) (h : d' ≠ d) :
    (a.set d v).get d' = a.get d' := by
  cases d <;> cases d' <;> first | rfl | exact absurd rfl h


/-! ## The in-order step -/

theorem tcp_packet_inorder {H : Type} (hd : Handler H) (ts : timeval)
    (st : tcp_state H) (hdr : tcphdr) (buf : List Nat) (d : dir_t)
    (hbuf : buf ≠ []) (hseq : hdr.seq = (st.state_.get d).seqnr) :
    (∃ ps : List (List Nat),
      Drains tcp_advance (st.state_.get d).ooo_ (((st.state_.get d).seqnr + buf.length) % u32) ps
        ((st.packet hd ts hdr buf d).state_.get d).ooo_
        ((st.packet hd ts hdr buf d).state_.get d).seqnr
      ∧ (st.packet hd ts hdr buf d).handler
          = ps.foldl (fun a p => hd.data a ts p d) (hd.data st.handler ts buf d)
      ∧ map.find ((st.packet hd ts hdr buf d).state_.get d).ooo_
          ((st.packet hd ts hdr buf d).state_.get d).seqnr = none
      ∧ (∀ k, map.find ((st.packet hd ts hdr buf d).state_.get d).ooo_ k
          = if k ∈ drain_keys tcp_advance (((st.state_.get d).seqnr + buf.length) % u32) ps
            then none else map.find (st.state_.get d).ooo_ k)
      ∧ ((st.packet hd ts hdr buf d).state_.get d).closed = (st.state_.get d).closed
      ∧ (st.packet hd ts hdr buf d).state_.get (other_dir d) = st.state_.get (other_dir d)
      ∧ (st.packet hd ts hdr buf d).key = st.key) := by
  have hlen : ¬ buf.length = 0 := fun h => hbuf (List.length_eq_zero.mp h)
  obtain ⟨ps, h1, h2, h3⟩ := tcp_drain_spec hd ts d (st.state_.get d).ooo_.length
    { st.state_.get d with seqnr := ((st.state_.get d).seqnr + buf.length) % u32 }
    (hd.data st.handler ts buf d) (Nat.le_refl _)
  have hp : st.packet hd ts hdr buf d
      = { st with
          state_ := st.state_.set d (tcp_drain hd ts d (st.state_.get d).ooo_.length
            ({ st.state_.get d with seqnr := ((st.state_.get d).seqnr + buf.length) % u32 },
              hd.data st.handler ts buf d)).1,
          handler := (tcp_drain hd ts d (st.state_.get d).ooo_.length
            ({ st.state_.get d with seqnr := ((st.state_.get d).seqnr + buf.length) % u32 },
              hd.data st.handler ts buf d)).2 } := by
    simp [tcp_state.packet, hlen, hseq]
  rw [hp]
  simp only [dir_array.get_set, dir_array.get_set_other]
  exact ⟨ps, h1, h2, h1.find_final, h1.find_rest, h3, trivial, trivial⟩

theorem utp_packet_inorder {H : Type} (hd : Handler H) (ts : timeval)
    (ut : utp_state H) (uhdr : utphdr) (ubuf : List Nat) (ud : dir_t)
    (hubuf : ubuf ≠ []) (huseq : uhdr.seq_nr = (ut.state_.get ud).seqnr) :
    (∃ ps : List (List Nat),
      Drains utp_advance (ut.state_.get ud).ooo_ (((ut.state_.get ud).seqnr + 1) % u16) ps
        ((ut.packet hd ts uhdr ubuf ud).state_.get ud).ooo_
        ((ut.packet hd ts uhdr ubuf ud).state_.get ud).seqnr
      ∧ (ut.packet hd ts uhdr ubuf ud).handler
          = ps.foldl (fun a p => hd.data a ts p ud) (hd.data ut.handler ts ubuf ud)
      ∧ map.find ((ut.packet hd ts uhdr ubuf ud).state_.get ud).ooo_
          ((ut.packet hd ts uhdr ubuf ud).state_.get ud).seqnr = none
      ∧ (∀ k, map.find ((ut.packet hd ts uhdr ubuf ud).state_.get ud).ooo_ k
          = if k ∈ drain_keys utp_advance (((ut.state_.get ud).seqnr + 1) % u16) ps
            then none else map.find (ut.state_.get ud).ooo_ k)
      ∧ ((ut.packet hd ts uhdr ubuf ud).state_.get ud).closed = (ut.state_.get ud).closed
      ∧ (ut.packet hd ts uhdr ubuf ud).state_.get (other_dir ud) = ut.state_.get (other_dir ud)
      ∧ (ut.packet hd ts uhdr ubuf ud).key = ut.key) := by
  have hlen : ¬ ubuf.length = 0 := fun h => hubuf (List.length_eq_zero.mp h)
  have hc : (utp_connect (ut.state_.get ud) uhdr).seqnr = (ut.state_.get ud).seqnr := by
    unfold utp_connect; split
    · rfl
    · exact huseq
  have hc2 : (utp_connect (ut.state_.get ud) uhdr).ooo_ = (ut.state_.get ud).ooo_ := by
    unfold utp_connect; split <;> rfl
  have hc3 : (utp_connect (ut.state_.get ud) uhdr).closed = (ut.state_.get ud).closed := by
    unfold utp_connect; split <;> rfl
  obtain ⟨ps, h1, h2, h3, -, -⟩ := utp_drain_spec hd ts ud
    (utp_connect (ut.state_.get ud) uhdr).ooo_.length
    { utp_connect (ut.state_.get ud) uhdr with
      seqnr := ((utp_connect (ut.state_.get ud) uhdr).seqnr + 1) % u16 }
    (hd.data ut.handler ts ubuf ud) (Nat.le_refl _)
  have hp : ut.packet hd ts uhdr ubuf ud
      = { ut with
          state_ := ut.state_.set ud (utp_drain hd ts ud
            (utp_connect (ut.state_.get ud) uhdr).ooo_.length
            ({ utp_connect (ut.state_.get ud) uhdr with
                seqnr := ((utp_connect (ut.state_.get ud) uhdr).seqnr + 1) % u16 },
              hd.data ut.handler ts ubuf ud)).1,
          handler := (utp_drain hd ts ud
            (utp_connect (ut.state_.get ud) uhdr).ooo_.length
            ({ utp_connect (ut.state_.get ud) uhdr with
                seqnr := ((utp_connect (ut.state_.get ud) uhdr).seqnr + 1) % u16 },
              hd.data ut.handler ts ubuf ud)).2 } := by
    simp [utp_state.packet, hlen, hc, huseq]
  rw [hp]
  simp only [dir_array.get_set, dir_array.get_set_other]
  simp only [hc, hc2, hc3] at h1 h2 h3 ⊢
  exact ⟨ps, h1, h2, h1.find_final, h1.find_rest, h3, trivial, trivial⟩

/-! ## C3 -/

/-- C3 (in-order step of both reassemblers).  For a non-empty packet whose sequence
number equals the expected sequence number of its direction, `packet` hands the
payload to the handler first and advances the expected number by the payload size
modulo 2^32 (TCP) or by one modulo 2^16 (uTP); then it drains the out-of-order map
as the specification says (`Drains`), handing the drained payloads `ps` to the
handler in order.  On return the map has no entry under the expected number, an
entry is gone exactly when the drain removed it and all other entries are unchanged;
the closed flag, the other direction and the key are untouched. -/
theorem inorder_step {H : Type} (hd : Handler H) (ts : timeval)
    (st : tcp_state H) (hdr : tcphdr) (buf : List Nat) (d : dir_t)
    (ut : utp_state H) (uhdr : utphdr) (ubuf : List Nat) (ud : dir_t)
    (hbuf : buf ≠ []) (hseq : hdr.seq = (st.state_.get d).seqnr)
    (hubuf : ubuf ≠ []) (huseq : uhdr.seq_nr = (ut.state_.get ud).seqnr) :
    (∃ ps : List (List Nat),
      Drains tcp_advance (st.state_.get d).ooo_ (((st.state_.get d).seqnr + buf.length) % u32) ps
        ((st.packet hd ts hdr buf d).state_.get d).ooo_
        ((st.packet hd ts hdr buf d).state_.get d).seqnr
      ∧ (st.packet hd ts hdr buf d).handler
          = ps.foldl (fun a p => hd.data a ts p d) (hd.data st.handler ts buf d)
      ∧ map.find ((st.packet hd ts hdr buf d).state_.get d).ooo_
          ((st.packet hd ts hdr buf d).state_.get d).seqnr = none
      ∧ (∀ k, map.find ((st.packet hd ts hdr buf d).state_.get d).ooo_ k
          = if k ∈ drain_keys tcp_advance (((st.state_.get d).seqnr + buf.length) % u32) ps
            then none else map.find (st.state_.get d).ooo_ k)
      ∧ ((st.packet hd ts hdr buf d).state_.get d).closed = (st.state_.get d).closed
      ∧ (st.packet hd ts hdr buf d).state_.get (other_dir d) = st.state_.get (other_dir d)
      ∧ (st.packet hd ts hdr buf d).key = st.key)
    ∧
    (∃ ps : List (List Nat),
      Drains utp_advance (ut.state_.get ud).ooo_ (((ut.state_.get ud).seqnr + 1) % u16) ps
        ((ut.packet hd ts uhdr ubuf ud).state_.get ud).ooo_
        ((ut.packet hd ts uhdr ubuf ud).state_.get ud).seqnr
      ∧ (ut.packet hd ts uhdr ubuf ud).handler
          = ps.foldl (fun a p => hd.data a ts p ud) (hd.data ut.handler ts ubuf ud)
      ∧ map.find ((ut.packet hd ts uhdr ubuf ud).state_.get ud).ooo_
          ((ut.packet hd ts uhdr ubuf ud).state_.get ud).seqnr = none
      ∧ (∀ k, map.find ((ut.packet hd ts uhdr ubuf ud).state_.get ud).ooo_ k
          = if k ∈ drain_keys utp_advance (((ut.state_.get ud).seqnr + 1) % u16) ps
            then none else map.find (ut.state_.get ud).ooo_ k)
      ∧ ((ut.packet hd ts uhdr ubuf ud).state_.get ud).closed = (ut.state_.get ud).closed
      ∧ (ut.packet hd ts uhdr ubuf ud).state_.get (other_dir ud) = ut.state_.get (other_dir ud)
      ∧ (ut.packet hd ts uhdr ubuf ud).key = ut.key) :=
  ⟨tcp_packet_inorder hd ts st hdr buf d hbuf hseq,
    utp_packet_inorder hd ts ut uhdr ubuf ud hubuf huseq⟩

/-- Witness for `inorder_step`: a TCP segment at 100 that releases the buffered
segment at 102, and a uTP packet at 65535 that releases the buffered packet 0. -/
theorem inorder_step_witness :
    (c3_tcp.packet recorder ⟨0, 0⟩ ⟨100, false, true, false, false⟩ [1, 2] dir_t.out).handler
        = [call.data ⟨0, 0⟩ [1, 2] dir_t.out, call.data ⟨0, 0⟩ [7, 8, 9] dir_t.out]
    ∧ ((c3_tcp.packet recorder ⟨0, 0⟩ ⟨100, false, true, false, false⟩ [1, 2] dir_t.out).state_.get
        dir_t.out) = { seqnr := 105, ooo_ := [(200, [5])] }
    ∧ (c3_utp.packet recorder ⟨0, 0⟩ ⟨1, 0, 9, 65535⟩ [3] dir_t.in_).handler
        = [call.data ⟨0, 0⟩ [3] dir_t.in_, call.data ⟨0, 0⟩ [4] dir_t.in_]
    ∧ ((c3_utp.packet recorder ⟨0, 0⟩ ⟨1, 0, 9, 65535⟩ [3] dir_t.in_).state_.get dir_t.in_)
        = { connected := true, seqnr := 1, ooo_ := [(7, [5])] }
    ∧ ∃ ps : List (List Nat),
        Drains tcp_advance (c3_tcp.state_.get dir_t.out).ooo_
          (((c3_tcp.state_.get dir_t.out).seqnr + [1, 2].length) % u32) ps
          ((c3_tcp.packet recorder ⟨0, 0⟩ ⟨100, false, true, false, false⟩ [1, 2]
            dir_t.out).state_.get dir_t.out).ooo_
          ((c3_tcp.packet recorder ⟨0, 0⟩ ⟨100, false, true, false, false⟩ [1, 2]
            dir_t.out).state_.get dir_t.out).seqnr :=
  ⟨by decide, by decide, by decide, by decide,
    (inorder_step recorder ⟨0, 0⟩ c3_tcp ⟨100, false, true, false, false⟩ [1, 2] dir_t.out
      c3_utp ⟨1, 0, 9, 65535⟩ [3] dir_t.in_ (by decide) (by decide) (by decide)
      (by decide)).1.elim fun ps h => ⟨ps, h.1⟩⟩


/-! ## TCP reassembly of a tiled stream -/

theorem payloads_append (d : dir_t) (a b : List call) :
    payloads d (a ++ b) = payloads d a ++ payloads d b := by
  induction a with
  | nil => rfl
  | cons x t ih =>
    cases x with
    | data ts buf d' =>
      by_cases h : d' = d <;> simp [payloads, h, ih]
    | event ts e d' => simp [payloads, ih]

theorem payloads_foldl (d : dir_t) (ts : timeval) (ps : List (List Nat)) :
    ∀ h : List call,
      payloads d (ps.foldl (fun a p => recorder.data a ts p d) h) = payloads d h ++ ps := by
  induction ps with
  | nil => intro h; simp
  | cons p t ih =>
    intro h
    simp only [List.foldl_cons]
    rw [ih]
    simp [recorder, payloads_append, payloads]

theorem tile_map_snd (start : Nat) (segs : List (List Nat)) :
    (tile start segs).map Prod.snd = segs := by
  induction segs generalizing start with
  | nil => rfl
  | cons p t ih => simp [tile, ih]

theorem tile_chain (segs : List (List Nat)) (hne : ∀ p ∈ segs, p ≠ []) :
    ∀ start, Chain32 (start % u32) (tile start segs) ((start + segs.flatten.length) % u32) := by
  induction segs with
  | nil => intro start; simpa [tile] using Chain32.nil _
  | cons p t ih =>
    intro start
    have h1 := ih (fun q hq => hne q (List.mem_cons_of_mem _ hq)) (start + p.length)
    have e1 : (start % u32 + p.length) % u32 = (start + p.length) % u32 := by
      simp [Nat.add_mod]
    have e2 : start + (p :: t).flatten.length = start + p.length + t.flatten.length := by
      simp [Nat.add_assoc]
    rw [e2]
    simp only [tile]
    exact Chain32.cons _ p _ _ (hne p (List.mem_cons_self _ _)) (by rw [e1]; exact h1)

theorem tile_mem (segs : List (List Nat)) :
    ∀ start (x : Nat × List Nat), x ∈ tile start segs →
      ∃ δ, δ + x.2.length ≤ segs.flatten.length ∧ x.1 = (start + δ) % u32 := by
  induction segs with
  | nil => intro start x hx; simp [tile] at hx
  | cons p t ih =>
    intro start x hx
    simp only [tile, List.mem_cons] at hx
    rcases hx with hx | hx
    · subst hx
      exact ⟨0, by simp, by simp⟩
    · obtain ⟨δ, h1, h2⟩ := ih _ x hx
      have e : (p :: t).flatten.length = p.length + t.flatten.length := by simp
      refine ⟨p.length + δ, by rw [e]; omega, ?_⟩
      rw [h2, Nat.add_assoc]

theorem tile_pairwise (segs : List (List Nat)) (hne : ∀ p ∈ segs, p ≠ []) :
    ∀ start, segs.flatten.length < (u32 - 1) / 2 →
      List.Pairwise ahead32 (tile start segs) := by
  induction segs with
  | nil => intro start _; simp [tile]
  | cons p t ih =>
    intro start hlen
    have hp : 0 < p.length := List.length_pos.mpr (hne p (List.mem_cons_self _ _))
    have hlen' : p.length + t.flatten.length < (u32 - 1) / 2 := by simpa using hlen
    simp only [tile, List.pairwise_cons]
    refine ⟨?_, ih (fun q hq => hne q (List.mem_cons_of_mem _ hq)) _ (by omega)⟩
    intro x hx
    obtain ⟨δ, h1, h2⟩ := tile_mem t _ x hx
    have hx0 : 0 < x.2.length := by
      have : x.2 ∈ t := by
        have := List.mem_map_of_mem Prod.snd hx
        rwa [tile_map_snd] at this
      exact List.length_pos.mpr (hne _ (List.mem_cons_of_mem _ this))
    simp only [ahead32, h2]
    simp only [u32] at hlen' ⊢
    constructor <;> omega


theorem drains_inv {T A : List (Nat × List Nat)} {start e1 : Nat}
    (hnd : (T.map Prod.fst).Nodup)
    {m m1 : map Nat (List Nat)} {e e' : Nat} {ps : List (List Nat)}
    (hd : Drains tcp_advance m e ps m1 e') :
    ∀ (del : List (List Nat)) (done todo : List (Nat × List Nat)),
      ReasmInv T A start e1 e m del done todo →
      ∃ done' todo', ReasmInv T A start e1 e' m1 (del ++ ps) done' todo'
        ∧ ∀ x, todo'.head? = some x → x ∉ A := by
  induction hd with
  | stop m e h =>
    intro del done todo inv
    refine ⟨done, todo, by simpa using inv, ?_⟩
    intro x hx hA
    cases todo with
    | nil => simp at hx
    | cons y t =>
      simp at hx; subst hx
      have := inv.buf_complete y (List.mem_cons_self _ _) hA
      cases inv.chain with
      | cons _ p _ _ _ _ => simp [h] at this
  | step m e p ps m1 e' hf _ ih =>
    intro del done todo inv
    obtain ⟨hmem, hA⟩ := inv.buf_sound e p hf
    have hsplit := inv.split
    cases hch : inv.chain with
    | nil => simp at hmem
    | cons _ p0 t _ hp0 hc =>
      have hnd' : (((e, p0) :: t).map Prod.fst).Nodup := by
        have := hnd
        rw [hsplit, List.map_append] at this
        exact (List.nodup_append.mp this).2.1
      simp only [List.map_cons, List.nodup_cons] at hnd'
      have hpp : p = p0 := by
        rcases List.mem_cons.mp hmem with h | h
        · exact (Prod.mk.inj h).2
        · exact absurd (List.mem_map_of_mem Prod.fst h) hnd'.1
      subst hpp
      have inv' : ReasmInv T A start e1 (tcp_advance e p) (map.erase m e) (del ++ [p])
          (done ++ [(e, p)]) t := by
        refine ⟨by simp [hsplit], by simp [inv.del_eq], ?_, hc, ?_, ?_, ?_⟩
        · have h0 := inv.seq_eq
          have hl : ((done ++ [(e, p)]).map Prod.snd).flatten.length
              = (done.map Prod.snd).flatten.length + p.length := by simp
          rw [hl]
          generalize (done.map Prod.snd).flatten.length = L at h0 ⊢
          simp only [tcp_advance, u32] at h0 ⊢
          omega
        · intro q p' hq
          rw [map.find_erase] at hq
          by_cases hqe : q = e
          · simp [hqe] at hq
          · simp only [hqe, if_false] at hq
            obtain ⟨h1, h2⟩ := inv.buf_sound q p' hq
            refine ⟨?_, h2⟩
            rcases List.mem_cons.mp h1 with h | h
            · exact absurd (Prod.mk.inj h).1 hqe
            · exact h
        · intro x hx hxA
          have h1 := inv.buf_complete x (List.mem_cons_of_mem _ hx) hxA
          have hne : x.1 ≠ e := by
            intro he
            exact hnd'.1 (he ▸ List.mem_map_of_mem Prod.fst hx)
          rw [map.find_erase]
          simp [hne, h1]
        · intro x hx
          rcases List.mem_append.mp hx with h | h
          · exact inv.done_arrived x h
          · simp at h; subst h; exact hA
      obtain ⟨done', todo', h1, h2⟩ := ih (del ++ [p]) (done ++ [(e, p)]) t inv'
      exact ⟨done', todo', by simpa using h1, h2⟩


theorem tcp_packet_inv {T A : List (Nat × List Nat)} {start e1 : Nat} {d : dir_t}
    (hnd : (T.map Prod.fst).Nodup) (hpw : List.Pairwise ahead32 T)
    (st : tcp_state (List call)) (ts : timeval) (hdr : tcphdr) (buf : List Nat)
    (hT : (hdr.seq, buf) ∈ T) (hA : (hdr.seq, buf) ∉ A)
    (inv : TcpInv T start e1 d st A) :
    TcpInv T start e1 d (st.packet recorder ts hdr buf d) ((hdr.seq, buf) :: A) := by
  obtain ⟨done, todo, inv, hst⟩ := inv
  have hsplit := inv.split
  have hmem : (hdr.seq, buf) ∈ todo := by
    rw [hsplit] at hT
    rcases List.mem_append.mp hT with h | h
    · exact absurd (inv.done_arrived _ h) hA
    · exact h
  cases hch : inv.chain with
  | nil => simp at hmem
  | cons _ p0 t _ hp0 hc =>
    have hnd' : (((st.state_.get d).seqnr :: t.map Prod.fst)).Nodup := by
      have := hnd
      rw [hsplit, List.map_append] at this
      simpa using (List.nodup_append.mp this).2.1
    have hpw' : List.Pairwise ahead32 (((st.state_.get d).seqnr, p0) :: t) := by
      have := hpw
      rw [hsplit] at this
      exact (List.pairwise_append.mp this).2.1
    rcases List.mem_cons.mp hmem with h | h
    · -- the segment is the next one of the stream
      obtain ⟨hs, hb⟩ := Prod.mk.inj h
      subst hb
      obtain ⟨ps, h1, h2, -, -, -, -, -⟩ :=
        tcp_packet_inorder recorder ts st hdr buf d hp0 hs
      have inv' : ReasmInv T ((hdr.seq, buf) :: A) start e1
          (tcp_advance (st.state_.get d).seqnr buf) (st.state_.get d).ooo_
          (payloads d st.handler ++ [buf])
          (done ++ [((st.state_.get d).seqnr, buf)]) t := by
        refine ⟨by simp [hsplit], by simp [inv.del_eq], ?_, hc, ?_, ?_, ?_⟩
        · have h0 := inv.seq_eq
          have hl : ((done ++ [((st.state_.get d).seqnr, buf)]).map Prod.snd).flatten.length
              = (done.map Prod.snd).flatten.length + buf.length := by simp
          rw [hl]
          generalize (done.map Prod.snd).flatten.length = L at h0 ⊢
          generalize (st.state_.get d).seqnr = e at h0 ⊢
          simp only [tcp_advance, u32] at h0 ⊢
          omega
        · intro q p' hq
          obtain ⟨h3, h4⟩ := inv.buf_sound q p' hq
          refine ⟨?_, List.mem_cons_of_mem _ h4⟩
          rcases List.mem_cons.mp h3 with h5 | h5
          · exact absurd h4 (h5 ▸ hst _ rfl)
          · exact h5
        · intro x hx hxA
          have hne : x.1 ≠ hdr.seq := by
            intro he
            rw [hs] at he
            exact (List.nodup_cons.mp hnd').1 (he ▸ List.mem_map_of_mem Prod.fst hx)
          rcases List.mem_cons.mp hxA with h5 | h5
          · exact absurd (by rw [h5]) hne
          · exact inv.buf_complete x (List.mem_cons_of_mem _ hx) h5
        · intro x hx
          rcases List.mem_append.mp hx with h5 | h5
          · exact List.mem_cons_of_mem _ (inv.done_arrived x h5)
          · simp at h5; rw [h5, hs]; exact List.mem_cons_self _ _
      obtain ⟨done', todo', h3, h4⟩ := drains_inv hnd h1 _ _ _ inv'
      refine ⟨done', todo', ?_, h4⟩
      have hpl : payloads d (st.packet recorder ts hdr buf d).handler
          = payloads d st.handler ++ [buf] ++ ps := by
        rw [h2, payloads_foldl]
        simp [recorder, payloads_append, payloads]
      rw [hpl]
      exact h3
    · -- the segment is a later one: it is stored
      have hah : ahead32 ((st.state_.get d).seqnr, p0) (hdr.seq, buf) :=
        (List.pairwise_cons.mp hpw').1 _ h
      have hbuf : buf ≠ [] := by
        have : ∀ e T' e', Chain32 e T' e' → ∀ x ∈ T', x.2 ≠ [] := by
          intro e T' e' hc'
          induction hc' with
          | nil => intro x hx; simp at hx
          | cons e p t e1 hp _ ih =>
            intro x hx
            rcases List.mem_cons.mp hx with h6 | h6
            · rw [h6]; exact hp
            · exact ih x h6
        exact this _ _ _ hc _ h
      have hlen : ¬ buf.length = 0 := fun h6 => hbuf (List.length_eq_zero.mp h6)
      have hnone : map.find (st.state_.get d).ooo_ hdr.seq = none := by
        cases hf : map.find (st.state_.get d).ooo_ hdr.seq with
        | none => rfl
        | some p' =>
          obtain ⟨h3, h4⟩ := inv.buf_sound _ _ hf
          have h5 : (hdr.seq, p') ∈ T := by rw [hsplit]; exact List.mem_append_right _ h3
          have := List.inj_on_of_nodup_map hnd h5 hT rfl
          rw [this] at h4
          exact absurd h4 hA
      have hp : st.packet recorder ts hdr buf d
          = { st with state_ := st.state_.set d ({ st.state_.get d with
                  ooo_ := map.emplace (st.state_.get d).ooo_ hdr.seq buf }) } := by
        simp only [ahead32] at hah
        simp [tcp_state.packet, hlen, hah.1, hah.2]
      rw [hp]
      refine ⟨done, ((st.state_.get d).seqnr, p0) :: t, ?_, ?_⟩
      · simp only [dir_array.get_set]
        refine ⟨hsplit, inv.del_eq, inv.seq_eq, inv.chain, ?_, ?_, ?_⟩
        · intro q p' hq
          rw [map.find_emplace _ _ _ _ hnone] at hq
          by_cases hqe : q = hdr.seq
          · simp only [hqe, if_true, Option.some.injEq] at hq
            subst hq; subst hqe
            exact ⟨hmem, List.mem_cons_self _ _⟩
          · simp only [hqe, if_false] at hq
            obtain ⟨h3, h4⟩ := inv.buf_sound q p' hq
            exact ⟨h3, List.mem_cons_of_mem _ h4⟩
        · intro x hx hxA
          rw [map.find_emplace _ _ _ _ hnone]
          by_cases hxe : x.1 = hdr.seq
          · have h5 : x ∈ T := by rw [hsplit]; exact List.mem_append_right _ hx
            have := List.inj_on_of_nodup_map hnd h5 hT hxe
            simp [this]
          · simp only [hxe, if_false]
            rcases List.mem_cons.mp hxA with h5 | h5
            · exact absurd (by rw [h5]) hxe
            · exact inv.buf_complete x hx h5
        · intro x hx
          exact List.mem_cons_of_mem _ (inv.done_arrived x hx)
      · intro x hx hxA
        simp at hx
        rcases List.mem_cons.mp hxA with h5 | h5
        · rw [← hx] at h5
          have := (Prod.mk.inj h5).1
          exact hah.1 this.symm
        · exact hst x (by simp [hx]) h5


theorem tcp_feed_inv {T : List (Nat × List Nat)} {start e1 : Nat} {d : dir_t}
    (hnd : (T.map Prod.fst).Nodup) (hpw : List.Pairwise ahead32 T) :
    ∀ (pkts : List (timeval × tcphdr × List Nat)) (st : tcp_state (List call))
      (A : List (Nat × List Nat)),
      TcpInv T start e1 d st A → (pkts.map seq_payload).Nodup →
      (∀ x ∈ pkts.map seq_payload, x ∈ T ∧ x ∉ A) →
      ∃ A', (∀ y, y ∈ A' ↔ y ∈ A ∨ y ∈ pkts.map seq_payload)
        ∧ TcpInv T start e1 d (tcp_feed recorder d st pkts) A' := by
  intro pkts
  induction pkts with
  | nil =>
    intro st A inv _ _
    exact ⟨A, by simp, inv⟩
  | cons x t ih =>
    intro st A inv hn hx
    simp only [List.map_cons, List.nodup_cons] at hn
    have hx0 := hx (seq_payload x) (by simp)
    have inv1 := tcp_packet_inv hnd hpw st x.1 x.2.1 x.2.2 hx0.1 hx0.2 inv
    obtain ⟨A', h1, h2⟩ := ih (st.packet recorder x.1 x.2.1 x.2.2 d) (seq_payload x :: A) inv1
      hn.2 (by
        intro y hy
        refine ⟨(hx y (by simp [hy])).1, ?_⟩
        intro hmem
        rcases List.mem_cons.mp hmem with h | h
        · exact hn.1 (h ▸ hy)
        · exact (hx y (by simp [hy])).2 h)
    refine ⟨A', ?_, h2⟩
    intro y
    rw [h1 y]
    simp only [List.mem_cons, List.map_cons]
    tauto

theorem pairwise_ahead_nodup (T : List (Nat × List Nat)) (h : List.Pairwise ahead32 T) :
    (T.map Prod.fst).Nodup := by
  rw [List.Nodup, List.pairwise_map]
  exact h.imp (fun hab => fun e => hab.1 e.symm)

/-- C1 (TCP reassembly).  A direction with an empty out-of-order map is initialised by
`syn` with initial sequence number `syn.seq`; the non-empty segments `segs` tile the
byte stream `segs.flatten`, of fewer than 2^31 - 1 bytes, from sequence number
`syn.seq + 1`, and their packets arrive in the order `arr`, any permutation.  Then
after each call of `packet` the bytes handed to `handler.data` so far are the prefix
of the stream of length `(expected_seq - syn.seq - 1) mod 2^32`, and after the last
call they are the whole stream and the out-of-order map is empty. -/
theorem tcp_reassembly (st0 : tcp_state (List call)) (d : dir_t) (syn : tcphdr)
    (segs : List (List Nat)) (arr : List (timeval × tcphdr × List Nat))
    (hisn : syn.seq < u32)
    (hooo : (st0.state_.get d).ooo_ = []) (hdel : payloads d st0.handler = [])
    (hne : ∀ p ∈ segs, p ≠ [])
    (hlen : segs.flatten.length < 2 ^ 31 - 1)
    (hperm : (arr.map seq_payload).Perm (tile (syn.seq + 1) segs)) :
    (∀ pre post, arr = pre ++ post →
      (payloads d (tcp_feed recorder d (st0.syn syn d) pre).handler).flatten
        = segs.flatten.take
            ((((tcp_feed recorder d (st0.syn syn d) pre).state_.get d).seqnr
                + u32 - syn.seq - 1) % u32))
    ∧ (payloads d (tcp_feed recorder d (st0.syn syn d) arr).handler).flatten = segs.flatten
    ∧ ((tcp_feed recorder d (st0.syn syn d) arr).state_.get d).ooo_ = [] := by
  have hpw : List.Pairwise ahead32 (tile (syn.seq + 1) segs) :=
    tile_pairwise segs hne _ (by simpa [u32] using hlen)
  have hnd := pairwise_ahead_nodup _ hpw
  have hndT : (tile (syn.seq + 1) segs).Nodup := List.Nodup.of_map _ hnd
  have hndA : (arr.map seq_payload).Nodup := hperm.nodup_iff.mpr hndT
  have inv0 : TcpInv (tile (syn.seq + 1) segs) (syn.seq + 1)
      ((syn.seq + 1 + segs.flatten.length) % u32) d (st0.syn syn d) [] := by
    refine ⟨[], tile (syn.seq + 1) segs, ⟨rfl, ?_, ?_, ?_, ?_, ?_, ?_⟩, ?_⟩
    · simpa [tcp_state.syn] using hdel
    · simp [tcp_state.syn, dir_array.get_set]
    · have := tile_chain segs hne (syn.seq + 1)
      simpa [tcp_state.syn, dir_array.get_set] using this
    · intro q p hq
      simp [tcp_state.syn, dir_array.get_set, hooo, map.find] at hq
    · intro x _ hx; simp at hx
    · intro x hx; simp at hx
    · intro x _ hx; simp at hx
  have key : ∀ pre post, arr = pre ++ post →
      ∃ A', (∀ y, y ∈ A' ↔ y ∈ pre.map seq_payload)
        ∧ TcpInv (tile (syn.seq + 1) segs) (syn.seq + 1)
            ((syn.seq + 1 + segs.flatten.length) % u32) d
            (tcp_feed recorder d (st0.syn syn d) pre) A' := by
    intro pre post hsplit
    have hn : (pre.map seq_payload).Nodup := by
      rw [hsplit, List.map_append] at hndA
      exact (List.nodup_append.mp hndA).1
    obtain ⟨A', h1, h2⟩ := tcp_feed_inv hnd hpw pre (st0.syn syn d) [] inv0 hn (by
      intro x hx
      refine ⟨hperm.subset ?_, by simp⟩
      rw [hsplit, List.map_append]
      exact List.mem_append_left _ hx)
    exact ⟨A', by simpa using h1, h2⟩
  have hB : ∀ done todo : List (Nat × List Nat), tile (syn.seq + 1) segs = done ++ todo →
      segs.flatten = (done.map Prod.snd).flatten ++ (todo.map Prod.snd).flatten := by
    intro done todo h
    have := congrArg (List.map Prod.snd) h
    rw [tile_map_snd] at this
    rw [this]; simp
  refine ⟨?_, ?_, ?_⟩
  · intro pre post hsplit
    obtain ⟨A', -, done, todo, inv, -⟩ := key pre post hsplit
    have hb := hB done todo inv.split
    have hs := inv.seq_eq
    rw [inv.del_eq, hs, hb]
    have hL : (done.map Prod.snd).flatten.length < 2 ^ 31 - 1 := by
      have := congrArg List.length hb
      rw [List.length_append] at this
      omega
    have hidx : ((syn.seq + 1 + (done.map Prod.snd).flatten.length) % u32 + u32 - syn.seq - 1)
        % u32 = (done.map Prod.snd).flatten.length := by
      generalize (done.map Prod.snd).flatten.length = L at hL
      simp only [u32] at hisn ⊢
      omega
    rw [hidx, List.take_left]
  · obtain ⟨A', hA', done, todo, inv, hst⟩ := key arr [] (by simp)
    have htodo : todo = [] := by
      cases todo with
      | nil => rfl
      | cons x t =>
        exfalso
        apply hst x rfl
        rw [hA']
        apply hperm.symm.subset
        rw [inv.split]
        simp
    have hb := hB done todo inv.split
    rw [inv.del_eq, hb, htodo]; simp
  · obtain ⟨A', hA', done, todo, inv, hst⟩ := key arr [] (by simp)
    have htodo : todo = [] := by
      cases todo with
      | nil => rfl
      | cons x t =>
        exfalso
        apply hst x rfl
        rw [hA']
        apply hperm.symm.subset
        rw [inv.split]
        simp
    apply map.eq_nil_of_find
    intro k
    cases hf : map.find ((tcp_feed recorder d (st0.syn syn d) arr).state_.get d).ooo_ k with
    | none => rfl
    | some p =>
      have := (inv.buf_sound k p hf).1
      rw [htodo] at this
      simp at this


/-- Witness for `tcp_reassembly`: the stream 1 2 3 4 5 starts at sequence number 0
(initial sequence number 2^32 - 1) and its three segments arrive last first. -/
theorem tcp_reassembly_witness :
    (payloads dir_t.out (tcp_feed recorder dir_t.out (c1_fresh.syn c1_syn dir_t.out)
        [c1_pkt 3 [4, 5], c1_pkt 0 [1, 2], c1_pkt 2 [3]]).handler).flatten = [1, 2, 3, 4, 5]
    ∧ ((tcp_feed recorder dir_t.out (c1_fresh.syn c1_syn dir_t.out)
        [c1_pkt 3 [4, 5], c1_pkt 0 [1, 2], c1_pkt 2 [3]]).state_.get dir_t.out).ooo_ = []
    ∧ (payloads dir_t.out (tcp_feed recorder dir_t.out (c1_fresh.syn c1_syn dir_t.out)
        [c1_pkt 3 [4, 5]]).handler).flatten = [] :=
  ⟨(tcp_reassembly c1_fresh dir_t.out c1_syn [[1, 2], [3], [4, 5]]
      [c1_pkt 3 [4, 5], c1_pkt 0 [1, 2], c1_pkt 2 [3]]
      (by decide) (by decide) (by decide) (by decide) (by decide) (by decide)).2.1,
   (tcp_reassembly c1_fresh dir_t.out c1_syn [[1, 2], [3], [4, 5]]
      [c1_pkt 3 [4, 5], c1_pkt 0 [1, 2], c1_pkt 2 [3]]
      (by decide) (by decide) (by decide) (by decide) (by decide) (by decide)).2.2,
   by decide⟩


/-! ## uTP reassembly -/

theorem map.find_emplace_some {K V : Type} [DecidableEq K] (m : map K V) (k k' : K) (v v' : V)
    (h : map.find (map.emplace m k v) k' = some v') :
    map.find m k' = some v' ∨ (k' = k ∧ v' = v) := by
  cases hf : map.find m k with
  | some w =>
    simp only [map.emplace, hf] at h
    exact Or.inl h
  | none =>
    rw [map.find_emplace _ _ _ _ hf] at h
    by_cases hk : k' = k
    · simp only [hk, if_true, Option.some.injEq] at h
      exact Or.inr ⟨hk, h.symm⟩
    · simp only [hk, if_false] at h
      exact Or.inl h

theorem received_mono {P Q : List (timeval × utphdr × List Nat)} {q : Nat} {p : List Nat}
    (h : received P q p) : received (P ++ Q) q p := by
  obtain ⟨x, hx, h1, h2⟩ := h
  exact ⟨x, List.mem_append_left _ hx, h1, h2⟩

theorem utp_drains_inv {R : Nat → List Nat → Prop}
    {m m1 : map Nat (List Nat)} {e e' : Nat} {ps : List (List Nat)}
    (hd : Drains utp_advance m e ps m1 e') :
    e < u16 → (∀ q p, map.find m q = some p → R q p) →
      e' = (e + ps.length) % u16
      ∧ (∀ i p, ps[i]? = some p → R ((e + i) % u16) p)
      ∧ (∀ q p, map.find m1 q = some p → R q p) := by
  induction hd with
  | stop m e h =>
    intro he hR
    refine ⟨by simp [Nat.mod_eq_of_lt he], by simp, hR⟩
  | step m e p ps m1 e' hf _ ih =>
    intro he hR
    have hlt : utp_advance e p < u16 := Nat.mod_lt _ (by decide)
    obtain ⟨h1, h2, h3⟩ := ih hlt (by
      intro q p' hq
      rw [map.find_erase] at hq
      by_cases hqe : q = e
      · simp [hqe] at hq
      · simp only [hqe, if_false] at hq
        exact hR q p' hq)
    refine ⟨?_, ?_, h3⟩
    · rw [h1]
      simp only [utp_advance, List.length_cons, u16]
      omega
    · intro i p' hi
      cases i with
      | zero =>
        simp at hi; subst hi
        simpa [Nat.mod_eq_of_lt he] using hR e p hf
      | succ j =>
        simp at hi
        have := h2 j p' hi
        have e2 : (utp_advance e p + j) % u16 = (e + (j + 1)) % u16 := by
          simp only [utp_advance, u16]; omega
        rwa [e2] at this

theorem utp_packet_inv {e0 : Nat} {P : List (timeval × utphdr × List Nat)} {d : dir_t}
    (st : utp_state (List call)) (x : timeval × utphdr × List Nat)
    (inv : UtpInv e0 P (st.state_.get d) (payloads d st.handler)) :
    UtpInv e0 (P ++ [x]) ((st.packet recorder x.1 x.2.1 x.2.2 d).state_.get d)
      (payloads d (st.packet recorder x.1 x.2.1 x.2.2 d).handler) := by
  have hconn : utp_connect (st.state_.get d) x.2.1 = st.state_.get d := by
    simp [utp_connect, inv.connected]
  have mono : UtpInv e0 (P ++ [x]) (st.state_.get d) (payloads d st.handler) :=
    ⟨inv.connected, inv.seq_eq, fun k p h => received_mono (inv.delivered k p h),
      fun q p h => received_mono (inv.buffered q p h)⟩
  by_cases hlen : x.2.2.length = 0
  · simpa [utp_state.packet, hlen, hconn, dir_array.get_set] using mono
  by_cases hseq : x.2.1.seq_nr = (st.state_.get d).seqnr
  · -- in order
    have hbuf : x.2.2 ≠ [] := fun h => hlen (by simp [h])
    obtain ⟨ps, h1, h2, -, -, -, -, -⟩ :=
      utp_packet_inorder recorder x.1 st x.2.1 x.2.2 d hbuf hseq
    have hpl : payloads d (st.packet recorder x.1 x.2.1 x.2.2 d).handler
        = payloads d st.handler ++ [x.2.2] ++ ps := by
      rw [h2, payloads_foldl]
      simp [recorder, payloads_append, payloads]
    obtain ⟨h3, h4, h5⟩ := utp_drains_inv (R := received (P ++ [x])) h1
      (Nat.mod_lt _ (by decide)) (fun q p h => received_mono (inv.buffered q p h))
    have hself : received (P ++ [x]) ((e0 + (payloads d st.handler).length) % u16) x.2.2 :=
      ⟨x, by simp, by rw [hseq, inv.seq_eq], rfl⟩
    have hc : ((st.packet recorder x.1 x.2.1 x.2.2 d).state_.get d).connected = true := by
      have hlen' : ¬ x.2.2.length = 0 := hlen
      simp only [utp_state.packet, hlen', hconn, hseq, dir_array.get_set, if_false,
        ne_eq, not_true_eq_false]
      have := (utp_drain_spec recorder x.1 d (st.state_.get d).ooo_.length
        { st.state_.get d with seqnr := ((st.state_.get d).seqnr + 1) % u16 }
        (recorder.data st.handler x.1 x.2.2 d) (Nat.le_refl _))
      obtain ⟨_, _, _, _, h6, _⟩ := this
      rw [h6]; exact inv.connected
    refine ⟨hc, ?_, ?_, h5⟩
    · rw [h3, hpl, inv.seq_eq]
      simp only [List.length_append, List.length_cons, List.length_nil, u16]
      omega
    · intro k p hk
      rw [hpl] at hk
      by_cases hk1 : k < (payloads d st.handler).length
      · rw [List.append_assoc, List.getElem?_append_left hk1] at hk
        exact received_mono (inv.delivered k p hk)
      · by_cases hk2 : k = (payloads d st.handler).length
        · subst hk2
          rw [List.append_assoc, List.getElem?_append_right (Nat.le_refl _)] at hk
          simp at hk; subst hk
          exact hself
        · have hk3 : (payloads d st.handler ++ [x.2.2]).length ≤ k := by
            simp; omega
          rw [List.getElem?_append_right hk3] at hk
          have := h4 _ p hk
          have e2 : (((st.state_.get d).seqnr + 1) % u16
              + (k - (payloads d st.handler ++ [x.2.2]).length)) % u16 = (e0 + k) % u16 := by
            rw [inv.seq_eq]
            simp only [List.length_append, List.length_cons, List.length_nil, u16] at hk3 ⊢
            omega
          rwa [e2] at this
  · have hlen' : ¬ x.2.2.length = 0 := hlen
    by_cases hah : (x.2.1.seq_nr + u16 - (st.state_.get d).seqnr) % u16 < (u16 - 1) / 2
    · have hp : st.packet recorder x.1 x.2.1 x.2.2 d
          = { st with state_ := st.state_.set d ({ st.state_.get d with
                ooo_ := map.emplace (st.state_.get d).ooo_ x.2.1.seq_nr x.2.2 }) } := by
        simp [utp_state.packet, hlen', hconn, hseq, hah]
      rw [hp]
      simp only [dir_array.get_set]
      refine ⟨inv.connected, inv.seq_eq, mono.delivered, ?_⟩
      intro q p hq
      rcases map.find_emplace_some _ _ _ _ _ hq with h | ⟨h1, h2⟩
      · exact mono.buffered q p h
      · exact ⟨x, by simp, h1.symm, h2.symm⟩
    · simpa [utp_state.packet, hlen', hconn, hseq, hah, dir_array.get_set] using mono


theorem utp_feed_inv {e0 : Nat} {d : dir_t} :
    ∀ (pkts P : List (timeval × utphdr × List Nat)) (st : utp_state (List call)),
      UtpInv e0 P (st.state_.get d) (payloads d st.handler) →
      UtpInv e0 (P ++ pkts) ((utp_feed recorder d st pkts).state_.get d)
        (payloads d (utp_feed recorder d st pkts).handler) := by
  intro pkts
  induction pkts with
  | nil => intro P st inv; simpa [utp_feed] using inv
  | cons x t ih =>
    intro P st inv
    have h1 := ih (P ++ [x]) (st.packet recorder x.1 x.2.1 x.2.2 d) (utp_packet_inv st x inv)
    simpa [utp_feed] using h1

theorem dir_array.set_set {T : Type} (a : dir_array T) (d : dir_t) (v w : T) :
    (a.set d v).set d w = a.set d w := by
  cases d <;> rfl

theorem utp_connect_idem (s : utp_side_state) (hdr : utphdr) :
    utp_connect (utp_connect s hdr) hdr = utp_connect s hdr := by
  unfold utp_connect
  by_cases h : s.connected = true <;> simp [h]

theorem utp_packet_connect {H : Type} (hd : Handler H) (st : utp_state H) (ts : timeval)
    (hdr : utphdr) (buf : List Nat) (d : dir_t) :
    ({ st with state_ := st.state_.set d (utp_connect (st.state_.get d) hdr) } :
        utp_state H).packet hd ts hdr buf d
      = st.packet hd ts hdr buf d := by
  simp only [utp_state.packet, dir_array.get_set, dir_array.set_set, utp_connect_idem]

/-- C2 (uTP reassembly).  A direction of a uTP connection starts with an empty
out-of-order map and nothing delivered; it is initialised with expected sequence
number `e0` either by `syn` (it is connected and `e0` is its expected number) or by
cold start (`e0` is the sequence number of the first packet).  Then after every
sequence `pre` of `packet` calls the expected number is `e0` plus the number of
payloads delivered, modulo 2^16, and the `k`-th payload delivered was received in a
packet with sequence number `(e0 + k) mod 2^16`. -/
theorem utp_reassembly (st0 : utp_state (List call)) (d : dir_t)
    (pkts : List (timeval × utphdr × List Nat))
    (hooo : (st0.state_.get d).ooo_ = []) (hdel : payloads d st0.handler = [])
    (hs : (st0.state_.get d).seqnr < u16) (hq : ∀ x ∈ pkts, x.2.1.seq_nr < u16)
    (pre post : List (timeval × utphdr × List Nat)) (hsplit : pkts = pre ++ post)
    (hinit : (st0.state_.get d).connected = true ∨ pre ≠ []) :
    ((utp_feed recorder d st0 pre).state_.get d).seqnr
        = (utp_initial_seq (st0.state_.get d) pkts
            + (payloads d (utp_feed recorder d st0 pre).handler).length) % u16
    ∧ ∀ k p, (payloads d (utp_feed recorder d st0 pre).handler)[k]? = some p →
        received pre ((utp_initial_seq (st0.state_.get d) pkts + k) % u16) p := by
  by_cases hc : (st0.state_.get d).connected = true
  · have inv0 : UtpInv (utp_initial_seq (st0.state_.get d) pkts) [] (st0.state_.get d)
        (payloads d st0.handler) := by
      refine ⟨hc, ?_, ?_, ?_⟩
      · simp [utp_initial_seq, hc, hdel, Nat.mod_eq_of_lt hs]
      · intro k p h; simp [hdel] at h
      · intro q p h; simp [hooo, map.find] at h
    have inv := utp_feed_inv pre [] st0 inv0
    simp only [List.nil_append] at inv
    exact ⟨inv.seq_eq, inv.delivered⟩
  · have hpre : pre ≠ [] := by
      rcases hinit with h | h
      · exact absurd h hc
      · exact h
    cases pre with
    | nil => exact absurd rfl hpre
    | cons x t =>
      have hx : x.2.1.seq_nr < u16 := hq x (by simp [hsplit])
      have he0 : utp_initial_seq (st0.state_.get d) pkts = x.2.1.seq_nr := by
        simp [utp_initial_seq, hc, hsplit]
      rw [he0]
      let c := utp_connect (st0.state_.get d) x.2.1
      let st1 : utp_state (List call) := { st0 with state_ := st0.state_.set d c }
      have inv0 : UtpInv x.2.1.seq_nr [] (st1.state_.get d) (payloads d st1.handler) := by
        simp only [st1, c, dir_array.get_set]
        refine ⟨?_, ?_, ?_, ?_⟩
        · simp [utp_connect, hc]
        · simp [utp_connect, hc, hdel, Nat.mod_eq_of_lt hx]
        · intro k p h; simp [hdel] at h
        · intro q p h; simp [utp_connect, hc, hooo, map.find] at h
      have inv1 := utp_packet_inv st1 x inv0
      simp only [st1, c] at inv1
      rw [utp_packet_connect] at inv1
      have inv := utp_feed_inv t _ _ inv1
      simp only [List.nil_append, List.singleton_append] at inv
      have hf : utp_feed recorder d st0 (x :: t)
          = utp_feed recorder d (st0.packet recorder x.1 x.2.1 x.2.2 d) t := by
        simp [utp_feed]
      rw [hf]
      exact ⟨inv.seq_eq, inv.delivered⟩


/-- Witness for `utp_reassembly`: a cold start at sequence number 65535; packet 1
arrives before packet 0 and the three payloads are delivered in sequence order. -/
theorem utp_reassembly_witness :
    payloads dir_t.in_ (utp_feed recorder dir_t.in_ c2_fresh c2_pkts).handler = [[1], [2], [3]]
    ∧ ((utp_feed recorder dir_t.in_ c2_fresh c2_pkts).state_.get dir_t.in_).seqnr = 2
    ∧ (((utp_feed recorder dir_t.in_ c2_fresh c2_pkts).state_.get dir_t.in_).seqnr
        = (utp_initial_seq (c2_fresh.state_.get dir_t.in_) c2_pkts
            + (payloads dir_t.in_ (utp_feed recorder dir_t.in_ c2_fresh c2_pkts).handler).length)
            % u16
      ∧ ∀ k p, (payloads dir_t.in_ (utp_feed recorder dir_t.in_ c2_fresh c2_pkts).handler)[k]?
          = some p →
          received c2_pkts ((utp_initial_seq (c2_fresh.state_.get dir_t.in_) c2_pkts + k) % u16) p) :=
  ⟨by decide, by decide,
    utp_reassembly c2_fresh dir_t.in_ c2_pkts (by decide) (by decide) (by decide) (by decide)
      c2_pkts [] (by decide) (Or.inr (by decide))⟩


/-! ## The uTP lookup -/

theorem connid_offset_zero (C : Nat) (hC : C < u16) :
    (((C : Int) + 0) % (u16 : Int)).toNat = C := by
  simp only [u16] at *
  omega

theorem connid_offset_one (C : Nat) :
    (((C : Int) + 1) % (u16 : Int)).toNat = (C + 1) % u16 := by
  simp only [u16] at *
  omega

theorem connid_offset_neg_one (C : Nat) :
    (((C : Int) + (-1)) % (u16 : Int)).toNat = (C + u16 - 1) % u16 := by
  simp only [u16] at *
  omega

theorem find_utp_stream_eq {H : Type} (p : processor H) (T : stream_key) (C : Nat)
    (hC : C < u16) :
    p.find_utp_stream { ip := T, connid := C }
      = match first_present p.utp_streams_ (utp_probes T C) with
        | some r => (some r.1, r.2)
        | none => (none, dir_t.out) := by
  simp only [processor.find_utp_stream, utp_probes, first_present, map.find_it, swap_utp,
    connid_offset_zero C hC, connid_offset_one, connid_offset_neg_one]
  cases map.find p.utp_streams_ { ip := T, connid := C } <;> simp only []
  cases map.find p.utp_streams_ { ip := swap T, connid := C } <;> simp only []
  cases map.find p.utp_streams_ { ip := swap T, connid := (C + 1) % u16 } <;> simp only []
  cases map.find p.utp_streams_ { ip := swap T, connid := (C + u16 - 1) % u16 } <;> simp only []

theorem first_present_none {K V : Type} [DecidableEq K] (m : map K V) (l : List (K × dir_t)) :
    first_present m l = none ↔ ∀ x ∈ l, map.find m x.1 = none := by
  induction l with
  | nil => simp [first_present]
  | cons x t ih =>
    obtain ⟨k, d⟩ := x
    cases h : map.find m k with
    | none => simp [first_present, h, ih]
    | some v => simp [first_present, h]

theorem first_present_some {K V : Type} [DecidableEq K] (m : map K V) (l : List (K × dir_t))
    (r : (K × V) × dir_t) (h : first_present m l = some r) :
    map.find m r.1.1 = some r.1.2 ∧ (r.1.1, r.2) ∈ l := by
  induction l with
  | nil => simp [first_present] at h
  | cons x t ih =>
    obtain ⟨k, d⟩ := x
    cases hf : map.find m k with
    | none =>
      simp only [first_present, hf] at h
      exact ⟨(ih h).1, List.mem_cons_of_mem _ (ih h).2⟩
    | some v =>
      simp only [first_present, hf, Option.some.injEq] at h
      subst h
      exact ⟨hf, List.mem_cons_self _ _⟩

/-- C8 (uTP lookup).  For a 16 bit connection id `C`, `find_utp_stream` returns the
entry of the first key present among `{T, C}`, `{reverse(T), C}`, `{reverse(T), C+1}`,
`{reverse(T), C-1}` (connection ids modulo 2^16), probed in this order, with direction
`out` for the first probe and `in` for the other three; the entry returned is the one
the table holds under that key; and it returns "not found" exactly when none of the
four keys is in the table. -/
theorem find_utp_stream_spec {H : Type} (p : processor H) (T : stream_key) (C : Nat)
    (hC : C < u16) :
    (p.find_utp_stream { ip := T, connid := C }
      = match first_present p.utp_streams_ (utp_probes T C) with
        | some r => (some r.1, r.2)
        | none => (none, dir_t.out))
    ∧ (∀ e, (p.find_utp_stream { ip := T, connid := C }).1 = some e →
        map.find p.utp_streams_ e.1 = some e.2
        ∧ (e.1, (p.find_utp_stream { ip := T, connid := C }).2) ∈ utp_probes T C)
    ∧ ((p.find_utp_stream { ip := T, connid := C }).1 = none
        ↔ ∀ x ∈ utp_probes T C, map.find p.utp_streams_ x.1 = none) := by
  have h := find_utp_stream_eq p T C hC
  refine ⟨h, ?_, ?_⟩
  · intro e he
    rw [h] at he ⊢
    cases hf : first_present p.utp_streams_ (utp_probes T C) with
    | none => simp [hf] at he
    | some r =>
      simp only [hf, Option.some.injEq] at he ⊢
      subst he
      exact first_present_some _ _ r hf
  · rw [h, ← first_present_none]
    cases hf : first_present p.utp_streams_ (utp_probes T C) <;> simp


/-- Witness for `find_utp_stream_spec`: with connection id 65535 the third probe,
`{reverse(T), 0}`, is the first one present; the direction is `in`. -/
theorem find_utp_stream_spec_witness :
    (c8_proc.find_utp_stream { ip := ex_key, connid := 65535 }).2 = dir_t.in_
    ∧ ((c8_proc.find_utp_stream { ip := ex_key, connid := 65535 }).1.map Prod.fst)
        = some { ip := swap ex_key, connid := 0 }
    ∧ ((c8_proc.find_utp_stream { ip := ex_key, connid := 65535 }).1 = none
        ↔ ∀ x ∈ utp_probes ex_key 65535, map.find c8_proc.utp_streams_ x.1 = none) :=
  ⟨by decide, by decide, (find_utp_stream_spec c8_proc ex_key 65535 (by decide)).2.2⟩


/-! ## TCP routing -/

theorem map.find_replace {K V : Type} [DecidableEq K] (m : map K V) (k k' : K) (v : V) :
    map.find (map.replace m k v) k'
      = if k' = k then (map.find m k).map (fun _ => v) else map.find m k' := by
  induction m with
  | nil => simp [map.replace, map.find]
  | cons x t ih =>
    obtain ⟨a, b⟩ := x
    by_cases h : a = k
    · subst h
      by_cases h' : k' = a
      · subst h'; simp [map.replace, map.find]
      · have : ¬ a = k' := fun e => h' e.symm
        simp [map.replace, map.find, h', this]
    · by_cases h' : k' = k
      · subst h'
        simp [map.replace, map.find, h, ih]
      · by_cases h2 : a = k'
        · simp [map.replace, map.find, h, h', h2]
        · simp [map.replace, map.find, h, h', h2, ih]

theorem tcp_dispatch_spec {H : Type} (hd : Handler H) (p : processor H) (ts : timeval)
    (k : stream_key) (c : tcp_state H) (hdr : tcphdr) (pkt : List Nat) (d : dir_t)
    (hk : map.find p.tcp_streams_ k = some c) :
    (∀ k', k' ≠ k → map.find (tcp_dispatch hd p ts k c hdr pkt d).tcp_streams_ k'
        = map.find p.tcp_streams_ k')
    ∧ (tcp_dispatch hd p ts k c hdr pkt d).utp_streams_ = p.utp_streams_
    ∧ ((map.find (tcp_dispatch hd p ts k c hdr pkt d).tcp_streams_ k
          = some (tcp_deliver hd c ts hdr pkt d)
        ∧ (tcp_dispatch hd p ts k c hdr pkt d).destroyed_ = p.destroyed_)
      ∨ (map.find (tcp_dispatch hd p ts k c hdr pkt d).tcp_streams_ k = none
        ∧ (tcp_dispatch hd p ts k c hdr pkt d).destroyed_
            = p.destroyed_ ++ [(tcp_deliver hd c ts hdr pkt d).handler])) := by
  unfold tcp_dispatch tcp_deliver
  by_cases hf : hdr.fin = true
  · by_cases hr : (c.fin hd ts d).2 = true
    · simp only [hf, hr, if_true]
      refine ⟨fun k' hk' => by simp [map.find_erase, hk'], by simp, Or.inr ⟨by simp [map.find_erase], by simp⟩⟩
    · simp only [hf, hr, if_true, if_false]
      refine ⟨fun k' hk' => by simp [map.find_replace, hk'], by simp, Or.inl ⟨by simp [map.find_replace, hk], by simp⟩⟩
  · by_cases hr : hdr.rst = true
    · simp only [hf, hr, if_true, if_false]
      refine ⟨fun k' hk' => by simp [map.find_erase, hk'], by simp, Or.inr ⟨by simp [map.find_erase], by simp⟩⟩
    · simp only [hf, hr, if_false]
      refine ⟨fun k' hk' => by simp [map.find_replace, hk'], by simp, Or.inl ⟨by simp [map.find_replace, hk], by simp⟩⟩

theorem tcp_route_cases {H : Type} (p : processor H) (K : stream_key) :
    (tcp_route p K = none ∧ map.find p.tcp_streams_ K = none
        ∧ map.find p.tcp_streams_ (swap K) = none)
    ∨ (∃ c, tcp_route p K = some ((K, c), dir_t.out) ∧ map.find p.tcp_streams_ K = some c)
    ∨ (∃ c, tcp_route p K = some ((swap K, c), dir_t.in_) ∧ map.find p.tcp_streams_ K = none
        ∧ map.find p.tcp_streams_ (swap K) = some c) := by
  unfold tcp_route
  cases h1 : map.find p.tcp_streams_ K with
  | some c => exact Or.inr (Or.inl ⟨c, by simp [first_present, h1], rfl⟩)
  | none =>
    cases h2 : map.find p.tcp_streams_ (swap K) with
    | some c => exact Or.inr (Or.inr ⟨c, by simp [first_present, h1, h2], rfl, rfl⟩)
    | none => exact Or.inl ⟨by simp [first_present, h1, h2], rfl, rfl⟩

theorem process_tcp_routed {H : Type} (hd : Handler H) (p : processor H) (ts : timeval)
    (K : stream_key) (hdr : tcphdr) (pkt : List Nat) (hsyn : hdr.syn = false)
    (k : stream_key) (c : tcp_state H) (d : dir_t)
    (hr : tcp_route p K = some ((k, c), d)) :
    process_tcp hd p ts K hdr pkt = tcp_dispatch hd p ts k c hdr pkt d
    ∧ map.find p.tcp_streams_ k = some c := by
  rcases tcp_route_cases p K with ⟨h0, _, _⟩ | ⟨c', h0, h1⟩ | ⟨c', h0, h1, h2⟩
  · rw [h0] at hr; cases hr
  · rw [h0] at hr; cases hr
    simp [process_tcp, hsyn, h1]
  · rw [h0] at hr; cases hr
    simp [process_tcp, hsyn, h1, h2]

/-- C9 (TCP routing).  An accepted TCP segment with flow key `K`: when SYN and ACK are
both set it is delivered as `syn` to direction `in` of the connection stored under
`reverse(K)` if there is one, and otherwise nothing changes; when SYN is clear it is
delivered as FIN, RST or data (`tcp_deliver`) with direction `out` to the connection
stored under `K`, else with direction `in` to the one stored under `reverse(K)`
(`tcp_route`), the connection being kept with the resulting state or erased, and if
neither key is present nothing changes.  No other entry of the table, and nothing of
the uTP table, is changed. -/
theorem tcp_routing {H : Type} (hd : Handler H) (p : processor H) (ts : timeval)
    (K : stream_key) (hdr : tcphdr) (pkt : List Nat) :
    (hdr.syn = true → hdr.ack = true →
      (∀ k', k' ≠ swap K → map.find (process_tcp hd p ts K hdr pkt).tcp_streams_ k'
          = map.find p.tcp_streams_ k')
      ∧ map.find (process_tcp hd p ts K hdr pkt).tcp_streams_ (swap K)
          = (map.find p.tcp_streams_ (swap K)).map (fun c => c.syn hdr dir_t.in_)
      ∧ (process_tcp hd p ts K hdr pkt).utp_streams_ = p.utp_streams_
      ∧ (process_tcp hd p ts K hdr pkt).destroyed_ = p.destroyed_
      ∧ (map.find p.tcp_streams_ (swap K) = none → process_tcp hd p ts K hdr pkt = p))
    ∧ (hdr.syn = false →
      (tcp_route p K = none → process_tcp hd p ts K hdr pkt = p)
      ∧ (∀ k c d, tcp_route p K = some ((k, c), d) →
          (∀ k', k' ≠ k → map.find (process_tcp hd p ts K hdr pkt).tcp_streams_ k'
              = map.find p.tcp_streams_ k')
          ∧ (process_tcp hd p ts K hdr pkt).utp_streams_ = p.utp_streams_
          ∧ ((map.find (process_tcp hd p ts K hdr pkt).tcp_streams_ k
                = some (tcp_deliver hd c ts hdr pkt d)
              ∧ (process_tcp hd p ts K hdr pkt).destroyed_ = p.destroyed_)
            ∨ (map.find (process_tcp hd p ts K hdr pkt).tcp_streams_ k = none
              ∧ (process_tcp hd p ts K hdr pkt).destroyed_
                  = p.destroyed_ ++ [(tcp_deliver hd c ts hdr pkt d).handler])))
      ∧ (tcp_route p K = none ↔ map.find p.tcp_streams_ K = none
          ∧ map.find p.tcp_streams_ (swap K) = none)
      ∧ (∀ c, map.find p.tcp_streams_ K = some c → tcp_route p K = some ((K, c), dir_t.out))
      ∧ (∀ c, map.find p.tcp_streams_ K = none → map.find p.tcp_streams_ (swap K) = some c →
          tcp_route p K = some ((swap K, c), dir_t.in_))) := by
  constructor
  · intro hs ha
    cases hf : map.find p.tcp_streams_ (swap K) with
    | none => simp [process_tcp, hs, ha, hf]
    | some c =>
      simp only [process_tcp, hs, ha, hf, Bool.and_self, if_true, Option.map_some']
      refine ⟨fun k' hk' => by simp [map.find_replace, hk'], by simp [map.find_replace, hf],
        by simp, by simp, fun h => by cases h⟩
  · intro hs
    refine ⟨?_, ?_, ?_, ?_, ?_⟩
    · intro hr
      rcases tcp_route_cases p K with ⟨_, h1, h2⟩ | ⟨c', h0, _⟩ | ⟨c', h0, _, _⟩
      · simp [process_tcp, hs, h1, h2]
      · rw [h0] at hr; cases hr
      · rw [h0] at hr; cases hr
    · intro k c d hr
      obtain ⟨h1, h2⟩ := process_tcp_routed hd p ts K hdr pkt hs k c d hr
      rw [h1]
      exact tcp_dispatch_spec hd p ts k c hdr pkt d h2
    · rcases tcp_route_cases p K with ⟨h0, h1, h2⟩ | ⟨c', h0, h1⟩ | ⟨c', h0, h1, h2⟩
      · simp [h0, h1, h2]
      · simp [h0, h1]
      · simp [h0, h1, h2]
    · intro c hc
      rcases tcp_route_cases p K with ⟨h0, h1, h2⟩ | ⟨c', h0, h1⟩ | ⟨c', h0, h1, h2⟩
      · rw [h1] at hc; cases hc
      · rw [h1] at hc; cases hc; exact h0
      · rw [h1] at hc; cases hc
    · intro c hc1 hc2
      rcases tcp_route_cases p K with ⟨h0, h1, h2⟩ | ⟨c', h0, h1⟩ | ⟨c', h0, h1, h2⟩
      · rw [h2] at hc2; cases hc2
      · rw [h1] at hc1; cases hc1
      · rw [h2] at hc2; cases hc2; exact h0


/-- Witness for `tcp_routing`: a data segment of the responder (flow key
`reverse(ex_key)`, no SYN) is routed to the connection stored under `ex_key` with
direction `in` and handed to `packet`. -/
theorem tcp_routing_witness :
    tcp_route c9_proc (swap ex_key) = some ((ex_key, c9_conn), dir_t.in_)
    ∧ map.find (process_tcp recorder c9_proc ⟨5, 0⟩ (swap ex_key)
        ⟨500, false, true, false, false⟩ [1, 2]).tcp_streams_ ex_key
        = some (c9_conn.packet recorder ⟨5, 0⟩ ⟨500, false, true, false, false⟩ [1, 2] dir_t.in_)
    ∧ ((∀ k', k' ≠ ex_key → map.find (process_tcp recorder c9_proc ⟨5, 0⟩ (swap ex_key)
            ⟨500, false, true, false, false⟩ [1, 2]).tcp_streams_ k'
          = map.find c9_proc.tcp_streams_ k')
      ∧ (process_tcp recorder c9_proc ⟨5, 0⟩ (swap ex_key)
            ⟨500, false, true, false, false⟩ [1, 2]).utp_streams_ = c9_proc.utp_streams_
      ∧ ((map.find (process_tcp recorder c9_proc ⟨5, 0⟩ (swap ex_key)
              ⟨500, false, true, false, false⟩ [1, 2]).tcp_streams_ ex_key
            = some (tcp_deliver recorder c9_conn ⟨5, 0⟩ ⟨500, false, true, false, false⟩ [1, 2]
                dir_t.in_)
          ∧ (process_tcp recorder c9_proc ⟨5, 0⟩ (swap ex_key)
              ⟨500, false, true, false, false⟩ [1, 2]).destroyed_ = c9_proc.destroyed_)
        ∨ (map.find (process_tcp recorder c9_proc ⟨5, 0⟩ (swap ex_key)
              ⟨500, false, true, false, false⟩ [1, 2]).tcp_streams_ ex_key = none
          ∧ (process_tcp recorder c9_proc ⟨5, 0⟩ (swap ex_key)
              ⟨500, false, true, false, false⟩ [1, 2]).destroyed_
              = c9_proc.destroyed_ ++ [(tcp_deliver recorder c9_conn ⟨5, 0⟩
                  ⟨500, false, true, false, false⟩ [1, 2] dir_t.in_).handler]))) :=
  ⟨by decide, by decide,
    ((tcp_routing recorder c9_proc ⟨5, 0⟩ (swap ex_key) ⟨500, false, true, false, false⟩
      [1, 2]).2 rfl).2.1 ex_key c9_conn dir_t.in_ (by decide)⟩


/-! ## Teardown -/

theorem tcp_packet_closed {H : Type} (hd : Handler H) (st : tcp_state H) (ts : timeval)
    (hdr : tcphdr) (buf : List Nat) (d d' : dir_t) :
    ((st.packet hd ts hdr buf d).state_.get d').closed = (st.state_.get d').closed := by
  by_cases hlen : buf.length = 0
  · simp [tcp_state.packet, hlen]
  by_cases hseq : hdr.seq = (st.state_.get d).seqnr
  · have hbuf : buf ≠ [] := fun h => hlen (by simp [h])
    obtain ⟨ps, -, -, -, -, h5, h6, -⟩ := tcp_packet_inorder hd ts st hdr buf d hbuf hseq
    cases d <;> cases d' <;> first | exact h5 | exact congrArg tcp_side_state.closed h6
  · have hother : ∀ s' : tcp_side_state, s'.closed = (st.state_.get d).closed →
        ((st.state_.set d s').get d').closed = (st.state_.get d').closed := by
      intro s' hs'
      cases d <;> cases d' <;> first | exact hs' | rfl
    simp only [tcp_state.packet, hlen, hseq, if_false, ne_eq, not_false_eq_true, if_true]
    split
    · exact hother _ rfl
    · split <;> rfl

theorem utp_packet_closed {H : Type} (hd : Handler H) (st : utp_state H) (ts : timeval)
    (hdr : utphdr) (buf : List Nat) (d d' : dir_t) :
    ((st.packet hd ts hdr buf d).state_.get d').closed = (st.state_.get d').closed := by
  have hother : ∀ s' : utp_side_state, s'.closed = (st.state_.get d).closed →
      ((st.state_.set d s').get d').closed = (st.state_.get d').closed := by
    intro s' hs'
    cases d <;> cases d' <;> first | exact hs' | rfl
  have hconn : (utp_connect (st.state_.get d) hdr).closed = (st.state_.get d).closed := by
    unfold utp_connect; split <;> rfl
  unfold utp_state.packet
  simp only []
  split
  · exact hother _ hconn
  · split
    · split
      · exact hother _ hconn
      · exact hother _ hconn
    · apply hother
      obtain ⟨_, _, _, h3, _, _⟩ := utp_drain_spec hd ts d
        (utp_connect (st.state_.get d) hdr).ooo_.length
        { utp_connect (st.state_.get d) hdr with
          seqnr := ((utp_connect (st.state_.get d) hdr).seqnr + 1) % u16 }
        (hd.data st.handler ts buf d) (Nat.le_refl _)
      rw [h3]; exact hconn

theorem tcp_fin_spec {H : Type} (hd : Handler H) (c : tcp_state H) (ts : timeval) (d : dir_t) :
    (c.fin hd ts d).2 = (c.state_.get (other_dir d)).closed
    ∧ ((c.fin hd ts d).1.state_.get d).closed = true
    ∧ (c.fin hd ts d).1.state_.get (other_dir d) = c.state_.get (other_dir d)
    ∧ (c.fin hd ts d).1.handler = hd.event c.handler ts socket_event_t.fin d := by
  cases d <;> simp [tcp_state.fin, other_dir, dir_array.get, dir_array.set]

theorem utp_fin_spec {H : Type} (hd : Handler H) (c : utp_state H) (ts : timeval) (d : dir_t) :
    (c.fin hd ts d).2 = (c.state_.get (other_dir d)).closed
    ∧ ((c.fin hd ts d).1.state_.get d).closed = true
    ∧ (c.fin hd ts d).1.state_.get (other_dir d) = c.state_.get (other_dir d)
    ∧ (c.fin hd ts d).1.handler = hd.event c.handler ts socket_event_t.fin d := by
  cases d <;> simp [utp_state.fin, other_dir, dir_array.get, dir_array.set]

theorem tcp_teardown_rst {H : Type} (hd : Handler H) (p : processor H) (ts : timeval)
    (K : stream_key) (hdr : tcphdr) (pkt : List Nat) (k : stream_key) (c : tcp_state H)
    (d : dir_t) (hsyn : hdr.syn = false) (hr : tcp_route p K = some ((k, c), d))
    (hfin : hdr.fin = false) (hrst : hdr.rst = true) :
    map.find (process_tcp hd p ts K hdr pkt).tcp_streams_ k = none
    ∧ (process_tcp hd p ts K hdr pkt).destroyed_
        = p.destroyed_ ++ [hd.event c.handler ts socket_event_t.reset d] := by
  rw [(process_tcp_routed hd p ts K hdr pkt hsyn k c d hr).1]
  simp [tcp_dispatch, hfin, hrst, map.find_erase, tcp_state.rst]

theorem tcp_teardown_fin {H : Type} (hd : Handler H) (p : processor H) (ts : timeval)
    (K : stream_key) (hdr : tcphdr) (pkt : List Nat) (k : stream_key) (c : tcp_state H)
    (d : dir_t) (hsyn : hdr.syn = false) (hr : tcp_route p K = some ((k, c), d))
    (hfin : hdr.fin = true) :
    (map.find (process_tcp hd p ts K hdr pkt).tcp_streams_ k = none
        ↔ (c.state_.get (other_dir d)).closed = true)
    ∧ ((c.state_.get (other_dir d)).closed = true →
        (process_tcp hd p ts K hdr pkt).destroyed_
          = p.destroyed_ ++ [hd.event c.handler ts socket_event_t.fin d])
    ∧ ((c.state_.get (other_dir d)).closed = false →
        map.find (process_tcp hd p ts K hdr pkt).tcp_streams_ k = some (c.fin hd ts d).1
        ∧ (process_tcp hd p ts K hdr pkt).destroyed_ = p.destroyed_) := by
  obtain ⟨h1, h2⟩ := process_tcp_routed hd p ts K hdr pkt hsyn k c d hr
  obtain ⟨f1, -, -, f4⟩ := tcp_fin_spec hd c ts d
  rw [h1]
  by_cases hc : (c.state_.get (other_dir d)).closed = true
  · have : (c.fin hd ts d).2 = true := by rw [f1, hc]
    simp [tcp_dispatch, hfin, this, map.find_erase, hc, f4]
  · have hc' : (c.state_.get (other_dir d)).closed = false := by simpa using hc
    have : (c.fin hd ts d).2 = false := by rw [f1, hc']
    simp [tcp_dispatch, hfin, this, map.find_replace, h2, hc']


theorem find_utp_stream_found {H : Type} (p : processor H) (s : utp_stream_key)
    (e : utp_stream_key × utp_state H) (d : dir_t)
    (h : p.find_utp_stream s = (some e, d)) : map.find p.utp_streams_ e.1 = some e.2 := by
  have key : ∀ k : utp_stream_key, ∀ it, map.find_it p.utp_streams_ k = some it →
      map.find p.utp_streams_ it.1 = some it.2 := by
    intro k it hk
    unfold map.find_it at hk
    cases hf : map.find p.utp_streams_ k with
    | none => simp [hf] at hk
    | some v => simp only [hf, Option.some.injEq] at hk; subst hk; exact hf
  unfold processor.find_utp_stream at h
  cases h1 : map.find_it p.utp_streams_ s with
  | some it =>
    simp only [h1, Prod.mk.injEq, Option.some.injEq] at h
    rw [← h.1]; exact key _ _ h1
  | none =>
    cases h2 : map.find_it p.utp_streams_ (swap_utp s 0) with
    | some it =>
      simp only [h1, h2, Prod.mk.injEq, Option.some.injEq] at h
      rw [← h.1]; exact key _ _ h2
    | none =>
      cases h3 : map.find_it p.utp_streams_ (swap_utp s 1) with
      | some it =>
        simp only [h1, h2, h3, Prod.mk.injEq, Option.some.injEq] at h
        rw [← h.1]; exact key _ _ h3
      | none =>
        cases h4 : map.find_it p.utp_streams_ (swap_utp s (-1)) with
        | some it =>
          simp only [h1, h2, h3, h4, Prod.mk.injEq, Option.some.injEq] at h
          rw [← h.1]; exact key _ _ h4
        | none => simp [h1, h2, h3, h4] at h

theorem utp_teardown_rst {H : Type} (hd : Handler H) (p : processor H) (ts : timeval)
    (T : stream_key) (hdr : utphdr) (pkt : List Nat) (e : utp_stream_key × utp_state H)
    (d : dir_t)
    (hr : p.find_utp_stream { ip := T, connid := hdr.connection_id % u16 } = (some e, d))
    (ht : hdr.get_type = ST_RESET) :
    map.find (process_utp hd p ts T hdr pkt).utp_streams_ e.1 = none
    ∧ (process_utp hd p ts T hdr pkt).destroyed_
        = p.destroyed_ ++ [hd.event e.2.handler ts socket_event_t.reset d] := by
  have h1 : ¬ ST_RESET = ST_SYN := by decide
  have h2 : ¬ ST_RESET = ST_FIN := by decide
  simp [process_utp, hr, h1, h2, ht, map.find_erase, utp_state.rst]

theorem utp_teardown_fin {H : Type} (hd : Handler H) (p : processor H) (ts : timeval)
    (T : stream_key) (hdr : utphdr) (pkt : List Nat) (e : utp_stream_key × utp_state H)
    (d : dir_t)
    (hr : p.find_utp_stream { ip := T, connid := hdr.connection_id % u16 } = (some e, d))
    (ht : hdr.get_type = ST_FIN) :
    (map.find (process_utp hd p ts T hdr pkt).utp_streams_ e.1 = none
        ↔ (e.2.state_.get (other_dir d)).closed = true)
    ∧ ((e.2.state_.get (other_dir d)).closed = true →
        (process_utp hd p ts T hdr pkt).destroyed_
          = p.destroyed_ ++ [hd.event e.2.handler ts socket_event_t.fin d])
    ∧ ((e.2.state_.get (other_dir d)).closed = false →
        map.find (process_utp hd p ts T hdr pkt).utp_streams_ e.1 = some (e.2.fin hd ts d).1
        ∧ (process_utp hd p ts T hdr pkt).destroyed_ = p.destroyed_) := by
  have h1 : ¬ ST_FIN = ST_SYN := by decide
  have h2 := find_utp_stream_found p _ e d hr
  obtain ⟨f1, -, -, f4⟩ := utp_fin_spec hd e.2 ts d
  by_cases hc : (e.2.state_.get (other_dir d)).closed = true
  · have : (e.2.fin hd ts d).2 = true := by rw [f1, hc]
    simp [process_utp, hr, h1, ht, this, map.find_erase, hc, f4]
  · have hc' : (e.2.state_.get (other_dir d)).closed = false := by simpa using hc
    have : (e.2.fin hd ts d).2 = false := by rw [f1, hc']
    simp [process_utp, hr, h1, ht, this, map.find_replace, h2, hc']

theorem other_dir_other_dir (d : dir_t) : other_dir (other_dir d) = d := by
  cases d <;> rfl


theorem tcp_two_fins {H : Type} (hd : Handler H) (p : processor H) (ts ts2 : timeval)
    (K K2 : stream_key) (hdr hdr2 : tcphdr) (pkt pkt2 : List Nat) (k : stream_key)
    (c c1 : tcp_state H) (d : dir_t)
    (hsyn : hdr.syn = false) (hfin : hdr.fin = true)
    (hsyn2 : hdr2.syn = false) (hfin2 : hdr2.fin = true)
    (hr : tcp_route p K = some ((k, c), d))
    (hopen : (c.state_.get (other_dir d)).closed = false) :
    map.find (process_tcp hd p ts K hdr pkt).tcp_streams_ k = some (c.fin hd ts d).1
    ∧ (tcp_route (process_tcp hd p ts K hdr pkt) K2 = some ((k, c1), other_dir d) →
        map.find (process_tcp hd (process_tcp hd p ts K hdr pkt) ts2 K2 hdr2 pkt2).tcp_streams_ k
          = none) := by
  have h1 := ((tcp_teardown_fin hd p ts K hdr pkt k c d hsyn hr hfin).2.2 hopen).1
  refine ⟨h1, ?_⟩
  intro hr2
  have h2 := (process_tcp_routed hd _ ts2 K2 hdr2 pkt2 hsyn2 k c1 (other_dir d) hr2).2
  rw [h1] at h2
  have hc1 : c1 = (c.fin hd ts d).1 := (Option.some.inj h2).symm
  rw [(tcp_teardown_fin hd _ ts2 K2 hdr2 pkt2 k c1 (other_dir d) hsyn2 hr2 hfin2).1,
    other_dir_other_dir, hc1]
  exact (tcp_fin_spec hd c ts d).2.1

theorem utp_two_fins {H : Type} (hd : Handler H) (p : processor H) (ts ts2 : timeval)
    (T T2 : stream_key) (hdr hdr2 : utphdr) (pkt pkt2 : List Nat)
    (e e1 : utp_stream_key × utp_state H) (d : dir_t)
    (ht : hdr.get_type = ST_FIN) (ht2 : hdr2.get_type = ST_FIN)
    (hr : p.find_utp_stream { ip := T, connid := hdr.connection_id % u16 } = (some e, d))
    (hopen : (e.2.state_.get (other_dir d)).closed = false) :
    map.find (process_utp hd p ts T hdr pkt).utp_streams_ e.1 = some (e.2.fin hd ts d).1
    ∧ ((process_utp hd p ts T hdr pkt).find_utp_stream
          { ip := T2, connid := hdr2.connection_id % u16 } = (some e1, other_dir d) →
        e1.1 = e.1 →
        map.find (process_utp hd (process_utp hd p ts T hdr pkt) ts2 T2 hdr2 pkt2).utp_streams_
          e.1 = none) := by
  have h1 := ((utp_teardown_fin hd p ts T hdr pkt e d hr ht).2.2 hopen).1
  refine ⟨h1, ?_⟩
  intro hr2 hk
  have h2 := find_utp_stream_found _ _ e1 (other_dir d) hr2
  rw [hk, h1] at h2
  have hc1 : e1.2 = (e.2.fin hd ts d).1 := (Option.some.inj h2).symm
  rw [← hk, (utp_teardown_fin hd _ ts2 T2 hdr2 pkt2 e1 (other_dir d) hr2 ht2).1,
    other_dir_other_dir, hc1]
  exact (utp_fin_spec hd e.2 ts d).2.1

/-- C10 (teardown).  For a TCP segment without SYN routed to the connection `c`
stored under `k` with direction `d`, and for a uTP packet for which
`find_utp_stream` finds the entry `e` with direction `d`:
a reset (TCP: RST set and FIN clear, FIN taking precedence in the dispatch; uTP:
`ST_RESET`) removes the connection after exactly one `reset` event was passed to
its handler; a FIN (TCP: FIN set; uTP: `ST_FIN`) removes it if and only if the
opposite direction is closed, after the `fin` event was passed, and otherwise keeps it
with direction `d` closed.  The closed flag is false in a new connection and only
`fin` sets it (`syn`, `rst` and `packet` leave it as it is).  Hence a connection
with no direction closed is retained by a first FIN and removed by a following FIN
that is routed to it with the opposite direction, whichever direction comes first. -/
theorem teardown {H : Type} (hd : Handler H) (p : processor H) (ts : timeval) :
    (∀ K hdr pkt k c d, hdr.syn = false → tcp_route p K = some ((k, c), d) →
      (hdr.fin = false → hdr.rst = true →
        map.find (process_tcp hd p ts K hdr pkt).tcp_streams_ k = none
        ∧ (process_tcp hd p ts K hdr pkt).destroyed_
            = p.destroyed_ ++ [hd.event c.handler ts socket_event_t.reset d])
      ∧ (hdr.fin = true →
        (map.find (process_tcp hd p ts K hdr pkt).tcp_streams_ k = none
            ↔ (c.state_.get (other_dir d)).closed = true)
        ∧ ((c.state_.get (other_dir d)).closed = true →
            (process_tcp hd p ts K hdr pkt).destroyed_
              = p.destroyed_ ++ [hd.event c.handler ts socket_event_t.fin d])
        ∧ ((c.state_.get (other_dir d)).closed = false →
            map.find (process_tcp hd p ts K hdr pkt).tcp_streams_ k = some (c.fin hd ts d).1
            ∧ (process_tcp hd p ts K hdr pkt).destroyed_ = p.destroyed_)))
    ∧ (∀ T hdr pkt e d,
      p.find_utp_stream { ip := T, connid := hdr.connection_id % u16 } = (some e, d) →
      (hdr.get_type = ST_RESET →
        map.find (process_utp hd p ts T hdr pkt).utp_streams_ e.1 = none
        ∧ (process_utp hd p ts T hdr pkt).destroyed_
            = p.destroyed_ ++ [hd.event e.2.handler ts socket_event_t.reset d])
      ∧ (hdr.get_type = ST_FIN →
        (map.find (process_utp hd p ts T hdr pkt).utp_streams_ e.1 = none
            ↔ (e.2.state_.get (other_dir d)).closed = true)
        ∧ ((e.2.state_.get (other_dir d)).closed = true →
            (process_utp hd p ts T hdr pkt).destroyed_
              = p.destroyed_ ++ [hd.event e.2.handler ts socket_event_t.fin d])
        ∧ ((e.2.state_.get (other_dir d)).closed = false →
            map.find (process_utp hd p ts T hdr pkt).utp_streams_ e.1
              = some (e.2.fin hd ts d).1
            ∧ (process_utp hd p ts T hdr pkt).destroyed_ = p.destroyed_)))
    ∧ (∀ (c : tcp_state H) (d : dir_t),
      (c.fin hd ts d).2 = (c.state_.get (other_dir d)).closed
      ∧ ((c.fin hd ts d).1.state_.get d).closed = true
      ∧ (c.fin hd ts d).1.state_.get (other_dir d) = c.state_.get (other_dir d)
      ∧ (c.fin hd ts d).1.handler = hd.event c.handler ts socket_event_t.fin d)
    ∧ (∀ (c : utp_state H) (d : dir_t),
      (c.fin hd ts d).2 = (c.state_.get (other_dir d)).closed
      ∧ ((c.fin hd ts d).1.state_.get d).closed = true
      ∧ (c.fin hd ts d).1.state_.get (other_dir d) = c.state_.get (other_dir d)
      ∧ (c.fin hd ts d).1.handler = hd.event c.handler ts socket_event_t.fin d)
    ∧ (∀ (c : tcp_state H) (k : stream_key) (hdr : tcphdr) (buf : List Nat) (d d' : dir_t),
      ((tcp_state.mk_ hd k).state_.get d').closed = false
      ∧ ((c.syn hdr d).state_.get d').closed = (c.state_.get d').closed
      ∧ ((c.rst hd ts d).state_.get d').closed = (c.state_.get d').closed
      ∧ ((c.packet hd ts hdr buf d).state_.get d').closed = (c.state_.get d').closed)
    ∧ (∀ (c : utp_state H) (k : utp_stream_key) (hdr : utphdr) (buf : List Nat) (d d' : dir_t),
      ((utp_state.mk_ hd k).state_.get d').closed = false
      ∧ ((c.syn hdr d).state_.get d').closed = (c.state_.get d').closed
      ∧ ((c.rst hd ts d).state_.get d').closed = (c.state_.get d').closed
      ∧ ((c.packet hd ts hdr buf d).state_.get d').closed = (c.state_.get d').closed)
    ∧ (∀ ts2 K K2 hdr hdr2 pkt pkt2 k c c1 d, hdr.syn = false → hdr.fin = true →
      hdr2.syn = false → hdr2.fin = true → tcp_route p K = some ((k, c), d) →
      (c.state_.get (other_dir d)).closed = false →
      map.find (process_tcp hd p ts K hdr pkt).tcp_streams_ k = some (c.fin hd ts d).1
      ∧ (tcp_route (process_tcp hd p ts K hdr pkt) K2 = some ((k, c1), other_dir d) →
          map.find (process_tcp hd (process_tcp hd p ts K hdr pkt) ts2 K2 hdr2
            pkt2).tcp_streams_ k = none))
    ∧ (∀ ts2 T T2 hdr hdr2 pkt pkt2 e e1 d, hdr.get_type = ST_FIN → hdr2.get_type = ST_FIN →
      p.find_utp_stream { ip := T, connid := hdr.connection_id % u16 } = (some e, d) →
      (e.2.state_.get (other_dir d)).closed = false →
      map.find (process_utp hd p ts T hdr pkt).utp_streams_ e.1 = some (e.2.fin hd ts d).1
      ∧ ((process_utp hd p ts T hdr pkt).find_utp_stream
            { ip := T2, connid := hdr2.connection_id % u16 } = (some e1, other_dir d) →
          e1.1 = e.1 →
          map.find (process_utp hd (process_utp hd p ts T hdr pkt) ts2 T2 hdr2
            pkt2).utp_streams_ e.1 = none)) := by
  refine ⟨?_, ?_, fun c d => tcp_fin_spec hd c ts d, fun c d => utp_fin_spec hd c ts d,
    ?_, ?_, ?_, ?_⟩
  · intro K hdr pkt k c d hsyn hr
    exact ⟨tcp_teardown_rst hd p ts K hdr pkt k c d hsyn hr,
      tcp_teardown_fin hd p ts K hdr pkt k c d hsyn hr⟩
  · intro T hdr pkt e d hr
    exact ⟨utp_teardown_rst hd p ts T hdr pkt e d hr, utp_teardown_fin hd p ts T hdr pkt e d hr⟩
  · intro c k hdr buf d d'
    refine ⟨by cases d' <;> rfl, ?_, rfl, tcp_packet_closed hd c ts hdr buf d d'⟩
    cases d <;> cases d' <;> rfl
  · intro c k hdr buf d d'
    refine ⟨by cases d' <;> rfl, ?_, rfl, utp_packet_closed hd c ts hdr buf d d'⟩
    cases d <;> cases d' <;> rfl
  · intro ts2 K K2 hdr hdr2 pkt pkt2 k c c1 d h1 h2 h3 h4 h5 h6
    exact tcp_two_fins hd p ts ts2 K K2 hdr hdr2 pkt pkt2 k c c1 d h1 h2 h3 h4 h5 h6
  · intro ts2 T T2 hdr hdr2 pkt pkt2 e e1 d h1 h2 h3 h4
    exact utp_two_fins hd p ts ts2 T T2 hdr hdr2 pkt pkt2 e e1 d h1 h2 h3 h4

/-- Witness for `teardown`: in `c9_proc` a FIN of the initiator keeps the connection
and closes direction `out`; the following FIN of the responder, routed to the same
connection with direction `in`, removes it. -/
theorem teardown_witness :
    tcp_route c9_proc ex_key = some ((ex_key, c9_conn), dir_t.out)
    ∧ tcp_route (process_tcp recorder c9_proc ⟨5, 0⟩ ex_key ⟨100, false, true, true, false⟩ [])
        (swap ex_key) = some ((ex_key, (c9_conn.fin recorder ⟨5, 0⟩ dir_t.out).1), dir_t.in_)
    ∧ map.find (process_tcp recorder c9_proc ⟨5, 0⟩ ex_key
        ⟨100, false, true, true, false⟩ []).tcp_streams_ ex_key
        = some (c9_conn.fin recorder ⟨5, 0⟩ dir_t.out).1
    ∧ map.find (process_tcp recorder
          (process_tcp recorder c9_proc ⟨5, 0⟩ ex_key ⟨100, false, true, true, false⟩ [])
          ⟨6, 0⟩ (swap ex_key) ⟨500, false, true, true, false⟩ []).tcp_streams_ ex_key = none :=
  ⟨by decide, by decide,
    ((teardown recorder c9_proc ⟨5, 0⟩).2.2.2.2.2.2.1 ⟨6, 0⟩ ex_key (swap ex_key)
      ⟨100, false, true, true, false⟩ ⟨500, false, true, true, false⟩ [] [] ex_key c9_conn
      (c9_conn.fin recorder ⟨5, 0⟩ dir_t.out).1 dir_t.out rfl rfl rfl rfl (by decide)
      (by decide)).1,
    ((teardown recorder c9_proc ⟨5, 0⟩).2.2.2.2.2.2.1 ⟨6, 0⟩ ex_key (swap ex_key)
      ⟨100, false, true, true, false⟩ ⟨500, false, true, true, false⟩ [] [] ex_key c9_conn
      (c9_conn.fin recorder ⟨5, 0⟩ dir_t.out).1 dir_t.out rfl rfl rfl rfl (by decide)
      (by decide)).2 (by decide)⟩


/-! ## Chunking of the slice: blocks -/

theorem ensure_buffer_error (s : bittorrent_side_state) (buf : List Nat) (n : Int) (e : fault)
    (h : ensure_buffer s buf n = Except.error e) (buf' : List Nat) (s' : bittorrent_side_state) :
    ensure_buffer s' buf' n = Except.error e := by
  unfold ensure_buffer at h ⊢
  by_cases hn : n < 0
  · simp only [hn, if_true] at h ⊢; exact h
  · simp only [hn, if_false] at h
    split at h <;> cases h

theorem ensure_buffer_append (s : bittorrent_side_state) (x y : List Nat) (n : Int)
    (s1 : bittorrent_side_state) (x1 : List Nat)
    (h : ensure_buffer s x n = Except.ok (s1, x1)) :
    (n.toNat ≤ s1.buffer_.length ∧ ensure_buffer s (x ++ y) n = Except.ok (s1, x1 ++ y))
    ∨ (s1.buffer_.length < n.toNat ∧ s1 = { s with buffer_ := s.buffer_ ++ x } ∧ x1 = []
        ∧ ensure_buffer s (x ++ y) n = ensure_buffer s1 y n) := by
  unfold ensure_buffer at h ⊢
  by_cases hn : n < 0
  · simp [hn] at h
  simp only [hn, if_false] at h ⊢
  by_cases h1 : n.toNat ≤ s.buffer_.length
  · simp only [h1, if_true, Except.ok.injEq, Prod.mk.injEq] at h ⊢
    obtain ⟨rfl, rfl⟩ := h
    exact Or.inl ⟨h1, rfl, rfl⟩
  · simp only [h1, if_false, Except.ok.injEq, Prod.mk.injEq] at h ⊢
    obtain ⟨rfl, rfl⟩ := h
    by_cases h2 : n.toNat - s.buffer_.length ≤ x.length
    · left
      have e1 : min x.length (n.toNat - s.buffer_.length) = n.toNat - s.buffer_.length :=
        Nat.min_eq_right h2
      have e2 : min (x ++ y).length (n.toNat - s.buffer_.length)
          = n.toNat - s.buffer_.length := by
        apply Nat.min_eq_right; simp; omega
      rw [e1, e2]
      refine ⟨?_, ?_, ?_⟩
      · simp [List.length_take]; omega
      · rw [List.take_append_of_le_length h2]
      · rw [List.drop_append_of_le_length h2]
    · right
      have e1 : min x.length (n.toNat - s.buffer_.length) = x.length := by
        apply Nat.min_eq_left; omega
      rw [e1]
      simp only [List.take_length, List.drop_length, List.length_append]
      refine ⟨by omega, trivial, trivial, ?_⟩
      have h3 : ¬ n.toNat ≤ s.buffer_.length + x.length := by omega
      simp only [h3, if_false, Except.ok.injEq, Prod.mk.injEq,
        bittorrent_side_state.mk.injEq, true_and, and_true]
      have e3 : min (x.length + y.length) (n.toNat - s.buffer_.length)
          = x.length + min y.length (n.toNat - (s.buffer_.length + x.length)) := by
        omega
      rw [e3]
      constructor
      · rw [List.take_append_eq_append_take, List.take_of_length_le (by omega)]
        simp
      · rw [List.drop_append_eq_append_drop, List.drop_of_length_le (by omega)]
        simp

theorem parse_bittorrent.set_of_set (P : parse_bittorrent) (d : dir_t)
    (s s' : bittorrent_side_state) : (P.set d s).set d s' = P.set d s' := by
  simp [parse_bittorrent.set, dir_array.set_set]

theorem parse_bittorrent.get_of_set (P : parse_bittorrent) (d : dir_t) (s : bittorrent_side_state) :
    (P.set d s).state_.get d = s := by
  simp [parse_bittorrent.set, dir_array.get_set]

theorem opposite_ne (d : dir_t) : opposite d ≠ d := by
  cases d <;> decide

theorem parse_bittorrent.get_set_opposite (P : parse_bittorrent) (d : dir_t)
    (s : bittorrent_side_state) : (P.set d s).state_.get (opposite d) = P.state_.get (opposite d) := by
  simp [parse_bittorrent.set, dir_array.get_set_ne _ _ _ _ (opposite_ne d)]

theorem parse_bittorrent.apply_set (P : parse_bittorrent) (d : dir_t)
    (s : bittorrent_side_state) (o : outcome) : (P.set d s).apply d o = P.apply d o := by
  simp [parse_bittorrent.set, parse_bittorrent.apply, dir_array.set_set]

theorem parse_bittorrent.written_set (P : parse_bittorrent) (d : dir_t) (ts : timeval)
    (s : bittorrent_side_state) (o : outcome) : (P.set d s).written ts d o = P.written ts d o := by
  simp [parse_bittorrent.set, parse_bittorrent.written]

theorem flow.after_nil (f : flow) : flow.after [] f = f := by
  cases f <;> simp [flow.after]

theorem flow.after_after (a b : List line) (f : flow) :
    flow.after a (flow.after b f) = flow.after (a ++ b) f := by
  cases f <;> simp [flow.after]

theorem map_after_after (a b : List line) (r : Except fault flow) :
    (r.map (flow.after b)).map (flow.after a) = r.map (flow.after (a ++ b)) := by
  cases r <;> simp [Except.map, flow.after_after]

theorem except_map_id' {ε α : Type} (r : Except ε α) (f : α → α) (h : ∀ a, f a = a) :
    r.map f = r := by
  cases r <;> simp [Except.map, h]

theorem int_of_u32_toNat (n : Nat) (h : ¬ int_of_u32 n < 0) : (int_of_u32 n).toNat = n := by
  unfold int_of_u32 at h ⊢
  split
  · simp
  · rename_i h1
    simp only [h1, if_false] at h
    omega

theorem ensure_buffer_ok_nonneg (s s1 : bittorrent_side_state) (x x1 : List Nat) (n : Int)
    (h : ensure_buffer s x n = Except.ok (s1, x1)) : ¬ n < 0 := by
  intro hn
  simp [ensure_buffer, hn] at h

theorem ensure_buffer_fields (s s1 : bittorrent_side_state) (x x1 : List Nat) (n : Int)
    (h : ensure_buffer s x n = Except.ok (s1, x1)) :
    s1.state_ = s.state_ ∧ s1.skip_ = s.skip_ := by
  unfold ensure_buffer at h
  split at h
  · cases h
  · split at h
    · cases h; exact ⟨rfl, rfl⟩
    · cases h; exact ⟨rfl, rfl⟩

theorem chunk_rel.of_error {run : parse_bittorrent → List Nat → Except fault flow} {d : dir_t}
    {G : state_t → Prop} {P : parse_bittorrent} {x y : List Nat} {e : fault}
    (e1 : run P x = Except.error e) (e2 : run P (x ++ y) = Except.error e) :
    chunk_rel run d G P x y := by
  refine ⟨?_, ?_, ?_⟩
  · intro e' h; rw [e1] at h; cases h; exact e2
  · intro Q x1 out h; rw [e1] at h; cases h
  · intro Q out h; rw [e1] at h; cases h

theorem chunk_rel.of_next {run : parse_bittorrent → List Nat → Except fault flow} {d : dir_t}
    {G : state_t → Prop} {P Q : parse_bittorrent} {x y x1 : List Nat} {out : List line}
    (e1 : run P x = Except.ok (flow.next Q x1 out))
    (e2 : run P (x ++ y) = Except.ok (flow.next Q (x1 ++ y) out)) :
    chunk_rel run d G P x y := by
  refine ⟨?_, ?_, ?_⟩
  · intro e' h; rw [e1] at h; cases h
  · intro Q x1 out h; rw [e1] at h; cases h; exact e2
  · intro Q out h; rw [e1] at h; cases h

theorem chunk_rel.of_ret {run : parse_bittorrent → List Nat → Except fault flow} {d : dir_t}
    {G : state_t → Prop} {P Q : parse_bittorrent} {x y : List Nat} {out : List line}
    (e1 : run P x = Except.ok (flow.ret Q out))
    (e2 : (Q.disabled_ = true ∧ run P (x ++ y) = Except.ok (flow.ret Q out))
      ∨ (G (Q.state_.get d).state_ ∧ Q.disabled_ = P.disabled_
        ∧ run P (x ++ y) = (run Q y).map (flow.after out))) :
    chunk_rel run d G P x y := by
  refine ⟨?_, ?_, ?_⟩
  · intro e' h; rw [e1] at h; cases h
  · intro Q x1 out h; rw [e1] at h; cases h
  · intro Q out h; rw [e1] at h; cases h; exact e2

theorem run_block_chunk (b : block) (ts : timeval) (d : dir_t) (P : parse_bittorrent)
    (x y : List Nat) :
    chunk_rel (run_block b ts d) d (fun st => b.guard st = true) P x y := by
  by_cases hg : b.guard (P.state_.get d).state_ = true
  · cases he : ensure_buffer (P.state_.get d) x (int_of_u32 (b.need (P.state_.get d).skip_)) with
    | error e =>
      have h2 := ensure_buffer_error _ _ _ _ he (x ++ y) (P.state_.get d)
      have e1 : run_block b ts d P x = Except.error e := by simp [run_block, hg, he]
      have e2 : run_block b ts d P (x ++ y) = Except.error e := by simp [run_block, hg, h2]
      exact chunk_rel.of_error e1 e2
    | ok r =>
      obtain ⟨s1, x1⟩ := r
      have hn := int_of_u32_toNat _ (ensure_buffer_ok_nonneg _ _ _ _ _ he)
      obtain ⟨hst, hsk⟩ := ensure_buffer_fields _ _ _ _ _ he
      rcases ensure_buffer_append _ x y _ s1 x1 he with ⟨h1, h2⟩ | ⟨h1, h2, h3, h4⟩
      · -- enough bytes
        rw [hn] at h1
        have h1' : ¬ s1.buffer_.length < b.need (P.state_.get d).skip_ := by omega
        cases hb : b.body P.log_.is_open s1 (P.state_.get (opposite d)) with
        | error e =>
          have e1 : run_block b ts d P x = Except.error e := by
            simp [run_block, hg, he, h1', hb]
          have e2 : run_block b ts d P (x ++ y) = Except.error e := by
            simp [run_block, hg, h2, h1', hb]
          exact chunk_rel.of_error e1 e2
        | ok o =>
          by_cases hs : o.stop = true
          · have e1 : run_block b ts d P x
                = Except.ok (flow.ret (P.apply d o) (P.written ts d o)) := by
              simp [run_block, hg, he, h1', hb, hs]
            have e2 : run_block b ts d P (x ++ y)
                = Except.ok (flow.ret (P.apply d o) (P.written ts d o)) := by
              simp [run_block, hg, h2, h1', hb, hs]
            exact chunk_rel.of_ret e1 (Or.inl ⟨by simp [parse_bittorrent.apply, hs], e2⟩)
          · have e1 : run_block b ts d P x
                = Except.ok (flow.next (P.apply d o) x1 (P.written ts d o)) := by
              simp [run_block, hg, he, h1', hb, hs]
            have e2 : run_block b ts d P (x ++ y)
                = Except.ok (flow.next (P.apply d o) (x1 ++ y) (P.written ts d o)) := by
              simp [run_block, hg, h2, h1', hb, hs]
            exact chunk_rel.of_next e1 e2
      · -- not enough bytes in `x`
        rw [hn] at h1
        have e1 : run_block b ts d P x = Except.ok (flow.ret (P.set d s1) []) := by
          simp [run_block, hg, he, h1]
        apply chunk_rel.of_ret e1
        right
        refine ⟨by rw [parse_bittorrent.get_of_set, hst]; exact hg, rfl, ?_⟩
        rw [except_map_id' _ _ flow.after_nil]
        simp only [run_block, hg, if_true, h4, parse_bittorrent.get_of_set, hst, hsk,
          parse_bittorrent.set_of_set, parse_bittorrent.apply_set, parse_bittorrent.written_set,
          parse_bittorrent.get_set_opposite]
        rfl
  · have e1 : ∀ z, run_block b ts d P z = Except.ok (flow.next P z []) := by
      intro z; simp [run_block, hg]
    exact chunk_rel.of_next (e1 x) (e1 (x ++ y))

theorem run_block_next_disabled (b : block) (ts : timeval) (d : dir_t) (P Q : parse_bittorrent)
    (x x1 : List Nat) (out : List line)
    (h : run_block b ts d P x = Except.ok (flow.next Q x1 out)) : Q.disabled_ = P.disabled_ := by
  unfold run_block at h
  split at h
  · split at h
    · cases h
    · split at h
      · cases h
      · split at h
        · cases h
        · rename_i o _
          split at h
          · cases h
          · rename_i hs
            cases h
            simp [parse_bittorrent.apply, hs]
  · cases h; rfl

theorem run_block_no_guard (b : block) (ts : timeval) (d : dir_t) (P : parse_bittorrent)
    (x : List Nat) (h : ¬ b.guard (P.state_.get d).state_ = true) :
    run_block b ts d P x = Except.ok (flow.next P x []) := by
  simp [run_block, h]

theorem run_blocks_chunk (ts : timeval) (d : dir_t) (bs : List block)
    (hdis : disjoint_guards bs) (y : List Nat) :
    ∀ (P : parse_bittorrent) (x : List Nat),
      chunk_rel (run_blocks ts d bs) d (fun st => ∃ b ∈ bs, b.guard st = true) P x y := by
  induction bs with
  | nil =>
    intro P x
    exact @chunk_rel.of_next _ _ _ P P x y x [] rfl rfl
  | cons b t ih =>
    intro P x
    have hdis' : disjoint_guards t := (List.pairwise_cons.mp hdis).2
    have hb := run_block_chunk b ts d P x y
    cases h1 : run_block b ts d P x with
    | error e =>
      have e1 : run_blocks ts d (b :: t) P x = Except.error e := by simp [run_blocks, h1]
      have e2 : run_blocks ts d (b :: t) P (x ++ y) = Except.error e := by
        simp [run_blocks, hb.err e h1]
      exact chunk_rel.of_error e1 e2
    | ok f =>
      cases f with
      | ret Q out =>
        have e1 : run_blocks ts d (b :: t) P x = Except.ok (flow.ret Q out) := by
          simp [run_blocks, h1]
        apply chunk_rel.of_ret e1
        rcases hb.ret Q out h1 with ⟨h2, h3⟩ | ⟨h2, h3, h4⟩
        · exact Or.inl ⟨h2, by simp [run_blocks, h3]⟩
        · right
          refine ⟨⟨b, List.mem_cons_self _ _, h2⟩, h3, ?_⟩
          simp only [run_blocks, h4]
          cases h5 : run_block b ts d Q y with
          | error e => simp [Except.map]
          | ok f2 =>
            cases f2 with
            | ret Q2 o2 => simp [Except.map, flow.after]
            | next Q2 r2 o2 =>
              simp only [Except.map]
              exact (map_after_after out o2 _).symm
      | next Q x1 out =>
        have h2 := hb.next Q x1 out h1
        have hi := ih hdis' Q x1
        have hQ := run_block_next_disabled b ts d P Q x x1 out h1
        cases h3 : run_blocks ts d t Q x1 with
        | error e =>
          have e1 : run_blocks ts d (b :: t) P x = Except.error e := by
            simp [run_blocks, h1, h3, Except.map]
          have e2 : run_blocks ts d (b :: t) P (x ++ y) = Except.error e := by
            simp [run_blocks, h2, hi.err e h3, Except.map]
          exact chunk_rel.of_error e1 e2
        | ok f2 =>
          cases f2 with
          | next Q2 x2 o2 =>
            have e1 : run_blocks ts d (b :: t) P x
                = Except.ok (flow.next Q2 x2 (out ++ o2)) := by
              simp [run_blocks, h1, h3, Except.map, flow.after]
            have e2 : run_blocks ts d (b :: t) P (x ++ y)
                = Except.ok (flow.next Q2 (x2 ++ y) (out ++ o2)) := by
              simp [run_blocks, h2, hi.next Q2 x2 o2 h3, Except.map, flow.after]
            exact chunk_rel.of_next e1 e2
          | ret Q2 o2 =>
            have e1 : run_blocks ts d (b :: t) P x = Except.ok (flow.ret Q2 (out ++ o2)) := by
              simp [run_blocks, h1, h3, Except.map, flow.after]
            apply chunk_rel.of_ret e1
            rcases hi.ret Q2 o2 h3 with ⟨h4, h5⟩ | ⟨⟨b', hb', hg'⟩, h5, h6⟩
            · exact Or.inl ⟨h4, by simp [run_blocks, h2, h5, Except.map, flow.after]⟩
            · right
              refine ⟨⟨b', List.mem_cons_of_mem _ hb', hg'⟩, by rw [h5, hQ], ?_⟩
              have hng : ¬ b.guard (Q2.state_.get d).state_ = true := by
                intro hbg
                exact (List.pairwise_cons.mp hdis).1 b' hb' _ ⟨hbg, hg'⟩
              have e3 : run_blocks ts d (b :: t) Q2 y = run_blocks ts d t Q2 y := by
                simp only [run_blocks, run_block_no_guard b ts d Q2 y hng]
                exact except_map_id' _ _ flow.after_nil
              rw [e3]
              simp only [run_blocks, h2, h6]
              exact map_after_after out o2 _


/-! ## The blocks, one by one -/

theorem check_zero_spec (s : bittorrent_side_state) :
    (check_zero s).2.buffer_ = s.buffer_
    ∧ ((check_zero s).2.state_ = state_t.length ∨ (check_zero s).2.state_ = state_t.skip) := by
  unfold check_zero
  split <;> simp

theorem check_zero_fwd (X : bittorrent_side_state) (l : List entry) (r : Nat) (hr : r < 13)
    (hX : X.buffer_ = []) :
    ({ lines := l, s := (check_zero X).2 } : outcome).s.buffer_ = []
    ∧ (({ lines := l, s := (check_zero X).2 } : outcome).s.state_ = state_t.length
      ∨ r < rank ({ lines := l, s := (check_zero X).2 } : outcome).s.state_) := by
  obtain ⟨h1, h2⟩ := check_zero_spec X
  refine ⟨by rw [h1, hX], ?_⟩
  rcases h2 with h | h
  · exact Or.inl h
  · right
    show r < rank (check_zero X).2.state_
    rw [h]; exact hr

theorem read_u32_no_div (b : List Nat) : read_u32 b ≠ Except.error fault.diverges := by
  unfold read_u32; split <;> simp

theorem read_u16_no_div (b : List Nat) : read_u16 b ≠ Except.error fault.diverges := by
  unfold read_u16; split <;> simp

theorem protocol_block_ok : block_ok protocol_block 0 := by
  refine ⟨?_, ?_, ?_, ?_, ?_⟩
  · intro st; cases st <;> decide
  · intro io s other o hg h hs
    simp only [protocol_block] at h
    split at h
    · cases h; simp at hs
    · cases h; simp [rank]
  · intro h; omega
  · intro io s other
    simp only [protocol_block]
    split <;> (intro h; cases h)
  · intro h; omega

theorem reserved_block_ok : block_ok reserved_block 1 := by
  refine ⟨?_, ?_, ?_, ?_, ?_⟩
  · intro st; cases st <;> decide
  · intro io s other o hg h hs
    simp only [reserved_block] at h
    cases h; simp [rank]
  · intro h; omega
  · intro io s other h; simp only [reserved_block] at h; cases h
  · intro h; omega

theorem info_hash_block_ok : block_ok info_hash_block 2 := by
  refine ⟨?_, ?_, ?_, ?_, ?_⟩
  · intro st; cases st <;> decide
  · intro io s other o hg h hs
    simp only [info_hash_block] at h
    cases h; simp [rank]
  · intro h; omega
  · intro io s other h; simp only [info_hash_block] at h; cases h
  · intro h; omega

theorem peer_id_block_ok : block_ok peer_id_block 3 := by
  refine ⟨?_, ?_, ?_, ?_, ?_⟩
  · intro st; cases st <;> decide
  · intro io s other o hg h hs
    simp only [peer_id_block] at h
    cases h; simp [rank]
  · intro h; omega
  · intro io s other h; simp only [peer_id_block] at h; cases h
  · intro h; omega

theorem length_block_ok : block_ok length_block 4 := by
  refine ⟨?_, ?_, ?_, ?_, ?_⟩
  · intro st; cases st <;> decide
  · intro io s other o hg h hs
    simp only [length_block] at h
    simp only [length_block, decide_eq_true_eq] at hg
    split at h
    · cases h
    · split at h <;> cases h <;> simp [rank, hg]
  · intro _ io s other o h
    simp only [length_block] at h
    split at h
    · cases h
    · split at h <;> cases h <;> rfl
  · intro io s other
    simp only [length_block]
    have := read_u32_no_div s.buffer_
    split
    · rename_i e he; intro h; cases h; exact this he
    · split <;> (intro h; cases h)
  · intro _ k; simp [length_block]

theorem msg_switch_spec (s : bittorrent_side_state) (msg : Nat) :
    (msg_switch s msg).2.buffer_ = s.buffer_
    ∧ ((msg_switch s msg).2.state_ = state_t.length ∨ 5 < rank (msg_switch s msg).2.state_) := by
  have hc := check_zero_spec s
  unfold msg_switch
  split <;> simp [rank] <;> first
    | (rcases hc.2 with h | h <;> simp [hc.1, h, rank])
    | skip

theorem msg_switch_fwd (X : bittorrent_side_state) (msg : Nat) (hX : X.buffer_ = []) :
    ({ lines := (msg_switch X msg).1, s := (msg_switch X msg).2 } : outcome).s.buffer_ = []
    ∧ (({ lines := (msg_switch X msg).1, s := (msg_switch X msg).2 } : outcome).s.state_
        = state_t.length
      ∨ 5 < rank ({ lines := (msg_switch X msg).1,
                    s := (msg_switch X msg).2 } : outcome).s.state_) := by
  obtain ⟨h1, h2⟩ := msg_switch_spec X msg
  exact ⟨by rw [h1, hX], h2⟩

theorem msg_block_ok : block_ok msg_block 5 := by
  refine ⟨?_, ?_, ?_, ?_, ?_⟩
  · intro st; cases st <;> decide
  · intro io s other o hg h hs
    simp only [msg_block] at h
    cases h
    exact msg_switch_fwd _ _ rfl
  · intro _ io s other o h
    simp only [msg_block] at h
    cases h; rfl
  · intro io s other h; simp only [msg_block] at h; cases h
  · intro h; omega

theorem have_block_ok : block_ok have_block 6 := by
  refine ⟨?_, ?_, ?_, ?_, ?_⟩
  · intro st; cases st <;> decide
  · intro io s other o hg h hs
    simp only [have_block] at h
    split at h
    · cases h
    · cases h
      exact check_zero_fwd _ _ 6 (by decide) rfl
  · intro _ io s other o h
    simp only [have_block] at h
    split at h <;> cases h; rfl
  · intro io s other
    simp only [have_block]
    have := read_u32_no_div s.buffer_
    split
    · rename_i e he; intro h; cases h; exact this he
    · intro h; cases h
  · intro h; omega

theorem extension_block_ok : block_ok extension_block 7 := by
  refine ⟨?_, ?_, ?_, ?_, ?_⟩
  · intro st; cases st <;> decide
  · intro io s other o hg h hs
    simp only [extension_block] at h
    split at h <;> cases h <;> simp [rank]
  · intro _ io s other o h
    simp only [extension_block] at h
    split at h <;> cases h <;> rfl
  · intro io s other
    simp only [extension_block]
    split <;> (intro h; cases h)
  · intro h; omega

theorem extension_handshake_block_ok (bd : bdecode_fn) :
    block_ok (extension_handshake_block bd) 8 := by
  refine ⟨?_, ?_, ?_, ?_, ?_⟩
  · intro st; cases st <;> simp [extension_handshake_block, rank]
  · intro io s other o hg h hs
    simp only [extension_handshake_block] at h
    cases h; simp [rank]
  · intro _ io s other o h
    simp only [extension_handshake_block] at h
    cases h; rfl
  · intro io s other h; simp only [extension_handshake_block] at h; cases h
  · intro h; omega

theorem request_block_ok : block_ok request_block 9 := by
  refine ⟨?_, ?_, ?_, ?_, ?_⟩
  · intro st; cases st <;> decide
  · intro io s other o hg h hs
    simp only [request_block] at h
    split at h
    · cases h
      exact check_zero_fwd _ _ 9 (by decide) rfl
    · cases h
  · intro _ io s other o h
    simp only [request_block] at h
    split at h <;> cases h; rfl
  · intro io s other
    simp only [request_block]
    split <;> (intro h; cases h)
  · intro h; omega

theorem piece_block_ok : block_ok piece_block 10 := by
  refine ⟨?_, ?_, ?_, ?_, ?_⟩
  · intro st; cases st <;> decide
  · intro io s other o hg h hs
    simp only [piece_block] at h
    split at h <;> cases h; simp [rank]
  · intro _ io s other o h
    simp only [piece_block] at h
    split at h <;> cases h; rfl
  · intro io s other
    simp only [piece_block]
    split <;> (intro h; cases h)
  · intro h; omega

theorem dht_port_block_ok : block_ok dht_port_block 11 := by
  refine ⟨?_, ?_, ?_, ?_, ?_⟩
  · intro st; cases st <;> decide
  · intro io s other o hg h hs
    simp only [dht_port_block] at h
    split at h
    · cases h
    · cases h
      exact check_zero_fwd _ _ 11 (by decide) rfl
  · intro _ io s other o h
    simp only [dht_port_block] at h
    split at h <;> cases h; rfl
  · intro io s other
    simp only [dht_port_block]
    have := read_u16_no_div s.buffer_
    split
    · rename_i e he; intro h; cases h; exact this he
    · intro h; cases h
  · intro h; omega

theorem bitfield_block_ok : block_ok bitfield_block 12 := by
  refine ⟨?_, ?_, ?_, ?_, ?_⟩
  · intro st; cases st <;> decide
  · intro io s other o hg h hs
    simp only [bitfield_block] at h
    cases h; simp [rank]
  · intro _ io s other o h
    simp only [bitfield_block] at h
    cases h; rfl
  · intro io s other h; simp only [bitfield_block] at h; cases h
  · intro h; omega

theorem handshake_blocks_ranked : ranked handshake_blocks 0 :=
  ⟨protocol_block_ok, reserved_block_ok, info_hash_block_ok, peer_id_block_ok, trivial⟩

theorem message_blocks_ranked (bd : bdecode_fn) : ranked (message_blocks bd) 4 :=
  ⟨length_block_ok, msg_block_ok, have_block_ok, extension_block_ok,
    extension_handshake_block_ok bd, request_block_ok, piece_block_ok, dht_port_block_ok,
    bitfield_block_ok, trivial⟩


/-! ## Progress of the message loop -/

theorem parse_bittorrent.apply_get (P : parse_bittorrent) (d : dir_t) (o : outcome) :
    (P.apply d o).state_.get d = o.s := by
  simp [parse_bittorrent.apply, dir_array.get_set]

theorem ensure_buffer_rest (s s1 : bittorrent_side_state) (buf rest : List Nat) (n : Int)
    (h : ensure_buffer s buf n = Except.ok (s1, rest)) :
    rest.length ≤ buf.length
    ∧ (rest.length = buf.length →
        rest = buf ∧ (n.toNat ≤ s.buffer_.length ∨ s1.buffer_.length < n.toNat)) := by
  unfold ensure_buffer at h
  split at h
  · cases h
  · split at h
    · rename_i h1
      cases h
      exact ⟨Nat.le_refl _, fun _ => ⟨rfl, Or.inl h1⟩⟩
    · rename_i h1
      cases h
      refine ⟨by simp, ?_⟩
      intro h2
      simp only [List.length_drop] at h2
      have h3 : min buf.length (n.toNat - s.buffer_.length) = 0 := by omega
      rw [h3]
      refine ⟨by simp, Or.inr ?_⟩
      simp
      omega

theorem run_block_next (b : block) (r : Nat) (hok : block_ok b r) (ts : timeval) (d : dir_t)
    (P Q : parse_bittorrent) (buf rest : List Nat) (out : List line)
    (h : run_block b ts d P buf = Except.ok (flow.next Q rest out)) :
    (b.guard (P.state_.get d).state_ = false ∧ Q = P ∧ rest = buf ∧ out = [])
    ∨ (b.guard (P.state_.get d).state_ = true ∧ rest.length ≤ buf.length
        ∧ (Q.state_.get d).buffer_ = []
        ∧ ((Q.state_.get d).state_ = state_t.length ∨ r < rank (Q.state_.get d).state_)
        ∧ (rest.length = buf.length →
            rest = buf ∧ b.need (P.state_.get d).skip_ ≤ (P.state_.get d).buffer_.length)) := by
  by_cases hg : b.guard (P.state_.get d).state_ = true
  · right
    unfold run_block at h
    simp only [hg, if_true] at h
    split at h
    · cases h
    · rename_i s1 rest1 he
      have hn := int_of_u32_toNat _ (ensure_buffer_ok_nonneg _ _ _ _ _ he)
      obtain ⟨hst, hsk⟩ := ensure_buffer_fields _ _ _ _ _ he
      obtain ⟨hr1, hr2⟩ := ensure_buffer_rest _ _ _ _ _ he
      split at h
      · cases h
      · rename_i hlen
        split at h
        · cases h
        · rename_i o hb
          split at h
          · cases h
          · rename_i hs
            cases h
            have hs' : o.stop = false := by simpa using hs
            obtain ⟨f1, f2⟩ := hok.fwd _ _ _ _ (by rw [hst]; exact hg) hb hs'
            rw [parse_bittorrent.apply_get]
            refine ⟨hg, hr1, f1, f2, ?_⟩
            intro hl
            obtain ⟨h1, h2⟩ := hr2 hl
            refine ⟨h1, ?_⟩
            rw [hn] at h2
            rcases h2 with h2 | h2
            · exact h2
            · exact absurd h2 hlen
  · left
    have hg' : b.guard (P.state_.get d).state_ = false := by simpa using hg
    rw [run_block_no_guard b ts d P buf hg] at h
    cases h
    exact ⟨hg', rfl, rfl, rfl⟩

theorem ranked_guard (bs : List block) :
    ∀ r, ranked bs r → ∀ b ∈ bs, ∀ st, b.guard st = true → r ≤ rank st ∧ rank st < r + bs.length := by
  induction bs with
  | nil => intro r _ b hb; simp at hb
  | cons a t ih =>
    intro r hr b hb st hg
    rcases List.mem_cons.mp hb with h | h
    · subst h
      have := (hr.1.guard_iff st).mp hg
      simp only [List.length_cons]; omega
    · have := ih (r + 1) hr.2 b h st hg
      simp only [List.length_cons]; omega

theorem ranked_covers (bs : List block) :
    ∀ r, ranked bs r → ∀ st, r ≤ rank st → rank st < r + bs.length →
      ∃ b ∈ bs, b.guard st = true := by
  induction bs with
  | nil => intro r _ st h1 h2; simp at h2; omega
  | cons a t ih =>
    intro r hr st h1 h2
    by_cases h : rank st = r
    · exact ⟨a, List.mem_cons_self _ _, (hr.1.guard_iff st).mpr h⟩
    · obtain ⟨b, hb, hg⟩ := ih (r + 1) hr.2 st (by omega) (by simp only [List.length_cons] at h2; omega)
      exact ⟨b, List.mem_cons_of_mem _ hb, hg⟩

theorem ranked_disjoint (bs : List block) : ∀ r, ranked bs r → disjoint_guards bs := by
  induction bs with
  | nil => intro r _; exact List.Pairwise.nil
  | cons a t ih =>
    intro r hr
    refine List.Pairwise.cons ?_ (ih (r + 1) hr.2)
    intro b hb st ⟨h1, h2⟩
    have e1 := (hr.1.guard_iff st).mp h1
    have e2 := ranked_guard t (r + 1) hr.2 b hb st h2
    omega

theorem run_blocks_no_guard (ts : timeval) (d : dir_t) (bs : List block) (P : parse_bittorrent)
    (buf : List Nat) (h : ∀ b ∈ bs, ¬ b.guard (P.state_.get d).state_ = true) :
    run_blocks ts d bs P buf = Except.ok (flow.next P buf []) := by
  induction bs with
  | nil => rfl
  | cons a t ih =>
    simp only [run_blocks, run_block_no_guard a ts d P buf (h a (List.mem_cons_self _ _))]
    rw [ih (fun b hb => h b (List.mem_cons_of_mem _ hb))]
    rfl

theorem run_blocks_progress (ts : timeval) (d : dir_t) (bs : List block) :
    ∀ r, ranked bs r → r + bs.length ≤ 13 →
    ∀ (P Q : parse_bittorrent) (buf rest : List Nat) (out : List line),
      run_blocks ts d bs P buf = Except.ok (flow.next Q rest out) →
      rest.length < buf.length
      ∨ (rest = buf ∧ Q = P ∧ out = [] ∧ ∀ b ∈ bs, ¬ b.guard (P.state_.get d).state_ = true)
      ∨ (rest = buf ∧ (Q.state_.get d).buffer_ = []
          ∧ ((Q.state_.get d).state_ = state_t.length
            ∨ r + bs.length ≤ rank (Q.state_.get d).state_)
          ∧ nonidle (P.state_.get d)) := by
  induction bs with
  | nil =>
    intro r _ _ P Q buf rest out h
    simp only [run_blocks] at h
    cases h
    exact Or.inr (Or.inl ⟨rfl, rfl, rfl, fun b hb => by simp at hb⟩)
  | cons a t ih =>
    intro r hr h13 P Q buf rest out h
    simp only [List.length_cons] at h13
    simp only [run_blocks] at h
    cases h1 : run_block a ts d P buf with
    | error e => simp [h1] at h
    | ok f =>
      cases f with
      | ret Q1 o1 => simp [h1] at h
      | next Q1 rest1 o1 =>
        simp only [h1] at h
        cases h2 : run_blocks ts d t Q1 rest1 with
        | error e => simp [h2, Except.map] at h
        | ok f2 =>
          cases f2 with
          | ret Q2 o2 => simp [h2, Except.map, flow.after] at h
          | next Q2 rest2 o2 =>
            simp only [h2, Except.map, flow.after, Except.ok.injEq, flow.next.injEq] at h
            obtain ⟨rfl, rfl, rfl⟩ := h
            have hi := ih (r + 1) hr.2 (by omega) Q1 Q2 rest1 rest2 o2 h2
            have hlen2 : rest2.length ≤ rest1.length := by
              rcases hi with h | ⟨h, _⟩ | ⟨h, _⟩
              · omega
              · rw [h]
              · rw [h]
            rcases run_block_next a r hr.1 ts d P Q1 buf rest1 o1 h1 with
              ⟨hg, rfl, rfl, rfl⟩ | ⟨hg, hl, hb, hs, hz⟩
            · -- the block is not for this state
              rcases hi with h | ⟨k1, k2, k3, k4⟩ | ⟨k1, k2, k3, k4⟩
              · exact Or.inl h
              · refine Or.inr (Or.inl ⟨k1, k2, by simp [k3], ?_⟩)
                intro b hb
                rcases List.mem_cons.mp hb with h | h
                · rw [h]; simp [hg]
                · exact k4 b h
              · refine Or.inr (Or.inr ⟨k1, k2, ?_, k4⟩)
                simp only [List.length_cons]
                rcases k3 with h | h
                · exact Or.inl h
                · exact Or.inr (by omega)
            · -- the block is for this state
              by_cases hc : rest1.length = buf.length
              · obtain ⟨rfl, hfull⟩ := hz hc
                have hrank := (hr.1.guard_iff _).mp hg
                have hni : nonidle (P.state_.get d) := by
                  constructor
                  · intro hsk
                    rw [hsk] at hrank
                    simp only [rank] at hrank
                    omega
                  · intro ⟨hl1, hl2⟩
                    rw [hl1] at hrank
                    simp only [rank] at hrank
                    have := hr.1.need_length hrank.symm (P.state_.get d).skip_
                    rw [hl2] at hfull
                    simp at hfull
                    omega
                rcases hi with h | ⟨k1, k2, k3, k4⟩ | ⟨k1, k2, k3, k4⟩
                · exact Or.inl h
                · subst k1; subst k2
                  refine Or.inr (Or.inr ⟨rfl, hb, ?_, hni⟩)
                  rcases hs with h | h
                  · exact Or.inl h
                  · right
                    simp only [List.length_cons]
                    by_contra hcon
                    obtain ⟨b, hb', hg'⟩ := ranked_covers t (r + 1) hr.2 (Q2.state_.get d).state_
                      (by omega) (by omega)
                    exact k4 b hb' hg'
                · subst k1
                  refine Or.inr (Or.inr ⟨rfl, k2, ?_, hni⟩)
                  simp only [List.length_cons]
                  rcases k3 with h | h
                  · exact Or.inl h
                  · exact Or.inr (by omega)
              · left; omega


/-! ## The message loop ends -/

theorem run_block_keeps (b : block) (r : Nat) (hok : block_ok b r) (h4 : 4 ≤ r)
    (ts : timeval) (d : dir_t) (P : parse_bittorrent) (buf : List Nat)
    (hP : 4 ≤ rank (P.state_.get d).state_) :
    run_block b ts d P buf ≠ Except.error fault.diverges
    ∧ ∀ f, run_block b ts d P buf = Except.ok f →
        4 ≤ rank (f.state.state_.get d).state_ ∧ f.state.disabled_ = P.disabled_ := by
  by_cases hg : b.guard (P.state_.get d).state_ = true
  · unfold run_block
    simp only [hg, if_true]
    split
    · rename_i e he
      refine ⟨?_, fun f h => by cases h⟩
      intro h
      cases h
      unfold ensure_buffer at he
      split at he
      · cases he
      · split at he <;> cases he
    · rename_i s1 rest1 he
      obtain ⟨hst, hsk⟩ := ensure_buffer_fields _ _ _ _ _ he
      split
      · refine ⟨fun h => (by cases h), ?_⟩
        intro f h
        cases h
        simp only [flow.state, parse_bittorrent.get_of_set, hst]
        exact ⟨hP, rfl⟩
      · split
        · rename_i e hb
          refine ⟨?_, fun f h => by cases h⟩
          intro h
          cases h
          exact hok.no_div _ _ _ hb
        · rename_i o hb
          have hs := hok.nostop h4 _ _ _ _ hb
          obtain ⟨f1, f2⟩ := hok.fwd _ _ _ _ (by rw [hst]; exact hg) hb hs
          simp only [hs, Bool.false_eq_true, if_false]
          refine ⟨fun h => (by cases h), ?_⟩
          intro f h
          cases h
          simp only [flow.state, parse_bittorrent.apply_get]
          refine ⟨?_, by simp [parse_bittorrent.apply, hs]⟩
          rcases f2 with h | h
          · rw [h]; decide
          · omega
  · rw [run_block_no_guard b ts d P buf hg]
    refine ⟨fun h => (by cases h), ?_⟩
    intro f h
    cases h
    exact ⟨hP, rfl⟩

theorem run_blocks_keeps (ts : timeval) (d : dir_t) (bs : List block) :
    ∀ r, ranked bs r → 4 ≤ r → ∀ (P : parse_bittorrent) (buf : List Nat),
      4 ≤ rank (P.state_.get d).state_ →
      run_blocks ts d bs P buf ≠ Except.error fault.diverges
      ∧ ∀ f, run_blocks ts d bs P buf = Except.ok f →
          4 ≤ rank (f.state.state_.get d).state_ ∧ f.state.disabled_ = P.disabled_ := by
  induction bs with
  | nil =>
    intro r _ _ P buf hP
    refine ⟨fun h => (by cases h), ?_⟩
    intro f h
    cases h
    exact ⟨hP, rfl⟩
  | cons a t ih =>
    intro r hr h4 P buf hP
    obtain ⟨k1, k2⟩ := run_block_keeps a r hr.1 h4 ts d P buf hP
    simp only [run_blocks]
    cases h1 : run_block a ts d P buf with
    | error e =>
      refine ⟨?_, fun f h => by cases h⟩
      intro h
      cases h
      exact k1 h1
    | ok f1 =>
      obtain ⟨k3, k4⟩ := k2 f1 h1
      cases f1 with
      | ret Q1 o1 =>
        refine ⟨fun h => (by cases h), ?_⟩
        intro f h
        cases h
        exact ⟨k3, k4⟩
      | next Q1 rest1 o1 =>
        simp only [flow.state] at k3 k4
        obtain ⟨j1, j2⟩ := ih (r + 1) hr.2 (by omega) Q1 rest1 k3
        cases h2 : run_blocks ts d t Q1 rest1 with
        | error e =>
          simp only [h2, Except.map]
          refine ⟨?_, fun f h => by cases h⟩
          intro h
          cases h
          exact j1 h2
        | ok f2 =>
          obtain ⟨j3, j4⟩ := j2 f2 h2
          simp only [h2, Except.map]
          refine ⟨fun h => (by cases h), ?_⟩
          intro f h
          cases h
          cases f2 with
          | ret Q2 o2 => exact ⟨j3, j4.trans k4⟩
          | next Q2 rest2 o2 => exact ⟨j3, j4.trans k4⟩

theorem rank_skip (st : state_t) (h : 13 ≤ rank st) : st = state_t.skip := by
  cases st <;> simp [rank] at h ⊢

theorem idle_le (s : bittorrent_side_state) : idle s ≤ 2 := by
  unfold idle
  split
  · exact Nat.le_refl _
  · split <;> omega

theorem skip_block_other (ts : timeval) (d : dir_t) (Q : parse_bittorrent) (buf : List Nat)
    (h : (Q.state_.get d).state_ ≠ state_t.skip) : skip_block ts d Q buf = (Q, buf, []) := by
  simp [skip_block, h]

theorem skip_block_keeps (ts : timeval) (d : dir_t) (Q : parse_bittorrent) (buf : List Nat)
    (h4 : 4 ≤ rank (Q.state_.get d).state_) :
    4 ≤ rank ((skip_block ts d Q buf).1.state_.get d).state_
    ∧ (skip_block ts d Q buf).1.disabled_ = Q.disabled_
    ∧ (skip_block ts d Q buf).2.1.length ≤ buf.length := by
  unfold skip_block
  split
  · simp only [parse_bittorrent.apply_get]
    refine ⟨?_, by simp [parse_bittorrent.apply], by simp [skip_step]⟩
    rename_i hs
    simp only [skip_step, hs]
    split <;> simp [rank]
  · exact ⟨h4, rfl, Nat.le_refl _⟩

theorem skip_block_skip (ts : timeval) (d : dir_t) (Q : parse_bittorrent) (buf : List Nat)
    (hb : buf ≠ []) (hs : (Q.state_.get d).state_ = state_t.skip) :
    (skip_block ts d Q buf).2.1.length < buf.length
    ∨ ((skip_block ts d Q buf).2.1 = buf
        ∧ ((skip_block ts d Q buf).1.state_.get d).state_ = state_t.length
        ∧ ((skip_block ts d Q buf).1.state_.get d).buffer_ = (Q.state_.get d).buffer_) := by
  have hl : 0 < buf.length := List.length_pos.mpr hb
  simp only [skip_block, hs, if_true, parse_bittorrent.apply_get, skip_step]
  by_cases h0 : (Q.state_.get d).skip_ = 0
  · right
    simp [h0]
  · left
    simp only [List.length_drop]
    omega

theorem loop_iter_decreases (bd : bdecode_fn) (ts : timeval) (d : dir_t)
    (P Q : parse_bittorrent) (buf rest : List Nat) (out : List line)
    (hb : rest ≠ []) (h4 : 4 ≤ rank (P.state_.get d).state_)
    (h : run_blocks ts d (message_blocks bd) P buf = Except.ok (flow.next Q rest out)) :
    3 * (skip_block ts d Q rest).2.1.length + idle ((skip_block ts d Q rest).1.state_.get d)
      < 3 * buf.length + idle (P.state_.get d) := by
  have hQ := ((run_blocks_keeps ts d _ 4 (message_blocks_ranked bd) (Nat.le_refl _) P buf h4).2
    _ h).1
  simp only [flow.state] at hQ
  obtain ⟨s1, s2, s3⟩ := skip_block_keeps ts d Q rest hQ
  have hi := idle_le ((skip_block ts d Q rest).1.state_.get d)
  rcases run_blocks_progress ts d _ 4 (message_blocks_ranked bd) (by simp [message_blocks])
      P Q buf rest out h
    with k | ⟨k1, k2, k3, k4⟩ | ⟨k1, k2, k3, k4⟩
  · omega
  · subst k1; subst k2
    have hs : (Q.state_.get d).state_ = state_t.skip := by
      apply rank_skip
      by_contra hc
      obtain ⟨b, hb', hg⟩ := ranked_covers _ 4 (message_blocks_ranked bd) (Q.state_.get d).state_
        h4 (by simp only [message_blocks, List.length_cons, List.length_nil]; omega)
      exact k4 b hb' hg
    have hidle : idle (Q.state_.get d) = 2 := by simp [idle, hs]
    rcases skip_block_skip ts d Q rest hb hs with j | ⟨j1, j2, j3⟩
    · omega
    · have : idle ((skip_block ts d Q rest).1.state_.get d) ≤ 1 := by
        unfold idle
        rw [j2]
        simp only [reduceCtorEq, if_false]
        split <;> omega
      rw [j1]
      omega
  · subst k1
    have hidle : idle (P.state_.get d) = 1 := by
      unfold idle
      rw [if_neg k4.1, if_neg k4.2]
    rcases k3 with k3 | k3
    · have hns : (Q.state_.get d).state_ ≠ state_t.skip := by rw [k3]; decide
      rw [skip_block_other ts d Q rest hns]
      have : idle (Q.state_.get d) = 0 := by simp [idle, k3, k2]
      simp only
      omega
    · have hs := rank_skip _ (by simpa [message_blocks] using k3)
      rcases skip_block_skip ts d Q rest hb hs with j | ⟨j1, j2, j3⟩
      · omega
      · have : idle ((skip_block ts d Q rest).1.state_.get d) = 0 := by
          simp [idle, j2, j3, k2]
        rw [j1]
        omega

theorem result.after_ne_diverges (o : List line) (r : result)
    (h : r ≠ Except.error fault.diverges) : result.after o r ≠ Except.error fault.diverges := by
  cases r with
  | error e => simpa [result.after, Except.map] using h
  | ok x => simp [result.after, Except.map]

theorem message_loop_ends (bd : bdecode_fn) (ts : timeval) (d : dir_t) :
    ∀ (fuel : Nat) (P : parse_bittorrent) (buf : List Nat),
      4 ≤ rank (P.state_.get d).state_ → 3 * buf.length + idle (P.state_.get d) ≤ fuel →
      message_loop bd ts d fuel P buf ≠ Except.error fault.diverges := by
  intro fuel
  induction fuel with
  | zero =>
    intro P buf _ h
    cases buf with
    | nil => simp [message_loop]
    | cons a t => simp at h
  | succ f ih =>
    intro P buf h4 h
    cases buf with
    | nil => simp [message_loop]
    | cons a t =>
      obtain ⟨k1, k2⟩ := run_blocks_keeps ts d _ 4 (message_blocks_ranked bd) (Nat.le_refl _)
        P (a :: t) h4
      simp only [message_loop]
      cases h1 : run_blocks ts d (message_blocks bd) P (a :: t) with
      | error e =>
        intro hc
        cases hc
        exact k1 h1
      | ok fl =>
        cases fl with
        | ret Q out => simp
        | next Q rest out =>
          cases rest with
          | nil => simp
          | cons b rest =>
            simp only
            have hd := loop_iter_decreases bd ts d P Q (a :: t) (b :: rest) out (by simp) h4 h1
            have hQ := (k2 _ h1).1
            simp only [flow.state] at hQ
            apply result.after_ne_diverges
            apply ih
            · exact (skip_block_keeps ts d Q (b :: rest) hQ).1
            · omega

theorem message_loop_fuel_succ (bd : bdecode_fn) (ts : timeval) (d : dir_t) :
    ∀ (fuel : Nat) (P : parse_bittorrent) (buf : List Nat),
      message_loop bd ts d fuel P buf ≠ Except.error fault.diverges →
      message_loop bd ts d (fuel + 1) P buf = message_loop bd ts d fuel P buf := by
  intro fuel
  induction fuel with
  | zero =>
    intro P buf h
    cases buf with
    | nil => simp [message_loop]
    | cons a t => simp [message_loop] at h
  | succ f ih =>
    intro P buf h
    cases buf with
    | nil => simp [message_loop]
    | cons a t =>
      simp only [message_loop] at h ⊢
      cases h1 : run_blocks ts d (message_blocks bd) P (a :: t) with
      | error e => rfl
      | ok fl =>
        cases fl with
        | ret Q out => rfl
        | next Q rest out =>
          cases rest with
          | nil => rfl
          | cons b rest =>
            rw [h1] at h
            simp only at h ⊢
            rw [ih]
            intro hc
            rw [hc] at h
            exact h rfl

theorem message_loop_fuel_le (bd : bdecode_fn) (ts : timeval) (d : dir_t) (P : parse_bittorrent)
    (buf : List Nat) (f : Nat)
    (h : message_loop bd ts d f P buf ≠ Except.error fault.diverges) :
    ∀ g, f ≤ g → message_loop bd ts d g P buf = message_loop bd ts d f P buf := by
  intro g hg
  induction hg with
  | refl => rfl
  | step _ ih =>
    rw [message_loop_fuel_succ bd ts d _ P buf (by rw [ih]; exact h), ih]

theorem message_loop_fuel (bd : bdecode_fn) (ts : timeval) (d : dir_t) (P : parse_bittorrent)
    (buf : List Nat) (f g : Nat) (h4 : 4 ≤ rank (P.state_.get d).state_)
    (hf : 3 * buf.length + idle (P.state_.get d) ≤ f)
    (hg : 3 * buf.length + idle (P.state_.get d) ≤ g) :
    message_loop bd ts d f P buf = message_loop bd ts d g P buf := by
  have e := message_loop_ends bd ts d _ P buf h4 (Nat.le_refl _)
  rw [message_loop_fuel_le bd ts d P buf _ e f hf, message_loop_fuel_le bd ts d P buf _ e g hg]


/-! ## Chunking of the slice: the message loop -/

theorem result.after_empty (r : result) : result.after [] r = r := by
  cases r <;> simp [result.after, Except.map]

theorem result.after_append (o1 o2 : List line) (r : result) :
    result.after o1 (result.after o2 r) = result.after (o1 ++ o2) r := by
  cases r <;> simp [result.after, Except.map]

theorem message_lines_append (a b : List line) :
    message_lines (a ++ b) = message_lines a ++ message_lines b := by
  simp [message_lines]

theorem result.messages_after (o : List line) (r : result) :
    (result.after o r).messages = result.after (message_lines o) r.messages := by
  cases r <;> simp [result.after, result.messages, Except.map, message_lines_append]

theorem result.and_then_after (o : List line) (r : result) (k : parse_bittorrent → result) :
    (result.after o r).and_then k = result.after o (r.and_then k) := by
  cases r with
  | error e => rfl
  | ok x =>
    simp only [result.after, result.and_then, Except.map]
    cases k x.1 <;> simp

theorem result.and_then_congr (r : result) (k1 k2 : parse_bittorrent → result)
    (h : ∀ Q o, r = Except.ok (Q, o) → k1 Q = k2 Q) : r.and_then k1 = r.and_then k2 := by
  cases r with
  | error e => rfl
  | ok x => simp only [result.and_then]; rw [h x.1 x.2 rfl]

theorem written_progress (P : parse_bittorrent) (ts : timeval) (d : dir_t)
    (a b : Nat) (s : bittorrent_side_state) :
    message_lines (P.written ts d { lines := [entry.stamped (log_event.payload a b)], s := s })
      = [] := by
  unfold parse_bittorrent.written
  split <;> rfl

theorem skip_block_lines (ts : timeval) (d : dir_t) (Q : parse_bittorrent) (buf : List Nat) :
    message_lines (skip_block ts d Q buf).2.2 = [] := by
  unfold skip_block
  split
  · exact written_progress _ _ _ _ _ _
  · rfl

theorem skip_block_chunk_short (ts : timeval) (d : dir_t) (Q : parse_bittorrent)
    (x y : List Nat) (hs : (Q.state_.get d).state_ = state_t.skip)
    (hk : (Q.state_.get d).skip_ ≤ x.length) :
    skip_block ts d Q (x ++ y)
      = ((skip_block ts d Q x).1, (skip_block ts d Q x).2.1 ++ y, (skip_block ts d Q x).2.2) := by
  have e1 : min (x ++ y).length (Q.state_.get d).skip_ = (Q.state_.get d).skip_ := by
    simp only [List.length_append]; omega
  have e2 : min x.length (Q.state_.get d).skip_ = (Q.state_.get d).skip_ := by omega
  simp only [skip_block, hs, if_true, skip_step, e1, e2, List.drop_append_of_le_length hk]

theorem skip_block_chunk_long (ts : timeval) (d : dir_t) (Q : parse_bittorrent)
    (x y : List Nat) (hs : (Q.state_.get d).state_ = state_t.skip)
    (hk : x.length < (Q.state_.get d).skip_) :
    (skip_block ts d Q x).2.1 = []
    ∧ ((skip_block ts d Q x).1.state_.get d).state_ = state_t.skip
    ∧ (skip_block ts d (skip_block ts d Q x).1 y).1 = (skip_block ts d Q (x ++ y)).1
    ∧ (skip_block ts d (skip_block ts d Q x).1 y).2.1 = (skip_block ts d Q (x ++ y)).2.1 := by
  have e2 : min x.length (Q.state_.get d).skip_ = x.length := by omega
  have e3 : ¬ (Q.state_.get d).skip_ - x.length = 0 := by omega
  have q1 : (skip_block ts d Q x).1 = Q.apply d
      { lines := [entry.stamped (log_event.payload x.length ((Q.state_.get d).skip_ - x.length))],
        s := { Q.state_.get d with
                skip_ := (Q.state_.get d).skip_ - x.length,
                offset_ := ((Q.state_.get d).offset_ + x.length) % u64 } } := by
    simp only [skip_block, hs, if_true, skip_step, e2, e3, if_false]
  have q2 : (skip_block ts d Q x).2.1 = [] := by
    simp only [skip_block, hs, if_true, skip_step, e2, List.drop_length]
  refine ⟨q2, ?_, ?_, ?_⟩
  · rw [q1, parse_bittorrent.apply_get]
    exact hs
  · rw [q1]
    generalize hov : min y.length ((Q.state_.get d).skip_ - x.length) = ov
    have e1 : min (x ++ y).length (Q.state_.get d).skip_ = x.length + ov := by
      simp only [List.length_append]; omega
    have e4 : (Q.state_.get d).skip_ - x.length - ov = (Q.state_.get d).skip_ - (x.length + ov) := by
      omega
    have e5 : (((Q.state_.get d).offset_ + x.length) % u64 + ov) % u64
        = ((Q.state_.get d).offset_ + (x.length + ov)) % u64 := by
      simp only [u64]; omega
    simp only [skip_block, parse_bittorrent.apply_get, hs, if_true, skip_step, hov, e1, e4, e5]
    simp only [parse_bittorrent.apply, dir_array.set_set, Bool.or_false]
  · rw [q1]
    generalize hov : min y.length ((Q.state_.get d).skip_ - x.length) = ov
    have e1 : min (x ++ y).length (Q.state_.get d).skip_ = x.length + ov := by
      simp only [List.length_append]; omega
    simp only [skip_block, parse_bittorrent.apply_get, hs, if_true, skip_step, hov, e1]
    rw [← List.drop_drop, List.drop_left]

theorem loop_nil (bd : bdecode_fn) (ts : timeval) (d : dir_t) (f : Nat) (P : parse_bittorrent) :
    message_loop bd ts d f P [] = Except.ok (P, []) := by
  cases f <;> rfl

theorem loop_of_error (bd : bdecode_fn) (ts : timeval) (d : dir_t) (f : Nat)
    (P : parse_bittorrent) (buf : List Nat) (e : fault) (hb : buf ≠ [])
    (h : run_blocks ts d (message_blocks bd) P buf = Except.error e) :
    message_loop bd ts d (f + 1) P buf = Except.error e := by
  cases buf with
  | nil => exact absurd rfl hb
  | cons a t => simp only [message_loop, h]

theorem loop_of_ret (bd : bdecode_fn) (ts : timeval) (d : dir_t) (f : Nat)
    (P Q : parse_bittorrent) (buf : List Nat) (out : List line) (hb : buf ≠ [])
    (h : run_blocks ts d (message_blocks bd) P buf = Except.ok (flow.ret Q out)) :
    message_loop bd ts d (f + 1) P buf = Except.ok (Q, out) := by
  cases buf with
  | nil => exact absurd rfl hb
  | cons a t => simp only [message_loop, h]

theorem loop_of_next_nil (bd : bdecode_fn) (ts : timeval) (d : dir_t) (f : Nat)
    (P Q : parse_bittorrent) (buf : List Nat) (out : List line) (hb : buf ≠ [])
    (h : run_blocks ts d (message_blocks bd) P buf = Except.ok (flow.next Q [] out)) :
    message_loop bd ts d (f + 1) P buf = Except.ok (Q, out) := by
  cases buf with
  | nil => exact absurd rfl hb
  | cons a t => simp only [message_loop, h]

theorem loop_of_next (bd : bdecode_fn) (ts : timeval) (d : dir_t) (f : Nat)
    (P Q : parse_bittorrent) (buf rest : List Nat) (out : List line) (hb : buf ≠ [])
    (hr : rest ≠ [])
    (h : run_blocks ts d (message_blocks bd) P buf = Except.ok (flow.next Q rest out)) :
    message_loop bd ts d (f + 1) P buf
      = result.after (out ++ (skip_block ts d Q rest).2.2)
          (message_loop bd ts d f (skip_block ts d Q rest).1 (skip_block ts d Q rest).2.1) := by
  cases buf with
  | nil => exact absurd rfl hb
  | cons a t =>
    cases rest with
    | nil => exact absurd rfl hr
    | cons b r => simp only [message_loop, h]

theorem loop_of_map_after (bd : bdecode_fn) (ts : timeval) (d : dir_t) (f : Nat)
    (P Q : parse_bittorrent) (buf y : List Nat) (out : List line) (hb : buf ≠ []) (hy : y ≠ [])
    (h : run_blocks ts d (message_blocks bd) P buf
      = (run_blocks ts d (message_blocks bd) Q y).map (flow.after out)) :
    message_loop bd ts d (f + 1) P buf = result.after out (message_loop bd ts d (f + 1) Q y) := by
  cases h1 : run_blocks ts d (message_blocks bd) Q y with
  | error e =>
    rw [h1] at h
    rw [loop_of_error bd ts d f P buf e hb h, loop_of_error bd ts d f Q y e hy h1]
    rfl
  | ok fl =>
    rw [h1] at h
    cases fl with
    | ret Q1 o1 =>
      rw [loop_of_ret bd ts d f P Q1 buf (out ++ o1) hb h, loop_of_ret bd ts d f Q Q1 y o1 hy h1]
      rfl
    | next Q1 rest o1 =>
      by_cases hr : rest = []
      · subst hr
        rw [loop_of_next_nil bd ts d f P Q1 buf (out ++ o1) hb h,
          loop_of_next_nil bd ts d f Q Q1 y o1 hy h1]
        rfl
      · rw [loop_of_next bd ts d f P Q1 buf rest (out ++ o1) hb hr h,
          loop_of_next bd ts d f Q Q1 y rest o1 hy hr h1, result.after_append, List.append_assoc]

theorem run_blocks_skip (bd : bdecode_fn) (ts : timeval) (d : dir_t) (Q : parse_bittorrent)
    (y : List Nat) (hs : (Q.state_.get d).state_ = state_t.skip) :
    run_blocks ts d (message_blocks bd) Q y = Except.ok (flow.next Q y []) := by
  apply run_blocks_no_guard
  intro b hb hg
  have := (ranked_guard _ 4 (message_blocks_ranked bd) b hb _ hg).2
  rw [hs] at this
  simp [rank, message_blocks] at this


/-! ## Chunking of the slice: the loop as a whole -/

theorem message_loop_chunk (bd : bdecode_fn) (ts : timeval) (d : dir_t) (y : List Nat)
    (hy : y ≠ []) :
    ∀ (n : Nat) (P : parse_bittorrent) (x : List Nat) (f1 f2 f : Nat),
      P.disabled_ = false → 4 ≤ rank (P.state_.get d).state_ →
      3 * x.length + idle (P.state_.get d) ≤ n →
      3 * x.length + idle (P.state_.get d) ≤ f1 →
      3 * y.length + 3 ≤ f2 →
      3 * (x.length + y.length) + idle (P.state_.get d) ≤ f →
      (message_loop bd ts d f P (x ++ y)).messages
        = ((message_loop bd ts d f1 P x).and_then
            (fun Q => message_loop bd ts d f2 Q y)).messages := by
  intro n
  induction n with
  | zero =>
    intro P x f1 f2 f _ h4 hn hf1 hf2 hf
    have hx : x = [] := List.eq_nil_of_length_eq_zero (by omega)
    subst hx
    have hi := idle_le (P.state_.get d)
    rw [loop_nil, List.nil_append]
    simp only [result.and_then, result.after_empty]
    rw [message_loop_fuel bd ts d P y f f2 h4 (by simpa using hf) (by omega)]
  | succ m ih =>
    intro P x f1 f2 f hdis h4 hn hf1 hf2 hf
    have hi := idle_le (P.state_.get d)
    by_cases hx : x = []
    · subst hx
      rw [loop_nil, List.nil_append]
      simp only [result.and_then, result.after_empty]
      rw [message_loop_fuel bd ts d P y f f2 h4 (by simpa using hf) (by omega)]
    · have hxl : 0 < x.length := List.length_pos.mpr hx
      have hyl : 0 < y.length := List.length_pos.mpr hy
      have hxy : x ++ y ≠ [] := by simp [hx]
      obtain ⟨g1, rfl⟩ := Nat.exists_eq_succ_of_ne_zero (show f1 ≠ 0 by omega)
      obtain ⟨g2, rfl⟩ := Nat.exists_eq_succ_of_ne_zero (show f2 ≠ 0 by omega)
      obtain ⟨g, rfl⟩ := Nat.exists_eq_succ_of_ne_zero (show f ≠ 0 by omega)
      have hc := run_blocks_chunk ts d (message_blocks bd)
        (ranked_disjoint _ 4 (message_blocks_ranked bd)) y P x
      have hk := (run_blocks_keeps ts d _ 4 (message_blocks_ranked bd) (Nat.le_refl _) P x h4).2
      cases h1 : run_blocks ts d (message_blocks bd) P x with
      | error e =>
        rw [loop_of_error bd ts d g P (x ++ y) e hxy (hc.err e h1),
          loop_of_error bd ts d g1 P x e hx h1]
        rfl
      | ok fl =>
        have hk1 := hk fl h1
        cases fl with
        | ret Q out =>
          simp only [flow.state] at hk1
          rcases hc.ret Q out h1 with ⟨hd, _⟩ | ⟨_, _, e⟩
          · rw [hk1.2, hdis] at hd
            cases hd
          · rw [loop_of_map_after bd ts d g P Q (x ++ y) y out hxy hy e,
              loop_of_ret bd ts d g1 P Q x out hx h1]
            simp only [result.and_then]
            have hiQ := idle_le (Q.state_.get d)
            rw [message_loop_fuel bd ts d Q y (g + 1) (g2 + 1) hk1.1 (by omega) (by omega)]
        | next Q x1 out =>
          simp only [flow.state] at hk1
          have e := hc.next Q x1 out h1
          have hsk := skip_block_keeps ts d Q (x1 ++ y) hk1.1
          have hi2 := idle_le ((skip_block ts d Q (x1 ++ y)).1.state_.get d)
          rw [loop_of_next bd ts d g P Q (x ++ y) (x1 ++ y) out hxy (by simp [hy]) e]
          by_cases hx1 : x1 = []
          · subst hx1
            rw [loop_of_next_nil bd ts d g1 P Q x out hx h1]
            simp only [result.and_then, List.nil_append] at hsk hi2 ⊢
            by_cases hs : (Q.state_.get d).state_ = state_t.skip
            · rw [loop_of_next bd ts d g2 Q Q y y [] hy hy (run_blocks_skip bd ts d Q y hs),
                result.after_append, List.nil_append,
                message_loop_fuel bd ts d _ _ g g2 hsk.1 (by omega) (by omega)]
            · rw [skip_block_other ts d Q y hs]
              simp only [List.append_nil]
              have hiQ := idle_le (Q.state_.get d)
              rw [message_loop_fuel bd ts d Q y g (g2 + 1) hk1.1 (by omega) (by omega)]
          · have hdec := loop_iter_decreases bd ts d P Q x x1 out hx1 h4 h1
            have hsk1 := skip_block_keeps ts d Q x1 hk1.1
            rw [loop_of_next bd ts d g1 P Q x x1 out hx hx1 h1, result.and_then_after,
              result.messages_after, result.messages_after, message_lines_append,
              message_lines_append, skip_block_lines, skip_block_lines]
            congr 1
            by_cases hs : (Q.state_.get d).state_ = state_t.skip
            · by_cases hsl : (Q.state_.get d).skip_ ≤ x1.length
              · rw [skip_block_chunk_short ts d Q x1 y hs hsl]
                simp only
                exact ih _ _ g1 (g2 + 1) g (by rw [hsk1.2.1, hk1.2, hdis]) hsk1.1
                  (by omega) (by omega) hf2 (by omega)
              · obtain ⟨c1, c2, c3, c4⟩ := skip_block_chunk_long ts d Q x1 y hs (by omega)
                have hsk3 := skip_block_keeps ts d (skip_block ts d Q x1).1 y hsk1.1
                rw [c1, loop_nil]
                simp only [result.and_then, result.after_empty]
                rw [loop_of_next bd ts d g2 _ _ y y [] hy hy
                  (run_blocks_skip bd ts d _ y c2), result.messages_after, List.nil_append,
                  skip_block_lines, result.after_empty, c3, c4]
                rw [c3, c4] at hsk3
                rw [message_loop_fuel bd ts d _ _ g g2 hsk3.1 (by omega) (by omega)]
            · rw [skip_block_other ts d Q x1 hs, skip_block_other ts d Q (x1 ++ y) hs]
              rw [skip_block_other ts d Q x1 hs] at hdec
              simp only at hdec ⊢
              exact ih Q x1 g1 (g2 + 1) g (by rw [hk1.2, hdis]) hk1.1
                (by omega) (by omega) hf2 (by omega)


/-! ## Chunking of the slice: the call -/

theorem run_blocks_next_rank (ts : timeval) (d : dir_t) (bs : List block) :
    ∀ r, ranked bs r → r + bs.length ≤ 4 →
    ∀ (P Q : parse_bittorrent) (buf rest : List Nat) (out : List line),
      r ≤ rank (P.state_.get d).state_ →
      run_blocks ts d bs P buf = Except.ok (flow.next Q rest out) →
      r + bs.length ≤ rank (Q.state_.get d).state_ ∧ Q.disabled_ = P.disabled_ := by
  induction bs with
  | nil =>
    intro r _ _ P Q buf rest out hP h
    simp only [run_blocks] at h
    cases h
    exact ⟨hP, rfl⟩
  | cons a t ih =>
    intro r hr h4 P Q buf rest out hP h
    simp only [List.length_cons] at h4 ⊢
    simp only [run_blocks] at h
    cases h1 : run_block a ts d P buf with
    | error e => simp [h1] at h
    | ok f =>
      cases f with
      | ret Q1 o1 => simp [h1] at h
      | next Q1 rest1 o1 =>
        simp only [h1] at h
        cases h2 : run_blocks ts d t Q1 rest1 with
        | error e => simp [h2, Except.map] at h
        | ok f2 =>
          cases f2 with
          | ret Q2 o2 => simp [h2, Except.map, flow.after] at h
          | next Q2 rest2 o2 =>
            simp only [h2, Except.map, flow.after, Except.ok.injEq, flow.next.injEq] at h
            obtain ⟨rfl, rfl, rfl⟩ := h
            have hd := run_block_next_disabled a ts d P Q1 buf rest1 o1 h1
            have hQ1 : r + 1 ≤ rank (Q1.state_.get d).state_ := by
              rcases run_block_next a r hr.1 ts d P Q1 buf rest1 o1 h1 with
                ⟨hg, rfl, _, _⟩ | ⟨_, _, _, hs, _⟩
              · have : rank (Q1.state_.get d).state_ ≠ r := by
                  intro hc
                  rw [(hr.1.guard_iff _).mpr hc] at hg
                  cases hg
                omega
              · rcases hs with hs | hs
                · rw [hs]; simp only [rank]; omega
                · omega
            obtain ⟨k1, k2⟩ := ih (r + 1) hr.2 (by omega) Q1 Q2 rest1 rest2 o2 hQ1 h2
            exact ⟨by omega, k2.trans hd⟩

theorem handshake_blocks_idle (ts : timeval) (d : dir_t) (P : parse_bittorrent) (buf : List Nat)
    (h4 : 4 ≤ rank (P.state_.get d).state_) :
    run_blocks ts d handshake_blocks P buf = Except.ok (flow.next P buf []) := by
  apply run_blocks_no_guard
  intro b hb hg
  have := (ranked_guard _ 0 handshake_blocks_ranked b hb _ hg).2
  simp only [handshake_blocks, List.length_cons, List.length_nil] at this
  omega

theorem message_loop_keeps (bd : bdecode_fn) (ts : timeval) (d : dir_t) :
    ∀ (f : Nat) (P Q : parse_bittorrent) (buf : List Nat) (out : List line),
      4 ≤ rank (P.state_.get d).state_ →
      message_loop bd ts d f P buf = Except.ok (Q, out) →
      4 ≤ rank (Q.state_.get d).state_ ∧ Q.disabled_ = P.disabled_ := by
  intro f
  induction f with
  | zero =>
    intro P Q buf out h4 h
    cases buf with
    | nil => simp only [message_loop] at h; cases h; exact ⟨h4, rfl⟩
    | cons a t => simp [message_loop] at h
  | succ g ih =>
    intro P Q buf out h4 h
    by_cases hb : buf = []
    · subst hb
      rw [loop_nil] at h
      cases h
      exact ⟨h4, rfl⟩
    · have hk := (run_blocks_keeps ts d _ 4 (message_blocks_ranked bd) (Nat.le_refl _) P buf h4).2
      cases h1 : run_blocks ts d (message_blocks bd) P buf with
      | error e =>
        rw [loop_of_error bd ts d g P buf e hb h1] at h
        cases h
      | ok fl =>
        have hk1 := hk fl h1
        cases fl with
        | ret Q1 o1 =>
          rw [loop_of_ret bd ts d g P Q1 buf o1 hb h1] at h
          cases h
          exact hk1
        | next Q1 rest o1 =>
          simp only [flow.state] at hk1
          by_cases hr : rest = []
          · subst hr
            rw [loop_of_next_nil bd ts d g P Q1 buf o1 hb h1] at h
            cases h
            exact hk1
          · rw [loop_of_next bd ts d g P Q1 buf rest o1 hb hr h1] at h
            have hsk := skip_block_keeps ts d Q1 rest hk1.1
            cases h2 : message_loop bd ts d g (skip_block ts d Q1 rest).1
                (skip_block ts d Q1 rest).2.1 with
            | error e => simp [h2, result.after, Except.map] at h
            | ok r =>
              obtain ⟨j1, j2⟩ := ih _ r.1 _ r.2 hsk.1 h2
              simp only [h2, result.after, Except.map, Except.ok.injEq, Prod.mk.injEq] at h
              rw [← h.1]
              exact ⟨j1, j2.trans (hsk.2.1.trans hk1.2)⟩

theorem data_of_rank (bd : bdecode_fn) (ts : timeval) (d : dir_t) (P : parse_bittorrent)
    (y : List Nat) (hy : y ≠ []) (hd : P.disabled_ = false)
    (h4 : 4 ≤ rank (P.state_.get d).state_) :
    P.data bd ts y d = message_loop bd ts d (3 * y.length + 3) P y := by
  have hy' : y.isEmpty = false := by cases y <;> simp at hy ⊢
  simp only [parse_bittorrent.data, hd, hy', handshake_blocks_idle ts d P y h4, result.after_empty]
  simp

theorem data_of_error (bd : bdecode_fn) (ts : timeval) (d : dir_t) (P : parse_bittorrent)
    (x : List Nat) (e : fault) (hx : x ≠ []) (hd : P.disabled_ = false)
    (h : run_blocks ts d handshake_blocks P x = Except.error e) :
    P.data bd ts x d = Except.error e := by
  have hx' : x.isEmpty = false := by cases x <;> simp at hx ⊢
  simp [parse_bittorrent.data, hd, hx', h]

theorem data_of_ret (bd : bdecode_fn) (ts : timeval) (d : dir_t) (P Q : parse_bittorrent)
    (x : List Nat) (out : List line) (hx : x ≠ []) (hd : P.disabled_ = false)
    (h : run_blocks ts d handshake_blocks P x = Except.ok (flow.ret Q out)) :
    P.data bd ts x d = Except.ok (Q, out) := by
  have hx' : x.isEmpty = false := by cases x <;> simp at hx ⊢
  simp [parse_bittorrent.data, hd, hx', h]

theorem data_of_next (bd : bdecode_fn) (ts : timeval) (d : dir_t) (P Q : parse_bittorrent)
    (x rest : List Nat) (out : List line) (hx : x ≠ []) (hd : P.disabled_ = false)
    (h : run_blocks ts d handshake_blocks P x = Except.ok (flow.next Q rest out)) :
    P.data bd ts x d = result.after out (message_loop bd ts d (3 * rest.length + 3) Q rest) := by
  have hx' : x.isEmpty = false := by cases x <;> simp at hx ⊢
  simp [parse_bittorrent.data, hd, hx', h]

theorem data_of_disabled (bd : bdecode_fn) (ts : timeval) (d : dir_t) (P : parse_bittorrent)
    (x : List Nat) (hd : P.disabled_ = true) : P.data bd ts x d = Except.ok (P, []) := by
  simp [parse_bittorrent.data, hd]

theorem data_of_map_after (bd : bdecode_fn) (ts : timeval) (d : dir_t) (P Q : parse_bittorrent)
    (x y : List Nat) (out : List line) (hx : x ≠ []) (hy : y ≠ [])
    (hP : P.disabled_ = false) (hQ : Q.disabled_ = false)
    (h : run_blocks ts d handshake_blocks P x
      = (run_blocks ts d handshake_blocks Q y).map (flow.after out)) :
    P.data bd ts x d = result.after out (Q.data bd ts y d) := by
  cases h1 : run_blocks ts d handshake_blocks Q y with
  | error e =>
    rw [h1] at h
    rw [data_of_error bd ts d P x e hx hP h, data_of_error bd ts d Q y e hy hQ h1]
    rfl
  | ok fl =>
    rw [h1] at h
    cases fl with
    | ret Q1 o1 =>
      rw [data_of_ret bd ts d P Q1 x (out ++ o1) hx hP h, data_of_ret bd ts d Q Q1 y o1 hy hQ h1]
      rfl
    | next Q1 rest o1 =>
      rw [data_of_next bd ts d P Q1 x rest (out ++ o1) hx hP h,
        data_of_next bd ts d Q Q1 y rest o1 hy hQ h1, result.after_append]

theorem data_chunk (bd : bdecode_fn) (ts : timeval) (d : dir_t) (P : parse_bittorrent)
    (x y : List Nat) (hx : x ≠ []) (hy : y ≠ []) :
    (P.data bd ts (x ++ y) d).messages
      = ((P.data bd ts x d).and_then (fun Q => Q.data bd ts y d)).messages := by
  have hxy : x ++ y ≠ [] := by simp [hx]
  by_cases hd : P.disabled_ = true
  · rw [data_of_disabled bd ts d P _ hd, data_of_disabled bd ts d P _ hd]
    simp only [result.and_then, data_of_disabled bd ts d P _ hd]
    rfl
  · have hd' : P.disabled_ = false := by simpa using hd
    have hc := run_blocks_chunk ts d handshake_blocks
      (ranked_disjoint _ 0 handshake_blocks_ranked) y P x
    cases h1 : run_blocks ts d handshake_blocks P x with
    | error e =>
      rw [data_of_error bd ts d P (x ++ y) e hxy hd' (hc.err e h1),
        data_of_error bd ts d P x e hx hd' h1]
      rfl
    | ok fl =>
      cases fl with
      | ret Q out =>
        rw [data_of_ret bd ts d P Q x out hx hd' h1]
        simp only [result.and_then]
        rcases hc.ret Q out h1 with ⟨hQ, e⟩ | ⟨_, hQ, e⟩
        · rw [data_of_ret bd ts d P Q (x ++ y) out hxy hd' e, data_of_disabled bd ts d Q _ hQ]
          simp [result.after, Except.map]
        · rw [data_of_map_after bd ts d P Q (x ++ y) y out hxy hy hd' (hQ.trans hd') e]
      | next Q x1 out =>
        obtain ⟨k1, k2⟩ := run_blocks_next_rank ts d _ 0 handshake_blocks_ranked (by decide)
          P Q x x1 out (Nat.zero_le _) h1
        have k1' : 4 ≤ rank (Q.state_.get d).state_ := by simpa [handshake_blocks] using k1
        have hi := idle_le (Q.state_.get d)
        rw [data_of_next bd ts d P Q (x ++ y) (x1 ++ y) out hxy hd' (hc.next Q x1 out h1),
          data_of_next bd ts d P Q x x1 out hx hd' h1, result.and_then_after,
          result.messages_after, result.messages_after]
        congr 1
        rw [message_loop_chunk bd ts d y hy _ Q x1 (3 * x1.length + 3) (3 * y.length + 3) _
          (k2.trans hd') k1' (Nat.le_refl _) (by omega) (Nat.le_refl _)
          (by simp only [List.length_append]; omega)]
        congr 1
        apply result.and_then_congr
        intro Q1 o1 h2
        obtain ⟨j1, j2⟩ := message_loop_keeps bd ts d _ Q Q1 x1 o1 k1' h2
        rw [data_of_rank bd ts d Q1 y hy (j2.trans (k2.trans hd')) j1]


/-! ## Chunking of the slice: the claim -/

/-- C4 (partial-read invariance of the dissector).  For every dissector state `P`,
direction `d`, time stamp `ts` and non-empty byte strings `x` and `y`, the calls
`data(ts, x, d)` then `data(ts, y, d)` and the single call `data(ts, x ++ y, d)`
either end abnormally in the same way or both return, in the same state (all members
of both directions, `disabled_` and the state of the transcript) and having written
the same lines other than the `- payload:` progress lines.  The states are equal as
they are: no identification of a pending `skip` with `skip_ = 0` and `length` is
needed. -/
theorem chunk_invariance (bdecode : bdecode_fn) (P : parse_bittorrent) (d : dir_t)
    (ts : timeval) (x y : List Nat) (hx : x ≠ []) (hy : y ≠ []) :
    (feed_data bdecode d P [(ts, x), (ts, y)]).messages
      = (P.data bdecode ts (x ++ y) d).messages := by
  rw [data_chunk bdecode ts d P x y hx hy]
  congr 1
  cases h1 : P.data bdecode ts x d with
  | error e => simp [feed_data, h1, result.and_then]
  | ok r =>
    obtain ⟨Q, o⟩ := r
    simp only [feed_data, h1, result.and_then]
    congr 1
    cases h2 : Q.data bdecode ts y d with
    | error e => rfl
    | ok r2 =>
      obtain ⟨Q2, o2⟩ := r2
      simp [result.after, Except.map]

theorem chunk_invariance_witness :
    c4_x ≠ [] ∧ c4_y ≠ []
    ∧ (feed_data ex_bdecode dir_t.out c4_state [(ex_ts, c4_x), (ex_ts, c4_y)]).messages
        = (c4_state.data ex_bdecode ex_ts (c4_x ++ c4_y) dir_t.out).messages :=
  ⟨by decide, by decide,
    chunk_invariance ex_bdecode c4_state dir_t.out ex_ts c4_x c4_y (by decide) (by decide)⟩


/-! ## The protocol string -/

theorem ensure_buffer_nat (s : bittorrent_side_state) (buf : List Nat) (n : Nat) :
    ensure_buffer s buf (n : Int)
      = Except.ok ({ s with buffer_ := s.buffer_ ++ buf.take (n - s.buffer_.length) },
          buf.drop (n - s.buffer_.length)) := by
  unfold ensure_buffer
  have h0 : ¬ ((n : Int) < 0) := by omega
  simp only [h0, if_false, Int.toNat_ofNat]
  split
  · rename_i h
    have : n - s.buffer_.length = 0 := by omega
    simp [this]
  · rcases Nat.le_total buf.length (n - s.buffer_.length) with h | h
    · rw [Nat.min_eq_left h, List.take_of_length_le h, List.drop_of_length_le h, List.take_length,
        List.drop_length]
    · rw [Nat.min_eq_right h]
  
theorem take_append_take (a b : List Nat) (n : Nat) :
    (a ++ b.take (n - a.length)).take n = (a ++ b).take n := by
  rw [List.take_append_eq_append_take, List.take_append_eq_append_take, List.take_take,
    Nat.min_self]

theorem length_append_take (a b : List Nat) (n : Nat) :
    (a ++ b.take (n - a.length)).length < n ↔ (a ++ b).length < n := by
  simp only [List.length_append, List.length_take]
  omega

theorem run_block_of_need (b : block) (ts : timeval) (d : dir_t) (P : parse_bittorrent)
    (buf : List Nat) (k : Nat) (hg : b.guard (P.state_.get d).state_ = true)
    (hk : b.need (P.state_.get d).skip_ = k) (h31 : k < 2147483648) :
    run_block b ts d P buf
      = if ((P.state_.get d).buffer_ ++ buf.take (k - (P.state_.get d).buffer_.length)).length < k
        then
          Except.ok (flow.ret (P.set d { P.state_.get d with
            buffer_ := (P.state_.get d).buffer_
              ++ buf.take (k - (P.state_.get d).buffer_.length) }) [])
        else
          match b.body P.log_.is_open { P.state_.get d with
            buffer_ := (P.state_.get d).buffer_
              ++ buf.take (k - (P.state_.get d).buffer_.length) } (P.state_.get (opposite d)) with
          | Except.error e => Except.error e
          | Except.ok o =>
            if o.stop then Except.ok (flow.ret (P.apply d o) (P.written ts d o))
            else Except.ok (flow.next (P.apply d o)
              (buf.drop (k - (P.state_.get d).buffer_.length)) (P.written ts d o)) := by
  have hn : int_of_u32 (b.need (P.state_.get d).skip_) = ((k : Nat) : Int) := by
    rw [hk]
    simp [int_of_u32, h31]
  unfold run_block
  rw [if_pos hg, hn, ensure_buffer_nat, hk] <;> rfl

theorem parse_bittorrent.apply_plain (P : parse_bittorrent) (d : dir_t) (l : List entry)
    (s : bittorrent_side_state) : P.apply d { lines := l, s := s } = P.set d s := by
  obtain ⟨k, ⟨o⟩, st, dis⟩ := P
  simp [parse_bittorrent.apply, parse_bittorrent.set]

theorem protocol_step (ts : timeval) (d : dir_t) (P : parse_bittorrent) (buf : List Nat)
    (hs : (P.state_.get d).state_ = state_t.protocol)
    (hl : 20 ≤ ((P.state_.get d).buffer_ ++ buf).length) :
    (((P.state_.get d).buffer_ ++ buf).take 20 ≠ handshake_bytes →
      run_block protocol_block ts d P buf
        = Except.ok (flow.ret
            (P.apply d
              { stop := true,
                s := { P.state_.get d with
                  buffer_ := (P.state_.get d).buffer_
                    ++ buf.take (20 - (P.state_.get d).buffer_.length) } }) []))
    ∧ (((P.state_.get d).buffer_ ++ buf).take 20 = handshake_bytes →
      run_block protocol_block ts d P buf
        = Except.ok (flow.next
            (P.set d
              { P.state_.get d with
                buffer_ := [], offset_ := ((P.state_.get d).offset_ + 20) % u64,
                state_ := state_t.reserved })
            (buf.drop (20 - (P.state_.get d).buffer_.length))
            (if P.log_.is_open then [⟨d, some ts, log_event.handshake⟩] else []))) := by
  have hg : protocol_block.guard (P.state_.get d).state_ = true := by
    rw [hs]; rfl
  have hlen := (length_append_take (P.state_.get d).buffer_ buf 20).not.mpr (by omega)
  have htk := take_append_take (P.state_.get d).buffer_ buf 20
  rw [run_block_of_need protocol_block ts d P buf 20 hg rfl (by decide), if_neg hlen]
  constructor
  · intro hne
    simp only [protocol_block, htk, hne, ne_eq, not_false_eq_true, if_true]
    simp [parse_bittorrent.written]
  · intro he
    simp only [protocol_block, htk, he, ne_eq, not_true_eq_false, if_false]
    rw [parse_bittorrent.apply_plain]
    cases hio : P.log_.is_open <;> simp [parse_bittorrent.written, hio, entry.line]

theorem run_block_flag (b : block) (ts : timeval) (d : dir_t) (P : parse_bittorrent)
    (buf : List Nat)
    (hns : ∀ io s other o, b.body io s other = Except.ok o → o.stop = false) :
    ∀ f, run_block b ts d P buf = Except.ok f → f.state.disabled_ = P.disabled_ := by
  intro f h
  unfold run_block at h
  split at h
  · split at h
    · cases h
    · split at h
      · cases h; rfl
      · split at h
        · cases h
        · rename_i o hb
          have hs := hns _ _ _ _ hb
          simp only [hs, Bool.false_eq_true, if_false] at h
          cases h
          simp [flow.state, parse_bittorrent.apply, hs]
  · cases h; rfl

theorem run_blocks_flag (ts : timeval) (d : dir_t) (bs : List block)
    (hns : ∀ b ∈ bs, ∀ io s other o, b.body io s other = Except.ok o → o.stop = false) :
    ∀ (P : parse_bittorrent) (buf : List Nat) f,
      run_blocks ts d bs P buf = Except.ok f → f.state.disabled_ = P.disabled_ := by
  induction bs with
  | nil =>
    intro P buf f h
    cases h
    rfl
  | cons a t ih =>
    intro P buf f h
    simp only [run_blocks] at h
    have ha := run_block_flag a ts d P buf (hns a (List.mem_cons_self _ _))
    cases h1 : run_block a ts d P buf with
    | error e => simp [h1] at h
    | ok f1 =>
      have hf1 := ha f1 h1
      cases f1 with
      | ret Q1 o1 =>
        simp only [h1] at h
        cases h
        exact hf1
      | next Q1 rest1 o1 =>
        simp only [h1] at h
        cases h2 : run_blocks ts d t Q1 rest1 with
        | error e => simp [h2, Except.map] at h
        | ok f2 =>
          have hf2 := ih (fun b hb => hns b (List.mem_cons_of_mem _ hb)) Q1 rest1 f2 h2
          simp only [h2, Except.map, Except.ok.injEq] at h
          rw [← h]
          cases f2 with
          | ret Q2 o2 => exact hf2.trans hf1
          | next Q2 rest2 o2 => exact hf2.trans hf1

theorem run_blocks_cons_next (b : block) (t : List block) (ts : timeval) (d : dir_t)
    (P Q : parse_bittorrent) (buf rest : List Nat) (out : List line)
    (h : run_block b ts d P buf = Except.ok (flow.next Q rest out)) :
    run_blocks ts d (b :: t) P buf = (run_blocks ts d t Q rest).map (flow.after out) := by
  simp only [run_blocks, h]

theorem run_blocks_cons_ret (b : block) (t : List block) (ts : timeval) (d : dir_t)
    (P Q : parse_bittorrent) (buf : List Nat) (out : List line)
    (h : run_block b ts d P buf = Except.ok (flow.ret Q out)) :
    run_blocks ts d (b :: t) P buf = Except.ok (flow.ret Q out) := by
  simp only [run_blocks, h]

theorem handshake_tail_nostop :
    ∀ b ∈ [reserved_block, info_hash_block, peer_id_block],
      ∀ io s other o, b.body io s other = Except.ok o → o.stop = false := by
  intro b hb io s other o h
  simp only [List.mem_cons, List.mem_singleton, List.not_mem_nil, or_false] at hb
  rcases hb with rfl | rfl | rfl <;> (cases h; rfl)

theorem data_match_flag (bd : bdecode_fn) (ts : timeval) (d : dir_t) (P : parse_bittorrent)
    (buf : List Nat) (hd : P.disabled_ = false) (hb : buf ≠ [])
    (hs : (P.state_.get d).state_ = state_t.protocol)
    (hl : 20 ≤ ((P.state_.get d).buffer_ ++ buf).length)
    (he : ((P.state_.get d).buffer_ ++ buf).take 20 = handshake_bytes) :
    ∀ Q out, P.data bd ts buf d = Except.ok (Q, out) → Q.disabled_ = false := by
  intro Q out h
  have hp := (protocol_step ts d P buf hs hl).2 he
  generalize hQ1 : P.set d { P.state_.get d with
      buffer_ := [], offset_ := ((P.state_.get d).offset_ + 20) % u64,
      state_ := state_t.reserved } = Q1 at hp
  generalize (if P.log_.is_open = true then
      [({ d := d, ts := some ts, ev := log_event.handshake } : line)] else []) = l0 at hp
  have hQ1d : Q1.disabled_ = false := by rw [← hQ1]; exact hd
  have hQ1r : 1 ≤ rank (Q1.state_.get d).state_ := by
    rw [← hQ1, parse_bittorrent.get_of_set]
    simp [rank]
  have hrk : ranked [reserved_block, info_hash_block, peer_id_block] 1 :=
    handshake_blocks_ranked.2
  cases h2 : run_blocks ts d [reserved_block, info_hash_block, peer_id_block] Q1
      (buf.drop (20 - (P.state_.get d).buffer_.length)) with
  | error e =>
    have e1 : run_blocks ts d handshake_blocks P buf = Except.error e := by
      rw [handshake_blocks, run_blocks_cons_next _ _ ts d P Q1 buf _ _ hp, h2]
      rfl
    rw [data_of_error bd ts d P buf e hb hd e1] at h
    cases h
  | ok f2 =>
    have hf2 := run_blocks_flag ts d _ handshake_tail_nostop Q1 _ f2 h2
    cases f2 with
    | ret Q2 o2 =>
      have e1 : run_blocks ts d handshake_blocks P buf = Except.ok (flow.ret Q2 (l0 ++ o2)) := by
        rw [handshake_blocks, run_blocks_cons_next _ _ ts d P Q1 buf _ _ hp, h2]
        rfl
      rw [data_of_ret bd ts d P Q2 buf _ hb hd e1] at h
      cases h
      exact hf2.trans hQ1d
    | next Q2 rest2 o2 =>
      have e1 : run_blocks ts d handshake_blocks P buf
          = Except.ok (flow.next Q2 rest2 (l0 ++ o2)) := by
        rw [handshake_blocks, run_blocks_cons_next _ _ ts d P Q1 buf _ _ hp, h2]
        rfl
      rw [data_of_next bd ts d P Q2 buf rest2 _ hb hd e1] at h
      have hr := (run_blocks_next_rank ts d _ 1 hrk (by decide) Q1 Q2 _ rest2 o2 hQ1r h2).1
      cases h3 : message_loop bd ts d (3 * rest2.length + 3) Q2 rest2 with
      | error e => simp [h3, result.after, Except.map] at h
      | ok r =>
        have hk := (message_loop_keeps bd ts d _ Q2 r.1 rest2 r.2 (by simpa using hr) h3).2
        simp only [h3, result.after, Except.map, Except.ok.injEq, Prod.mk.injEq] at h
        rw [← h.1, hk]
        exact hf2.trans hQ1d

/-- C7 (handshake mismatch).  A direction `d` of a dissector that is not disabled is
in state `protocol`, and with the non-empty slice `buf` it has accumulated at least
20 bytes.  When the first 20 of them are not `0x13 "BitTorrent protocol"`, the call
`data(ts, buf, d)` writes nothing and returns with `disabled_` set, and after it every
call of `data`, for either direction and any slice, returns the same state and writes
nothing.  When they are, the step of state `protocol` falls through to the next state
with `disabled_` clear, and `disabled_` is clear whenever the call returns. -/
theorem handshake_mismatch (bdecode : bdecode_fn) (P : parse_bittorrent) (ts : timeval)
    (buf : List Nat) (d : dir_t) (hd : P.disabled_ = false)
    (hs : (P.state_.get d).state_ = state_t.protocol) (hb : buf ≠ [])
    (hl : 20 ≤ ((P.state_.get d).buffer_ ++ buf).length) :
    (((P.state_.get d).buffer_ ++ buf).take 20 ≠ handshake_bytes →
      ∃ Q, P.data bdecode ts buf d = Except.ok (Q, []) ∧ Q.disabled_ = true
        ∧ ∀ ts1 buf1 d1, Q.data bdecode ts1 buf1 d1 = Except.ok (Q, []))
    ∧ (((P.state_.get d).buffer_ ++ buf).take 20 = handshake_bytes →
      (∃ Q rest out, run_block protocol_block ts d P buf = Except.ok (flow.next Q rest out)
        ∧ Q.disabled_ = false ∧ (Q.state_.get d).state_ = state_t.reserved)
      ∧ ∀ Q out, P.data bdecode ts buf d = Except.ok (Q, out) → Q.disabled_ = false) := by
  constructor
  · intro hne
    have hp := (protocol_step ts d P buf hs hl).1 hne
    have hq := data_of_ret bdecode ts d P _ buf [] hb hd
      (run_blocks_cons_ret protocol_block _ ts d P _ buf [] hp)
    exact ⟨_, hq, by simp [parse_bittorrent.apply],
      fun ts1 buf1 d1 => data_of_disabled bdecode ts1 d1 _ buf1 (by simp [parse_bittorrent.apply])⟩
  · intro he
    refine ⟨⟨_, _, _, (protocol_step ts d P buf hs hl).2 he, hd, ?_⟩,
      data_match_flag bdecode ts d P buf hd hb hs hl he⟩
    rw [parse_bittorrent.get_of_set]

theorem handshake_mismatch_witness :
    c4_state.disabled_ = false
    ∧ (c4_state.state_.get dir_t.out).state_ = state_t.protocol
    ∧ c7_buf ≠ []
    ∧ 20 ≤ ((c4_state.state_.get dir_t.out).buffer_ ++ c7_buf).length
    ∧ ((c4_state.state_.get dir_t.out).buffer_ ++ c7_buf).take 20 ≠ handshake_bytes
    ∧ ∃ Q, c4_state.data ex_bdecode ex_ts c7_buf dir_t.out = Except.ok (Q, [])
        ∧ Q.disabled_ = true
        ∧ ∀ ts1 buf1 d1, Q.data ex_bdecode ts1 buf1 d1 = Except.ok (Q, []) :=
  ⟨rfl, rfl, by decide, by decide, by decide,
    (handshake_mismatch ex_bdecode c4_state ex_ts c7_buf dir_t.out rfl rfl (by decide)
      (by decide)).1 (by decide)⟩


/-! ## Extension messages -/

theorem extension_step (ts : timeval) (d : dir_t) (P : parse_bittorrent) (n : Nat)
    (rest : List Nat) (hs : (P.state_.get d).state_ = state_t.extension)
    (hb : (P.state_.get d).buffer_ = []) (hn0 : n ≠ 0) :
    run_block extension_block ts d P (n :: rest)
      = Except.ok (flow.next
          (P.set d { P.state_.get d with
            offset_ := ((P.state_.get d).offset_ + 1) % u64, buffer_ := [],
            skip_ := ((P.state_.get d).skip_ + u32 - 1) % u32, state_ := state_t.skip })
          rest
          (if P.log_.is_open then
            [⟨d, some ts,
              match map.find (P.state_.get (opposite d)).extensions_ (int_of_u32 n) with
              | some name => log_event.extension_msg name
              | none => log_event.extension_unknown n⟩]
          else [])) := by
  have hg : extension_block.guard (P.state_.get d).state_ = true := by
    rw [hs]; rfl
  rw [run_block_of_need extension_block ts d P (n :: rest) 1 hg rfl (by decide), hb]
  simp only [List.length_nil, Nat.sub_zero, List.take_succ_cons, List.take_zero, List.nil_append,
    List.length_singleton, Nat.lt_irrefl, if_false, List.drop_succ_cons, List.drop_zero]
  simp only [extension_block, List.getD_cons_zero, hn0, if_false]
  rw [parse_bittorrent.apply_plain]
  simp only [Bool.false_eq_true, if_false]
  congr 2
  cases hio : P.log_.is_open
  · simp [parse_bittorrent.written, hio]
  · simp only [parse_bittorrent.written, hio, Bool.true_or, if_true]
    cases map.find (P.state_.get (opposite d)).extensions_ (int_of_u32 n) <;> rfl

theorem run_blocks_single (ts : timeval) (d : dir_t) (bs : List block) :
    ∀ r, ranked bs r → ∀ (P Q : parse_bittorrent) (buf rest : List Nat) (out : List line),
      ∀ b ∈ bs, b.guard (P.state_.get d).state_ = true →
      run_block b ts d P buf = Except.ok (flow.next Q rest out) →
      (rank (Q.state_.get d).state_ ≤ rank (P.state_.get d).state_
        ∨ r + bs.length ≤ rank (Q.state_.get d).state_) →
      run_blocks ts d bs P buf = Except.ok (flow.next Q rest out) := by
  induction bs with
  | nil => intro r _ P Q buf rest out b hb; simp at hb
  | cons a t ih =>
    intro r hr P Q buf rest out b hb hg h hQ
    simp only [List.length_cons] at hQ
    by_cases ha : a.guard (P.state_.get d).state_ = true
    · have hrP := (hr.1.guard_iff _).mp ha
      have hab : run_block a ts d P buf = Except.ok (flow.next Q rest out) := by
        rcases List.mem_cons.mp hb with rfl | hbt
        · exact h
        · have := (ranked_guard t (r + 1) hr.2 b hbt _ hg).1
          omega
      rw [run_blocks_cons_next a t ts d P Q buf rest out hab, run_blocks_no_guard]
      · simp [Except.map, flow.after]
      · intro c hc hcg
        have := ranked_guard t (r + 1) hr.2 c hc _ hcg
        omega
    · have hbt : b ∈ t := by
        rcases List.mem_cons.mp hb with rfl | hbt
        · exact absurd hg ha
        · exact hbt
      have hrP := (ranked_guard t (r + 1) hr.2 b hbt _ hg).1
      rw [run_blocks_cons_next a t ts d P P buf buf [] (run_block_no_guard a ts d P buf ha),
        ih (r + 1) hr.2 P Q buf rest out b hbt hg h (by omega)]
      simp [Except.map, flow.after]

theorem extension_data (bd : bdecode_fn) (ts : timeval) (d : dir_t) (P : parse_bittorrent)
    (n : Nat) (rest : List Nat) (hd : P.disabled_ = false) (hio : P.log_.is_open = true)
    (hs : (P.state_.get d).state_ = state_t.extension)
    (hb : (P.state_.get d).buffer_ = []) (hn0 : n ≠ 0) (hne : rest ≠ [])
    (hr : rest.length ≤ ((P.state_.get d).skip_ + u32 - 1) % u32) :
    P.data bd ts (n :: rest) d
      = Except.ok
          (P.set d { P.state_.get d with
            offset_ := (((P.state_.get d).offset_ + 1) % u64 + rest.length) % u64,
            buffer_ := [],
            skip_ := ((P.state_.get d).skip_ + u32 - 1) % u32 - rest.length,
            state_ := if ((P.state_.get d).skip_ + u32 - 1) % u32 - rest.length = 0
              then state_t.length else state_t.skip },
          [⟨d, some ts,
              match map.find (P.state_.get (opposite d)).extensions_ (int_of_u32 n) with
              | some name => log_event.extension_msg name
              | none => log_event.extension_unknown n⟩,
            ⟨d, some ts, log_event.payload rest.length
              (((P.state_.get d).skip_ + u32 - 1) % u32 - rest.length)⟩]) := by
  have h4 : 4 ≤ rank (P.state_.get d).state_ := by rw [hs]; decide
  have hstep := extension_step ts d P n rest hs hb hn0
  rw [hio, if_pos rfl] at hstep
  generalize hk : ((P.state_.get d).skip_ + u32 - 1) % u32 = k at hstep hr ⊢
  generalize hQ : P.set d { P.state_.get d with
      offset_ := ((P.state_.get d).offset_ + 1) % u64, buffer_ := [],
      skip_ := k, state_ := state_t.skip } = Q at hstep
  have hQs : Q.state_.get d = { P.state_.get d with
      offset_ := ((P.state_.get d).offset_ + 1) % u64, buffer_ := [],
      skip_ := k, state_ := state_t.skip } := by
    rw [← hQ, parse_bittorrent.get_of_set]
  have hrun := run_blocks_single ts d (message_blocks bd) 4 (message_blocks_ranked bd) P Q
    (n :: rest) rest _ extension_block (by simp [message_blocks]) (by rw [hs]; rfl) hstep
    (Or.inr (by rw [hQs]; simp [message_blocks, rank]))
  have hf : 3 * (n :: rest).length + 3 = (3 * rest.length + 5) + 1 := by
    simp only [List.length_cons]; omega
  rw [data_of_rank bd ts d P (n :: rest) (by simp) hd h4, hf,
    loop_of_next bd ts d _ P Q (n :: rest) rest _ (by simp) hne hrun]
  have hmin : min rest.length k = rest.length := Nat.min_eq_left hr
  have hsk : skip_block ts d Q rest
      = (P.set d { P.state_.get d with
            offset_ := (((P.state_.get d).offset_ + 1) % u64 + rest.length) % u64,
            buffer_ := [],
            skip_ := k - rest.length,
            state_ := if k - rest.length = 0 then state_t.length else state_t.skip },
          [], [⟨d, some ts, log_event.payload rest.length (k - rest.length)⟩]) := by
    have hQo : Q.log_.is_open = true := by rw [← hQ]; exact hio
    simp only [skip_block, hQs, if_true, skip_step, hmin, List.drop_length,
      parse_bittorrent.apply_plain, parse_bittorrent.written, hQo, Bool.true_or,
      List.map_cons, List.map_nil, entry.line]
    rw [← hQ, parse_bittorrent.set_of_set]
    split <;> rfl
  rw [hsk]
  simp only [loop_nil, result.after, Except.map]
  rfl

/-- C6 (labelling of extension messages).  Direction `d` of a dissector with an open
transcript is in state `extension` with an empty buffer, and the next byte is the
extension id `n`, not zero.  Let `ev` be `EXTENSION-MSG: <name>` with the entry for `n`
in the `extensions_` map of the opposite direction when that map has one, and
`EXTENSION-MSG: ?? (n)` otherwise.  Then the step of state `extension` writes the one
line `ev` for direction `d` and leaves the direction in state `skip` with the id
counted off `skip_`; the line is the same whatever the `extensions_` map of direction
`d` itself holds; and when the bytes `rest` that follow in the slice belong to the
message, the call `data(ts, n :: rest, d)` writes the line `ev` and one progress line
and consumes them all. -/
theorem extension_labelling (bdecode : bdecode_fn) (P : parse_bittorrent) (ts : timeval)
    (d : dir_t) (n : Nat) (rest : List Nat) (ev : log_event)
    (hd : P.disabled_ = false) (hio : P.log_.is_open = true)
    (hs : (P.state_.get d).state_ = state_t.extension)
    (hb : (P.state_.get d).buffer_ = []) (hn0 : n ≠ 0) (hn : n < 256)
    (hev : ev = match map.find (P.state_.get (opposite d)).extensions_ (n : Int) with
      | some name => log_event.extension_msg name
      | none => log_event.extension_unknown n) :
    run_block extension_block ts d P (n :: rest)
        = Except.ok (flow.next
            (P.set d { P.state_.get d with
              offset_ := ((P.state_.get d).offset_ + 1) % u64, buffer_ := [],
              skip_ := ((P.state_.get d).skip_ + u32 - 1) % u32, state_ := state_t.skip })
            rest [⟨d, some ts, ev⟩])
    ∧ (∀ name, render_event (log_event.extension_msg name) = " EXTENSION-MSG: " ++ name)
    ∧ render_event (log_event.extension_unknown n) = " EXTENSION-MSG: ?? (" ++ toString n ++ ")"
    ∧ (∀ m, ∃ Q, run_block extension_block ts d
          (P.set d { P.state_.get d with extensions_ := m }) (n :: rest)
        = Except.ok (flow.next Q rest [⟨d, some ts, ev⟩]))
    ∧ (rest ≠ [] → rest.length ≤ ((P.state_.get d).skip_ + u32 - 1) % u32 →
        P.data bdecode ts (n :: rest) d
          = Except.ok
              (P.set d { P.state_.get d with
                offset_ := (((P.state_.get d).offset_ + 1) % u64 + rest.length) % u64,
                buffer_ := [],
                skip_ := ((P.state_.get d).skip_ + u32 - 1) % u32 - rest.length,
                state_ := if ((P.state_.get d).skip_ + u32 - 1) % u32 - rest.length = 0
                  then state_t.length else state_t.skip },
              [⟨d, some ts, ev⟩,
                ⟨d, some ts, log_event.payload rest.length
                  (((P.state_.get d).skip_ + u32 - 1) % u32 - rest.length)⟩])) := by
  have hi : int_of_u32 n = (n : Int) := by
    unfold int_of_u32
    rw [if_pos (by omega)]
  have h1 := extension_step ts d P n rest hs hb hn0
  rw [hio, if_pos rfl, hi, ← hev] at h1
  refine ⟨h1, fun _ => rfl, rfl, ?_, ?_⟩
  · intro m
    have h2 := extension_step ts d (P.set d { P.state_.get d with extensions_ := m }) n rest
      (by rw [parse_bittorrent.get_of_set]; exact hs) (by rw [parse_bittorrent.get_of_set]; exact hb) hn0
    have hio2 : (P.set d { P.state_.get d with extensions_ := m }).log_.is_open = true := hio
    rw [hio2, if_pos rfl, hi, parse_bittorrent.get_set_opposite, ← hev] at h2
    exact ⟨_, h2⟩
  · intro hne hr
    have h3 := extension_data bdecode ts d P n rest hd hio hs hb hn0 hne hr
    rw [hi, ← hev] at h3
    exact h3

theorem extension_labelling_witness :
    c6_state.disabled_ = false ∧ c6_state.log_.is_open = true
    ∧ (c6_state.state_.get dir_t.in_).state_ = state_t.extension
    ∧ (c6_state.state_.get dir_t.in_).buffer_ = []
    ∧ map.find (c6_state.state_.get dir_t.out).extensions_ 3 = some "ut_metadata"
    ∧ map.find (c6_state.state_.get dir_t.in_).extensions_ 3 = none
    ∧ run_block extension_block ex_ts dir_t.in_ c6_state [3, 1, 2, 3, 4, 5]
        = Except.ok (flow.next
            (c6_state.set dir_t.in_ { c6_state.state_.get dir_t.in_ with
              offset_ := ((c6_state.state_.get dir_t.in_).offset_ + 1) % u64, buffer_ := [],
              skip_ := ((c6_state.state_.get dir_t.in_).skip_ + u32 - 1) % u32,
              state_ := state_t.skip })
            [1, 2, 3, 4, 5]
            [⟨dir_t.in_, some ex_ts, log_event.extension_msg "ut_metadata"⟩])
    ∧ render_event (log_event.extension_msg "ut_metadata") = " EXTENSION-MSG: ut_metadata" :=
  ⟨by decide, by decide, by decide, by decide, by decide, by decide,
    (extension_labelling ex_bdecode c6_state ex_ts dir_t.in_ 3 [1, 2, 3, 4, 5]
      (log_event.extension_msg "ut_metadata") (by decide) (by decide) (by decide) (by decide)
      (by decide) (by decide) (by decide)).1,
    (extension_labelling ex_bdecode c6_state ex_ts dir_t.in_ 3 [1, 2, 3, 4, 5]
      (log_event.extension_msg "ut_metadata") (by decide) (by decide) (by decide) (by decide)
      (by decide) (by decide) (by decide)).2.1 "ut_metadata"⟩


/-! ## Chunking of the slice: when no progress line is split -/

theorem result.after_ok_state (o : List line) (r : result) (Q : parse_bittorrent)
    (o1 : List line) (h : r = Except.ok (Q, o1)) : result.after o r = Except.ok (Q, o ++ o1) := by
  subst h
  rfl

theorem message_loop_chunk_exact (bd : bdecode_fn) (ts : timeval) (d : dir_t) (y : List Nat)
    (hy : y ≠ []) :
    ∀ (n : Nat) (P : parse_bittorrent) (x : List Nat) (f1 f2 f : Nat),
      P.disabled_ = false → 4 ≤ rank (P.state_.get d).state_ →
      3 * x.length + idle (P.state_.get d) ≤ n →
      3 * x.length + idle (P.state_.get d) ≤ f1 →
      3 * y.length + 3 ≤ f2 →
      3 * (x.length + y.length) + idle (P.state_.get d) ≤ f →
      (∀ Q o, message_loop bd ts d f1 P x = Except.ok (Q, o) →
        (Q.state_.get d).state_ ≠ state_t.skip) →
      message_loop bd ts d f P (x ++ y)
        = (message_loop bd ts d f1 P x).and_then (fun Q => message_loop bd ts d f2 Q y) := by
  intro n
  induction n with
  | zero =>
    intro P x f1 f2 f _ h4 hn hf1 hf2 hf _
    have hx : x = [] := List.eq_nil_of_length_eq_zero (by omega)
    subst hx
    have hi := idle_le (P.state_.get d)
    rw [loop_nil, List.nil_append]
    simp only [result.and_then, result.after_empty]
    rw [message_loop_fuel bd ts d P y f f2 h4 (by simpa using hf) (by omega)]
  | succ m ih =>
    intro P x f1 f2 f hdis h4 hn hf1 hf2 hf hns
    have hi := idle_le (P.state_.get d)
    by_cases hx : x = []
    · subst hx
      rw [loop_nil, List.nil_append]
      simp only [result.and_then, result.after_empty]
      rw [message_loop_fuel bd ts d P y f f2 h4 (by simpa using hf) (by omega)]
    · have hxl : 0 < x.length := List.length_pos.mpr hx
      have hyl : 0 < y.length := List.length_pos.mpr hy
      have hxy : x ++ y ≠ [] := by simp [hx]
      obtain ⟨g1, rfl⟩ := Nat.exists_eq_succ_of_ne_zero (show f1 ≠ 0 by omega)
      obtain ⟨g2, rfl⟩ := Nat.exists_eq_succ_of_ne_zero (show f2 ≠ 0 by omega)
      obtain ⟨g, rfl⟩ := Nat.exists_eq_succ_of_ne_zero (show f ≠ 0 by omega)
      have hc := run_blocks_chunk ts d (message_blocks bd)
        (ranked_disjoint _ 4 (message_blocks_ranked bd)) y P x
      have hk := (run_blocks_keeps ts d _ 4 (message_blocks_ranked bd) (Nat.le_refl _) P x h4).2
      cases h1 : run_blocks ts d (message_blocks bd) P x with
      | error e =>
        rw [loop_of_error bd ts d g P (x ++ y) e hxy (hc.err e h1),
          loop_of_error bd ts d g1 P x e hx h1]
        rfl
      | ok fl =>
        have hk1 := hk fl h1
        cases fl with
        | ret Q out =>
          simp only [flow.state] at hk1
          rcases hc.ret Q out h1 with ⟨hd, _⟩ | ⟨_, _, e⟩
          · rw [hk1.2, hdis] at hd
            cases hd
          · rw [loop_of_map_after bd ts d g P Q (x ++ y) y out hxy hy e,
              loop_of_ret bd ts d g1 P Q x out hx h1]
            simp only [result.and_then]
            have hiQ := idle_le (Q.state_.get d)
            rw [message_loop_fuel bd ts d Q y (g + 1) (g2 + 1) hk1.1 (by omega) (by omega)]
        | next Q x1 out =>
          simp only [flow.state] at hk1
          have e := hc.next Q x1 out h1
          have hsk := skip_block_keeps ts d Q (x1 ++ y) hk1.1
          have hi2 := idle_le ((skip_block ts d Q (x1 ++ y)).1.state_.get d)
          rw [loop_of_next bd ts d g P Q (x ++ y) (x1 ++ y) out hxy (by simp [hy]) e]
          by_cases hx1 : x1 = []
          · subst hx1
            have hQ := loop_of_next_nil bd ts d g1 P Q x out hx h1
            have hs := hns Q out hQ
            rw [hQ]
            simp only [result.and_then, List.nil_append] at hsk hi2 ⊢
            rw [skip_block_other ts d Q y hs]
            simp only [List.append_nil]
            have hiQ := idle_le (Q.state_.get d)
            rw [message_loop_fuel bd ts d Q y g (g2 + 1) hk1.1 (by omega) (by omega)]
          · have hdec := loop_iter_decreases bd ts d P Q x x1 out hx1 h4 h1
            have hsk1 := skip_block_keeps ts d Q x1 hk1.1
            have hP := loop_of_next bd ts d g1 P Q x x1 out hx hx1 h1
            have hns1 : ∀ Q1 o1, message_loop bd ts d g1 (skip_block ts d Q x1).1
                (skip_block ts d Q x1).2.1 = Except.ok (Q1, o1) →
                (Q1.state_.get d).state_ ≠ state_t.skip := by
              intro Q1 o1 h2
              exact hns Q1 _ (hP.trans (result.after_ok_state _ _ Q1 o1 h2))
            rw [hP, result.and_then_after]
            by_cases hs : (Q.state_.get d).state_ = state_t.skip
            · by_cases hsl : (Q.state_.get d).skip_ ≤ x1.length
              · rw [skip_block_chunk_short ts d Q x1 y hs hsl]
                simp only
                congr 1
                exact ih _ _ g1 (g2 + 1) g (by rw [hsk1.2.1, hk1.2, hdis]) hsk1.1
                  (by omega) (by omega) hf2 (by omega) hns1
              · obtain ⟨c1, c2, _, _⟩ := skip_block_chunk_long ts d Q x1 y hs (by omega)
                exact absurd c2 (hns1 _ [] (by rw [c1, loop_nil]))
            · rw [skip_block_other ts d Q x1 hs, skip_block_other ts d Q (x1 ++ y) hs]
              rw [skip_block_other ts d Q x1 hs] at hdec hns1
              simp only at hdec hns1 ⊢
              congr 1
              exact ih Q x1 g1 (g2 + 1) g (by rw [hk1.2, hdis]) hk1.1
                (by omega) (by omega) hf2 (by omega) hns1

theorem data_chunk_exact (bd : bdecode_fn) (ts : timeval) (d : dir_t) (P : parse_bittorrent)
    (x y : List Nat) (hx : x ≠ []) (hy : y ≠ [])
    (hns : ∀ Q o, P.data bd ts x d = Except.ok (Q, o) →
      Q.disabled_ = false → (Q.state_.get d).state_ ≠ state_t.skip) :
    P.data bd ts (x ++ y) d = (P.data bd ts x d).and_then (fun Q => Q.data bd ts y d) := by
  have hxy : x ++ y ≠ [] := by simp [hx]
  by_cases hd : P.disabled_ = true
  · rw [data_of_disabled bd ts d P _ hd, data_of_disabled bd ts d P _ hd]
    simp only [result.and_then, data_of_disabled bd ts d P _ hd]
    rfl
  · have hd' : P.disabled_ = false := by simpa using hd
    have hc := run_blocks_chunk ts d handshake_blocks
      (ranked_disjoint _ 0 handshake_blocks_ranked) y P x
    cases h1 : run_blocks ts d handshake_blocks P x with
    | error e =>
      rw [data_of_error bd ts d P (x ++ y) e hxy hd' (hc.err e h1),
        data_of_error bd ts d P x e hx hd' h1]
      rfl
    | ok fl =>
      cases fl with
      | ret Q out =>
        rw [data_of_ret bd ts d P Q x out hx hd' h1]
        simp only [result.and_then]
        rcases hc.ret Q out h1 with ⟨hQ, e⟩ | ⟨_, hQ, e⟩
        · rw [data_of_ret bd ts d P Q (x ++ y) out hxy hd' e, data_of_disabled bd ts d Q _ hQ]
          simp [result.after, Except.map]
        · rw [data_of_map_after bd ts d P Q (x ++ y) y out hxy hy hd' (hQ.trans hd') e]
      | next Q x1 out =>
        obtain ⟨k1, k2⟩ := run_blocks_next_rank ts d _ 0 handshake_blocks_ranked (by decide)
          P Q x x1 out (Nat.zero_le _) h1
        have k1' : 4 ≤ rank (Q.state_.get d).state_ := by simpa [handshake_blocks] using k1
        have hi := idle_le (Q.state_.get d)
        have hPx := data_of_next bd ts d P Q x x1 out hx hd' h1
        rw [data_of_next bd ts d P Q (x ++ y) (x1 ++ y) out hxy hd' (hc.next Q x1 out h1),
          hPx, result.and_then_after]
        congr 1
        rw [message_loop_chunk_exact bd ts d y hy _ Q x1 (3 * x1.length + 3) (3 * y.length + 3) _
          (k2.trans hd') k1' (Nat.le_refl _) (by omega) (Nat.le_refl _)
          (by simp only [List.length_append]; omega)]
        · apply result.and_then_congr
          intro Q1 o1 h2
          obtain ⟨j1, j2⟩ := message_loop_keeps bd ts d _ Q Q1 x1 o1 k1' h2
          rw [data_of_rank bd ts d Q1 y hy (j2.trans (k2.trans hd')) j1]
        · intro Q1 o1 h2
          obtain ⟨j1, j2⟩ := message_loop_keeps bd ts d _ Q Q1 x1 o1 k1' h2
          exact hns Q1 _ (hPx.trans (result.after_ok_state _ _ Q1 o1 h2)) (j2.trans (k2.trans hd'))


/-! ## The time stamp of a call -/

theorem entry_line_restamp (ts ts1 : timeval) (d : dir_t) (e : entry) :
    line.restamp ts1 (entry.line ts d e) = entry.line ts1 d e := by
  cases e <;> rfl

theorem written_restamp (P : parse_bittorrent) (ts ts1 : timeval) (d : dir_t) (o : outcome) :
    (P.written ts d o).map (line.restamp ts1) = P.written ts1 d o := by
  unfold parse_bittorrent.written
  split
  · rw [List.map_map]
    apply List.map_congr_left
    intro e _
    exact entry_line_restamp ts ts1 d e
  · rfl

theorem flow.restamp_after (ts1 : timeval) (o : List line) (f : flow) :
    flow.restamp ts1 (flow.after o f)
      = flow.after (o.map (line.restamp ts1)) (flow.restamp ts1 f) := by
  cases f <;> simp [flow.restamp, flow.after]

theorem result.restamp_of_after (ts1 : timeval) (o : List line) (r : result) :
    (result.after o r).restamp ts1
      = result.after (o.map (line.restamp ts1)) (r.restamp ts1) := by
  cases r <;> simp [result.restamp, result.after, Except.map]

theorem run_block_restamp (b : block) (ts ts1 : timeval) (d : dir_t) (P : parse_bittorrent)
    (buf : List Nat) :
    run_block b ts1 d P buf = (run_block b ts d P buf).map (flow.restamp ts1) := by
  unfold run_block
  split
  · split
    · rfl
    · split
      · rfl
      · split
        · rfl
        · split <;> simp [Except.map, flow.restamp, written_restamp]
  · rfl

theorem run_blocks_restamp (ts ts1 : timeval) (d : dir_t) (bs : List block) :
    ∀ (P : parse_bittorrent) (buf : List Nat),
      run_blocks ts1 d bs P buf = (run_blocks ts d bs P buf).map (flow.restamp ts1) := by
  induction bs with
  | nil => intro P buf; rfl
  | cons a t ih =>
    intro P buf
    simp only [run_blocks]
    rw [run_block_restamp a ts ts1 d P buf]
    cases h1 : run_block a ts d P buf with
    | error e => rfl
    | ok f =>
      cases f with
      | ret Q o => rfl
      | next Q rest o =>
        simp only [Except.map, flow.restamp]
        rw [ih Q rest]
        cases run_blocks ts d t Q rest with
        | error e => rfl
        | ok f2 =>
          exact congrArg Except.ok (flow.restamp_after ts1 o f2).symm

theorem skip_block_restamp (ts ts1 : timeval) (d : dir_t) (Q : parse_bittorrent)
    (buf : List Nat) :
    skip_block ts1 d Q buf
      = ((skip_block ts d Q buf).1, (skip_block ts d Q buf).2.1,
          (skip_block ts d Q buf).2.2.map (line.restamp ts1)) := by
  unfold skip_block
  split
  · simp only [written_restamp]
  · rfl

theorem message_loop_restamp (bd : bdecode_fn) (ts ts1 : timeval) (d : dir_t) :
    ∀ (f : Nat) (P : parse_bittorrent) (buf : List Nat),
      message_loop bd ts1 d f P buf = (message_loop bd ts d f P buf).restamp ts1 := by
  intro f
  induction f with
  | zero =>
    intro P buf
    cases buf <;> rfl
  | succ g ih =>
    intro P buf
    by_cases hb : buf = []
    · subst hb
      rw [loop_nil, loop_nil]
      rfl
    · have e := run_blocks_restamp ts ts1 d (message_blocks bd) P buf
      cases h1 : run_blocks ts d (message_blocks bd) P buf with
      | error e1 =>
        rw [h1] at e
        rw [loop_of_error bd ts1 d g P buf e1 hb e, loop_of_error bd ts d g P buf e1 hb h1]
        rfl
      | ok fl =>
        rw [h1] at e
        cases fl with
        | ret Q o =>
          rw [loop_of_ret bd ts1 d g P Q buf _ hb e, loop_of_ret bd ts d g P Q buf o hb h1]
          rfl
        | next Q rest o =>
          by_cases hr : rest = []
          · subst hr
            rw [loop_of_next_nil bd ts1 d g P Q buf _ hb e,
              loop_of_next_nil bd ts d g P Q buf o hb h1]
            rfl
          · rw [loop_of_next bd ts1 d g P Q buf rest _ hb hr e,
              loop_of_next bd ts d g P Q buf rest o hb hr h1, result.restamp_of_after,
              skip_block_restamp ts ts1 d Q rest, ih, List.map_append]

theorem data_restamp (bd : bdecode_fn) (ts ts1 : timeval) (d : dir_t) (P : parse_bittorrent)
    (buf : List Nat) :
    P.data bd ts1 buf d = (P.data bd ts buf d).restamp ts1 := by
  by_cases hd : P.disabled_ = true
  · rw [data_of_disabled bd ts1 d P _ hd, data_of_disabled bd ts d P _ hd]
    rfl
  · have hd' : P.disabled_ = false := by simpa using hd
    by_cases hb : buf = []
    · subst hb
      simp only [parse_bittorrent.data, hd', List.isEmpty_nil, if_true, Bool.false_eq_true,
        if_false]
      cases P.log_.is_open <;> rfl
    · have e := run_blocks_restamp ts ts1 d handshake_blocks P buf
      cases h1 : run_blocks ts d handshake_blocks P buf with
      | error e1 =>
        rw [h1] at e
        rw [data_of_error bd ts1 d P buf e1 hb hd' e, data_of_error bd ts d P buf e1 hb hd' h1]
        rfl
      | ok fl =>
        rw [h1] at e
        cases fl with
        | ret Q o =>
          rw [data_of_ret bd ts1 d P Q buf _ hb hd' e, data_of_ret bd ts d P Q buf o hb hd' h1]
          rfl
        | next Q rest o =>
          rw [data_of_next bd ts1 d P Q buf rest _ hb hd' e,
            data_of_next bd ts d P Q buf rest o hb hd' h1, result.restamp_of_after,
            message_loop_restamp bd ts ts1 d]


/-! ## Deliveries in any number of slices -/

theorem feed_cons (bd : bdecode_fn) (d : dir_t) (P : parse_bittorrent)
    (c : timeval × List Nat) (t : List (timeval × List Nat)) :
    feed_data bd d P (c :: t)
      = (P.data bd c.1 c.2 d).and_then (fun Q => feed_data bd d Q t) := by
  cases h : P.data bd c.1 c.2 d with
  | error e => simp [feed_data, h, result.and_then]
  | ok r =>
    obtain ⟨Q, o⟩ := r
    simp [feed_data, h, result.and_then]

theorem result.and_then_assoc (r : result) (k1 k2 : parse_bittorrent → result) :
    (r.and_then k1).and_then k2 = r.and_then (fun Q => (k1 Q).and_then k2) := by
  cases r with
  | error e => rfl
  | ok x => exact result.and_then_after x.2 (k1 x.1) k2

theorem result.restamp_and_then (ts : timeval) (r : result) (k : parse_bittorrent → result) :
    (r.and_then k).restamp ts = (r.restamp ts).and_then (fun Q => (k Q).restamp ts) := by
  cases r with
  | error e => rfl
  | ok x =>
    simp only [result.and_then, result.restamp, Except.map]
    exact result.restamp_of_after ts x.2 (k x.1)

theorem result.and_then_ok (r : result) : r.and_then (fun Q => Except.ok (Q, [])) = r := by
  cases r with
  | error e => rfl
  | ok x => simp [result.and_then, result.after, Except.map]

theorem feed_chunk (bd : bdecode_fn) (d : dir_t) (ts0 : timeval) (P : parse_bittorrent) :
    ∀ (t : List (timeval × List Nat)) (c : timeval × List Nat),
      (∀ x ∈ c :: t, x.2 ≠ []) →
      (∀ x y, x ≠ [] → y ≠ [] → x ++ y = ((c :: t).map Prod.snd).flatten →
        ∀ Q o, P.data bd ts0 x d = Except.ok (Q, o) → Q.disabled_ = false →
          (Q.state_.get d).state_ ≠ state_t.skip) →
      (feed_data bd d P (c :: t)).restamp ts0
        = P.data bd ts0 ((c :: t).map Prod.snd).flatten d := by
  intro t
  induction t with
  | nil =>
    intro c _ _
    rw [feed_cons]
    simp only [feed_data, result.and_then_ok, List.map_cons, List.map_nil, List.flatten_cons,
      List.flatten_nil, List.append_nil]
    exact (data_restamp bd c.1 ts0 d P c.2).symm
  | cons c2 t ih =>
    intro c hne hns
    have hc : c.2 ≠ [] := hne c (List.mem_cons_self _ _)
    have hc2 : c2.2 ≠ [] := hne c2 (List.mem_cons_of_mem _ (List.mem_cons_self _ _))
    have hfl : ((c :: c2 :: t).map Prod.snd).flatten
        = (((ts0, c.2 ++ c2.2) :: t).map Prod.snd).flatten := by
      simp only [List.map_cons, List.flatten_cons, List.append_assoc]
    have hex := data_chunk_exact bd ts0 d P c.2 c2.2 hc hc2
      (hns c.2 (c2.2 ++ (t.map Prod.snd).flatten) hc (by simp [hc2])
        (by simp only [List.map_cons, List.flatten_cons]))
    have hih := ih (ts0, c.2 ++ c2.2)
      (by
        intro x hx
        rcases List.mem_cons.mp hx with rfl | hx
        · simp [hc]
        · exact hne x (List.mem_cons_of_mem _ (List.mem_cons_of_mem _ hx)))
      (by
        intro x y hx hy hxy
        exact hns x y hx hy (hxy.trans hfl.symm))
    rw [hfl, ← hih, feed_cons, feed_cons]
    simp only
    rw [result.restamp_and_then, result.restamp_and_then, ← data_restamp bd c.1 ts0 d P c.2,
      ← data_restamp bd ts0 ts0 d P (c.2 ++ c2.2), hex, result.and_then_assoc]
    apply result.and_then_congr
    intro Q o _
    rw [feed_cons, result.restamp_and_then, ← data_restamp bd c2.1 ts0 d Q c2.2]

theorem head_not_skip_handshake (bd : bdecode_fn) (ts : timeval) (d : dir_t)
    (P Qf : parse_bittorrent) (x y : List Nat) (outf : List line)
    (hd : P.disabled_ = false) (hx : x ≠ []) (hy : y ≠ [])
    (hf : run_blocks ts d handshake_blocks P (x ++ y) = Except.ok (flow.next Qf [] outf)) :
    ∀ Q o, P.data bd ts x d = Except.ok (Q, o) → Q.disabled_ = false →
      (Q.state_.get d).state_ ≠ state_t.skip := by
  intro Q o h hQ
  have hc := run_blocks_chunk ts d handshake_blocks
    (ranked_disjoint _ 0 handshake_blocks_ranked) y P x
  cases h1 : run_blocks ts d handshake_blocks P x with
  | error e =>
    rw [hc.err e h1] at hf
    cases hf
  | ok fl =>
    cases fl with
    | next Q1 x1 out =>
      rw [hc.next Q1 x1 out h1] at hf
      simp only [Except.ok.injEq, flow.next.injEq, List.append_eq_nil] at hf
      exact absurd hf.2.1.2 hy
    | ret Q1 out =>
      rw [data_of_ret bd ts d P Q1 x out hx hd h1] at h
      simp only [Except.ok.injEq, Prod.mk.injEq] at h
      obtain ⟨rfl, _⟩ := h
      rcases hc.ret Q1 out h1 with ⟨hdis, _⟩ | ⟨⟨b, hb, hg⟩, _, _⟩
      · rw [hQ] at hdis
        cases hdis
      · have := (ranked_guard _ 0 handshake_blocks_ranked b hb _ hg).2
        intro hs
        rw [hs] at this
        simp [rank, handshake_blocks] at this

theorem head_not_skip_message (bd : bdecode_fn) (ts : timeval) (d : dir_t)
    (P Qf : parse_bittorrent) (x y : List Nat) (outf : List line)
    (hd : P.disabled_ = false) (h4 : 4 ≤ rank (P.state_.get d).state_)
    (hx : x ≠ []) (hy : y ≠ [])
    (hf : run_blocks ts d (message_blocks bd) P (x ++ y) = Except.ok (flow.next Qf [] outf)) :
    ∀ Q o, P.data bd ts x d = Except.ok (Q, o) → Q.disabled_ = false →
      (Q.state_.get d).state_ ≠ state_t.skip := by
  intro Q o h hQ
  have hc := run_blocks_chunk ts d (message_blocks bd)
    (ranked_disjoint _ 4 (message_blocks_ranked bd)) y P x
  have hfu : 3 * x.length + 3 = (3 * x.length + 2) + 1 := rfl
  rw [data_of_rank bd ts d P x hx hd h4, hfu] at h
  cases h1 : run_blocks ts d (message_blocks bd) P x with
  | error e =>
    rw [hc.err e h1] at hf
    cases hf
  | ok fl =>
    cases fl with
    | next Q1 x1 out =>
      rw [hc.next Q1 x1 out h1] at hf
      simp only [Except.ok.injEq, flow.next.injEq, List.append_eq_nil] at hf
      exact absurd hf.2.1.2 hy
    | ret Q1 out =>
      rw [loop_of_ret bd ts d _ P Q1 x out hx h1] at h
      simp only [Except.ok.injEq, Prod.mk.injEq] at h
      obtain ⟨rfl, _⟩ := h
      rcases hc.ret Q1 out h1 with ⟨hdis, _⟩ | ⟨⟨b, hb, hg⟩, _, _⟩
      · rw [hQ] at hdis
        cases hdis
      · have := (ranked_guard _ 4 (message_blocks_ranked bd) b hb _ hg).2
        intro hs
        rw [hs] at this
        simp [rank, message_blocks] at this


/-! ## The handshake -/

theorem run_block_full (b : block) (ts : timeval) (d : dir_t) (P : parse_bittorrent)
    (a rest : List Nat) (k : Nat) (hg : b.guard (P.state_.get d).state_ = true)
    (hk : b.need (P.state_.get d).skip_ = k) (h31 : k < 2147483648)
    (hb : (P.state_.get d).buffer_ = []) (ha : a.length = k) :
    run_block b ts d P (a ++ rest)
      = match b.body P.log_.is_open { P.state_.get d with buffer_ := a }
          (P.state_.get (opposite d)) with
        | Except.error e => Except.error e
        | Except.ok o =>
          if o.stop then Except.ok (flow.ret (P.apply d o) (P.written ts d o))
          else Except.ok (flow.next (P.apply d o) rest (P.written ts d o)) := by
  rw [run_block_of_need b ts d P (a ++ rest) k hg hk h31, hb]
  simp only [List.length_nil, Nat.sub_zero, List.nil_append]
  rw [List.take_left' ha, List.drop_left' ha, if_neg (by omega)] <;> rfl

theorem protocol_full (ts : timeval) (d : dir_t) (P : parse_bittorrent) (rest : List Nat)
    (hs : (P.state_.get d).state_ = state_t.protocol) (hb : (P.state_.get d).buffer_ = []) :
    run_block protocol_block ts d P (handshake_bytes ++ rest)
      = Except.ok (flow.next
          (P.set d { P.state_.get d with
            buffer_ := [], offset_ := ((P.state_.get d).offset_ + 20) % u64,
            state_ := state_t.reserved })
          rest (if P.log_.is_open then [⟨d, some ts, log_event.handshake⟩] else [])) := by
  have h := (protocol_step ts d P (handshake_bytes ++ rest) hs
    (by rw [hb]; simp [handshake_bytes])).2 (by rw [hb]; rfl)
  rw [hb] at h
  exact h

theorem reserved_full (ts : timeval) (d : dir_t) (P : parse_bittorrent) (a rest : List Nat)
    (hs : (P.state_.get d).state_ = state_t.reserved) (hb : (P.state_.get d).buffer_ = [])
    (ha : a.length = 8) :
    run_block reserved_block ts d P (a ++ rest)
      = Except.ok (flow.next
          (P.set d { P.state_.get d with
            reserved_ := if P.log_.is_open then (P.state_.get d).reserved_ else a,
            buffer_ := [], offset_ := ((P.state_.get d).offset_ + 8) % u64,
            state_ := state_t.info_hash })
          rest (if P.log_.is_open then [⟨d, some ts, log_event.reserved a⟩] else [])) := by
  rw [run_block_full reserved_block ts d P a rest 8 (by rw [hs]; rfl) rfl (by decide) hb ha]
  simp only [reserved_block, Bool.false_eq_true, if_false]
  rw [parse_bittorrent.apply_plain]
  cases hio : P.log_.is_open <;> simp [parse_bittorrent.written, hio, entry.line]

theorem info_hash_full (ts : timeval) (d : dir_t) (P : parse_bittorrent) (a rest : List Nat)
    (hs : (P.state_.get d).state_ = state_t.info_hash) (hb : (P.state_.get d).buffer_ = [])
    (ha : a.length = 20) :
    run_block info_hash_block ts d P (a ++ rest)
      = Except.ok (flow.next
          (P.apply d
            { opens := !P.log_.is_open,
              s := { P.state_.get d with
                buffer_ := [], offset_ := ((P.state_.get d).offset_ + 20) % u64,
                state_ := state_t.peer_id } })
          rest
          ((if P.log_.is_open then []
            else [⟨d, some ts, log_event.handshake⟩,
              ⟨d, some ts, log_event.reserved (P.state_.get d).reserved_⟩])
            ++ [⟨d, some ts, log_event.info_hash a⟩])) := by
  rw [run_block_full info_hash_block ts d P a rest 20 (by rw [hs]; rfl) rfl (by decide) hb ha]
  simp only [info_hash_block, Bool.false_eq_true, if_false]
  cases hio : P.log_.is_open <;>
    simp [parse_bittorrent.written, parse_bittorrent.apply, hio, entry.line]

theorem peer_id_full (ts : timeval) (d : dir_t) (P : parse_bittorrent) (a rest : List Nat)
    (hs : (P.state_.get d).state_ = state_t.peer_id) (hb : (P.state_.get d).buffer_ = [])
    (ha : a.length = 20) :
    run_block peer_id_block ts d P (a ++ rest)
      = Except.ok (flow.next
          (P.set d { P.state_.get d with
            buffer_ := [], offset_ := ((P.state_.get d).offset_ + 20) % u64,
            state_ := state_t.length })
          rest (if P.log_.is_open then [⟨d, some ts, log_event.peer_id a⟩] else [])) := by
  rw [run_block_full peer_id_block ts d P a rest 20 (by rw [hs]; rfl) rfl (by decide) hb ha]
  simp only [peer_id_block, Bool.false_eq_true, if_false]
  rw [parse_bittorrent.apply_plain]
  cases hio : P.log_.is_open <;> simp [parse_bittorrent.written, hio, entry.line]

theorem handshake_run (ts : timeval) (d : dir_t) (key : stream_key) (r h p : List Nat)
    (hr : r.length = 8) (hh : h.length = 20) (hp : p.length = 20) :
    ∃ Qf, run_blocks ts d handshake_blocks (parse_bittorrent.mk_ key)
        (handshake_bytes ++ r ++ h ++ p)
      = Except.ok (flow.next Qf []
          [⟨d, some ts, log_event.handshake⟩, ⟨d, some ts, log_event.reserved r⟩,
            ⟨d, some ts, log_event.info_hash h⟩, ⟨d, some ts, log_event.peer_id p⟩])
      ∧ Qf.disabled_ = false ∧ Qf.log_.is_open = true
      ∧ Qf.state_.get d
          = { skip_ := 0, offset_ := 68, state_ := state_t.length, buffer_ := [],
              reserved_ := r, extensions_ := [] } := by
  have s0 : (parse_bittorrent.mk_ key).state_.get d = {} := by cases d <;> rfl
  obtain ⟨Q1, e1, s1, l1, d1⟩ : ∃ Q1, run_block protocol_block ts d (parse_bittorrent.mk_ key)
        (handshake_bytes ++ (r ++ (h ++ p ++ []))) = Except.ok (flow.next Q1 (r ++ (h ++ p ++ [])) [])
      ∧ Q1.state_.get d = { offset_ := 20, state_ := state_t.reserved }
      ∧ Q1.log_.is_open = false ∧ Q1.disabled_ = false :=
    ⟨_, protocol_full ts d (parse_bittorrent.mk_ key) _ (by rw [s0]) (by rw [s0]),
      by rw [parse_bittorrent.get_of_set, s0]; rfl, rfl, rfl⟩
  obtain ⟨Q2, e2, s2, l2, d2⟩ : ∃ Q2, run_block reserved_block ts d Q1 (r ++ (h ++ p ++ []))
        = Except.ok (flow.next Q2 (h ++ p ++ []) [])
      ∧ Q2.state_.get d = { offset_ := 28, state_ := state_t.info_hash, reserved_ := r }
      ∧ Q2.log_.is_open = false ∧ Q2.disabled_ = false := by
    have e := reserved_full ts d Q1 r (h ++ p ++ []) (by rw [s1]) (by rw [s1]) hr
    rw [l1] at e
    exact ⟨_, e, by rw [parse_bittorrent.get_of_set, s1]; rfl, l1, d1⟩
  obtain ⟨Q3, e3, s3, l3, d3⟩ : ∃ Q3, run_block info_hash_block ts d Q2 (h ++ (p ++ []))
        = Except.ok (flow.next Q3 (p ++ [])
            [⟨d, some ts, log_event.handshake⟩, ⟨d, some ts, log_event.reserved r⟩,
              ⟨d, some ts, log_event.info_hash h⟩])
      ∧ Q3.state_.get d = { offset_ := 48, state_ := state_t.peer_id, reserved_ := r }
      ∧ Q3.log_.is_open = true ∧ Q3.disabled_ = false := by
    have e := info_hash_full ts d Q2 h (p ++ []) (by rw [s2]) (by rw [s2]) hh
    rw [l2, s2] at e
    refine ⟨_, e, ?_, ?_, ?_⟩
    · rw [parse_bittorrent.apply_get]; rfl
    · simp [parse_bittorrent.apply]
    · simp [parse_bittorrent.apply, d2]
  obtain ⟨Q4, e4, s4, l4, d4⟩ : ∃ Q4, run_block peer_id_block ts d Q3 (p ++ [])
        = Except.ok (flow.next Q4 [] [⟨d, some ts, log_event.peer_id p⟩])
      ∧ Q4.state_.get d = { offset_ := 68, state_ := state_t.length, reserved_ := r }
      ∧ Q4.log_.is_open = true ∧ Q4.disabled_ = false := by
    have e := peer_id_full ts d Q3 p [] (by rw [s3]) (by rw [s3]) hp
    rw [l3] at e
    exact ⟨_, e, by rw [parse_bittorrent.get_of_set, s3]; rfl, l3, d3⟩
  refine ⟨Q4, ?_, d4, l4, s4⟩
  have hB : handshake_bytes ++ r ++ h ++ p = handshake_bytes ++ (r ++ (h ++ p ++ [])) := by
    simp
  have hB2 : h ++ p ++ [] = h ++ (p ++ []) := by simp
  rw [hB, handshake_blocks, run_blocks_cons_next _ _ ts d _ Q1 _ _ _ e1,
    run_blocks_cons_next _ _ ts d _ Q2 _ _ _ e2, hB2,
    run_blocks_cons_next _ _ ts d _ Q3 _ _ _ e3,
    run_blocks_cons_next _ _ ts d _ Q4 _ _ _ e4]
  rfl

theorem handshake_data (bd : bdecode_fn) (ts : timeval) (d : dir_t) (key : stream_key)
    (r h p : List Nat) (hr : r.length = 8) (hh : h.length = 20) (hp : p.length = 20) :
    ∃ Qf, (parse_bittorrent.mk_ key).data bd ts (handshake_bytes ++ r ++ h ++ p) d
      = Except.ok (Qf,
          [⟨d, some ts, log_event.handshake⟩, ⟨d, some ts, log_event.reserved r⟩,
            ⟨d, some ts, log_event.info_hash h⟩, ⟨d, some ts, log_event.peer_id p⟩])
      ∧ Qf.disabled_ = false ∧ Qf.log_.is_open = true
      ∧ Qf.state_.get d
          = { skip_ := 0, offset_ := 68, state_ := state_t.length, buffer_ := [],
              reserved_ := r, extensions_ := [] } := by
  obtain ⟨Qf, e, h1, h2, h3⟩ := handshake_run ts d key r h p hr hh hp
  refine ⟨Qf, ?_, h1, h2, h3⟩
  rw [data_of_next bd ts d _ Qf _ [] _ (by simp [handshake_bytes]) rfl e, loop_nil]
  rfl


/-! ## The handshake in slices, and a keep-alive -/

theorem keep_alive_step (ts : timeval) (d : dir_t) (Q : parse_bittorrent)
    (hs : (Q.state_.get d).state_ = state_t.length) (hb : (Q.state_.get d).buffer_ = [])
    (hio : Q.log_.is_open = true) :
    run_block length_block ts d Q ([0, 0, 0, 0] ++ [])
      = Except.ok (flow.next
          (Q.set d { Q.state_.get d with
            offset_ := ((Q.state_.get d).offset_ + 4) % u64, buffer_ := [] })
          [] [⟨d, some ts, log_event.keep_alive⟩]) := by
  rw [run_block_full length_block ts d Q [0, 0, 0, 0] [] 4 (by rw [hs]; rfl) rfl (by decide) hb
    rfl]
  have hr : read_u32 [0, 0, 0, 0] = Except.ok 0 := by rfl
  simp only [length_block, hr]
  simp only [Nat.lt_irrefl, gt_iff_lt, Nat.not_lt_zero, if_false, if_true, List.nil_append,
    Bool.false_eq_true]
  rw [parse_bittorrent.apply_plain]
  simp [parse_bittorrent.written, hio, entry.line]

theorem keep_alive_run (bd : bdecode_fn) (ts : timeval) (d : dir_t) (Q : parse_bittorrent)
    (hs : (Q.state_.get d).state_ = state_t.length) (hb : (Q.state_.get d).buffer_ = [])
    (hio : Q.log_.is_open = true) :
    run_blocks ts d (message_blocks bd) Q [0, 0, 0, 0]
      = Except.ok (flow.next
          (Q.set d { Q.state_.get d with
            offset_ := ((Q.state_.get d).offset_ + 4) % u64, buffer_ := [] })
          [] [⟨d, some ts, log_event.keep_alive⟩]) := by
  apply run_blocks_single ts d (message_blocks bd) 4 (message_blocks_ranked bd) Q _
    [0, 0, 0, 0] [] _ length_block (by simp [message_blocks]) (by rw [hs]; rfl)
    (keep_alive_step ts d Q hs hb hio)
  left
  rw [parse_bittorrent.get_of_set, hs]

theorem result.of_restamp (ts : timeval) (r : result) (Q : parse_bittorrent) (l : List line)
    (h : r.restamp ts = Except.ok (Q, l)) :
    ∃ out, r = Except.ok (Q, out) ∧ out.map (line.restamp ts) = l := by
  cases r with
  | error e => cases h
  | ok x =>
    obtain ⟨Q1, o1⟩ := x
    simp only [result.restamp, Except.map, Except.ok.injEq, Prod.mk.injEq] at h
    exact ⟨o1, by rw [h.1], h.2⟩

theorem restamp_events (ts : timeval) (out l : List line)
    (h : out.map (line.restamp ts) = l) (hl : ∀ x ∈ l, x.ts = some ts) :
    out.map (fun x => (x.d, x.ev)) = l.map (fun x => (x.d, x.ev))
    ∧ ∀ x ∈ out, x.ts.isSome = true := by
  subst h
  constructor
  · rw [List.map_map]
    rfl
  · intro x hx
    have := hl _ (List.mem_map_of_mem _ hx)
    simp only [line.restamp] at this
    cases hx2 : x.ts with
    | none => rw [hx2] at this; cases this
    | some t => rfl

set_option maxRecDepth 100000 in
theorem pad_hex (b : Nat) (hb : b < 256) :
    pad_number 16 2 b = String.mk [Nat.digitChar (b / 16), Nat.digitChar (b % 16)] := by
  revert b
  decide

theorem feed_nonempty (cs : List (timeval × List Nat)) (b : List Nat) (hb : b ≠ [])
    (h : (cs.map Prod.snd).flatten = b) : ∃ c t, cs = c :: t := by
  cases cs with
  | nil => exact absurd h.symm hb
  | cons c t => exact ⟨c, t, rfl⟩

/-- C5 (dissection of the handshake).  A fresh dissector is fed, for direction `d`,
the 68 bytes `0x13 "BitTorrent protocol" ++ r ++ h ++ p` with `|r| = 8` and
`|h| = |p| = 20`, in any number of non-empty slices `cs` with any time stamps.  The
calls return, and all they write are the four lines `HANDSHAKE`, `RESERVED r`,
`INFO-HASH h`, `PEER-ID p`, in this order, each for direction `d` and with a time
stamp; direction `d` is then in state `length` with an empty buffer and offset 68.
Fed four zero bytes next, again in any non-empty slices `zs`, the dissector writes the
one line `KEEP-ALIVE` and direction `d` stays in state `length`.  The bytes of the
three fields are written by `hex_bytes`, which gives for every byte the two lowercase
hexadecimal digits of its value, and the peer id is followed by `[printable(p)]`. -/
theorem handshake_dissection (bdecode : bdecode_fn) (key : stream_key) (d : dir_t)
    (r h p : List Nat) (cs zs : List (timeval × List Nat))
    (hr : r.length = 8) (hh : h.length = 20) (hp : p.length = 20)
    (hcs : ∀ c ∈ cs, c.2 ≠ []) (hB : (cs.map Prod.snd).flatten = handshake_bytes ++ r ++ h ++ p)
    (hzs : ∀ c ∈ zs, c.2 ≠ []) (hZ : (zs.map Prod.snd).flatten = [0, 0, 0, 0]) :
    (∃ Q out Q1 out1,
      feed_data bdecode d (parse_bittorrent.mk_ key) cs = Except.ok (Q, out)
      ∧ out.map (fun l => (l.d, l.ev))
          = [(d, log_event.handshake), (d, log_event.reserved r), (d, log_event.info_hash h),
              (d, log_event.peer_id p)]
      ∧ (∀ l ∈ out, l.ts.isSome = true)
      ∧ (Q.state_.get d).state_ = state_t.length ∧ (Q.state_.get d).buffer_ = []
      ∧ (Q.state_.get d).offset_ = 68
      ∧ feed_data bdecode d Q zs = Except.ok (Q1, out1)
      ∧ out1.map (fun l => (l.d, l.ev)) = [(d, log_event.keep_alive)]
      ∧ (∀ l ∈ out1, l.ts.isSome = true)
      ∧ (Q1.state_.get d).state_ = state_t.length)
    ∧ render_event (log_event.reserved r) = " RESERVED " ++ hex_bytes r
    ∧ render_event (log_event.info_hash h) = " INFO-HASH " ++ hex_bytes h
    ∧ render_event (log_event.peer_id p) = " PEER-ID " ++ hex_bytes p ++ " [" ++ printable p ++ "]"
    ∧ (∀ bs, hex_bytes bs = String.join (bs.map (pad_number 16 2)))
    ∧ (∀ b, b < 256 →
        pad_number 16 2 b = String.mk [Nat.digitChar (b / 16), Nat.digitChar (b % 16)]) := by
  refine ⟨?_, rfl, rfl, rfl, fun _ => rfl, pad_hex⟩
  let ts0 : timeval := ⟨0, 0⟩
  obtain ⟨Qf, e, f1, f2, f3⟩ := handshake_data bdecode ts0 d key r h p hr hh hp
  obtain ⟨Qr, er, _, _, _⟩ := handshake_run ts0 d key r h p hr hh hp
  obtain ⟨c, t, rfl⟩ := feed_nonempty cs _ (by simp [handshake_bytes]) hB
  have hfeed := feed_chunk bdecode d ts0 (parse_bittorrent.mk_ key) t c hcs
    (by
      intro x y hx hy hxy
      rw [hB] at hxy
      rw [← hxy] at er
      exact head_not_skip_handshake bdecode ts0 d _ Qr x y _ rfl hx hy er)
  rw [hB, e] at hfeed
  obtain ⟨out, ho, hm⟩ := result.of_restamp ts0 _ _ _ hfeed
  obtain ⟨m1, m2⟩ := restamp_events ts0 out _ hm (by simp)
  have hs : (Qf.state_.get d).state_ = state_t.length := by rw [f3]
  have hbuf : (Qf.state_.get d).buffer_ = [] := by rw [f3]
  have hka := keep_alive_run bdecode ts0 d Qf hs hbuf f2
  obtain ⟨cz, tz, rfl⟩ := feed_nonempty zs _ (by simp) hZ
  have h4 : 4 ≤ rank (Qf.state_.get d).state_ := by rw [hs]; decide
  have hfeedz := feed_chunk bdecode d ts0 Qf tz cz hzs
    (by
      intro x y hx hy hxy
      rw [hZ] at hxy
      rw [← hxy] at hka
      exact head_not_skip_message bdecode ts0 d Qf _ x y _ f1 h4 hx hy hka)
  have hdz : Qf.data bdecode ts0 [0, 0, 0, 0] d
      = Except.ok (Qf.set d { Qf.state_.get d with
            offset_ := ((Qf.state_.get d).offset_ + 4) % u64, buffer_ := [] },
          [⟨d, some ts0, log_event.keep_alive⟩]) := by
    rw [data_of_rank bdecode ts0 d Qf _ (by simp) f1 h4]
    exact loop_of_next_nil bdecode ts0 d _ Qf _ [0, 0, 0, 0] _ (by simp) hka
  rw [hZ, hdz] at hfeedz
  obtain ⟨outz, hoz, hmz⟩ := result.of_restamp ts0 _ _ _ hfeedz
  obtain ⟨z1, z2⟩ := restamp_events ts0 outz _ hmz (by simp)
  refine ⟨Qf, out, _, outz, ho, m1, m2, hs, hbuf, by rw [f3], hoz, z1, z2, ?_⟩
  rw [parse_bittorrent.get_of_set]
  exact hs

theorem handshake_dissection_witness :
    (List.replicate 8 0).length = 8 ∧ (List.replicate 20 171).length = 20
    ∧ (List.replicate 20 65).length = 20
    ∧ (∀ c ∈ c5_chunks, c.2 ≠ [])
    ∧ (c5_chunks.map Prod.snd).flatten
        = handshake_bytes ++ List.replicate 8 0 ++ List.replicate 20 171 ++ List.replicate 20 65
    ∧ (∀ c ∈ c5_zeros, c.2 ≠ [])
    ∧ (c5_zeros.map Prod.snd).flatten = [0, 0, 0, 0]
    ∧ ∃ Q out Q1 out1,
      feed_data ex_bdecode dir_t.out (parse_bittorrent.mk_ ex_key) c5_chunks = Except.ok (Q, out)
      ∧ out.map (fun l => (l.d, l.ev))
          = [(dir_t.out, log_event.handshake),
              (dir_t.out, log_event.reserved (List.replicate 8 0)),
              (dir_t.out, log_event.info_hash (List.replicate 20 171)),
              (dir_t.out, log_event.peer_id (List.replicate 20 65))]
      ∧ (∀ l ∈ out, l.ts.isSome = true)
      ∧ (Q.state_.get dir_t.out).state_ = state_t.length
      ∧ (Q.state_.get dir_t.out).buffer_ = []
      ∧ (Q.state_.get dir_t.out).offset_ = 68
      ∧ feed_data ex_bdecode dir_t.out Q c5_zeros = Except.ok (Q1, out1)
      ∧ out1.map (fun l => (l.d, l.ev)) = [(dir_t.out, log_event.keep_alive)]
      ∧ (∀ l ∈ out1, l.ts.isSome = true)
      ∧ (Q1.state_.get dir_t.out).state_ = state_t.length :=
  ⟨by decide, by decide, by decide, by decide, by decide, by decide, by decide,
    (handshake_dissection ex_bdecode ex_key dir_t.out (List.replicate 8 0)
      (List.replicate 20 171) (List.replicate 20 65) c5_chunks c5_zeros (by decide) (by decide)
      (by decide) (by decide) (by decide) (by decide) (by decide)).1⟩


/-! ## The ahead rule -/

theorem dir_array.set_get {T : Type} (a : dir_array T) (d : dir_t) : a.set d (a.get d) = a := by
  cases d <;> rfl

theorem utp_connect_of_ne (s : utp_side_state) (hdr : utphdr)
    (h : hdr.seq_nr ≠ (utp_connect s hdr).seqnr) : utp_connect s hdr = s := by
  unfold utp_connect at h ⊢
  split
  · rfl
  · rename_i hc
    simp [hc] at h

/-- C11 (ahead rule), as the code has it.  In both reassemblers a non-empty packet
whose sequence number differs from the expected one is put into the out-of-order map
with `emplace`, keyed by its sequence number, when `(incoming - expected) mod 2^w` is
less than `(2^w - 1) / 2 = 2^(w-1) - 1`, and otherwise the map, the expected number and
the flags stay as they are (the TCP reassembler may pass a `seqnr_mismatch` event to
the handler, the uTP reassembler does nothing).  The test is the same as: the `w` bit
signed difference is positive and is not `2^(w-1) - 1`.  Here `w = 32` for TCP and
`w = 16` for uTP. -/
theorem ahead_rule {H : Type} (hd : Handler H) (ts : timeval)
    (st : tcp_state H) (hdr : tcphdr) (buf : List Nat) (d : dir_t)
    (ut : utp_state H) (uhdr : utphdr) (ubuf : List Nat) (ud : dir_t)
    (hbuf : buf ≠ []) (hq : hdr.seq < u32) (he : (st.state_.get d).seqnr < u32)
    (hne : hdr.seq ≠ (st.state_.get d).seqnr)
    (hubuf : ubuf ≠ []) (huq : uhdr.seq_nr < u16)
    (hue : (utp_connect (ut.state_.get ud) uhdr).seqnr < u16)
    (hune : uhdr.seq_nr ≠ (utp_connect (ut.state_.get ud) uhdr).seqnr) :
    (((hdr.seq + u32 - (st.state_.get d).seqnr) % u32 : Nat) : Int)
        = ((hdr.seq : Int) - (st.state_.get d).seqnr) % 4294967296
    ∧ ((hdr.seq + u32 - (st.state_.get d).seqnr) % u32 < 2147483647 →
        st.packet hd ts hdr buf d
          = { st with state_ := st.state_.set d { st.state_.get d with
                ooo_ := (st.state_.get d).ooo_.emplace hdr.seq buf } })
    ∧ (¬ (hdr.seq + u32 - (st.state_.get d).seqnr) % u32 < 2147483647 →
        (st.packet hd ts hdr buf d).state_ = st.state_
        ∧ ((st.packet hd ts hdr buf d).handler = st.handler
          ∨ (st.packet hd ts hdr buf d).handler
              = hd.event st.handler ts socket_event_t.seqnr_mismatch d))
    ∧ ((hdr.seq + u32 - (st.state_.get d).seqnr) % u32 < 2147483647 ↔
        0 < int_of_u32 ((hdr.seq + u32 - (st.state_.get d).seqnr) % u32)
        ∧ int_of_u32 ((hdr.seq + u32 - (st.state_.get d).seqnr) % u32) ≠ 2147483647)
    ∧ (((uhdr.seq_nr + u16 - (ut.state_.get ud).seqnr) % u16 : Nat) : Int)
        = ((uhdr.seq_nr : Int) - (ut.state_.get ud).seqnr) % 65536
    ∧ ((uhdr.seq_nr + u16 - (ut.state_.get ud).seqnr) % u16 < 32767 →
        ut.packet hd ts uhdr ubuf ud
          = { ut with state_ := ut.state_.set ud { ut.state_.get ud with
                ooo_ := (ut.state_.get ud).ooo_.emplace uhdr.seq_nr ubuf } })
    ∧ (¬ (uhdr.seq_nr + u16 - (ut.state_.get ud).seqnr) % u16 < 32767 →
        ut.packet hd ts uhdr ubuf ud = ut)
    ∧ ((uhdr.seq_nr + u16 - (ut.state_.get ud).seqnr) % u16 < 32767 ↔
        0 < (if (uhdr.seq_nr + u16 - (ut.state_.get ud).seqnr) % u16 < 32768
              then (((uhdr.seq_nr + u16 - (ut.state_.get ud).seqnr) % u16 : Nat) : Int)
              else (((uhdr.seq_nr + u16 - (ut.state_.get ud).seqnr) % u16 : Nat) : Int) - 65536)
        ∧ (uhdr.seq_nr + u16 - (ut.state_.get ud).seqnr) % u16 ≠ 32767) := by
  have hlen : ¬ buf.length = 0 := fun h => hbuf (List.length_eq_zero.mp h)
  have hulen : ¬ ubuf.length = 0 := fun h => hubuf (List.length_eq_zero.mp h)
  have hc := utp_connect_of_ne _ _ hune
  rw [hc] at hue hune
  have k32 : (u32 - 1) / 2 = 2147483647 := by decide
  have k16 : (u16 - 1) / 2 = 32767 := by decide
  have hp : st.packet hd ts hdr buf d
      = if (hdr.seq + u32 - (st.state_.get d).seqnr) % u32 < 2147483647 then
          { st with state_ := st.state_.set d { st.state_.get d with
              ooo_ := (st.state_.get d).ooo_.emplace hdr.seq buf } }
        else if hdr.seq + buf.length ≠ (st.state_.get d).seqnr then
          { st with handler := hd.event st.handler ts socket_event_t.seqnr_mismatch d }
        else st := by
    simp only [tcp_state.packet, hlen, if_false, hne, ne_eq, not_false_eq_true, if_true, k32]
  have hup : ut.packet hd ts uhdr ubuf ud
      = if (uhdr.seq_nr + u16 - (ut.state_.get ud).seqnr) % u16 < 32767 then
          { ut with state_ := ut.state_.set ud { ut.state_.get ud with
              ooo_ := (ut.state_.get ud).ooo_.emplace uhdr.seq_nr ubuf } }
        else ut := by
    simp only [utp_state.packet, hc, hulen, if_false, hune, ne_eq, not_false_eq_true, if_true,
      k16, dir_array.set_get]
  rw [hp, hup]
  generalize (st.state_.get d).seqnr = e at he hne ⊢
  generalize hdr.seq = q at hq hne ⊢
  generalize (ut.state_.get ud).seqnr = ue at hue hune ⊢
  generalize uhdr.seq_nr = uq at huq hune ⊢
  refine ⟨?_, ?_, ?_, ?_, ?_, ?_, ?_, ?_⟩
  · simp only [u32] at hq he ⊢; omega
  · intro h
    rw [if_pos h]
  · intro h
    rw [if_neg h]
    split
    · exact ⟨rfl, Or.inr rfl⟩
    · exact ⟨rfl, Or.inl rfl⟩
  · unfold int_of_u32
    simp only [u32] at hq he ⊢
    split <;> omega
  · simp only [u16] at huq hue ⊢; omega
  · intro h
    rw [if_pos h]
  · intro h
    rw [if_neg h]
  · simp only [u16] at huq hue ⊢
    split <;> omega

theorem ahead_rule_witness :
    [1] ≠ [] ∧ (seg_hdr 12).seq < u32 ∧ (c11_tcp.state_.get dir_t.out).seqnr < u32
    ∧ (seg_hdr 12).seq ≠ (c11_tcp.state_.get dir_t.out).seqnr
    ∧ (data_hdr 9).seq_nr < u16
    ∧ (utp_connect (c11_utp.state_.get dir_t.out) (data_hdr 9)).seqnr < u16
    ∧ (data_hdr 9).seq_nr ≠ (utp_connect (c11_utp.state_.get dir_t.out) (data_hdr 9)).seqnr
    ∧ c11_tcp.packet recorder ⟨1, 0⟩ (seg_hdr 12) [1] dir_t.out
        = { c11_tcp with state_ := c11_tcp.state_.set dir_t.out { c11_tcp.state_.get dir_t.out with
              ooo_ := (c11_tcp.state_.get dir_t.out).ooo_.emplace (seg_hdr 12).seq [1] } }
    ∧ c11_utp.packet recorder ⟨1, 0⟩ (data_hdr 9) [1] dir_t.out = c11_utp :=
  ⟨by decide, by decide, by decide, by decide, by decide, by decide, by decide,
    (ahead_rule recorder ⟨1, 0⟩ c11_tcp (seg_hdr 12) [1] dir_t.out c11_utp (data_hdr 9) [1]
      dir_t.out (by decide) (by decide) (by decide) (by decide) (by decide) (by decide)
      (by decide) (by decide)).2.1 (by decide),
    (ahead_rule recorder ⟨1, 0⟩ c11_tcp (seg_hdr 12) [1] dir_t.out c11_utp (data_hdr 9) [1]
      dir_t.out (by decide) (by decide) (by decide) (by decide) (by decide) (by decide)
      (by decide) (by decide)).2.2.2.2.2.2.1 (by decide)⟩

/-- The claim C11 as it is written fails at the difference `2^(w-1) - 1`: a TCP segment
2147483647 ahead of the expected sequence number 10, and a uTP packet 32767 ahead of
the expected sequence number 10, are less than half the sequence space ahead and are
not put into the out-of-order map. -/
theorem ahead_rule_boundary :
    (2147483657 + u32 - (c11_tcp.state_.get dir_t.out).seqnr) % u32 < 2 ^ 31
    ∧ map.find ((c11_tcp.packet recorder ⟨1, 0⟩ (seg_hdr 2147483657) [1] dir_t.out).state_.get
        dir_t.out).ooo_ 2147483657 = none
    ∧ (32777 + u16 - (c11_utp.state_.get dir_t.out).seqnr) % u16 < 2 ^ 15
    ∧ map.find ((c11_utp.packet recorder ⟨1, 0⟩ (data_hdr 32777) [1] dir_t.out).state_.get
        dir_t.out).ooo_ 32777 = none := by
  decide


/-! ## Retransmitted TCP segments -/

theorem tcp_packet_behind {H : Type} (hd : Handler H) (ts : timeval) (st : tcp_state H)
    (hdr : tcphdr) (buf : List Nat) (d : dir_t) (hbuf : buf ≠ [])
    (hne : hdr.seq ≠ (st.state_.get d).seqnr)
    (hna : ¬ (hdr.seq + u32 - (st.state_.get d).seqnr) % u32 < 2147483647) :
    st.packet hd ts hdr buf d
      = if hdr.seq + buf.length ≠ (st.state_.get d).seqnr then
          { st with handler := hd.event st.handler ts socket_event_t.seqnr_mismatch d }
        else st := by
  have hlen : ¬ buf.length = 0 := fun h => hbuf (List.length_eq_zero.mp h)
  have k32 : (u32 - 1) / 2 = 2147483647 := by decide
  simp only [tcp_state.packet, hlen, if_false, hne, ne_eq, not_false_eq_true, if_true, k32, hna]

theorem tcp_retransmit_clean {H : Type} (hd : Handler H) (ts : timeval) (st : tcp_state H)
    (hdr : tcphdr) (buf : List Nat) (d : dir_t) (hbuf : buf ≠ [])
    (hne : hdr.seq ≠ (st.state_.get d).seqnr)
    (hna : ¬ (hdr.seq + u32 - (st.state_.get d).seqnr) % u32 < 2147483647)
    (hsum : hdr.seq + buf.length = (st.state_.get d).seqnr) :
    st.packet hd ts hdr buf d = st := by
  rw [tcp_packet_behind hd ts st hdr buf d hbuf hne hna, if_neg (by simpa using hsum)]

/-- C12 at a segment that crosses 2^32.  Direction `out` expects sequence number 10; a
segment of 15 bytes with sequence number 2^32 - 5 is not in order, is not ahead, and
ends at `(2^32 - 5 + 15) mod 2^32 = 10`, yet `packet` passes a `seqnr_mismatch` event to
the handler: the sum `incoming_seqnr + buf.size()` is not reduced modulo 2^32. -/
theorem tcp_retransmit_wrap :
    (seg_hdr 4294967291).seq ≠ (c11_tcp.state_.get dir_t.out).seqnr
    ∧ ¬ ((seg_hdr 4294967291).seq + u32 - (c11_tcp.state_.get dir_t.out).seqnr) % u32
          < (u32 - 1) / 2
    ∧ ((seg_hdr 4294967291).seq + (List.replicate 15 0).length) % u32
        = (c11_tcp.state_.get dir_t.out).seqnr
    ∧ c11_tcp.packet recorder ⟨1, 0⟩ (seg_hdr 4294967291) (List.replicate 15 0) dir_t.out
        = { c11_tcp with
            handler := [call.event ⟨1, 0⟩ socket_event_t.seqnr_mismatch dir_t.out] } := by
  decide

theorem buffered_bytes_erase (m : map Nat (List Nat)) (k : Nat) (p : List Nat)
    (h : map.find m k = some p) : buffered_bytes (map.erase m k) + p.length ≤ buffered_bytes m := by
  induction m with
  | nil => cases h
  | cons a t ih =>
    obtain ⟨a1, a2⟩ := a
    simp only [map.find] at h
    by_cases hk : a1 = k
    · simp only [hk, if_true, Option.some.injEq] at h
      subst h
      have hle : ∀ (t : map Nat (List Nat)), buffered_bytes (map.erase t k) ≤ buffered_bytes t := by
        intro t
        induction t with
        | nil => exact Nat.le_refl _
        | cons b u ihu =>
          obtain ⟨b1, b2⟩ := b
          by_cases hb : b1 = k
          · simp only [map.erase, hb, if_true, buffered_bytes, List.map_cons, List.sum_cons]
              at ihu ⊢
            omega
          · simp only [map.erase, hb, if_false, buffered_bytes, List.map_cons, List.sum_cons]
              at ihu ⊢
            omega
      have := hle t
      simp only [map.erase, hk, if_true, buffered_bytes, List.map_cons, List.sum_cons] at this ⊢
      omega
    · simp only [hk, if_false] at h
      have := ih h
      simp only [map.erase, hk, if_false, buffered_bytes, List.map_cons, List.sum_cons] at this ⊢
      omega

theorem tcp_drains_bytes {m m1 : map Nat (List Nat)} {e e1 : Nat} {ps : List (List Nat)}
    (h : Drains tcp_advance m e ps m1 e1) :
    ps.flatten.length + buffered_bytes m1 ≤ buffered_bytes m
    ∧ e1 % u32 = (e + ps.flatten.length) % u32
    ∧ (e < u32 → e1 < u32) := by
  induction h with
  | stop m e h => simp
  | step m e p ps m1 e1 hf _ ih =>
    have hb := buffered_bytes_erase m e p hf
    obtain ⟨i1, i2, i3⟩ := ih
    refine ⟨?_, ?_, ?_⟩
    · simp only [List.flatten_cons, List.length_append]
      omega
    · rw [i2]
      simp only [tcp_advance, List.flatten_cons, List.length_append, u32]
      omega
    · intro _
      exact i3 (Nat.mod_lt _ (by decide))

/-- C13 (duplicate TCP segment), as the code has it.  A non-empty segment with the
expected sequence number is handed to `packet` twice; the first call hands it to the
handler and drains the payloads `ps` from the out-of-order map, the segment and the
map holding no more than 2^31 + 1 bytes together.  The second call changes no
reassembler state and hands no bytes to the handler.  It is a no-op when the first call
drained no byte and the segment ends below 2^32; when the first call drained bytes,
the second call passes one `seqnr_mismatch` event to the handler and does nothing
else. -/
theorem tcp_duplicate {H : Type} (hd : Handler H) (ts ts2 : timeval) (st : tcp_state H)
    (hdr : tcphdr) (buf : List Nat) (d : dir_t) (hbuf : buf ≠ [])
    (hseq : hdr.seq = (st.state_.get d).seqnr) (he : (st.state_.get d).seqnr < u32)
    (hsz : buf.length + buffered_bytes (st.state_.get d).ooo_ ≤ 2147483649) :
    ∃ ps : List (List Nat),
      (st.packet hd ts hdr buf d).handler
        = ps.foldl (fun a p => hd.data a ts p d) (hd.data st.handler ts buf d)
      ∧ ((st.packet hd ts hdr buf d).packet hd ts2 hdr buf d).state_
          = (st.packet hd ts hdr buf d).state_
      ∧ (ps.flatten = [] → hdr.seq + buf.length < u32 →
          (st.packet hd ts hdr buf d).packet hd ts2 hdr buf d = st.packet hd ts hdr buf d)
      ∧ (ps.flatten ≠ [] →
          (st.packet hd ts hdr buf d).packet hd ts2 hdr buf d
            = { st.packet hd ts hdr buf d with
                handler := hd.event (st.packet hd ts hdr buf d).handler ts2
                  socket_event_t.seqnr_mismatch d }) := by
  obtain ⟨ps, hD, hh, -, -, -, -, -⟩ := tcp_packet_inorder hd ts st hdr buf d hbuf hseq
  obtain ⟨b1, b2, b3⟩ := tcp_drains_bytes hD
  have hl : 0 < buf.length := List.length_pos.mpr hbuf
  generalize st.packet hd ts hdr buf d = st1 at hD hh b1 b2 b3 ⊢
  have b4 := b3 (Nat.mod_lt _ (by decide))
  have hps : ps.flatten = [] ↔ ps.flatten.length = 0 := List.length_eq_zero.symm
  generalize hs : (st.state_.get d).seqnr = e at hseq he b2
  generalize hs1 : (st1.state_.get d).seqnr = e1 at b2 b4
  generalize hq : hdr.seq = q at hseq
  generalize hn : buf.length = n at hsz hl b2
  generalize hDl : ps.flatten.length = D at b1 b2 hps
  generalize buffered_bytes (st.state_.get d).ooo_ = B at hsz b1
  subst hseq
  have hne : hdr.seq ≠ (st1.state_.get d).seqnr := by
    rw [hq, hs1]
    simp only [u32] at he b2 b4
    omega
  have hna : ¬ (hdr.seq + u32 - (st1.state_.get d).seqnr) % u32 < 2147483647 := by
    rw [hq, hs1]
    simp only [u32] at he b2 b4 ⊢
    omega
  have hp := tcp_packet_behind hd ts2 st1 hdr buf d hbuf hne hna
  rw [hq, hs1, hn] at hp
  refine ⟨ps, hh, ?_, ?_, ?_⟩
  · rw [hp]
    split <;> rfl
  · intro h0 hw
    rw [hp, if_neg]
    have := hps.mp h0
    simp only [u32] at he b2 b4 hw ⊢
    omega
  · intro h0
    rw [hp, if_pos]
    have : D ≠ 0 := fun h => h0 (hps.mpr h)
    simp only [u32] at he b2 b4 ⊢
    omega

theorem tcp_duplicate_witness :
    [1, 2] ≠ [] ∧ (seg_hdr 100).seq = (c3_tcp.state_.get dir_t.out).seqnr
    ∧ (c3_tcp.state_.get dir_t.out).seqnr < u32
    ∧ [1, 2].length + buffered_bytes (c3_tcp.state_.get dir_t.out).ooo_ ≤ 2147483649
    ∧ ∃ ps : List (List Nat),
      (c3_tcp.packet recorder ⟨1, 0⟩ (seg_hdr 100) [1, 2] dir_t.out).handler
        = ps.foldl (fun a p => recorder.data a ⟨1, 0⟩ p dir_t.out)
            (recorder.data c3_tcp.handler ⟨1, 0⟩ [1, 2] dir_t.out)
      ∧ ((c3_tcp.packet recorder ⟨1, 0⟩ (seg_hdr 100) [1, 2] dir_t.out).packet recorder ⟨2, 0⟩
            (seg_hdr 100) [1, 2] dir_t.out).state_
          = (c3_tcp.packet recorder ⟨1, 0⟩ (seg_hdr 100) [1, 2] dir_t.out).state_ :=
  ⟨by decide, by decide, by decide, by decide,
    (tcp_duplicate recorder ⟨1, 0⟩ ⟨2, 0⟩ c3_tcp (seg_hdr 100) [1, 2] dir_t.out (by decide)
      (by decide) (by decide) (by decide)).imp (fun _ h => ⟨h.1, h.2.1⟩)⟩

/-- The claim C13 as it is written fails when the first call drains: direction `out`
expects 100 and buffers three bytes at 102; the segment of two bytes at 100 is handed
over, the buffered bytes are drained, and the same segment again makes `packet` pass a
`seqnr_mismatch` event to the handler. -/
theorem tcp_duplicate_after_drain :
    (seg_hdr 100).seq = (c3_tcp.state_.get dir_t.out).seqnr
    ∧ payloads dir_t.out (c3_tcp.packet recorder ⟨1, 0⟩ (seg_hdr 100) [1, 2] dir_t.out).handler
        = [[1, 2], [7, 8, 9]]
    ∧ ((c3_tcp.packet recorder ⟨1, 0⟩ (seg_hdr 100) [1, 2] dir_t.out).packet recorder ⟨2, 0⟩
          (seg_hdr 100) [1, 2] dir_t.out).handler
        = (c3_tcp.packet recorder ⟨1, 0⟩ (seg_hdr 100) [1, 2] dir_t.out).handler
            ++ [call.event ⟨2, 0⟩ socket_event_t.seqnr_mismatch dir_t.out] := by
  decide


/-! ## Duplicate uTP packets -/

theorem utp_drains_window {m m1 : map Nat (List Nat)} {e e1 : Nat} {ps : List (List Nat)}
    (h : Drains utp_advance m e ps m1 e1) :
    ∀ B, B ≤ 65535 → e < u16 →
      (∀ q p, map.find m q = some p → q < u16 ∧ (q + u16 - e) % u16 < B) →
      e1 < u16 ∧ (e1 + u16 - e) % u16 = ps.length ∧ ps.length ≤ B
      ∧ (∀ q p, map.find m1 q = some p → q < u16 ∧ q ≠ e1 ∧ (q + u16 - e1) % u16 < B) := by
  induction h with
  | stop m e hf =>
    intro B _ he hm
    refine ⟨he, ?_, Nat.zero_le _, ?_⟩
    · simp only [u16] at he ⊢
      simp only [List.length_nil]
      omega
    · intro q p hq
      refine ⟨(hm q p hq).1, ?_, (hm q p hq).2⟩
      intro hqe
      rw [hqe, hf] at hq
      cases hq
  | step m e p ps m1 e1 hf _ ih =>
    intro B hB he hm
    have h0 := (hm e p hf).2
    have he' : utp_advance e p < u16 := Nat.mod_lt _ (by decide)
    obtain ⟨i1, i2, i3, i4⟩ := ih (B - 1) (by omega) he' (by
      intro q p' hq
      rw [map.find_erase] at hq
      by_cases hqe : q = e
      · simp [hqe] at hq
      · simp only [hqe, if_false] at hq
        obtain ⟨a1, a2⟩ := hm q p' hq
        refine ⟨a1, ?_⟩
        simp only [utp_advance, u16] at he a1 a2 ⊢
        omega)
    refine ⟨i1, ?_, ?_, ?_⟩
    · simp only [List.length_cons]
      simp only [utp_advance, u16] at he i1 i2 he' ⊢
      omega
    · simp only [List.length_cons]
      simp only [u16] at h0
      omega
    · intro q p' hq
      obtain ⟨a1, a2, a3⟩ := i4 q p' hq
      exact ⟨a1, a2, by omega⟩

theorem utp_packet_other {H : Type} (hd : Handler H) (st : utp_state H) (ts : timeval)
    (hdr : utphdr) (buf : List Nat) (d d' : dir_t) (h : d' ≠ d) :
    (st.packet hd ts hdr buf d).state_.get d' = st.state_.get d' := by
  unfold utp_state.packet
  simp only []
  split
  · exact dir_array.get_set_ne _ _ _ _ h
  · split
    · split
      · exact dir_array.get_set_ne _ _ _ _ h
      · exact dir_array.get_set_ne _ _ _ _ h
    · exact dir_array.get_set_ne _ _ _ _ h

theorem utp_packet_side {H : Type} (hd : Handler H) (st : utp_state H) (ts : timeval)
    (hdr : utphdr) (buf : List Nat) (d : dir_t) :
    (st.packet hd ts hdr buf d).state_.get d
      = if buf.length = 0 then utp_connect (st.state_.get d) hdr
        else if hdr.seq_nr ≠ (utp_connect (st.state_.get d) hdr).seqnr then
          if (hdr.seq_nr + u16 - (utp_connect (st.state_.get d) hdr).seqnr) % u16 < (u16 - 1) / 2
          then { utp_connect (st.state_.get d) hdr with
                 ooo_ := (utp_connect (st.state_.get d) hdr).ooo_.emplace hdr.seq_nr buf }
          else utp_connect (st.state_.get d) hdr
        else
          (utp_drain hd ts d (utp_connect (st.state_.get d) hdr).ooo_.length
            ({ utp_connect (st.state_.get d) hdr with
                seqnr := ((utp_connect (st.state_.get d) hdr).seqnr + 1) % u16 },
              hd.data st.handler ts buf d)).1 := by
  unfold utp_state.packet
  simp only []
  split
  · exact dir_array.get_set _ _ _
  · split
    · split
      · exact dir_array.get_set _ _ _
      · exact dir_array.get_set _ _ _
    · exact dir_array.get_set _ _ _

theorem utp_connect_window (s : utp_side_state) (hdr : utphdr) (hq : hdr.seq_nr < u16)
    (w : utp_window s) :
    utp_window (utp_connect s hdr) ∧ (utp_connect s hdr).connected = true := by
  unfold utp_connect
  by_cases hc : s.connected = true
  · simp only [hc, if_true]
    exact ⟨w, trivial⟩
  · have hc' : s.connected = false := by simpa using hc
    simp only [hc', Bool.false_eq_true, if_false]
    refine ⟨⟨hq, fun h => (by cases h), ?_⟩, trivial⟩
    intro q p hf
    simp only [w.fresh hc'] at hf
    cases hf

theorem utp_packet_window {H : Type} (hd : Handler H) (st : utp_state H) (ts : timeval)
    (hdr : utphdr) (buf : List Nat) (d : dir_t) (hq : hdr.seq_nr < u16)
    (w : utp_window (st.state_.get d)) :
    utp_window ((st.packet hd ts hdr buf d).state_.get d)
    ∧ ((st.packet hd ts hdr buf d).state_.get d).connected = true := by
  obtain ⟨wc, hc⟩ := utp_connect_window (st.state_.get d) hdr hq w
  rw [utp_packet_side]
  generalize utp_connect (st.state_.get d) hdr = s at wc hc ⊢
  have k16 : (u16 - 1) / 2 = 32767 := by decide
  split
  · exact ⟨wc, hc⟩
  · split
    · rename_i hne
      split
      · rename_i ha
        refine ⟨⟨wc.seq_lt, fun h => ?_, ?_⟩, hc⟩
        · rw [hc] at h
          cases h
        · intro q p hf
          simp only [map.emplace] at hf
          split at hf
          · exact wc.ahead q p hf
          · rename_i hnone
            by_cases hqe : q = hdr.seq_nr
            · subst hqe
              exact ⟨hq, hne, by rw [k16] at ha; exact ha⟩
            · rw [map.find_append_none _ _ _ _ hnone, if_neg hqe] at hf
              exact wc.ahead q p hf
      · exact ⟨wc, hc⟩
    · rename_i heq
      obtain ⟨ps, hD, _, _, hconn, _⟩ := utp_drain_spec hd ts d s.ooo_.length
        { s with seqnr := (s.seqnr + 1) % u16 } (hd.data st.handler ts buf d) (Nat.le_refl _)
      have he' : (s.seqnr + 1) % u16 < u16 := Nat.mod_lt _ (by decide)
      obtain ⟨i1, i2, i3, i4⟩ := utp_drains_window hD 32766 (by decide) he' (by
        intro q p hf
        obtain ⟨a1, a2, a3⟩ := wc.ahead q p hf
        refine ⟨a1, ?_⟩
        have := wc.seq_lt
        simp only [u16] at this a1 a3 ⊢
        omega)
      refine ⟨⟨i1, fun h => ?_, ?_⟩, by rw [hconn]; exact hc⟩
      · rw [hconn] at h
        simp only at h
        rw [hc] at h
        cases h
      · intro q p hf
        obtain ⟨a1, a2, a3⟩ := i4 q p hf
        exact ⟨a1, a2, Nat.lt_trans a3 (by decide)⟩

theorem utp_reachable_window {H : Type} (hd : Handler H) (st : utp_state H)
    (h : utp_reachable hd st) : ∀ d, utp_window (st.state_.get d) := by
  induction h with
  | init st h0 =>
    intro d
    refine ⟨(h0 d).2, fun _ => (h0 d).1, ?_⟩
    intro q p hf
    rw [(h0 d).1] at hf
    cases hf
  | packet st ts hdr buf d _ hq ih =>
    intro d'
    by_cases hd' : d' = d
    · subst hd'
      exact (utp_packet_window hd st ts hdr buf d' hq (ih d')).1
    · rw [utp_packet_other hd st ts hdr buf d d' hd']
      exact ih d'

theorem utp_packet_behind {H : Type} (hd : Handler H) (ts : timeval) (st : utp_state H)
    (hdr : utphdr) (buf : List Nat) (d : dir_t) (hbuf : buf ≠ [])
    (hc : (st.state_.get d).connected = true)
    (hne : hdr.seq_nr ≠ (st.state_.get d).seqnr)
    (hna : ¬ (hdr.seq_nr + u16 - (st.state_.get d).seqnr) % u16 < 32767) :
    st.packet hd ts hdr buf d = st := by
  have hlen : ¬ buf.length = 0 := fun h => hbuf (List.length_eq_zero.mp h)
  have k16 : (u16 - 1) / 2 = 32767 := by decide
  have hcn : utp_connect (st.state_.get d) hdr = st.state_.get d := by
    simp [utp_connect, hc]
  simp only [utp_state.packet, hcn, hlen, if_false, hne, ne_eq, not_false_eq_true, if_true, k16,
    hna, dir_array.set_get]

theorem Drains.mem_source {adv : Nat → List Nat → Nat} {m m1 : map Nat (List Nat)}
    {e e1 : Nat} {ps : List (List Nat)} (h : Drains adv m e ps m1 e1) :
    ∀ p ∈ ps, ∃ q, map.find m q = some p := by
  induction h with
  | stop m e hf => intro p hp; cases hp
  | step m e p0 ps m1 e1 hf _ ih =>
    intro p hp
    rcases List.mem_cons.mp hp with rfl | hp
    · exact ⟨e, hf⟩
    · obtain ⟨q, hq'⟩ := ih p hp
      rw [map.find_erase] at hq'
      split at hq'
      · cases hq'
      · exact ⟨q, hq'⟩

/-- C14 (duplicate uTP packet).  In every state of a uTP connection reachable by
`packet` calls after initialisation, a non-empty packet whose sequence number is the
expected one of its direction (after the cold start, when the direction is not yet
connected) is processed twice.  The second call returns the state of the first,
handler included: no payload is handed over again.  The first call hands the payload
to the handler once, then the payloads `ps` it drains from the out-of-order map, and
the expected sequence number is then the packet's plus one plus the number of drained
payloads, modulo 2^16. -/
theorem utp_duplicate {H : Type} (hd : Handler H) (ts ts2 : timeval) (st : utp_state H)
    (hdr : utphdr) (buf : List Nat) (d : dir_t) (hr : utp_reachable hd st) (hbuf : buf ≠ [])
    (hq : hdr.seq_nr < u16)
    (hseq : hdr.seq_nr = (utp_connect (st.state_.get d) hdr).seqnr) :
    (st.packet hd ts hdr buf d).packet hd ts2 hdr buf d = st.packet hd ts hdr buf d
    ∧ ∃ ps : List (List Nat),
        (st.packet hd ts hdr buf d).handler
          = ps.foldl (fun a p => hd.data a ts p d) (hd.data st.handler ts buf d)
        ∧ ((st.packet hd ts hdr buf d).state_.get d).seqnr
            = (hdr.seq_nr + 1 + ps.length) % u16
        ∧ (∀ p ∈ ps, ∃ q, map.find (st.state_.get d).ooo_ q = some p) := by
  have w := utp_reachable_window hd st hr d
  obtain ⟨wc, hc⟩ := utp_connect_window (st.state_.get d) hdr hq w
  obtain ⟨w1, hc1⟩ := utp_packet_window hd st ts hdr buf d hq w
  have hoo : (utp_connect (st.state_.get d) hdr).ooo_ = (st.state_.get d).ooo_ := by
    unfold utp_connect; split <;> rfl
  obtain ⟨ps, hD, hh, -, hrest, -, -, -⟩ := utp_packet_inorder hd ts
    ({ st with state_ := st.state_.set d (utp_connect (st.state_.get d) hdr) } : utp_state H)
    hdr buf d hbuf (by rw [dir_array.get_set]; exact hseq)
  rw [utp_packet_connect] at hD hh hrest
  simp only [dir_array.get_set] at hD hrest
  have he' : ((utp_connect (st.state_.get d) hdr).seqnr + 1) % u16 < u16 :=
    Nat.mod_lt _ (by decide)
  obtain ⟨i1, i2, i3, -⟩ := utp_drains_window hD 32766 (by decide) he' (by
    intro q p hf
    obtain ⟨a1, a2, a3⟩ := wc.ahead q p hf
    refine ⟨a1, ?_⟩
    have := wc.seq_lt
    simp only [u16] at this a1 a3 ⊢
    omega)
  have hmem : ∀ p ∈ ps, ∃ q, map.find (st.state_.get d).ooo_ q = some p := by
    rw [← hoo]
    exact Drains.mem_source hD
  rw [← hseq] at i2 he'
  refine ⟨?_, ps, hh, ?_, hmem⟩
  · apply utp_packet_behind hd ts2 _ hdr buf d hbuf hc1
    · intro h
      rw [← h] at i2
      simp only [u16] at hq i2 i3
      omega
    · generalize ((st.packet hd ts hdr buf d).state_.get d).seqnr = e1 at i1 i2
      simp only [u16] at hq i1 i2 ⊢
      omega
  · generalize ((st.packet hd ts hdr buf d).state_.get d).seqnr = e1 at i1 i2
    simp only [u16] at hq i1 i2 ⊢
    omega

theorem utp_duplicate_witness :
    utp_reachable recorder c14_utp ∧ [50] ≠ [] ∧ (data_hdr 5).seq_nr < u16
    ∧ (data_hdr 5).seq_nr = (utp_connect (c14_utp.state_.get dir_t.in_) (data_hdr 5)).seqnr
    ∧ (c14_utp.packet recorder ⟨2, 0⟩ (data_hdr 5) [50] dir_t.in_).packet recorder ⟨3, 0⟩
          (data_hdr 5) [50] dir_t.in_
        = c14_utp.packet recorder ⟨2, 0⟩ (data_hdr 5) [50] dir_t.in_
    ∧ payloads dir_t.in_ (c14_utp.packet recorder ⟨2, 0⟩ (data_hdr 5) [50] dir_t.in_).handler
        = [[50]]
    ∧ ((c14_utp.packet recorder ⟨2, 0⟩ (data_hdr 5) [50] dir_t.in_).state_.get dir_t.in_).seqnr
        = 6 :=
  ⟨utp_reachable.packet c14_init ⟨1, 0⟩ (data_hdr 7) [70] dir_t.in_
      (utp_reachable.init c14_init (fun d => by cases d <;> decide)) (by decide),
    by decide, by decide, by decide,
    (utp_duplicate recorder ⟨2, 0⟩ ⟨3, 0⟩ c14_utp (data_hdr 5) [50] dir_t.in_
      (utp_reachable.packet c14_init ⟨1, 0⟩ (data_hdr 7) [70] dir_t.in_
        (utp_reachable.init c14_init (fun d => by cases d <;> decide)) (by decide))
      (by decide) (by decide) (by decide)).1,
    by decide, by decide⟩


/-! ## SYN in the demultiplexer -/

theorem map.replace_append {K V : Type} [DecidableEq K] (m : map K V) (k : K) (a v : V)
    (h : map.find m k = none) : map.replace (m ++ [(k, a)]) k v = m ++ [(k, v)] := by
  induction m with
  | nil => simp [map.replace]
  | cons x t ih =>
    obtain ⟨x1, x2⟩ := x
    simp only [map.find] at h
    by_cases hx : x1 = k
    · simp [hx] at h
    · simp only [hx, if_false] at h
      have e := ih h
      simp only [List.cons_append, map.replace, hx, if_false]
      exact congrArg (fun l => (x1, x2) :: l) e

/-- C15 (TCP SYN in the demultiplexer).  A TCP segment with SYN set and ACK clear and
flow key `K`: when the table has a connection under `K` the processor is unchanged;
when it has none, a fresh connection is added under `K`, initialised by `syn` for
direction `out`, so that direction `out` expects `(hdr.seq + 1) mod 2^32`; the entries
under all other keys, the uTP table and the destroyed connections are unchanged. -/
theorem tcp_syn {H : Type} (hd : Handler H) (p : processor H) (ts : timeval) (K : stream_key)
    (hdr : tcphdr) (pkt : List Nat) (hsyn : hdr.syn = true) (hack : hdr.ack = false) :
    (∀ st, map.find p.tcp_streams_ K = some st → process_tcp hd p ts K hdr pkt = p)
    ∧ (map.find p.tcp_streams_ K = none →
        process_tcp hd p ts K hdr pkt
          = { p with tcp_streams_ :=
                p.tcp_streams_ ++ [(K, (tcp_state.mk_ hd K).syn hdr dir_t.out)] }
        ∧ map.find (process_tcp hd p ts K hdr pkt).tcp_streams_ K
            = some ((tcp_state.mk_ hd K).syn hdr dir_t.out)
        ∧ (((tcp_state.mk_ hd K).syn hdr dir_t.out).state_.get dir_t.out).seqnr
            = (hdr.seq + 1) % u32
        ∧ (∀ K1, K1 ≠ K →
            map.find (process_tcp hd p ts K hdr pkt).tcp_streams_ K1
              = map.find p.tcp_streams_ K1)) := by
  constructor
  · intro st h
    simp only [process_tcp, hsyn, hack, Bool.and_false, Bool.false_eq_true, if_false, if_true, h]
  · intro h
    have hp : process_tcp hd p ts K hdr pkt
        = { p with tcp_streams_ :=
              p.tcp_streams_ ++ [(K, (tcp_state.mk_ hd K).syn hdr dir_t.out)] } := by
      have hf : map.find (p.tcp_streams_ ++ [(K, tcp_state.mk_ hd K)]) K
          = some (tcp_state.mk_ hd K) := by
        rw [map.find_append_none _ _ _ _ h, if_pos rfl]
      simp only [process_tcp, hsyn, hack, Bool.and_false, Bool.false_eq_true, if_false, if_true,
        h, map.emplace, hf, map.replace_append _ _ _ _ h]
    refine ⟨hp, ?_, rfl, ?_⟩
    · rw [hp]
      simp only
      rw [map.find_append_none _ _ _ _ h, if_pos rfl]
    · intro K1 hK
      rw [hp]
      simp only
      rw [map.find_append_none _ _ _ _ h, if_neg hK]

theorem tcp_syn_witness :
    (⟨700, true, false, false, false⟩ : tcphdr).syn = true
    ∧ (⟨700, true, false, false, false⟩ : tcphdr).ack = false
    ∧ process_tcp recorder c9_proc ⟨1, 0⟩ ex_key ⟨700, true, false, false, false⟩ [] = c9_proc
    ∧ map.find (process_tcp recorder c9_proc ⟨1, 0⟩ (swap ex_key)
          ⟨700, true, false, false, false⟩ []).tcp_streams_ (swap ex_key)
        = some ((tcp_state.mk_ recorder (swap ex_key)).syn ⟨700, true, false, false, false⟩
            dir_t.out) :=
  ⟨rfl, rfl,
    (tcp_syn recorder c9_proc ⟨1, 0⟩ ex_key ⟨700, true, false, false, false⟩ [] rfl rfl).1
      c9_conn (by decide),
    ((tcp_syn recorder c9_proc ⟨1, 0⟩ (swap ex_key) ⟨700, true, false, false, false⟩ [] rfl
      rfl).2 (by decide)).2.1⟩

/-- C16 at a duplicate `ST_SYN`.  An `ST_SYN` with transport key `ex_key`, connection
id 7 and sequence number 100 creates a connection, stored under connection id 8; the
first data packet of the initiator (connection id 8, sequence number 101, three
bytes) is handed over and direction `out` expects 102.  The same `ST_SYN` again is not
found by the lookup (it probes connection id 7 under the key and 7, 8, 6 under the
reversed key), `emplace` returns the connection that exists, and `syn` sets the
expected sequence number of direction `out` back to 101. -/
theorem utp_duplicate_syn :
    c16_syn.get_type = ST_SYN ∧ c16_data.get_type = ST_DATA
    ∧ (c16_proc.find_utp_stream { ip := ex_key, connid := 7 }).1 = none
    ∧ (map.find c16_proc.utp_streams_ { ip := ex_key, connid := 8 }).map
          (fun st => (st.state_.get dir_t.out).seqnr) = some 102
    ∧ (map.find (process_utp recorder c16_proc ⟨3, 0⟩ ex_key c16_syn []).utp_streams_
          { ip := ex_key, connid := 8 }).map
          (fun st => (st.state_.get dir_t.out).seqnr) = some 101
    ∧ process_utp recorder c16_proc ⟨3, 0⟩ ex_key c16_syn [] ≠ c16_proc := by
  decide


/-! ## The length prefix and the message id -/

theorem read_u32_bytes (b0 b1 b2 b3 : Nat) (rest : List Nat) (h0 : b0 < 256) (h1 : b1 < 256)
    (h2 : b2 < 256) (h3 : b3 < 256) :
    read_u32 (b0 :: b1 :: b2 :: b3 :: rest)
      = Except.ok (b0 * 2 ^ 24 + b1 * 2 ^ 16 + b2 * 2 ^ 8 + b3) := by
  have e1 : b0 <<< 24 ||| b1 <<< 16 = 2 ^ 16 * (b0 * 2 ^ 8 + b1) := by
    have := Nat.mul_add_lt_is_or (show b1 <<< 16 < 2 ^ 24 by rw [Nat.shiftLeft_eq]; omega) b0
    rw [Nat.shiftLeft_eq b0 24, Nat.mul_comm b0, ← this, Nat.shiftLeft_eq]
    omega
  have e2 : 2 ^ 16 * (b0 * 2 ^ 8 + b1) ||| b2 <<< 8 = 2 ^ 8 * (b0 * 2 ^ 16 + b1 * 2 ^ 8 + b2) := by
    have := Nat.mul_add_lt_is_or (show b2 <<< 8 < 2 ^ 16 by rw [Nat.shiftLeft_eq]; omega)
      (b0 * 2 ^ 8 + b1)
    rw [← this, Nat.shiftLeft_eq]
    omega
  have e3 : 2 ^ 8 * (b0 * 2 ^ 16 + b1 * 2 ^ 8 + b2) ||| b3
      = b0 * 2 ^ 24 + b1 * 2 ^ 16 + b2 * 2 ^ 8 + b3 := by
    have := Nat.mul_add_lt_is_or (show b3 < 2 ^ 8 by omega) (b0 * 2 ^ 16 + b1 * 2 ^ 8 + b2)
    rw [← this]
    omega
  have hl : ¬ (b0 :: b1 :: b2 :: b3 :: rest).length < 4 := by
    simp only [List.length_cons]; omega
  simp only [read_u32, hl, if_false, List.getD_cons_zero, List.getD_cons_succ, e1, e2, e3]

theorem read_u16_bytes (b0 b1 : Nat) (rest : List Nat) (h0 : b0 < 256) (h1 : b1 < 256) :
    read_u16 (b0 :: b1 :: rest) = Except.ok (b0 * 2 ^ 8 + b1) := by
  have e1 : b0 <<< 8 ||| b1 = b0 * 2 ^ 8 + b1 := by
    have := Nat.mul_add_lt_is_or (show b1 < 2 ^ 8 by omega) b0
    rw [Nat.shiftLeft_eq, Nat.mul_comm b0, ← this]
  have hl : ¬ (b0 :: b1 :: rest).length < 2 := by
    simp only [List.length_cons]; omega
  simp only [read_u16, hl, if_false, List.getD_cons_zero, List.getD_cons_succ, e1, u16]
  congr 1
  omega

theorem written_stamped (P : parse_bittorrent) (ts : timeval) (d : dir_t) (l : List entry)
    (s : bittorrent_side_state) :
    P.written ts d { lines := l, s := s }
      = if P.log_.is_open then l.map (entry.line ts d) else [] := by
  simp [parse_bittorrent.written]

theorem length_step (ts : timeval) (d : dir_t) (P : parse_bittorrent) (b0 b1 b2 b3 : Nat)
    (rest : List Nat) (hs : (P.state_.get d).state_ = state_t.length)
    (hb : (P.state_.get d).buffer_ = []) (h0 : b0 < 256) (h1 : b1 < 256) (h2 : b2 < 256)
    (h3 : b3 < 256) :
    run_block length_block ts d P ([b0, b1, b2, b3] ++ rest)
      = Except.ok (flow.next
          (P.set d
            (if b0 * 2 ^ 24 + b1 * 2 ^ 16 + b2 * 2 ^ 8 + b3 = 0 then
              { P.state_.get d with offset_ := ((P.state_.get d).offset_ + 4) % u64, buffer_ := [] }
            else
              { P.state_.get d with
                  offset_ := ((P.state_.get d).offset_ + 4) % u64, buffer_ := [],
                  skip_ := b0 * 2 ^ 24 + b1 * 2 ^ 16 + b2 * 2 ^ 8 + b3,
                  state_ := state_t.msg }))
          rest
          (if P.log_.is_open then
            (if b0 * 2 ^ 24 + b1 * 2 ^ 16 + b2 * 2 ^ 8 + b3 > 1048576 then
              [⟨d, some ts,
                log_event.too_large (b0 * 2 ^ 24 + b1 * 2 ^ 16 + b2 * 2 ^ 8 + b3)⟩]
              else [])
            ++ (if b0 * 2 ^ 24 + b1 * 2 ^ 16 + b2 * 2 ^ 8 + b3 = 0 then
              [⟨d, some ts, log_event.keep_alive⟩] else [])
          else [])) := by
  rw [run_block_full length_block ts d P [b0, b1, b2, b3] rest 4 (by rw [hs]; rfl) rfl
    (by decide) hb rfl]
  have hr := read_u32_bytes b0 b1 b2 b3 [] h0 h1 h2 h3
  generalize b0 * 2 ^ 24 + b1 * 2 ^ 16 + b2 * 2 ^ 8 + b3 = L at hr ⊢
  simp only [length_block, hr]
  by_cases hL : L = 0
  · subst hL
    simp only [if_true, gt_iff_lt, Nat.not_lt_zero, if_false, List.nil_append, Bool.false_eq_true]
    rw [parse_bittorrent.apply_plain, written_stamped]
    rfl
  · simp only [hL, if_false, Bool.false_eq_true, List.append_nil]
    rw [parse_bittorrent.apply_plain, written_stamped]
    congr 2
    cases P.log_.is_open
    · rfl
    · simp only [if_true, gt_iff_lt]
      split <;> rfl

theorem run_block_one (b : block) (ts : timeval) (d : dir_t) (P : parse_bittorrent)
    (a : Nat) (rest : List Nat) (hg : b.guard (P.state_.get d).state_ = true)
    (hk : b.need (P.state_.get d).skip_ = 1) (hb : (P.state_.get d).buffer_ = []) :
    run_block b ts d P (a :: rest)
      = match b.body P.log_.is_open { P.state_.get d with buffer_ := [a] }
          (P.state_.get (opposite d)) with
        | Except.error e => Except.error e
        | Except.ok o =>
          if o.stop then Except.ok (flow.ret (P.apply d o) (P.written ts d o))
          else Except.ok (flow.next (P.apply d o) rest (P.written ts d o)) :=
  run_block_full b ts d P [a] rest 1 hg hk (by decide) hb rfl

theorem msg_step (ts : timeval) (d : dir_t) (P : parse_bittorrent) (b : Nat) (rest : List Nat)
    (hs : (P.state_.get d).state_ = state_t.msg) (hb : (P.state_.get d).buffer_ = []) :
    run_block msg_block ts d P (b :: rest)
      = Except.ok (flow.next
          (P.set d (msg_switch
            { P.state_.get d with
              offset_ := ((P.state_.get d).offset_ + 1) % u64, buffer_ := [],
              skip_ := ((P.state_.get d).skip_ + u32 - 1) % u32 } b).2)
          rest
          (if P.log_.is_open then
            (msg_switch
              { P.state_.get d with
                offset_ := ((P.state_.get d).offset_ + 1) % u64, buffer_ := [],
                skip_ := ((P.state_.get d).skip_ + u32 - 1) % u32 } b).1.map (entry.line ts d)
          else [])) := by
  rw [run_block_one msg_block ts d P b rest (by rw [hs]; rfl) rfl hb]
  simp only [msg_block, List.getD_cons_zero, Bool.false_eq_true, if_false]
  rw [parse_bittorrent.apply_plain, written_stamped]

/-- C18 (length prefix).  Direction `d` is in state `length` with an empty buffer and
the slice starts with the bytes `b0 b1 b2 b3`; `read_u32` gives
`L = b0*2^24 + b1*2^16 + b2*2^8 + b3`.  The step of state `length` consumes the four
bytes and adds 4 to the offset; with `L = 0` it writes `KEEP-ALIVE` and leaves the state
`length` and `skip_` as they are; otherwise it sets `skip_` to `L` and the state to
`msg`, writing nothing for `L <= 0x100000` and the line `ERROR: message too large! L`
for larger `L`.  Lines are written when the transcript is open. -/
theorem length_prefix_spec (ts : timeval) (d : dir_t) (P : parse_bittorrent) (b0 b1 b2 b3 : Nat)
    (rest : List Nat) (hs : (P.state_.get d).state_ = state_t.length)
    (hb : (P.state_.get d).buffer_ = []) (h0 : b0 < 256) (h1 : b1 < 256) (h2 : b2 < 256)
    (h3 : b3 < 256) :
    read_u32 [b0, b1, b2, b3] = Except.ok (b0 * 2 ^ 24 + b1 * 2 ^ 16 + b2 * 2 ^ 8 + b3)
    ∧ b0 * 2 ^ 24 + b1 * 2 ^ 16 + b2 * 2 ^ 8 + b3 < 2 ^ 32
    ∧ run_block length_block ts d P ([b0, b1, b2, b3] ++ rest)
      = Except.ok (flow.next
          (P.set d
            (if b0 * 2 ^ 24 + b1 * 2 ^ 16 + b2 * 2 ^ 8 + b3 = 0 then
              { P.state_.get d with offset_ := ((P.state_.get d).offset_ + 4) % u64, buffer_ := [] }
            else
              { P.state_.get d with
                  offset_ := ((P.state_.get d).offset_ + 4) % u64, buffer_ := [],
                  skip_ := b0 * 2 ^ 24 + b1 * 2 ^ 16 + b2 * 2 ^ 8 + b3,
                  state_ := state_t.msg }))
          rest
          (if P.log_.is_open then
            (if b0 * 2 ^ 24 + b1 * 2 ^ 16 + b2 * 2 ^ 8 + b3 > 1048576 then
              [⟨d, some ts,
                log_event.too_large (b0 * 2 ^ 24 + b1 * 2 ^ 16 + b2 * 2 ^ 8 + b3)⟩]
              else [])
            ++ (if b0 * 2 ^ 24 + b1 * 2 ^ 16 + b2 * 2 ^ 8 + b3 = 0 then
              [⟨d, some ts, log_event.keep_alive⟩] else [])
          else [])) :=
  ⟨read_u32_bytes b0 b1 b2 b3 [] h0 h1 h2 h3, by omega,
    length_step ts d P b0 b1 b2 b3 rest hs hb h0 h1 h2 h3⟩

theorem length_prefix_spec_witness :
    (c18_state.state_.get dir_t.out).state_ = state_t.length
    ∧ (c18_state.state_.get dir_t.out).buffer_ = []
    ∧ 0 < 256 ∧ 32 < 256 ∧ 0 < 256 ∧ 1 < 256
    ∧ read_u32 [0, 32, 0, 1] = Except.ok (0 * 2 ^ 24 + 32 * 2 ^ 16 + 0 * 2 ^ 8 + 1) :=
  ⟨by decide, by decide, by decide, by decide, by decide, by decide,
    (length_prefix_spec ex_ts dir_t.out c18_state 0 32 0 1 [7] (by decide) (by decide)
      (by decide) (by decide) (by decide) (by decide)).1⟩


/-! ## The message id -/

theorem check_zero_eq (s : bittorrent_side_state) :
    check_zero s
      = (if s.skip_ = 0 then [] else [entry.bare (log_event.unexpected_bytes s.skip_)],
          { s with state_ := if s.skip_ = 0 then state_t.length else state_t.skip }) := by
  unfold check_zero
  split <;> rfl

/-- C17 (dispatch on the message id).  Direction `d` is in state `msg` with an empty
buffer and the slice starts with the id byte `b`.  The step of state `msg` consumes the
byte, adds 1 to the offset, takes 1 off `skip_` (modulo 2^32) and then, with `s` the
state so far: for `b` = 0, 1, 2, 3, 14, 15 it writes `CHOKE`, `UNCHOKE`, `INTERESTED`,
`NOT-INTERESTED`, `HAVE-ALL`, `HAVE-NONE` and goes to `length` when `skip_` is 0, and
otherwise writes `ERROR: unexpected bytes after message` and goes to `skip`; for `b` =
4, 5, 6, 7, 8, 9, 13, 16, 17, 20 it goes to `have`, `bitfield`, `request`, `piece`,
`cancel`, `dht_port`, `suggest`, `reject`, `allowed_fast`, `extension` and writes
nothing; for every other `b` it writes `msg: <name>` and goes to `skip`.  Lines are
written when the transcript is open. -/
theorem msg_dispatch (ts : timeval) (d : dir_t) (P : parse_bittorrent) (b : Nat)
    (rest : List Nat) (hs : (P.state_.get d).state_ = state_t.msg)
    (hb : (P.state_.get d).buffer_ = []) :
    run_block msg_block ts d P (b :: rest)
      = Except.ok (flow.next
          (P.set d (msg_switch
            { P.state_.get d with
              offset_ := ((P.state_.get d).offset_ + 1) % u64, buffer_ := [],
              skip_ := ((P.state_.get d).skip_ + u32 - 1) % u32 } b).2)
          rest
          (if P.log_.is_open then
            (msg_switch
              { P.state_.get d with
                offset_ := ((P.state_.get d).offset_ + 1) % u64, buffer_ := [],
                skip_ := ((P.state_.get d).skip_ + u32 - 1) % u32 } b).1.map (entry.line ts d)
          else []))
    ∧ ∀ s : bittorrent_side_state,
        (∀ ev, (b, ev) ∈ [(0, log_event.choke), (1, log_event.unchoke),
              (2, log_event.interested), (3, log_event.not_interested),
              (14, log_event.have_all), (15, log_event.have_none)] →
          msg_switch s b
            = (entry.stamped ev
                :: (if s.skip_ = 0 then [] else [entry.bare (log_event.unexpected_bytes s.skip_)]),
              { s with state_ := if s.skip_ = 0 then state_t.length else state_t.skip }))
        ∧ (∀ st, (b, st) ∈ [(4, state_t.have_), (5, state_t.bitfield), (6, state_t.request),
              (7, state_t.piece), (8, state_t.cancel), (9, state_t.dht_port),
              (13, state_t.suggest), (16, state_t.reject), (17, state_t.allowed_fast),
              (20, state_t.extension)] →
          msg_switch s b = ([], { s with state_ := st }))
        ∧ (b ∉ [0, 1, 2, 3, 4, 5, 6, 7, 8, 9, 13, 14, 15, 16, 17, 20] →
          msg_switch s b
            = ([entry.stamped (log_event.msg b)], { s with state_ := state_t.skip })) := by
  refine ⟨msg_step ts d P b rest hs hb, fun s => ⟨?_, ?_, ?_⟩⟩
  · intro ev h
    simp only [List.mem_cons, Prod.mk.injEq, List.mem_singleton, List.not_mem_nil,
      or_false] at h
    rcases h with ⟨rfl, rfl⟩ | ⟨rfl, rfl⟩ | ⟨rfl, rfl⟩ | ⟨rfl, rfl⟩ | ⟨rfl, rfl⟩ | ⟨rfl, rfl⟩ <;>
      simp only [msg_switch, check_zero_eq, List.singleton_append]
  · intro st h
    simp only [List.mem_cons, Prod.mk.injEq, List.mem_singleton, List.not_mem_nil,
      or_false] at h
    rcases h with h | h | h | h | h | h | h | h | h | h <;>
      (obtain ⟨rfl, rfl⟩ := h; rfl)
  · intro h
    simp only [List.mem_cons, List.mem_singleton, List.not_mem_nil, or_false, not_or] at h
    obtain ⟨h0, h1, h2, h3, h4, h5, h6, h7, h8, h9, h13, h14, h15, h16, h17, h20⟩ := h
    unfold msg_switch
    split <;> first | contradiction | rfl

theorem msg_dispatch_witness :
    (c17_state.state_.get dir_t.out).state_ = state_t.msg
    ∧ (c17_state.state_.get dir_t.out).buffer_ = []
    ∧ run_block msg_block ex_ts dir_t.out c17_state [1, 0, 0]
      = Except.ok (flow.next
          (c17_state.set dir_t.out (msg_switch
            { c17_state.state_.get dir_t.out with
              offset_ := ((c17_state.state_.get dir_t.out).offset_ + 1) % u64, buffer_ := [],
              skip_ := ((c17_state.state_.get dir_t.out).skip_ + u32 - 1) % u32 } 1).2)
          [0, 0]
          (if c17_state.log_.is_open then
            (msg_switch
              { c17_state.state_.get dir_t.out with
                offset_ := ((c17_state.state_.get dir_t.out).offset_ + 1) % u64, buffer_ := [],
                skip_ := ((c17_state.state_.get dir_t.out).skip_ + u32 - 1) % u32 } 1).1.map
              (entry.line ex_ts dir_t.out)
          else [])) :=
  ⟨by decide, by decide,
    (msg_dispatch ex_ts dir_t.out c17_state 1 [0, 0] (by decide) (by decide)).1⟩


/-! ## One pass over the blocks of the message loop -/

theorem run_blocks_cons_idle (b : block) (t : List block) (ts : timeval) (d : dir_t)
    (P : parse_bittorrent) (buf : List Nat) (h : ¬ b.guard (P.state_.get d).state_ = true) :
    run_blocks ts d (b :: t) P buf = run_blocks ts d t P buf := by
  rw [run_blocks_cons_next b t ts d P P buf buf [] (run_block_no_guard b ts d P buf h)]
  cases run_blocks ts d t P buf with
  | error e => rfl
  | ok f => cases f <;> simp [Except.map, flow.after]

theorem run_blocks_forward (ts : timeval) (d : dir_t) (bs : List block) :
    ∀ r, ranked bs r → ∀ (P Q : parse_bittorrent) (buf rest : List Nat) (out : List line),
      ∀ b ∈ bs, b.guard (P.state_.get d).state_ = true →
      run_block b ts d P buf = Except.ok (flow.next Q rest out) →
      rank (P.state_.get d).state_ < rank (Q.state_.get d).state_ →
      run_blocks ts d bs P buf = (run_blocks ts d bs Q rest).map (flow.after out) := by
  induction bs with
  | nil => intro r _ P Q buf rest out b hb; simp at hb
  | cons a t ih =>
    intro r hr P Q buf rest out b hb hg h hlt
    by_cases ha : a.guard (P.state_.get d).state_ = true
    · have hrP := (hr.1.guard_iff _).mp ha
      have hab : run_block a ts d P buf = Except.ok (flow.next Q rest out) := by
        rcases List.mem_cons.mp hb with rfl | hbt
        · exact h
        · have := (ranked_guard t (r + 1) hr.2 b hbt _ hg).1
          omega
      have haQ : ¬ a.guard (Q.state_.get d).state_ = true := by
        intro hc
        have := (hr.1.guard_iff _).mp hc
        omega
      rw [run_blocks_cons_next a t ts d P Q buf rest out hab,
        run_blocks_cons_idle a t ts d Q rest haQ]
    · have hbt : b ∈ t := by
        rcases List.mem_cons.mp hb with rfl | hbt
        · exact absurd hg ha
        · exact hbt
      have hrP := (ranked_guard t (r + 1) hr.2 b hbt _ hg).1
      have haQ : ¬ a.guard (Q.state_.get d).state_ = true := by
        intro hc
        have := (hr.1.guard_iff _).mp hc
        omega
      rw [run_blocks_cons_idle a t ts d P buf ha, run_blocks_cons_idle a t ts d Q rest haQ]
      exact ih (r + 1) hr.2 P Q buf rest out b hbt hg h hlt

theorem have_step (ts : timeval) (d : dir_t) (P : parse_bittorrent) (i0 i1 i2 i3 : Nat)
    (rest : List Nat) (ev : Nat → log_event)
    (hs : ((P.state_.get d).state_ = state_t.have_ ∧ ev = log_event.have_)
      ∨ ((P.state_.get d).state_ = state_t.suggest ∧ ev = log_event.suggest)
      ∨ ((P.state_.get d).state_ = state_t.allowed_fast ∧ ev = log_event.allowed_fast))
    (hb : (P.state_.get d).buffer_ = []) (hk : (P.state_.get d).skip_ = 4)
    (h0 : i0 < 256) (h1 : i1 < 256) (h2 : i2 < 256) (h3 : i3 < 256) :
    run_block have_block ts d P ([i0, i1, i2, i3] ++ rest)
      = Except.ok (flow.next
          (P.set d { P.state_.get d with
            offset_ := ((P.state_.get d).offset_ + 4) % u64, buffer_ := [], skip_ := 0,
            state_ := state_t.length })
          rest
          (if P.log_.is_open then
            [⟨d, some ts, ev (i0 * 2 ^ 24 + i1 * 2 ^ 16 + i2 * 2 ^ 8 + i3)⟩] else [])) := by
  have hg : have_block.guard (P.state_.get d).state_ = true := by
    rcases hs with ⟨h, _⟩ | ⟨h, _⟩ | ⟨h, _⟩ <;> rw [h] <;> decide
  rw [run_block_full have_block ts d P [i0, i1, i2, i3] rest 4 hg rfl (by decide) hb rfl]
  have hr := read_u32_bytes i0 i1 i2 i3 [] h0 h1 h2 h3
  generalize i0 * 2 ^ 24 + i1 * 2 ^ 16 + i2 * 2 ^ 8 + i3 = v at hr ⊢
  have hz : (4 + u32 - 4) % u32 = 0 := by decide
  simp only [have_block, hr, hk, hz, check_zero_eq, if_true, List.append_nil,
    Bool.false_eq_true, if_false]
  rw [parse_bittorrent.apply_plain, written_stamped]
  rcases hs with ⟨h, rfl⟩ | ⟨h, rfl⟩ | ⟨h, rfl⟩ <;> simp only [h] <;> rfl

theorem request_step (ts : timeval) (d : dir_t) (P : parse_bittorrent)
    (p0 p1 p2 p3 s0 s1 s2 s3 l0 l1 l2 l3 : Nat) (rest : List Nat)
    (ev : Nat → Nat → Nat → log_event)
    (hs : ((P.state_.get d).state_ = state_t.request ∧ ev = log_event.request)
      ∨ ((P.state_.get d).state_ = state_t.cancel ∧ ev = log_event.cancel)
      ∨ ((P.state_.get d).state_ = state_t.reject ∧ ev = log_event.reject))
    (hb : (P.state_.get d).buffer_ = []) (hk : (P.state_.get d).skip_ = 12)
    (hp : p0 < 256 ∧ p1 < 256 ∧ p2 < 256 ∧ p3 < 256)
    (hst : s0 < 256 ∧ s1 < 256 ∧ s2 < 256 ∧ s3 < 256)
    (hl : l0 < 256 ∧ l1 < 256 ∧ l2 < 256 ∧ l3 < 256) :
    run_block request_block ts d P ([p0, p1, p2, p3, s0, s1, s2, s3, l0, l1, l2, l3] ++ rest)
      = Except.ok (flow.next
          (P.set d { P.state_.get d with
            offset_ := ((P.state_.get d).offset_ + 12) % u64, buffer_ := [], skip_ := 0,
            state_ := state_t.length })
          rest
          (if P.log_.is_open then
            [⟨d, some ts, ev (p0 * 2 ^ 24 + p1 * 2 ^ 16 + p2 * 2 ^ 8 + p3)
              (s0 * 2 ^ 24 + s1 * 2 ^ 16 + s2 * 2 ^ 8 + s3)
              (l0 * 2 ^ 24 + l1 * 2 ^ 16 + l2 * 2 ^ 8 + l3)⟩] else [])) := by
  have hg : request_block.guard (P.state_.get d).state_ = true := by
    rcases hs with ⟨h, _⟩ | ⟨h, _⟩ | ⟨h, _⟩ <;> rw [h] <;> decide
  rw [run_block_full request_block ts d P [p0, p1, p2, p3, s0, s1, s2, s3, l0, l1, l2, l3] rest
    12 hg rfl (by decide) hb rfl]
  have r1 := read_u32_bytes p0 p1 p2 p3 [s0, s1, s2, s3, l0, l1, l2, l3] hp.1 hp.2.1 hp.2.2.1
    hp.2.2.2
  have r2 := read_u32_bytes s0 s1 s2 s3 [l0, l1, l2, l3] hst.1 hst.2.1 hst.2.2.1 hst.2.2.2
  have r3 := read_u32_bytes l0 l1 l2 l3 [] hl.1 hl.2.1 hl.2.2.1 hl.2.2.2
  generalize p0 * 2 ^ 24 + p1 * 2 ^ 16 + p2 * 2 ^ 8 + p3 = v1 at r1 ⊢
  generalize s0 * 2 ^ 24 + s1 * 2 ^ 16 + s2 * 2 ^ 8 + s3 = v2 at r2 ⊢
  generalize l0 * 2 ^ 24 + l1 * 2 ^ 16 + l2 * 2 ^ 8 + l3 = v3 at r3 ⊢
  have hz : (12 + u32 - 12) % u32 = 0 := by decide
  simp only [request_block, List.drop_succ_cons, List.drop_zero, r1, r2, r3, hk, hz,
    check_zero_eq, if_true, List.append_nil, Bool.false_eq_true, if_false]
  rw [parse_bittorrent.apply_plain, written_stamped]
  rcases hs with ⟨h, rfl⟩ | ⟨h, rfl⟩ | ⟨h, rfl⟩ <;> simp only [h] <;> rfl

theorem dht_port_step (ts : timeval) (d : dir_t) (P : parse_bittorrent) (q0 q1 : Nat)
    (rest : List Nat) (hs : (P.state_.get d).state_ = state_t.dht_port)
    (hb : (P.state_.get d).buffer_ = []) (hk : (P.state_.get d).skip_ = 2)
    (h0 : q0 < 256) (h1 : q1 < 256) :
    run_block dht_port_block ts d P ([q0, q1] ++ rest)
      = Except.ok (flow.next
          (P.set d { P.state_.get d with
            offset_ := ((P.state_.get d).offset_ + 2) % u64, buffer_ := [], skip_ := 0,
            state_ := state_t.length })
          rest
          (if P.log_.is_open then
            [⟨d, some ts, log_event.dht_port (q0 * 2 ^ 8 + q1)⟩] else [])) := by
  rw [run_block_full dht_port_block ts d P [q0, q1] rest 2 (by rw [hs]; rfl) rfl (by decide) hb
    rfl]
  have hr := read_u16_bytes q0 q1 [] h0 h1
  generalize q0 * 2 ^ 8 + q1 = v at hr ⊢
  have hz : (2 + u32 - 2) % u32 = 0 := by decide
  simp only [dht_port_block, hr, hk, hz, check_zero_eq, if_true, List.append_nil,
    Bool.false_eq_true, if_false]
  rw [parse_bittorrent.apply_plain, written_stamped]
  rfl

theorem piece_step (ts : timeval) (d : dir_t) (P : parse_bittorrent)
    (p0 p1 p2 p3 s0 s1 s2 s3 : Nat) (rest : List Nat)
    (hs : (P.state_.get d).state_ = state_t.piece) (hb : (P.state_.get d).buffer_ = [])
    (hp : p0 < 256 ∧ p1 < 256 ∧ p2 < 256 ∧ p3 < 256)
    (hst : s0 < 256 ∧ s1 < 256 ∧ s2 < 256 ∧ s3 < 256) :
    run_block piece_block ts d P ([p0, p1, p2, p3, s0, s1, s2, s3] ++ rest)
      = Except.ok (flow.next
          (P.set d { P.state_.get d with
            offset_ := ((P.state_.get d).offset_ + 8) % u64, buffer_ := [],
            skip_ := ((P.state_.get d).skip_ + u32 - 8) % u32, state_ := state_t.skip })
          rest
          (if P.log_.is_open then
            [⟨d, some ts, log_event.piece (p0 * 2 ^ 24 + p1 * 2 ^ 16 + p2 * 2 ^ 8 + p3)
              (s0 * 2 ^ 24 + s1 * 2 ^ 16 + s2 * 2 ^ 8 + s3)⟩] else [])) := by
  rw [run_block_full piece_block ts d P [p0, p1, p2, p3, s0, s1, s2, s3] rest 8
    (by rw [hs]; rfl) rfl (by decide) hb rfl]
  have r1 := read_u32_bytes p0 p1 p2 p3 [s0, s1, s2, s3] hp.1 hp.2.1 hp.2.2.1 hp.2.2.2
  have r2 := read_u32_bytes s0 s1 s2 s3 [] hst.1 hst.2.1 hst.2.2.1 hst.2.2.2
  generalize p0 * 2 ^ 24 + p1 * 2 ^ 16 + p2 * 2 ^ 8 + p3 = v1 at r1 ⊢
  generalize s0 * 2 ^ 24 + s1 * 2 ^ 16 + s2 * 2 ^ 8 + s3 = v2 at r2 ⊢
  simp only [piece_block, List.drop_succ_cons, List.drop_zero, r1, r2, Bool.false_eq_true,
    if_false]
  rw [parse_bittorrent.apply_plain, written_stamped]
  rfl


/-! ## Whole messages in one pass -/

theorem length_fields (ts : timeval) (d : dir_t) (P : parse_bittorrent) (b0 b1 b2 b3 : Nat)
    (rest : List Nat) (hs : (P.state_.get d).state_ = state_t.length)
    (hb : (P.state_.get d).buffer_ = []) (h0 : b0 < 256) (h1 : b1 < 256) (h2 : b2 < 256)
    (h3 : b3 < 256) (hL : b0 * 2 ^ 24 + b1 * 2 ^ 16 + b2 * 2 ^ 8 + b3 ≠ 0) :
    ∃ Q, run_block length_block ts d P ([b0, b1, b2, b3] ++ rest)
        = Except.ok (flow.next Q rest
            (if P.log_.is_open then
              (if b0 * 2 ^ 24 + b1 * 2 ^ 16 + b2 * 2 ^ 8 + b3 > 1048576 then
                [⟨d, some ts,
                  log_event.too_large (b0 * 2 ^ 24 + b1 * 2 ^ 16 + b2 * 2 ^ 8 + b3)⟩]
              else []) else []))
      ∧ (Q.state_.get d).state_ = state_t.msg ∧ (Q.state_.get d).buffer_ = []
      ∧ (Q.state_.get d).skip_ = b0 * 2 ^ 24 + b1 * 2 ^ 16 + b2 * 2 ^ 8 + b3
      ∧ (Q.state_.get d).offset_ = ((P.state_.get d).offset_ + 4) % u64
      ∧ Q.log_ = P.log_ ∧ Q.disabled_ = P.disabled_ := by
  have e1 := length_step ts d P b0 b1 b2 b3 rest hs hb h0 h1 h2 h3
  generalize b0 * 2 ^ 24 + b1 * 2 ^ 16 + b2 * 2 ^ 8 + b3 = L at e1 hL ⊢
  simp only [hL, if_false, List.append_nil] at e1
  refine ⟨_, e1, ?_, ?_, ?_, ?_, rfl, rfl⟩ <;> rw [parse_bittorrent.get_of_set]

theorem msg_fields (ts : timeval) (d : dir_t) (P : parse_bittorrent) (id : Nat)
    (rest : List Nat) (st : state_t) (hs : (P.state_.get d).state_ = state_t.msg)
    (hb : (P.state_.get d).buffer_ = [])
    (hsw : ∀ s, msg_switch s id = ([], { s with state_ := st })) :
    ∃ Q, run_block msg_block ts d P (id :: rest) = Except.ok (flow.next Q rest [])
      ∧ (Q.state_.get d).state_ = st ∧ (Q.state_.get d).buffer_ = []
      ∧ (Q.state_.get d).skip_ = ((P.state_.get d).skip_ + u32 - 1) % u32
      ∧ (Q.state_.get d).offset_ = ((P.state_.get d).offset_ + 1) % u64
      ∧ Q.log_ = P.log_ ∧ Q.disabled_ = P.disabled_ := by
  have e2 := msg_step ts d P id rest hs hb
  rw [hsw] at e2
  simp only [List.map_nil, ite_self] at e2
  refine ⟨_, e2, ?_, ?_, ?_, ?_, rfl, rfl⟩ <;> rw [parse_bittorrent.get_of_set]

theorem header_run (bd : bdecode_fn) (ts : timeval) (d : dir_t) (P : parse_bittorrent)
    (b0 b1 b2 b3 id : Nat) (rest : List Nat) (st : state_t)
    (hs : (P.state_.get d).state_ = state_t.length) (hb : (P.state_.get d).buffer_ = [])
    (h0 : b0 < 256) (h1 : b1 < 256) (h2 : b2 < 256) (h3 : b3 < 256)
    (hL : b0 * 2 ^ 24 + b1 * 2 ^ 16 + b2 * 2 ^ 8 + b3 ≠ 0)
    (hsw : ∀ s, msg_switch s id = ([], { s with state_ := st })) (hr : 5 < rank st) :
    ∃ Q, run_blocks ts d (message_blocks bd) P ([b0, b1, b2, b3] ++ id :: rest)
        = (run_blocks ts d (message_blocks bd) Q rest).map
            (flow.after (if P.log_.is_open then
              (if b0 * 2 ^ 24 + b1 * 2 ^ 16 + b2 * 2 ^ 8 + b3 > 1048576 then
                [⟨d, some ts,
                  log_event.too_large (b0 * 2 ^ 24 + b1 * 2 ^ 16 + b2 * 2 ^ 8 + b3)⟩]
              else []) else []))
      ∧ (Q.state_.get d).state_ = st ∧ (Q.state_.get d).buffer_ = []
      ∧ (Q.state_.get d).skip_ = b0 * 2 ^ 24 + b1 * 2 ^ 16 + b2 * 2 ^ 8 + b3 - 1
      ∧ (Q.state_.get d).offset_ = ((P.state_.get d).offset_ + 5) % u64
      ∧ Q.log_ = P.log_ ∧ Q.disabled_ = P.disabled_ := by
  obtain ⟨P1, e1, s1, k1, n1, o1, l1, d1⟩ :=
    length_fields ts d P b0 b1 b2 b3 (id :: rest) hs hb h0 h1 h2 h3 hL
  have hLt : b0 * 2 ^ 24 + b1 * 2 ^ 16 + b2 * 2 ^ 8 + b3 < 4294967296 := by omega
  generalize b0 * 2 ^ 24 + b1 * 2 ^ 16 + b2 * 2 ^ 8 + b3 = L at e1 n1 hL hLt ⊢
  have f1 := run_blocks_forward ts d _ 4 (message_blocks_ranked bd) P _ _ _ _ length_block
    (by simp [message_blocks]) (by rw [hs]; rfl) e1 (by rw [s1, hs]; decide)
  obtain ⟨P2, e2, s2, k2, n2, o2, l2, d2⟩ := msg_fields ts d P1 id rest st s1 k1 hsw
  have f2 := run_blocks_forward ts d _ 4 (message_blocks_ranked bd) P1 _ _ _ _
    msg_block (by simp [message_blocks]) (by rw [s1]; rfl) e2 (by rw [s1, s2]; exact hr)
  refine ⟨P2, ?_, s2, k2, ?_, ?_, l2.trans l1, d2.trans d1⟩
  · rw [f1, f2, map_after_after, List.append_nil]
  · rw [n2, n1]
    simp only [u32]
    omega
  · rw [o2, o1]
    simp only [u64]
    omega

theorem have_run (bd : bdecode_fn) (ts : timeval) (d : dir_t) (P : parse_bittorrent)
    (i0 i1 i2 i3 : Nat) (rest : List Nat) (ev : Nat → log_event)
    (hs : ((P.state_.get d).state_ = state_t.have_ ∧ ev = log_event.have_)
      ∨ ((P.state_.get d).state_ = state_t.suggest ∧ ev = log_event.suggest)
      ∨ ((P.state_.get d).state_ = state_t.allowed_fast ∧ ev = log_event.allowed_fast))
    (hb : (P.state_.get d).buffer_ = []) (hk : (P.state_.get d).skip_ = 4)
    (h0 : i0 < 256) (h1 : i1 < 256) (h2 : i2 < 256) (h3 : i3 < 256) :
    ∃ Q, run_blocks ts d (message_blocks bd) P ([i0, i1, i2, i3] ++ rest)
        = Except.ok (flow.next Q rest
            (if P.log_.is_open then
              [⟨d, some ts, ev (i0 * 2 ^ 24 + i1 * 2 ^ 16 + i2 * 2 ^ 8 + i3)⟩] else []))
      ∧ (Q.state_.get d).state_ = state_t.length ∧ (Q.state_.get d).buffer_ = []
      ∧ (Q.state_.get d).skip_ = 0
      ∧ (Q.state_.get d).offset_ = ((P.state_.get d).offset_ + 4) % u64
      ∧ Q.log_ = P.log_ ∧ Q.disabled_ = P.disabled_ := by
  have hg : have_block.guard (P.state_.get d).state_ = true := by
    rcases hs with ⟨h, _⟩ | ⟨h, _⟩ | ⟨h, _⟩ <;> rw [h] <;> decide
  have hr : 4 ≤ rank (P.state_.get d).state_ := by
    rcases hs with ⟨h, _⟩ | ⟨h, _⟩ | ⟨h, _⟩ <;> rw [h] <;> decide
  have e := have_step ts d P i0 i1 i2 i3 rest ev hs hb hk h0 h1 h2 h3
  refine ⟨_, run_blocks_single ts d (message_blocks bd) 4 (message_blocks_ranked bd) P _ _ _ _
    have_block (by simp [message_blocks]) hg e (Or.inl ?_), ?_, ?_, ?_, ?_, rfl, rfl⟩
    <;> rw [parse_bittorrent.get_of_set]
  exact hr

theorem request_run (bd : bdecode_fn) (ts : timeval) (d : dir_t) (P : parse_bittorrent)
    (p0 p1 p2 p3 s0 s1 s2 s3 l0 l1 l2 l3 : Nat) (rest : List Nat)
    (ev : Nat → Nat → Nat → log_event)
    (hs : ((P.state_.get d).state_ = state_t.request ∧ ev = log_event.request)
      ∨ ((P.state_.get d).state_ = state_t.cancel ∧ ev = log_event.cancel)
      ∨ ((P.state_.get d).state_ = state_t.reject ∧ ev = log_event.reject))
    (hb : (P.state_.get d).buffer_ = []) (hk : (P.state_.get d).skip_ = 12)
    (hp : p0 < 256 ∧ p1 < 256 ∧ p2 < 256 ∧ p3 < 256)
    (hst : s0 < 256 ∧ s1 < 256 ∧ s2 < 256 ∧ s3 < 256)
    (hl : l0 < 256 ∧ l1 < 256 ∧ l2 < 256 ∧ l3 < 256) :
    ∃ Q, run_blocks ts d (message_blocks bd) P
          ([p0, p1, p2, p3, s0, s1, s2, s3, l0, l1, l2, l3] ++ rest)
        = Except.ok (flow.next Q rest
            (if P.log_.is_open then
              [⟨d, some ts, ev (p0 * 2 ^ 24 + p1 * 2 ^ 16 + p2 * 2 ^ 8 + p3)
                (s0 * 2 ^ 24 + s1 * 2 ^ 16 + s2 * 2 ^ 8 + s3)
                (l0 * 2 ^ 24 + l1 * 2 ^ 16 + l2 * 2 ^ 8 + l3)⟩] else []))
      ∧ (Q.state_.get d).state_ = state_t.length ∧ (Q.state_.get d).buffer_ = []
      ∧ (Q.state_.get d).skip_ = 0
      ∧ (Q.state_.get d).offset_ = ((P.state_.get d).offset_ + 12) % u64
      ∧ Q.log_ = P.log_ ∧ Q.disabled_ = P.disabled_ := by
  have hg : request_block.guard (P.state_.get d).state_ = true := by
    rcases hs with ⟨h, _⟩ | ⟨h, _⟩ | ⟨h, _⟩ <;> rw [h] <;> decide
  have hr : 4 ≤ rank (P.state_.get d).state_ := by
    rcases hs with ⟨h, _⟩ | ⟨h, _⟩ | ⟨h, _⟩ <;> rw [h] <;> decide
  have e := request_step ts d P p0 p1 p2 p3 s0 s1 s2 s3 l0 l1 l2 l3 rest ev hs hb hk hp hst hl
  refine ⟨_, run_blocks_single ts d (message_blocks bd) 4 (message_blocks_ranked bd) P _ _ _ _
    request_block (by simp [message_blocks]) hg e (Or.inl ?_), ?_, ?_, ?_, ?_, rfl, rfl⟩
    <;> rw [parse_bittorrent.get_of_set]
  exact hr

theorem dht_port_run (bd : bdecode_fn) (ts : timeval) (d : dir_t) (P : parse_bittorrent)
    (q0 q1 : Nat) (rest : List Nat) (hs : (P.state_.get d).state_ = state_t.dht_port)
    (hb : (P.state_.get d).buffer_ = []) (hk : (P.state_.get d).skip_ = 2)
    (h0 : q0 < 256) (h1 : q1 < 256) :
    ∃ Q, run_blocks ts d (message_blocks bd) P ([q0, q1] ++ rest)
        = Except.ok (flow.next Q rest
            (if P.log_.is_open then
              [⟨d, some ts, log_event.dht_port (q0 * 2 ^ 8 + q1)⟩] else []))
      ∧ (Q.state_.get d).state_ = state_t.length ∧ (Q.state_.get d).buffer_ = []
      ∧ (Q.state_.get d).skip_ = 0
      ∧ (Q.state_.get d).offset_ = ((P.state_.get d).offset_ + 2) % u64
      ∧ Q.log_ = P.log_ ∧ Q.disabled_ = P.disabled_ := by
  have e := dht_port_step ts d P q0 q1 rest hs hb hk h0 h1
  refine ⟨_, run_blocks_single ts d (message_blocks bd) 4 (message_blocks_ranked bd) P _ _ _ _
    dht_port_block (by simp [message_blocks]) (by rw [hs]; rfl) e (Or.inl ?_), ?_, ?_, ?_, ?_,
    rfl, rfl⟩ <;> rw [parse_bittorrent.get_of_set]
  rw [hs]
  simp [rank]

theorem feed_one_pass (bd : bdecode_fn) (d : dir_t) (P Qf : parse_bittorrent) (m : List Nat)
    (l : List line) (cs : List (timeval × List Nat)) (ts0 : timeval)
    (hd : P.disabled_ = false) (h4 : 4 ≤ rank (P.state_.get d).state_) (hm : m ≠ [])
    (hcs : ∀ c ∈ cs, c.2 ≠ []) (hB : (cs.map Prod.snd).flatten = m)
    (hrun : run_blocks ts0 d (message_blocks bd) P m = Except.ok (flow.next Qf [] l))
    (hl : ∀ x ∈ l, x.ts = some ts0) :
    ∃ out, feed_data bd d P cs = Except.ok (Qf, out)
      ∧ out.map (fun x => (x.d, x.ev)) = l.map (fun x => (x.d, x.ev))
      ∧ ∀ x ∈ out, x.ts.isSome = true := by
  obtain ⟨c, t, rfl⟩ := feed_nonempty cs m hm hB
  have hfeed := feed_chunk bd d ts0 P t c hcs
    (by
      intro x y hx hy hxy
      rw [hB] at hxy
      rw [← hxy] at hrun
      exact head_not_skip_message bd ts0 d P Qf x y l hd h4 hx hy hrun)
  have hdz : P.data bd ts0 m d = Except.ok (Qf, l) := by
    rw [data_of_rank bd ts0 d P m hm hd h4]
    exact loop_of_next_nil bd ts0 d _ P Qf m l hm hrun
  rw [hB, hdz] at hfeed
  obtain ⟨out, ho, hmm⟩ := result.of_restamp ts0 _ _ _ hfeed
  obtain ⟨z1, z2⟩ := restamp_events ts0 out _ hmm hl
  exact ⟨out, ho, z1, z2⟩


/-! ## Messages of fixed size -/

theorem fixed_run (bd : bdecode_fn) (ts : timeval) (d : dir_t) (P : parse_bittorrent)
    (m : List Nat) (ev : log_event)
    (hs : (P.state_.get d).state_ = state_t.length) (hb : (P.state_.get d).buffer_ = [])
    (hm :
      (∃ id i0 i1 i2 i3, (i0 < 256 ∧ i1 < 256 ∧ i2 < 256 ∧ i3 < 256)
        ∧ m = [0, 0, 0, 5, id, i0, i1, i2, i3]
        ∧ ((id = 4 ∧ ev = log_event.have_ (i0 * 2 ^ 24 + i1 * 2 ^ 16 + i2 * 2 ^ 8 + i3))
          ∨ (id = 13 ∧ ev = log_event.suggest (i0 * 2 ^ 24 + i1 * 2 ^ 16 + i2 * 2 ^ 8 + i3))
          ∨ (id = 17
            ∧ ev = log_event.allowed_fast (i0 * 2 ^ 24 + i1 * 2 ^ 16 + i2 * 2 ^ 8 + i3))))
      ∨ (∃ id p0 p1 p2 p3 s0 s1 s2 s3 l0 l1 l2 l3,
        (p0 < 256 ∧ p1 < 256 ∧ p2 < 256 ∧ p3 < 256)
        ∧ (s0 < 256 ∧ s1 < 256 ∧ s2 < 256 ∧ s3 < 256)
        ∧ (l0 < 256 ∧ l1 < 256 ∧ l2 < 256 ∧ l3 < 256)
        ∧ m = [0, 0, 0, 13, id, p0, p1, p2, p3, s0, s1, s2, s3, l0, l1, l2, l3]
        ∧ ((id = 6 ∧ ev = log_event.request (p0 * 2 ^ 24 + p1 * 2 ^ 16 + p2 * 2 ^ 8 + p3)
              (s0 * 2 ^ 24 + s1 * 2 ^ 16 + s2 * 2 ^ 8 + s3)
              (l0 * 2 ^ 24 + l1 * 2 ^ 16 + l2 * 2 ^ 8 + l3))
          ∨ (id = 8 ∧ ev = log_event.cancel (p0 * 2 ^ 24 + p1 * 2 ^ 16 + p2 * 2 ^ 8 + p3)
              (s0 * 2 ^ 24 + s1 * 2 ^ 16 + s2 * 2 ^ 8 + s3)
              (l0 * 2 ^ 24 + l1 * 2 ^ 16 + l2 * 2 ^ 8 + l3))
          ∨ (id = 16 ∧ ev = log_event.reject (p0 * 2 ^ 24 + p1 * 2 ^ 16 + p2 * 2 ^ 8 + p3)
              (s0 * 2 ^ 24 + s1 * 2 ^ 16 + s2 * 2 ^ 8 + s3)
              (l0 * 2 ^ 24 + l1 * 2 ^ 16 + l2 * 2 ^ 8 + l3))))
      ∨ (∃ q0 q1, (q0 < 256 ∧ q1 < 256) ∧ m = [0, 0, 0, 3, 9, q0, q1]
        ∧ ev = log_event.dht_port (q0 * 2 ^ 8 + q1))) :
    ∃ Q, run_blocks ts d (message_blocks bd) P m
        = Except.ok (flow.next Q [] (if P.log_.is_open then [⟨d, some ts, ev⟩] else []))
      ∧ (Q.state_.get d).state_ = state_t.length ∧ (Q.state_.get d).buffer_ = []
      ∧ (Q.state_.get d).skip_ = 0
      ∧ (Q.state_.get d).offset_ = ((P.state_.get d).offset_ + m.length) % u64
      ∧ Q.log_ = P.log_ ∧ Q.disabled_ = P.disabled_ := by
  have hz : (if P.log_.is_open = true then
      (if 0 * 2 ^ 24 + 0 * 2 ^ 16 + 0 * 2 ^ 8 + 5 > 1048576 then
        [(⟨d, some ts, log_event.too_large (0 * 2 ^ 24 + 0 * 2 ^ 16 + 0 * 2 ^ 8 + 5)⟩ : line)]
      else []) else []) = [] := by
    cases P.log_.is_open <;> rfl
  have hz13 : (if P.log_.is_open = true then
      (if 0 * 2 ^ 24 + 0 * 2 ^ 16 + 0 * 2 ^ 8 + 13 > 1048576 then
        [(⟨d, some ts, log_event.too_large (0 * 2 ^ 24 + 0 * 2 ^ 16 + 0 * 2 ^ 8 + 13)⟩ : line)]
      else []) else []) = [] := by
    cases P.log_.is_open <;> rfl
  have hz3 : (if P.log_.is_open = true then
      (if 0 * 2 ^ 24 + 0 * 2 ^ 16 + 0 * 2 ^ 8 + 3 > 1048576 then
        [(⟨d, some ts, log_event.too_large (0 * 2 ^ 24 + 0 * 2 ^ 16 + 0 * 2 ^ 8 + 3)⟩ : line)]
      else []) else []) = [] := by
    cases P.log_.is_open <;> rfl
  rcases hm with ⟨id, i0, i1, i2, i3, hi, rfl, hid⟩
    | ⟨id, p0, p1, p2, p3, s0, s1, s2, s3, l0, l1, l2, l3, hp, hst, hl, rfl, hid⟩
    | ⟨q0, q1, hq, rfl, rfl⟩
  · obtain ⟨st, f, hsw, hr, hst, hev⟩ : ∃ (st : state_t) (f : Nat → log_event),
        (∀ s, msg_switch s id = ([], { s with state_ := st })) ∧ 5 < rank st
        ∧ ((st = state_t.have_ ∧ f = log_event.have_)
          ∨ (st = state_t.suggest ∧ f = log_event.suggest)
          ∨ (st = state_t.allowed_fast ∧ f = log_event.allowed_fast))
        ∧ ev = f (i0 * 2 ^ 24 + i1 * 2 ^ 16 + i2 * 2 ^ 8 + i3) := by
      rcases hid with ⟨rfl, rfl⟩ | ⟨rfl, rfl⟩ | ⟨rfl, rfl⟩
      · exact ⟨state_t.have_, log_event.have_, fun _ => rfl, by decide, Or.inl ⟨rfl, rfl⟩, rfl⟩
      · exact ⟨state_t.suggest, log_event.suggest, fun _ => rfl, by decide,
          Or.inr (Or.inl ⟨rfl, rfl⟩), rfl⟩
      · exact ⟨state_t.allowed_fast, log_event.allowed_fast, fun _ => rfl, by decide,
          Or.inr (Or.inr ⟨rfl, rfl⟩), rfl⟩
    obtain ⟨P2, e2, s2, k2, n2, o2, l2, d2⟩ := header_run bd ts d P 0 0 0 5 id
      [i0, i1, i2, i3] st hs hb (by decide) (by decide) (by decide) (by decide) (by decide)
      hsw hr
    obtain ⟨P3, e3, s3, k3, n3, o3, l3, d3⟩ := have_run bd ts d P2 i0 i1 i2 i3 [] f
      (by
        rcases hst with ⟨h, h1⟩ | ⟨h, h1⟩ | ⟨h, h1⟩
        · exact Or.inl ⟨s2.trans h, h1⟩
        · exact Or.inr (Or.inl ⟨s2.trans h, h1⟩)
        · exact Or.inr (Or.inr ⟨s2.trans h, h1⟩))
      k2 n2 hi.1 hi.2.1 hi.2.2.1 hi.2.2.2
    rw [hz] at e2
    refine ⟨P3, ?_, s3, k3, n3, ?_, l3.trans l2, d3.trans d2⟩
    · have e : ([0, 0, 0, 5] ++ id :: [i0, i1, i2, i3] : List Nat)
          = [0, 0, 0, 5, id, i0, i1, i2, i3] := rfl
      rw [← e, e2, List.append_nil] at *
      rw [e3, l2, hev]
      rfl
    · rw [o3, o2]
      simp only [u64, List.length_cons, List.length_nil]
      omega
  · obtain ⟨st, f, hsw, hr, hst2, hev⟩ : ∃ (st : state_t) (f : Nat → Nat → Nat → log_event),
        (∀ s, msg_switch s id = ([], { s with state_ := st })) ∧ 5 < rank st
        ∧ ((st = state_t.request ∧ f = log_event.request)
          ∨ (st = state_t.cancel ∧ f = log_event.cancel)
          ∨ (st = state_t.reject ∧ f = log_event.reject))
        ∧ ev = f (p0 * 2 ^ 24 + p1 * 2 ^ 16 + p2 * 2 ^ 8 + p3)
              (s0 * 2 ^ 24 + s1 * 2 ^ 16 + s2 * 2 ^ 8 + s3)
              (l0 * 2 ^ 24 + l1 * 2 ^ 16 + l2 * 2 ^ 8 + l3) := by
      rcases hid with ⟨rfl, rfl⟩ | ⟨rfl, rfl⟩ | ⟨rfl, rfl⟩
      · exact ⟨state_t.request, log_event.request, fun _ => rfl, by decide,
          Or.inl ⟨rfl, rfl⟩, rfl⟩
      · exact ⟨state_t.cancel, log_event.cancel, fun _ => rfl, by decide,
          Or.inr (Or.inl ⟨rfl, rfl⟩), rfl⟩
      · exact ⟨state_t.reject, log_event.reject, fun _ => rfl, by decide,
          Or.inr (Or.inr ⟨rfl, rfl⟩), rfl⟩
    obtain ⟨P2, e2, t2, k2, n2, o2, g2, d2⟩ := header_run bd ts d P 0 0 0 13 id
      [p0, p1, p2, p3, s0, s1, s2, s3, l0, l1, l2, l3] st hs hb (by decide) (by decide)
      (by decide) (by decide) (by decide) hsw hr
    obtain ⟨P3, e3, t3, k3, n3, o3, g3, d3⟩ := request_run bd ts d P2 p0 p1 p2 p3 s0 s1 s2 s3
      l0 l1 l2 l3 [] f
      (by
        rcases hst2 with ⟨h, h1⟩ | ⟨h, h1⟩ | ⟨h, h1⟩
        · exact Or.inl ⟨t2.trans h, h1⟩
        · exact Or.inr (Or.inl ⟨t2.trans h, h1⟩)
        · exact Or.inr (Or.inr ⟨t2.trans h, h1⟩))
      k2 n2 hp hst hl
    rw [hz13] at e2
    refine ⟨P3, ?_, t3, k3, n3, ?_, g3.trans g2, d3.trans d2⟩
    · have e : ([0, 0, 0, 13] ++ id :: [p0, p1, p2, p3, s0, s1, s2, s3, l0, l1, l2, l3]
          : List Nat) = [0, 0, 0, 13, id, p0, p1, p2, p3, s0, s1, s2, s3, l0, l1, l2, l3] := rfl
      rw [← e, e2, List.append_nil] at *
      rw [e3, g2, hev]
      rfl
    · rw [o3, o2]
      simp only [u64, List.length_cons, List.length_nil]
      omega
  · obtain ⟨P2, e2, t2, k2, n2, o2, g2, d2⟩ := header_run bd ts d P 0 0 0 3 9
      [q0, q1] state_t.dht_port hs hb (by decide) (by decide)
      (by decide) (by decide) (by decide) (fun _ => rfl) (by decide)
    obtain ⟨P3, e3, t3, k3, n3, o3, g3, d3⟩ := dht_port_run bd ts d P2 q0 q1 [] t2 k2 n2
      hq.1 hq.2
    rw [hz3] at e2
    refine ⟨P3, ?_, t3, k3, n3, ?_, g3.trans g2, d3.trans d2⟩
    · have e : ([0, 0, 0, 3] ++ 9 :: [q0, q1] : List Nat) = [0, 0, 0, 3, 9, q0, q1] := rfl
      rw [← e, e2, List.append_nil] at *
      rw [e3, g2]
      rfl
    · rw [o3, o2]
      simp only [u64, List.length_cons, List.length_nil]
      omega

/-- C19 (fixed-size messages).  Direction `d` of a dissector that is not disabled is in
state `length` with an empty buffer.  The bytes `m` are one of: length prefix 5, id 4,
13 or 17 and a 4-byte index; length prefix 13, id 6, 8 or 16 and three 4-byte fields;
length prefix 3, id 9 and a 2-byte port.  Fed `m` in any number of non-empty slices
with any time stamps, the calls return and write exactly one line, for direction `d`
and with a time stamp (nothing when the transcript is not open): `HAVE`, `SUGGEST` or
`ALLOWED-FAST` with the index, `REQUEST`, `CANCEL` or `REJECT` with piece, offset and
length, or `DHT-PORT` with the port, the numbers being the big-endian values of the
fields.  Direction `d` is then in state `length` with `skip_ = 0` and an empty buffer,
and its offset has grown by the length of `m`. -/
theorem fixed_size_messages (bdecode : bdecode_fn) (d : dir_t) (P : parse_bittorrent)
    (m : List Nat) (ev : log_event) (cs : List (timeval × List Nat))
    (hd : P.disabled_ = false)
    (hs : (P.state_.get d).state_ = state_t.length) (hb : (P.state_.get d).buffer_ = [])
    (hm :
      (∃ id i0 i1 i2 i3, (i0 < 256 ∧ i1 < 256 ∧ i2 < 256 ∧ i3 < 256)
        ∧ m = [0, 0, 0, 5, id, i0, i1, i2, i3]
        ∧ ((id = 4 ∧ ev = log_event.have_ (i0 * 2 ^ 24 + i1 * 2 ^ 16 + i2 * 2 ^ 8 + i3))
          ∨ (id = 13 ∧ ev = log_event.suggest (i0 * 2 ^ 24 + i1 * 2 ^ 16 + i2 * 2 ^ 8 + i3))
          ∨ (id = 17
            ∧ ev = log_event.allowed_fast (i0 * 2 ^ 24 + i1 * 2 ^ 16 + i2 * 2 ^ 8 + i3))))
      ∨ (∃ id p0 p1 p2 p3 s0 s1 s2 s3 l0 l1 l2 l3,
        (p0 < 256 ∧ p1 < 256 ∧ p2 < 256 ∧ p3 < 256)
        ∧ (s0 < 256 ∧ s1 < 256 ∧ s2 < 256 ∧ s3 < 256)
        ∧ (l0 < 256 ∧ l1 < 256 ∧ l2 < 256 ∧ l3 < 256)
        ∧ m = [0, 0, 0, 13, id, p0, p1, p2, p3, s0, s1, s2, s3, l0, l1, l2, l3]
        ∧ ((id = 6 ∧ ev = log_event.request (p0 * 2 ^ 24 + p1 * 2 ^ 16 + p2 * 2 ^ 8 + p3)
              (s0 * 2 ^ 24 + s1 * 2 ^ 16 + s2 * 2 ^ 8 + s3)
              (l0 * 2 ^ 24 + l1 * 2 ^ 16 + l2 * 2 ^ 8 + l3))
          ∨ (id = 8 ∧ ev = log_event.cancel (p0 * 2 ^ 24 + p1 * 2 ^ 16 + p2 * 2 ^ 8 + p3)
              (s0 * 2 ^ 24 + s1 * 2 ^ 16 + s2 * 2 ^ 8 + s3)
              (l0 * 2 ^ 24 + l1 * 2 ^ 16 + l2 * 2 ^ 8 + l3))
          ∨ (id = 16 ∧ ev = log_event.reject (p0 * 2 ^ 24 + p1 * 2 ^ 16 + p2 * 2 ^ 8 + p3)
              (s0 * 2 ^ 24 + s1 * 2 ^ 16 + s2 * 2 ^ 8 + s3)
              (l0 * 2 ^ 24 + l1 * 2 ^ 16 + l2 * 2 ^ 8 + l3))))
      ∨ (∃ q0 q1, (q0 < 256 ∧ q1 < 256) ∧ m = [0, 0, 0, 3, 9, q0, q1]
        ∧ ev = log_event.dht_port (q0 * 2 ^ 8 + q1)))
    (hcs : ∀ c ∈ cs, c.2 ≠ []) (hB : (cs.map Prod.snd).flatten = m) :
    ∃ Q out, feed_data bdecode d P cs = Except.ok (Q, out)
      ∧ out.map (fun l => (l.d, l.ev)) = (if P.log_.is_open then [(d, ev)] else [])
      ∧ (∀ l ∈ out, l.ts.isSome = true)
      ∧ (Q.state_.get d).state_ = state_t.length ∧ (Q.state_.get d).skip_ = 0
      ∧ (Q.state_.get d).buffer_ = []
      ∧ (Q.state_.get d).offset_ = ((P.state_.get d).offset_ + m.length) % u64 := by
  obtain ⟨Q, e, s1, k1, n1, o1, _, _⟩ := fixed_run bdecode ⟨0, 0⟩ d P m ev hs hb hm
  have hne : m ≠ [] := by
    rcases hm with ⟨_, _, _, _, _, _, rfl, _⟩
      | ⟨_, _, _, _, _, _, _, _, _, _, _, _, _, _, _, _, rfl, _⟩ | ⟨_, _, _, rfl, _⟩ <;> simp
  obtain ⟨out, h1, h2, h3⟩ := feed_one_pass bdecode d P Q m _ cs ⟨0, 0⟩ hd
    (by rw [hs]; decide) hne hcs hB e
    (by
      intro x hx
      cases hio : P.log_.is_open
      · rw [hio] at hx
        cases hx
      · rw [hio] at hx
        simp only [if_true, List.mem_singleton] at hx
        rw [hx])
  refine ⟨Q, out, h1, ?_, h3, s1, n1, k1, o1⟩
  rw [h2]
  cases P.log_.is_open <;> rfl

theorem fixed_size_messages_witness :
    c18_state.disabled_ = false
    ∧ (c18_state.state_.get dir_t.out).state_ = state_t.length
    ∧ (c18_state.state_.get dir_t.out).buffer_ = []
    ∧ (∀ c ∈ c19_chunks, c.2 ≠ [])
    ∧ (c19_chunks.map Prod.snd).flatten = [0, 0, 0, 5, 4, 0, 0, 1, 2]
    ∧ ∃ Q out, feed_data ex_bdecode dir_t.out c18_state c19_chunks = Except.ok (Q, out)
      ∧ out.map (fun l => (l.d, l.ev))
          = (if c18_state.log_.is_open then
              [(dir_t.out, log_event.have_ (0 * 2 ^ 24 + 0 * 2 ^ 16 + 1 * 2 ^ 8 + 2))] else [])
      ∧ (∀ l ∈ out, l.ts.isSome = true)
      ∧ (Q.state_.get dir_t.out).state_ = state_t.length
      ∧ (Q.state_.get dir_t.out).skip_ = 0
      ∧ (Q.state_.get dir_t.out).buffer_ = []
      ∧ (Q.state_.get dir_t.out).offset_
          = ((c18_state.state_.get dir_t.out).offset_
              + [0, 0, 0, 5, 4, 0, 0, 1, 2].length) % u64 :=
  ⟨by decide, by decide, by decide, by decide, by decide,
    fixed_size_messages ex_bdecode dir_t.out c18_state [0, 0, 0, 5, 4, 0, 0, 1, 2]
      (log_event.have_ (0 * 2 ^ 24 + 0 * 2 ^ 16 + 1 * 2 ^ 8 + 2)) c19_chunks (by decide)
      (by decide) (by decide)
      (Or.inl ⟨4, 0, 0, 1, 2, ⟨by decide, by decide, by decide, by decide⟩, rfl,
        Or.inl ⟨rfl, rfl⟩⟩)
      (by decide) (by decide)⟩


/-! ## The piece message and its block -/

theorem piece_run (bd : bdecode_fn) (ts : timeval) (d : dir_t) (P : parse_bittorrent)
    (p0 p1 p2 p3 s0 s1 s2 s3 : Nat) (rest : List Nat)
    (hs : (P.state_.get d).state_ = state_t.piece) (hb : (P.state_.get d).buffer_ = [])
    (hp : p0 < 256 ∧ p1 < 256 ∧ p2 < 256 ∧ p3 < 256)
    (hst : s0 < 256 ∧ s1 < 256 ∧ s2 < 256 ∧ s3 < 256) :
    ∃ Q, run_blocks ts d (message_blocks bd) P ([p0, p1, p2, p3, s0, s1, s2, s3] ++ rest)
        = Except.ok (flow.next Q rest
            (if P.log_.is_open then
              [⟨d, some ts, log_event.piece (p0 * 2 ^ 24 + p1 * 2 ^ 16 + p2 * 2 ^ 8 + p3)
                (s0 * 2 ^ 24 + s1 * 2 ^ 16 + s2 * 2 ^ 8 + s3)⟩] else []))
      ∧ (Q.state_.get d).state_ = state_t.skip ∧ (Q.state_.get d).buffer_ = []
      ∧ (Q.state_.get d).skip_ = ((P.state_.get d).skip_ + u32 - 8) % u32
      ∧ (Q.state_.get d).offset_ = ((P.state_.get d).offset_ + 8) % u64
      ∧ Q.log_ = P.log_ ∧ Q.disabled_ = P.disabled_ := by
  have e := piece_step ts d P p0 p1 p2 p3 s0 s1 s2 s3 rest hs hb hp hst
  refine ⟨_, run_blocks_single ts d (message_blocks bd) 4 (message_blocks_ranked bd) P _ _ _ _
    piece_block (by simp [message_blocks]) (by rw [hs]; rfl) e (Or.inr ?_), ?_, ?_, ?_, ?_,
    rfl, rfl⟩ <;> rw [parse_bittorrent.get_of_set]
  simp [rank, message_blocks]

theorem skip_block_all (ts : timeval) (d : dir_t) (Q : parse_bittorrent) (fed : List Nat)
    (hs : (Q.state_.get d).state_ = state_t.skip)
    (hk : fed.length ≤ (Q.state_.get d).skip_) :
    ∃ Q1 l, skip_block ts d Q fed = (Q1, [], l) ∧ message_lines l = []
      ∧ (Q1.state_.get d).skip_ = (Q.state_.get d).skip_ - fed.length
      ∧ (Q1.state_.get d).state_
          = (if (Q.state_.get d).skip_ - fed.length = 0 then state_t.length else state_t.skip)
      ∧ (Q1.state_.get d).buffer_ = (Q.state_.get d).buffer_
      ∧ (Q1.state_.get d).offset_ = ((Q.state_.get d).offset_ + fed.length) % u64
      ∧ Q1.log_ = Q.log_ ∧ Q1.disabled_ = Q.disabled_ := by
  have e2 : min fed.length (Q.state_.get d).skip_ = fed.length := by omega
  simp only [skip_block, hs, if_true, skip_step, e2, List.drop_length,
    parse_bittorrent.apply_plain]
  refine ⟨_, _, rfl, written_progress _ _ _ _ _ _, ?_, ?_, ?_, ?_, rfl, rfl⟩
    <;> rw [parse_bittorrent.get_of_set] <;> split <;> simp_all

theorem result.messages_and_then (r : result) (k : parse_bittorrent → result) :
    (r.and_then k).messages = r.messages.and_then (fun Q => (k Q).messages) := by
  cases r with
  | error e => rfl
  | ok x => exact result.messages_after x.2 (k x.1)

theorem message_lines_restamp (ts : timeval) (out : List line) :
    message_lines (out.map (line.restamp ts)) = (message_lines out).map (line.restamp ts) := by
  induction out with
  | nil => rfl
  | cons a t ih =>
    have h : (line.restamp ts a).is_progress = a.is_progress := rfl
    simp only [message_lines, List.map_cons, List.filter_cons, h] at ih ⊢
    cases a.is_progress <;> simp [ih]

theorem feed_messages (bd : bdecode_fn) (d : dir_t) (ts0 : timeval) (P : parse_bittorrent) :
    ∀ (t : List (timeval × List Nat)) (c : timeval × List Nat),
      (∀ x ∈ c :: t, x.2 ≠ []) →
      ((feed_data bd d P (c :: t)).restamp ts0).messages
        = (P.data bd ts0 ((c :: t).map Prod.snd).flatten d).messages := by
  intro t
  induction t with
  | nil =>
    intro c _
    rw [feed_cons]
    simp only [feed_data, result.and_then_ok, List.map_cons, List.map_nil, List.flatten_cons,
      List.flatten_nil, List.append_nil]
    rw [← data_restamp bd c.1 ts0 d P c.2]
  | cons c2 t ih =>
    intro c hne
    have hc : c.2 ≠ [] := hne c (List.mem_cons_self _ _)
    have hc2 : c2.2 ≠ [] := hne c2 (List.mem_cons_of_mem _ (List.mem_cons_self _ _))
    have hfl : ((c :: c2 :: t).map Prod.snd).flatten
        = (((ts0, c.2 ++ c2.2) :: t).map Prod.snd).flatten := by
      simp only [List.map_cons, List.flatten_cons, List.append_assoc]
    have hex := data_chunk bd ts0 d P c.2 c2.2 hc hc2
    have hih := ih (ts0, c.2 ++ c2.2)
      (by
        intro x hx
        rcases List.mem_cons.mp hx with rfl | hx
        · simp [hc]
        · exact hne x (List.mem_cons_of_mem _ (List.mem_cons_of_mem _ hx)))
    rw [hfl, ← hih, feed_cons, feed_cons]
    simp only
    rw [result.restamp_and_then, result.restamp_and_then, ← data_restamp bd c.1 ts0 d P c.2,
      ← data_restamp bd ts0 ts0 d P (c.2 ++ c2.2),
      result.messages_and_then (P.data bd ts0 (c.2 ++ c2.2) d), hex,
      ← result.messages_and_then, result.and_then_assoc]
    congr 1
    apply result.and_then_congr
    intro Q o _
    rw [feed_cons, result.restamp_and_then, ← data_restamp bd c2.1 ts0 d Q c2.2]

theorem piece_data (bd : bdecode_fn) (ts : timeval) (d : dir_t) (P : parse_bittorrent)
    (b0 b1 b2 b3 p0 p1 p2 p3 s0 s1 s2 s3 : Nat) (fed : List Nat) (pending : Nat)
    (hd : P.disabled_ = false)
    (hs : (P.state_.get d).state_ = state_t.length) (hb : (P.state_.get d).buffer_ = [])
    (hbb : b0 < 256 ∧ b1 < 256 ∧ b2 < 256 ∧ b3 < 256)
    (hp : p0 < 256 ∧ p1 < 256 ∧ p2 < 256 ∧ p3 < 256)
    (hst : s0 < 256 ∧ s1 < 256 ∧ s2 < 256 ∧ s3 < 256)
    (hL : b0 * 2 ^ 24 + b1 * 2 ^ 16 + b2 * 2 ^ 8 + b3 = 9 + fed.length + pending) :
    ∃ Q out, P.data bd ts ([b0, b1, b2, b3] ++ 7 :: ([p0, p1, p2, p3, s0, s1, s2, s3] ++ fed)) d
        = Except.ok (Q, out)
      ∧ message_lines out
          = (if P.log_.is_open then
              (if b0 * 2 ^ 24 + b1 * 2 ^ 16 + b2 * 2 ^ 8 + b3 > 1048576 then
                [⟨d, some ts,
                  log_event.too_large (b0 * 2 ^ 24 + b1 * 2 ^ 16 + b2 * 2 ^ 8 + b3)⟩]
              else [])
              ++ [⟨d, some ts, log_event.piece (p0 * 2 ^ 24 + p1 * 2 ^ 16 + p2 * 2 ^ 8 + p3)
                    (s0 * 2 ^ 24 + s1 * 2 ^ 16 + s2 * 2 ^ 8 + s3)⟩]
            else [])
      ∧ (Q.state_.get d).skip_ = pending
      ∧ (Q.state_.get d).state_
          = (if fed ≠ [] ∧ pending = 0 then state_t.length else state_t.skip)
      ∧ (Q.state_.get d).buffer_ = []
      ∧ (Q.state_.get d).offset_ = ((P.state_.get d).offset_ + 13 + fed.length) % u64 := by
  obtain ⟨P2, e2, t2, k2, n2, o2, g2, d2⟩ := header_run bd ts d P b0 b1 b2 b3 7
    ([p0, p1, p2, p3, s0, s1, s2, s3] ++ fed) state_t.piece hs hb hbb.1 hbb.2.1 hbb.2.2.1
    hbb.2.2.2 (by omega) (fun _ => rfl) (by decide)
  obtain ⟨P3, e3, t3, k3, n3, o3, g3, d3⟩ := piece_run bd ts d P2 p0 p1 p2 p3 s0 s1 s2 s3 fed
    t2 k2 hp hst
  have hLt : b0 * 2 ^ 24 + b1 * 2 ^ 16 + b2 * 2 ^ 8 + b3 < 4294967296 := by omega
  generalize b0 * 2 ^ 24 + b1 * 2 ^ 16 + b2 * 2 ^ 8 + b3 = L at e2 n2 hL hLt ⊢
  generalize p0 * 2 ^ 24 + p1 * 2 ^ 16 + p2 * 2 ^ 8 + p3 = vp at e3 ⊢
  generalize s0 * 2 ^ 24 + s1 * 2 ^ 16 + s2 * 2 ^ 8 + s3 = vs at e3 ⊢
  have hk3 : (P3.state_.get d).skip_ = fed.length + pending := by
    rw [n3, n2]
    simp only [u32]
    omega
  have ho3 : (P3.state_.get d).offset_ = ((P.state_.get d).offset_ + 13) % u64 := by
    rw [o3, o2]
    simp only [u64]
    omega
  rw [e3, g2] at e2
  have hml : message_lines
      ((if P.log_.is_open = true then
          if L > 1048576 then [(⟨d, some ts, log_event.too_large L⟩ : line)] else []
        else [])
        ++ (if P.log_.is_open = true then [(⟨d, some ts, log_event.piece vp vs⟩ : line)]
          else []))
      = (if P.log_.is_open then
          (if L > 1048576 then [(⟨d, some ts, log_event.too_large L⟩ : line)] else [])
          ++ [⟨d, some ts, log_event.piece vp vs⟩]
        else []) := by
    cases P.log_.is_open
    · rfl
    · simp only [if_true]
      split <;> rfl
  have hm : ([b0, b1, b2, b3] ++ 7 :: ([p0, p1, p2, p3, s0, s1, s2, s3] ++ fed)) ≠ [] := by
    simp
  have hfu : ∀ n : Nat, 3 * n + 3 = (3 * n + 2) + 1 := fun _ => rfl
  rw [data_of_rank bd ts d P _ hm hd (by rw [hs]; decide), hfu]
  by_cases hf : fed = []
  · subst hf
    rw [loop_of_next_nil bd ts d _ P P3 _ _ hm e2]
    refine ⟨P3, _, rfl, hml, ?_, ?_, k3, ?_⟩
    · rw [hk3]
      simp
    · rw [t3]
      simp
    · rw [ho3]
      simp
  · obtain ⟨Q1, l, hsk, hl, a1, a2, a3, a4, _, _⟩ := skip_block_all ts d P3 fed t3
      (by rw [hk3]; omega)
    rw [loop_of_next bd ts d _ P P3 _ fed _ hm hf e2, hsk]
    simp only
    rw [loop_nil]
    refine ⟨Q1, _, rfl, ?_, ?_, ?_, a3.trans k3, ?_⟩
    · rw [List.append_nil, message_lines_append, hl, List.append_nil]
      exact hml
    · rw [a1, hk3]
      omega
    · rw [a2, hk3]
      have : fed.length + pending - fed.length = pending := by omega
      rw [this]
      simp [hf]
    · rw [a4, ho3]
      simp only [u64]
      omega

theorem result.of_messages_restamp (ts : timeval) (r : result) (Q : parse_bittorrent)
    (l : List line) (h : (r.restamp ts).messages = Except.ok (Q, l)) :
    ∃ out, r = Except.ok (Q, out) ∧ (message_lines out).map (line.restamp ts) = l := by
  cases r with
  | error e => cases h
  | ok x =>
    obtain ⟨Q1, o1⟩ := x
    simp only [result.restamp, result.messages, Except.map, Except.ok.injEq,
      Prod.mk.injEq] at h
    exact ⟨o1, by rw [h.1], by rw [← message_lines_restamp, h.2]⟩

/-- C20 (piece and skip), amended.  Direction `d` of a dissector that is not disabled is
in state `length` with an empty buffer.  A piece message has the length prefix
`L = b0*2^24 + b1*2^16 + b2*2^8 + b3 >= 9`, the id 7, four bytes of piece, four bytes of
offset and `L - 9` block bytes.  After its 13 leading bytes and the block bytes `fed`
have been fed, `pending` block bytes being left (`L = 9 + |fed| + pending`), in any
number of non-empty slices with any time stamps, the calls have returned; the lines
written other than the `- payload:` progress lines are `PIECE piece offset` with the
big-endian values of the two fields, for direction `d` and with a time stamp, preceded
by the line `ERROR: message too large! L` when `L > 0x100000` (nothing when the
transcript is not open); `skip_` is `pending`, the buffer is empty and the offset has
grown by the bytes fed, whatever the block bytes are.  With the whole message fed
(`pending = 0`) direction `d` is in state `length` when the block is not empty
(`L >= 10`), and in state `skip` with `skip_ = 0` when `L = 9`. -/
theorem piece_and_skip (bdecode : bdecode_fn) (d : dir_t) (P : parse_bittorrent)
    (b0 b1 b2 b3 p0 p1 p2 p3 s0 s1 s2 s3 : Nat) (fed : List Nat) (pending : Nat)
    (cs : List (timeval × List Nat)) (hd : P.disabled_ = false)
    (hs : (P.state_.get d).state_ = state_t.length) (hb : (P.state_.get d).buffer_ = [])
    (hbb : b0 < 256 ∧ b1 < 256 ∧ b2 < 256 ∧ b3 < 256)
    (hp : p0 < 256 ∧ p1 < 256 ∧ p2 < 256 ∧ p3 < 256)
    (hst : s0 < 256 ∧ s1 < 256 ∧ s2 < 256 ∧ s3 < 256)
    (hL : b0 * 2 ^ 24 + b1 * 2 ^ 16 + b2 * 2 ^ 8 + b3 = 9 + fed.length + pending)
    (hcs : ∀ c ∈ cs, c.2 ≠ [])
    (hB : (cs.map Prod.snd).flatten
      = [b0, b1, b2, b3, 7, p0, p1, p2, p3, s0, s1, s2, s3] ++ fed) :
    ∃ Q out, feed_data bdecode d P cs = Except.ok (Q, out)
      ∧ (message_lines out).map (fun l => (l.d, l.ev))
          = (if P.log_.is_open then
              (if b0 * 2 ^ 24 + b1 * 2 ^ 16 + b2 * 2 ^ 8 + b3 > 1048576 then
                [(d, log_event.too_large (b0 * 2 ^ 24 + b1 * 2 ^ 16 + b2 * 2 ^ 8 + b3))]
              else [])
              ++ [(d, log_event.piece (p0 * 2 ^ 24 + p1 * 2 ^ 16 + p2 * 2 ^ 8 + p3)
                    (s0 * 2 ^ 24 + s1 * 2 ^ 16 + s2 * 2 ^ 8 + s3))]
            else [])
      ∧ (∀ l ∈ message_lines out, l.ts.isSome = true)
      ∧ (Q.state_.get d).skip_ = pending
      ∧ (Q.state_.get d).state_
          = (if fed ≠ [] ∧ pending = 0 then state_t.length else state_t.skip)
      ∧ (Q.state_.get d).buffer_ = []
      ∧ (Q.state_.get d).offset_ = ((P.state_.get d).offset_ + 13 + fed.length) % u64 := by
  let ts0 : timeval := ⟨0, 0⟩
  obtain ⟨Q, o, e, hml, f1, f2, f3, f4⟩ := piece_data bdecode ts0 d P b0 b1 b2 b3 p0 p1 p2 p3
    s0 s1 s2 s3 fed pending hd hs hb hbb hp hst hL
  obtain ⟨c, t, rfl⟩ := feed_nonempty cs _ (by simp) hB
  have hfeed := feed_messages bdecode d ts0 P t c hcs
  have hm : [b0, b1, b2, b3, 7, p0, p1, p2, p3, s0, s1, s2, s3] ++ fed
      = [b0, b1, b2, b3] ++ 7 :: ([p0, p1, p2, p3, s0, s1, s2, s3] ++ fed) := rfl
  rw [hB, hm, e] at hfeed
  obtain ⟨out, ho, hr⟩ := result.of_messages_restamp ts0 _ _ _ hfeed
  simp only [hml] at hr
  generalize b0 * 2 ^ 24 + b1 * 2 ^ 16 + b2 * 2 ^ 8 + b3 = L at hr ⊢
  obtain ⟨z1, z2⟩ := restamp_events ts0 (message_lines out) _ hr
    (by
      intro x hx
      cases hio : P.log_.is_open
      · rw [hio] at hx
        cases hx
      · rw [hio] at hx
        simp only [if_true] at hx
        split at hx
        · simp only [List.singleton_append, List.mem_cons, List.mem_singleton,
            List.mem_nil_iff, or_false] at hx
          rcases hx with rfl | rfl <;> rfl
        · simp only [List.nil_append, List.mem_singleton] at hx
          rw [hx])
  refine ⟨Q, out, ho, ?_, z2, f1, f2, f3, f4⟩
  rw [z1]
  cases P.log_.is_open
  · rfl
  · simp only [if_true]
    split <;> rfl

theorem piece_and_skip_witness :
    c18_state.disabled_ = false
    ∧ (c18_state.state_.get dir_t.out).state_ = state_t.length
    ∧ (c18_state.state_.get dir_t.out).buffer_ = []
    ∧ 0 * 2 ^ 24 + 0 * 2 ^ 16 + 0 * 2 ^ 8 + 12 = 9 + [9, 9, 9].length + 0
    ∧ (∀ c ∈ c20_chunks, c.2 ≠ [])
    ∧ (c20_chunks.map Prod.snd).flatten = [0, 0, 0, 12, 7, 0, 0, 0, 1, 0, 0, 64, 0] ++ [9, 9, 9]
    ∧ ∃ Q out, feed_data ex_bdecode dir_t.out c18_state c20_chunks = Except.ok (Q, out)
      ∧ (message_lines out).map (fun l => (l.d, l.ev))
          = (if c18_state.log_.is_open then
              (if 0 * 2 ^ 24 + 0 * 2 ^ 16 + 0 * 2 ^ 8 + 12 > 1048576 then
                [(dir_t.out, log_event.too_large (0 * 2 ^ 24 + 0 * 2 ^ 16 + 0 * 2 ^ 8 + 12))]
              else [])
              ++ [(dir_t.out, log_event.piece (0 * 2 ^ 24 + 0 * 2 ^ 16 + 0 * 2 ^ 8 + 1)
                    (0 * 2 ^ 24 + 0 * 2 ^ 16 + 64 * 2 ^ 8 + 0))]
            else [])
      ∧ (∀ l ∈ message_lines out, l.ts.isSome = true)
      ∧ (Q.state_.get dir_t.out).skip_ = 0
      ∧ (Q.state_.get dir_t.out).state_
          = (if [9, 9, 9] ≠ [] ∧ 0 = 0 then state_t.length else state_t.skip)
      ∧ (Q.state_.get dir_t.out).buffer_ = []
      ∧ (Q.state_.get dir_t.out).offset_
          = ((c18_state.state_.get dir_t.out).offset_ + 13 + [9, 9, 9].length) % u64 :=
  ⟨by decide, by decide, by decide, by decide, by decide, by decide,
    piece_and_skip ex_bdecode dir_t.out c18_state 0 0 0 12 0 0 0 1 0 0 64 0 [9, 9, 9] 0
      c20_chunks (by decide) (by decide) (by decide)
      ⟨by decide, by decide, by decide, by decide⟩ ⟨by decide, by decide, by decide, by decide⟩
      ⟨by decide, by decide, by decide, by decide⟩ (by decide) (by decide) (by decide)⟩

/-- The claim C20 as it is written fails for `L = 9`: direction `out` is in state
`length` with an empty buffer and is fed, in one slice, the 13 bytes of a piece message
with length prefix 9 (piece 1, offset 16384, no block bytes).  The call writes
`PIECE 1 16384` and leaves direction `out` in state `skip` with `skip_ = 0`, not in
state `length`; the state `length` is reached in the next call that brings bytes,
which writes the line `- payload: 0 (left: 0)` first. -/
theorem piece_without_block :
    (c18_state.state_.get dir_t.out).state_ = state_t.length
    ∧ (c18_state.state_.get dir_t.out).buffer_ = []
    ∧ (c20_empty.map Prod.snd).flatten = [0, 0, 0, 9, 7, 0, 0, 0, 1, 0, 0, 64, 0]
    ∧ (feed_data ex_bdecode dir_t.out c18_state c20_empty).toOption.map
        (fun x => ((x.1.state_.get dir_t.out).state_, (x.1.state_.get dir_t.out).skip_,
          x.2.map (fun l => l.ev)))
      = some (state_t.skip, 0, [log_event.piece 1 16384])
    ∧ (feed_data ex_bdecode dir_t.out c18_state
          (c20_empty ++ [(⟨3, 0⟩, [0, 0, 0, 0])])).toOption.map
        (fun x => ((x.1.state_.get dir_t.out).state_, x.2.map (fun l => l.ev)))
      = some (state_t.length,
          [log_event.piece 1 16384, log_event.payload 0 0, log_event.keep_alive]) := by
  decide


/-! ## Empty segments, mismatching segments and FIN -/

theorem tcp_packet_nil {H : Type} (hd : Handler H) (st : tcp_state H) (ts : timeval)
    (hdr : tcphdr) (d : dir_t) : st.packet hd ts hdr [] d = st := by
  simp [tcp_state.packet]

/-- C28 (empty TCP segments).  `tcp_state::packet` with a payload of length zero returns
at once: the connection is the same afterwards, whatever the sequence number of the
segment is; in particular the expected sequence number, the out-of-order map and the
closed flag of both directions are unchanged, and so is the handler. -/
theorem tcp_empty_segment {H : Type} (hd : Handler H) (st : tcp_state H) (ts : timeval)
    (hdr : tcphdr) (d : dir_t) :
    st.packet hd ts hdr [] d = st
    ∧ (∀ d1, ((st.packet hd ts hdr [] d).state_.get d1).seqnr = (st.state_.get d1).seqnr
        ∧ ((st.packet hd ts hdr [] d).state_.get d1).ooo_ = (st.state_.get d1).ooo_
        ∧ ((st.packet hd ts hdr [] d).state_.get d1).closed = (st.state_.get d1).closed)
    ∧ (st.packet hd ts hdr [] d).handler = st.handler := by
  rw [tcp_packet_nil]
  exact ⟨rfl, fun _ => ⟨rfl, rfl, rfl⟩, rfl⟩

/-- C30 (TCP sequence mismatch).  A segment with a payload that is not empty, whose
sequence number is not the expected one, fails the ahead test of the code
(`(incoming - expected) mod 2^32 < (2^32 - 1) / 2`) and has
`incoming + len != expected` (the sum as the code forms it, not reduced modulo 2^32):
`packet` passes one `seqnr_mismatch` event for the direction to the handler and does
nothing else; no data is handed over, and `state_` (expected sequence number,
out-of-order map and closed flag of both directions) is unchanged.  For the handler
that records its calls the record grows by exactly that event. -/
theorem tcp_seqnr_mismatch {H : Type} (hd : Handler H) (ts : timeval) (st : tcp_state H)
    (hdr : tcphdr) (buf : List Nat) (d : dir_t) (hbuf : buf ≠ [])
    (hne : hdr.seq ≠ (st.state_.get d).seqnr)
    (hna : ¬ (hdr.seq + u32 - (st.state_.get d).seqnr) % u32 < (u32 - 1) / 2)
    (hsum : hdr.seq + buf.length ≠ (st.state_.get d).seqnr) :
    st.packet hd ts hdr buf d
      = { st with handler := hd.event st.handler ts socket_event_t.seqnr_mismatch d }
    ∧ (st.packet hd ts hdr buf d).handler
        = hd.event st.handler ts socket_event_t.seqnr_mismatch d
    ∧ (st.packet hd ts hdr buf d).state_ = st.state_
    ∧ ∀ (rt : tcp_state (List call)), rt.state_ = st.state_ →
        (rt.packet recorder ts hdr buf d).handler
          = rt.handler ++ [call.event ts socket_event_t.seqnr_mismatch d] := by
  have hb := tcp_packet_behind hd ts st hdr buf d hbuf hne hna
  rw [if_pos hsum] at hb
  refine ⟨hb, by rw [hb], by rw [hb], ?_⟩
  intro rt hrt
  have hr := tcp_packet_behind recorder ts rt hdr buf d hbuf (by rw [hrt]; exact hne)
    (by rw [hrt]; exact hna)
  rw [if_pos (by rw [hrt]; exact hsum)] at hr
  rw [hr]
  rfl

theorem tcp_seqnr_mismatch_witness :
    ([1, 2] : List Nat) ≠ []
    ∧ (seg_hdr 5).seq ≠ (c11_tcp.state_.get dir_t.out).seqnr
    ∧ ¬ ((seg_hdr 5).seq + u32 - (c11_tcp.state_.get dir_t.out).seqnr) % u32 < (u32 - 1) / 2
    ∧ (seg_hdr 5).seq + [1, 2].length ≠ (c11_tcp.state_.get dir_t.out).seqnr
    ∧ (c11_tcp.packet recorder ⟨1, 0⟩ (seg_hdr 5) [1, 2] dir_t.out).handler
        = recorder.event c11_tcp.handler ⟨1, 0⟩ socket_event_t.seqnr_mismatch dir_t.out
    ∧ (c11_tcp.packet recorder ⟨1, 0⟩ (seg_hdr 5) [1, 2] dir_t.out).state_ = c11_tcp.state_ :=
  ⟨by decide, by decide, by decide, by decide,
    (tcp_seqnr_mismatch recorder ⟨1, 0⟩ c11_tcp (seg_hdr 5) [1, 2] dir_t.out (by decide)
      (by decide) (by decide) (by decide)).2.1,
    (tcp_seqnr_mismatch recorder ⟨1, 0⟩ c11_tcp (seg_hdr 5) [1, 2] dir_t.out (by decide)
      (by decide) (by decide) (by decide)).2.2.1⟩

theorem other_dir_ne (d : dir_t) : other_dir d ≠ d := by
  cases d <;> decide

/-- C25 (FIN result).  For `tcp_state` and for `utp_state`, `fin(ts, d)` sets the
closed flag of direction `d`, makes one call of the handler, `event(ts, fin, d)`, and
returns the closed flag of the opposite direction; the expected sequence number and
the out-of-order map of both directions are unchanged and the opposite direction is
unchanged altogether (for uTP also `connected` and `connid` of direction `d`).  For
the handler that records its calls the record grows by exactly the `fin` event. -/
theorem fin_result {H : Type} (hd : Handler H) (ts : timeval) (d : dir_t)
    (c : tcp_state H) (u : utp_state H) (rc : tcp_state (List call))
    (ru : utp_state (List call)) :
    ((c.fin hd ts d).2 = (c.state_.get (other_dir d)).closed
      ∧ (c.fin hd ts d).1.state_.get d = { c.state_.get d with closed := true }
      ∧ (c.fin hd ts d).1.state_.get (other_dir d) = c.state_.get (other_dir d)
      ∧ (∀ d1, ((c.fin hd ts d).1.state_.get d1).seqnr = (c.state_.get d1).seqnr
          ∧ ((c.fin hd ts d).1.state_.get d1).ooo_ = (c.state_.get d1).ooo_)
      ∧ (c.fin hd ts d).1.handler = hd.event c.handler ts socket_event_t.fin d
      ∧ (rc.fin recorder ts d).1.handler = rc.handler ++ [call.event ts socket_event_t.fin d])
    ∧ ((u.fin hd ts d).2 = (u.state_.get (other_dir d)).closed
      ∧ (u.fin hd ts d).1.state_.get d = { u.state_.get d with closed := true }
      ∧ (u.fin hd ts d).1.state_.get (other_dir d) = u.state_.get (other_dir d)
      ∧ (∀ d1, ((u.fin hd ts d).1.state_.get d1).seqnr = (u.state_.get d1).seqnr
          ∧ ((u.fin hd ts d).1.state_.get d1).ooo_ = (u.state_.get d1).ooo_)
      ∧ (u.fin hd ts d).1.handler = hd.event u.handler ts socket_event_t.fin d
      ∧ (ru.fin recorder ts d).1.handler
          = ru.handler ++ [call.event ts socket_event_t.fin d]) := by
  refine ⟨⟨?_, ?_, ?_, ?_, rfl, rfl⟩, ⟨?_, ?_, ?_, ?_, rfl, rfl⟩⟩
  · cases d <;> rfl
  · cases d <;> rfl
  · cases d <;> rfl
  · intro d1
    cases d <;> cases d1 <;> exact ⟨rfl, rfl⟩
  · cases d <;> rfl
  · cases d <;> rfl
  · cases d <;> rfl
  · intro d1
    cases d <;> cases d1 <;> exact ⟨rfl, rfl⟩


/-! ## New uTP connections and the first packet of a direction -/

theorem map.emplace_cases {K V : Type} [DecidableEq K] (m : map K V) (k : K) (v0 : V) :
    map.find (map.emplace m k v0) k = some ((map.find m k).getD v0)
    ∧ ∀ v k1, map.find (map.replace (map.emplace m k v0) k v) k1
        = if k1 = k then some v else map.find m k1 := by
  cases h : map.find m k with
  | none =>
    have e : map.emplace m k v0 = m ++ [(k, v0)] := by simp [map.emplace, h]
    rw [e]
    refine ⟨by rw [map.find_append_none _ _ _ _ h, if_pos rfl]; rfl, ?_⟩
    intro v k1
    rw [map.replace_append _ _ _ _ h, map.find_append_none _ _ _ _ h]
  | some old =>
    have e : map.emplace m k v0 = m := by simp [map.emplace, h]
    rw [e]
    refine ⟨by rw [h]; rfl, ?_⟩
    intro v k1
    rw [map.find_replace, h]
    rfl

/-- C24 (new uTP connection).  A uTP packet with transport key `T` and connection id
`C = hdr.connection_id` reaches the uTP branch and `find_utp_stream` finds no
connection.  If the packet is an `ST_SYN`, the table afterwards has a connection under
the key `{T, (C + 1) mod 2^16}` whose direction `out` is connected, expects
`(hdr.seq_nr + 1) mod 2^16` and has `connid = C`: it is the connection made by the
constructor for `{T, C}`, or the one `emplace` found under that key, after `syn` for
direction `out`; the entries under all other keys, the TCP table and the destroyed
connections are unchanged.  If the packet is not an `ST_SYN` the processor is
unchanged. -/
theorem utp_new_connection {H : Type} (hd : Handler H) (p : processor H) (ts : timeval)
    (T : stream_key) (hdr : utphdr) (pkt : List Nat) (hC : hdr.connection_id < u16)
    (hnone : (p.find_utp_stream { ip := T, connid := hdr.connection_id }).1 = none) :
    (hdr.get_type = ST_SYN →
      ∃ st, map.find (process_utp hd p ts T hdr pkt).utp_streams_
            { ip := T, connid := (hdr.connection_id + 1) % u16 } = some st
        ∧ st = ((map.find p.utp_streams_
                  { ip := T, connid := (hdr.connection_id + 1) % u16 }).getD
                (utp_state.mk_ hd { ip := T, connid := hdr.connection_id })).syn hdr dir_t.out
        ∧ (st.state_.get dir_t.out).connected = true
        ∧ (st.state_.get dir_t.out).seqnr = (hdr.seq_nr + 1) % u16
        ∧ (st.state_.get dir_t.out).connid = hdr.connection_id
        ∧ (∀ k1, k1 ≠ ({ ip := T, connid := (hdr.connection_id + 1) % u16 } : utp_stream_key) →
            map.find (process_utp hd p ts T hdr pkt).utp_streams_ k1
              = map.find p.utp_streams_ k1)
        ∧ (process_utp hd p ts T hdr pkt).tcp_streams_ = p.tcp_streams_
        ∧ (process_utp hd p ts T hdr pkt).destroyed_ = p.destroyed_)
    ∧ (hdr.get_type ≠ ST_SYN → process_utp hd p ts T hdr pkt = p) := by
  have hm : hdr.connection_id % u16 = hdr.connection_id := Nat.mod_eq_of_lt hC
  have hk : inc_connid { ip := T, connid := hdr.connection_id } 1
      = { ip := T, connid := (hdr.connection_id + 1) % u16 } := by
    simp only [inc_connid, connid_offset_one]
  constructor
  · intro hsyn
    obtain ⟨e1, e2⟩ := map.emplace_cases p.utp_streams_
      ({ ip := T, connid := (hdr.connection_id + 1) % u16 } : utp_stream_key)
      (utp_state.mk_ hd { ip := T, connid := hdr.connection_id })
    have hu : (process_utp hd p ts T hdr pkt).utp_streams_
        = map.replace (map.emplace p.utp_streams_
            ({ ip := T, connid := (hdr.connection_id + 1) % u16 } : utp_stream_key)
            (utp_state.mk_ hd { ip := T, connid := hdr.connection_id }))
          { ip := T, connid := (hdr.connection_id + 1) % u16 }
          (((map.find p.utp_streams_
              { ip := T, connid := (hdr.connection_id + 1) % u16 }).getD
            (utp_state.mk_ hd { ip := T, connid := hdr.connection_id })).syn hdr
            dir_t.out) := by
      simp only [process_utp, hm, hsyn, if_true, hnone, hk, e1]
    refine ⟨_, ?_, rfl, rfl, rfl, rfl, ?_, ?_, ?_⟩
    · rw [hu]
      exact (e2 _ _).trans (if_pos rfl)
    · intro k1 hk1
      rw [hu]
      exact (e2 _ _).trans (if_neg hk1)
    · simp only [process_utp, hm, hsyn, if_true, hnone, hk, e1]
    · simp only [process_utp, hm, hsyn, if_true, hnone, hk, e1]
  · intro hns
    simp only [process_utp, hm, hns, if_false, hnone]

theorem utp_new_connection_witness :
    c16_syn.connection_id < u16
    ∧ (c16_empty.find_utp_stream { ip := ex_key, connid := c16_syn.connection_id }).1 = none
    ∧ c16_syn.get_type = ST_SYN
    ∧ (∃ st, map.find (process_utp recorder c16_empty ⟨1, 0⟩ ex_key c16_syn []).utp_streams_
            { ip := ex_key, connid := (c16_syn.connection_id + 1) % u16 } = some st
        ∧ st = ((map.find c16_empty.utp_streams_
                  { ip := ex_key, connid := (c16_syn.connection_id + 1) % u16 }).getD
                (utp_state.mk_ recorder { ip := ex_key, connid := c16_syn.connection_id })).syn
              c16_syn dir_t.out
        ∧ (st.state_.get dir_t.out).connected = true
        ∧ (st.state_.get dir_t.out).seqnr = (c16_syn.seq_nr + 1) % u16
        ∧ (st.state_.get dir_t.out).connid = c16_syn.connection_id
        ∧ (∀ k1,
            k1 ≠ ({ ip := ex_key, connid := (c16_syn.connection_id + 1) % u16 }
                : utp_stream_key) →
            map.find (process_utp recorder c16_empty ⟨1, 0⟩ ex_key c16_syn []).utp_streams_ k1
              = map.find c16_empty.utp_streams_ k1)
        ∧ (process_utp recorder c16_empty ⟨1, 0⟩ ex_key c16_syn []).tcp_streams_
            = c16_empty.tcp_streams_
        ∧ (process_utp recorder c16_empty ⟨1, 0⟩ ex_key c16_syn []).destroyed_
            = c16_empty.destroyed_) :=
  ⟨by decide, by decide, by decide,
    (utp_new_connection recorder c16_empty ⟨1, 0⟩ ex_key c16_syn [] (by decide)
      (by decide)).1 (by decide)⟩

/-- C27 (uTP cold start).  Direction `d` of a uTP connection is not connected and
`packet` is called with a header of sequence number `q = hdr.seq_nr`.  With an empty
payload the direction becomes connected with `connid = hdr.connection_id` and expects
`q`; nothing is handed to the handler.  With a payload that is not empty the payload is
handed to the handler first, the direction is connected with
`connid = hdr.connection_id` and expects `(q + 1) mod 2^16`, and from there the
out-of-order map is drained: the packets `ps` taken from the map follow the payload at
the handler.  For a direction that is connected, `packet` changes neither `connected`
nor `connid`; the other direction is never changed. -/
theorem utp_cold_start {H : Type} (hd : Handler H) (st : utp_state H) (ts : timeval)
    (hdr : utphdr) (buf : List Nat) (d : dir_t) :
    ((st.state_.get d).connected = false →
      (buf = [] →
        (st.packet hd ts hdr buf d).state_.get d
            = { st.state_.get d with
                seqnr := hdr.seq_nr, connected := true, connid := hdr.connection_id }
          ∧ (st.packet hd ts hdr buf d).handler = st.handler)
      ∧ (buf ≠ [] →
        ((st.packet hd ts hdr buf d).state_.get d).connected = true
        ∧ ((st.packet hd ts hdr buf d).state_.get d).connid = hdr.connection_id
        ∧ ((st.packet hd ts hdr buf d).state_.get d).closed = (st.state_.get d).closed
        ∧ ∃ ps : List (List Nat),
            Drains utp_advance (st.state_.get d).ooo_ ((hdr.seq_nr + 1) % u16) ps
              ((st.packet hd ts hdr buf d).state_.get d).ooo_
              ((st.packet hd ts hdr buf d).state_.get d).seqnr
            ∧ (st.packet hd ts hdr buf d).handler
                = ps.foldl (fun a p => hd.data a ts p d) (hd.data st.handler ts buf d)))
    ∧ ((st.state_.get d).connected = true →
        ((st.packet hd ts hdr buf d).state_.get d).connected = true
        ∧ ((st.packet hd ts hdr buf d).state_.get d).connid = (st.state_.get d).connid)
    ∧ (∀ d1, d1 ≠ d → (st.packet hd ts hdr buf d).state_.get d1 = st.state_.get d1) := by
  refine ⟨fun hc => ⟨?_, ?_⟩, ?_, fun d1 h1 => utp_packet_other hd st ts hdr buf d d1 h1⟩
  · intro hb
    subst hb
    constructor
    · rw [utp_packet_side]
      simp [utp_connect, hc]
    · simp [utp_state.packet]
  · intro hb
    have hl : ¬ buf.length = 0 := by
      intro h
      exact hb (List.length_eq_zero.mp h)
    have hcn : utp_connect (st.state_.get d) hdr
        = { st.state_.get d with
            seqnr := hdr.seq_nr, connected := true, connid := hdr.connection_id } := by
      simp [utp_connect, hc]
    have hside := utp_packet_side hd st ts hdr buf d
    rw [if_neg hl, hcn] at hside
    simp only [ne_eq, not_true_eq_false, if_false] at hside
    obtain ⟨ps, h1, h2, h3, h4, h5⟩ := utp_drain_spec hd ts d (st.state_.get d).ooo_.length
      { st.state_.get d with
        seqnr := (hdr.seq_nr + 1) % u16, connected := true, connid := hdr.connection_id }
      (hd.data st.handler ts buf d) (Nat.le_refl _)
    rw [hside]
    refine ⟨h4, h5, h3, ps, h1, ?_⟩
    rw [← h2]
    simp [utp_state.packet, hl, hcn]
  · intro hc
    have hcn : utp_connect (st.state_.get d) hdr = st.state_.get d := by
      simp [utp_connect, hc]
    have hside := utp_packet_side hd st ts hdr buf d
    rw [hcn] at hside
    rw [hside]
    split
    · exact ⟨hc, rfl⟩
    · split
      · split
        · exact ⟨hc, rfl⟩
        · exact ⟨hc, rfl⟩
      · obtain ⟨ps, h1, h2, h3, h4, h5⟩ := utp_drain_spec hd ts d (st.state_.get d).ooo_.length
          { st.state_.get d with seqnr := ((st.state_.get d).seqnr + 1) % u16 }
          (hd.data st.handler ts buf d) (Nat.le_refl _)
        exact ⟨h4.trans hc, h5⟩

theorem utp_cold_start_witness :
    (c3_utp.state_.get dir_t.out).connected = false
    ∧ ([1, 2] : List Nat) ≠ []
    ∧ ((c3_utp.packet recorder ⟨1, 0⟩ (data_hdr 65535) [1, 2] dir_t.out).state_.get
          dir_t.out).connected = true
    ∧ ((c3_utp.packet recorder ⟨1, 0⟩ (data_hdr 65535) [1, 2] dir_t.out).state_.get
          dir_t.out).connid = (data_hdr 65535).connection_id
    ∧ ((c3_utp.packet recorder ⟨1, 0⟩ (data_hdr 65535) [1, 2] dir_t.out).state_.get
          dir_t.out).closed = (c3_utp.state_.get dir_t.out).closed
    ∧ ∃ ps : List (List Nat),
        Drains utp_advance (c3_utp.state_.get dir_t.out).ooo_
          (((data_hdr 65535).seq_nr + 1) % u16) ps
          ((c3_utp.packet recorder ⟨1, 0⟩ (data_hdr 65535) [1, 2] dir_t.out).state_.get
            dir_t.out).ooo_
          ((c3_utp.packet recorder ⟨1, 0⟩ (data_hdr 65535) [1, 2] dir_t.out).state_.get
            dir_t.out).seqnr
        ∧ (c3_utp.packet recorder ⟨1, 0⟩ (data_hdr 65535) [1, 2] dir_t.out).handler
            = ps.foldl (fun a p => recorder.data a ⟨1, 0⟩ p dir_t.out)
                (recorder.data c3_utp.handler ⟨1, 0⟩ [1, 2] dir_t.out) :=
  ⟨by decide, by decide,
    ((utp_cold_start recorder c3_utp ⟨1, 0⟩ (data_hdr 65535) [1, 2] dir_t.out).1
      (by decide)).2 (by decide)⟩


/-! ## Calls the dissector does not get, and calls it should ignore -/

/-- The claim C29 as it is written fails on the code.  The connection `c29_conn` has
the dissector as its handler; the transcript is open and the dissector is not
disabled.  A call of the dissector's `data` with an empty slice would write the line
`ACK`; `tcp_state::packet` with an empty payload returns before it calls the handler,
so the handler is as before and no line is written. -/
theorem ack_not_written :
    c18_state.log_.is_open = true ∧ c18_state.disabled_ = false
    ∧ ((bittorrent_handler ex_bdecode).data c29_conn.handler ⟨5, 0⟩ [] dir_t.out).toOption
        = some (c18_state, [⟨dir_t.out, some ⟨5, 0⟩, log_event.ack⟩])
    ∧ render_event log_event.ack = " ACK"
    ∧ (c29_conn.packet (bittorrent_handler ex_bdecode) ⟨5, 0⟩ (seg_hdr 10) []
          dir_t.out).handler.toOption = some (c18_state, []) := by
  decide

/-- C29 (ACK event), amended.  A call `data(ts, buf, d)` of the dissector with an empty
slice, on a dissector that is not disabled and whose transcript is open, leaves the
state as it is and writes the one line `ACK` for direction `d` with time stamp `ts`,
also when it is the handler of a connection; when the dissector is disabled or the
transcript is not open the call writes nothing.  `tcp_state::packet` does not make
this call: with an empty payload it returns the connection as it is, handler and
transcript included. -/
theorem ack_event (bd : bdecode_fn) (st : tcp_state result) (P : parse_bittorrent)
    (out : List line) (ts : timeval) (hdr : tcphdr) (d : dir_t) :
    st.packet (bittorrent_handler bd) ts hdr [] d = st
    ∧ (P.disabled_ = false → P.log_.is_open = true →
        P.data bd ts [] d = Except.ok (P, [⟨d, some ts, log_event.ack⟩])
        ∧ (bittorrent_handler bd).data (Except.ok (P, out)) ts [] d
            = Except.ok (P, out ++ [⟨d, some ts, log_event.ack⟩])
        ∧ render_line ⟨d, some ts, log_event.ack⟩
            = render_dir d ++ " " ++ render_ts ts ++ " ACK" ++ "\n")
    ∧ (P.disabled_ = true ∨ P.log_.is_open = false →
        P.data bd ts [] d = Except.ok (P, [])) := by
  refine ⟨tcp_packet_nil _ st ts hdr d, ?_, ?_⟩
  · intro h1 h2
    have e : P.data bd ts [] d = Except.ok (P, [⟨d, some ts, log_event.ack⟩]) := by
      simp [parse_bittorrent.data, h1, h2]
    refine ⟨e, ?_, ?_⟩
    · simp only [bittorrent_handler, Except.bind, e, result.after, Except.map]
    · simp only [render_line, render_event, String.append_assoc]
  · intro h
    rcases h with h | h
    · simp [parse_bittorrent.data, h]
    · by_cases hdis : P.disabled_ = true
      · simp [parse_bittorrent.data, hdis]
      · simp [parse_bittorrent.data, hdis, h]

/-- Witness for `ack_event`: the dissector `c18_state`, whose transcript is open, gets
an empty slice for direction `out` at time 5. -/
theorem ack_event_witness :
    c18_state.disabled_ = false ∧ c18_state.log_.is_open = true
    ∧ c18_state.data ex_bdecode ⟨5, 0⟩ [] dir_t.out
        = Except.ok (c18_state, [⟨dir_t.out, some ⟨5, 0⟩, log_event.ack⟩]) :=
  ⟨by decide, by decide,
    ((ack_event ex_bdecode c29_conn c18_state [] ⟨5, 0⟩ (seg_hdr 10) dir_t.out).2.1
      (by decide) (by decide)).1⟩

/-- C23 when the other direction has opened the transcript.  Direction `out` sends a
handshake, which opens the transcript; direction `in` then sends twenty bytes that are
not the protocol string, which disables the dissector (`c23_state`).  A later call of
`data` writes nothing and leaves the state as it is, but `event` does not look at
`disabled_`: the calls for `FIN`, `RESET` and a sequence number mismatch each write
their line. -/
theorem event_after_disable :
    (replay (bittorrent_handler ex_bdecode) ((bittorrent_handler ex_bdecode).init ex_key)
        c22_calls).toOption.map (fun x => x.1) = some c23_state
    ∧ c7_buf ≠ handshake_bytes
    ∧ c23_state.disabled_ = true ∧ c23_state.log_.is_open = true
    ∧ (c23_state.data ex_bdecode ⟨9, 0⟩ [0, 0, 0, 0] dir_t.out).toOption
        = some (c23_state, [])
    ∧ c23_state.event ⟨9, 0⟩ socket_event_t.fin dir_t.in_
        = (c23_state, [⟨dir_t.in_, some ⟨9, 0⟩, log_event.socket socket_event_t.fin⟩])
    ∧ c23_state.event ⟨9, 0⟩ socket_event_t.reset dir_t.out
        = (c23_state, [⟨dir_t.out, some ⟨9, 0⟩, log_event.socket socket_event_t.reset⟩])
    ∧ c23_state.event ⟨9, 0⟩ socket_event_t.seqnr_mismatch dir_t.in_
        = (c23_state,
            [⟨dir_t.in_, some ⟨9, 0⟩, log_event.socket socket_event_t.seqnr_mismatch⟩])
    ∧ ((replay (bittorrent_handler ex_bdecode) ((bittorrent_handler ex_bdecode).init ex_key)
        (c22_calls ++ [call.event ⟨9, 0⟩ socket_event_t.fin dir_t.in_])).toOption.map
          (fun x => x.2.map (fun l => (l.d, l.ev))))
        = some [(dir_t.out, log_event.handshake),
            (dir_t.out, log_event.reserved (List.replicate 8 0)),
            (dir_t.out, log_event.info_hash (List.replicate 20 171)),
            (dir_t.out, log_event.peer_id (List.replicate 20 65)),
            (dir_t.in_, log_event.socket socket_event_t.fin)] := by
  decide


/-! ## The extension handshake -/

theorem map.find_assign {K V : Type} [DecidableEq K] (m : map K V) (k k1 : K) (v : V) :
    map.find (map.assign m k v) k1 = if k1 = k then some v else map.find m k1 := by
  cases h : map.find m k with
  | none =>
    simp only [map.assign, h]
    exact map.find_append_none m k k1 v h
  | some old =>
    simp only [map.assign, h]
    rw [map.find_replace, h]
    rfl

theorem learn_extensions_append (ext : map Int String) (m1 m2 : List (String × Option Int)) :
    learn_extensions ext (m1 ++ m2) = learn_extensions (learn_extensions ext m1) m2 := by
  induction m1 generalizing ext with
  | nil => rfl
  | cons a t ih =>
    obtain ⟨name, v⟩ := a
    cases v with
    | none => exact ih ext
    | some v => exact ih _

theorem learn_extensions_other (m : List (String × Option Int)) (id : Int) :
    ∀ ext : map Int String, (∀ n w, (n, some w) ∈ m → int_of_i64 w ≠ id) →
      map.find (learn_extensions ext m) id = map.find ext id := by
  induction m with
  | nil => intro ext _; rfl
  | cons a t ih =>
    intro ext h
    obtain ⟨name, v⟩ := a
    have ht : ∀ n w, (n, some w) ∈ t → int_of_i64 w ≠ id :=
      fun n w hm => h n w (List.mem_cons_of_mem _ hm)
    cases v with
    | none => exact ih ext ht
    | some v =>
      have hv : int_of_i64 v ≠ id := h name v (List.mem_cons_self _ _)
      show map.find (learn_extensions (map.assign ext (int_of_i64 v) name) t) id = _
      rw [ih _ ht, map.find_assign, if_neg (fun e => hv e.symm)]

theorem learn_extensions_last (ext : map Int String) (m1 m2 : List (String × Option Int))
    (name : String) (v : Int)
    (h : ∀ n w, (n, some w) ∈ m2 → int_of_i64 w ≠ int_of_i64 v) :
    map.find (learn_extensions ext (m1 ++ (name, some v) :: m2)) (int_of_i64 v)
      = some name := by
  rw [learn_extensions_append]
  show map.find (learn_extensions (map.assign _ (int_of_i64 v) name) m2) _ = _
  rw [learn_extensions_other m2 _ _ h, map.find_assign, if_pos rfl]

theorem int_of_i64_small (v : Int) (h1 : -2147483648 ≤ v) (h2 : v < 2147483648) :
    int_of_i64 v = v := by
  unfold int_of_i64
  omega

/-- C21 (extension handshake), amended.  Direction `d` is in state
`extension_handshake` with `skip_ = k < 2^31`, its buffer holds at most `k` bytes and
the buffer and the slice together hold at least `k`.  The statements for the state
decode the first `k` bytes, consume them and fall through with the rest of the slice:
direction `d` is then in state `length` with `skip_ = 0` and an empty buffer, and the
other direction is unchanged.  If the decoder fails or there is no `"m"` dictionary,
the map `extensions_` of `d` is unchanged; otherwise it is `learn_extensions` of the
map and the entries of `"m"`.  `learn_extensions` maps the id `v` of an entry with an
integer value, reduced to a 32 bit `int` (`int_of_i64`, which is `v` itself for
`-2^31 <= v < 2^31`), to the name of that entry, unless a later entry has the same
reduced id; ids that are not the reduced id of such an entry keep what they had. -/
theorem extension_handshake_learns (bdecode : bdecode_fn) (ts : timeval) (d : dir_t)
    (P : parse_bittorrent) (buf : List Nat) (k : Nat)
    (hs : (P.state_.get d).state_ = state_t.extension_handshake)
    (hk : (P.state_.get d).skip_ = k) (h31 : k < 2147483648)
    (hbl : (P.state_.get d).buffer_.length ≤ k)
    (hlen : k ≤ (P.state_.get d).buffer_.length + buf.length) :
    (∃ Q out,
      run_block (extension_handshake_block bdecode) ts d P buf
        = Except.ok (flow.next Q (buf.drop (k - (P.state_.get d).buffer_.length)) out)
      ∧ Q.state_.get (opposite d) = P.state_.get (opposite d)
      ∧ (Q.state_.get d).state_ = state_t.length ∧ (Q.state_.get d).skip_ = 0
      ∧ (Q.state_.get d).buffer_ = []
      ∧ (Q.state_.get d).extensions_
          = match bdecode (((P.state_.get d).buffer_ ++ buf).take k) with
            | Except.error _ => (P.state_.get d).extensions_
            | Except.ok e =>
              match e.m with
              | some m => learn_extensions (P.state_.get d).extensions_ m
              | none => (P.state_.get d).extensions_)
    ∧ (∀ (ext : map Int String) (m1 m2 : List (String × Option Int)) (name : String)
        (v : Int), (∀ n w, (n, some w) ∈ m2 → int_of_i64 w ≠ int_of_i64 v) →
        map.find (learn_extensions ext (m1 ++ (name, some v) :: m2)) (int_of_i64 v)
          = some name)
    ∧ (∀ (ext : map Int String) (m : List (String × Option Int)) (id : Int),
        (∀ n w, (n, some w) ∈ m → int_of_i64 w ≠ id) →
        map.find (learn_extensions ext m) id = map.find ext id)
    ∧ (∀ v : Int, -2147483648 ≤ v → v < 2147483648 → int_of_i64 v = v) := by
  refine ⟨?_, fun ext m1 m2 name v h => learn_extensions_last ext m1 m2 name v h,
    fun ext m id h => learn_extensions_other m id ext h, int_of_i64_small⟩
  have hg : (extension_handshake_block bdecode).guard (P.state_.get d).state_ = true := by
    rw [hs]
    simp [extension_handshake_block]
  have hpay : (P.state_.get d).buffer_ ++ buf.take (k - (P.state_.get d).buffer_.length)
      = ((P.state_.get d).buffer_ ++ buf).take k := by
    rw [List.take_append_eq_append_take, List.take_of_length_le hbl]
  have hnl : ¬ (((P.state_.get d).buffer_ ++ buf).take k).length < k := by
    rw [List.length_take, List.length_append]
    omega
  rw [run_block_of_need (extension_handshake_block bdecode) ts d P buf k hg hk h31, hpay,
    if_neg hnl]
  simp only [extension_handshake_block, Bool.false_eq_true, if_false]
  rw [parse_bittorrent.apply_plain]
  refine ⟨_, _, rfl, ?_, ?_, ?_, ?_, ?_⟩
  · exact parse_bittorrent.get_set_opposite _ _ _
  · rw [parse_bittorrent.get_of_set]
  · rw [parse_bittorrent.get_of_set]
  · rw [parse_bittorrent.get_of_set]
  · rw [parse_bittorrent.get_of_set]
    simp only
    cases bdecode (((P.state_.get d).buffer_ ++ buf).take k) with
    | error e => rfl
    | ok e => cases e.m <;> rfl

theorem extension_handshake_learns_witness :
    (c21_state.state_.get dir_t.out).state_ = state_t.extension_handshake
    ∧ (c21_state.state_.get dir_t.out).skip_ = 28 ∧ 28 < 2147483648
    ∧ (c21_state.state_.get dir_t.out).buffer_.length ≤ 28
    ∧ 28 ≤ (c21_state.state_.get dir_t.out).buffer_.length + (c21_payload ++ [0, 0]).length
    ∧ ∃ Q out,
      run_block (extension_handshake_block c21_bdecode) ex_ts dir_t.out c21_state
          (c21_payload ++ [0, 0])
        = Except.ok (flow.next Q
            ((c21_payload ++ [0, 0]).drop (28 - (c21_state.state_.get dir_t.out).buffer_.length))
            out)
      ∧ Q.state_.get (opposite dir_t.out) = c21_state.state_.get (opposite dir_t.out)
      ∧ (Q.state_.get dir_t.out).state_ = state_t.length
      ∧ (Q.state_.get dir_t.out).skip_ = 0
      ∧ (Q.state_.get dir_t.out).buffer_ = []
      ∧ (Q.state_.get dir_t.out).extensions_
          = match c21_bdecode (((c21_state.state_.get dir_t.out).buffer_
                ++ (c21_payload ++ [0, 0])).take 28) with
            | Except.error _ => (c21_state.state_.get dir_t.out).extensions_
            | Except.ok e =>
              match e.m with
              | some m => learn_extensions (c21_state.state_.get dir_t.out).extensions_ m
              | none => (c21_state.state_.get dir_t.out).extensions_ :=
  ⟨by decide, by decide, by decide, by decide, by decide,
    (extension_handshake_learns c21_bdecode ex_ts dir_t.out c21_state (c21_payload ++ [0, 0])
      28 (by decide) (by decide) (by decide) (by decide) (by decide)).1⟩

/-- The claim C21 as it is written fails for ids that agree modulo 2^32: direction
`out` is in state `extension_handshake` and gets the 28 bytes of
`{"m": {"a": 3, "b": 4294967299}}`.  The two ids differ, yet afterwards the map of the
direction has `"b"` under 3, not `"a"`, and nothing under 4294967299: the key of the
map is an `int`, and 4294967299 is stored as 3. -/
theorem extension_id_reduced :
    (c21_state.state_.get dir_t.out).state_ = state_t.extension_handshake
    ∧ (c21_state.state_.get dir_t.out).skip_ = 28
    ∧ (c21_state.state_.get dir_t.out).buffer_ = []
    ∧ (c21_bdecode c21_payload).toOption.map (fun e => e.m)
        = some (some [("a", some 3), ("b", some 4294967299)])
    ∧ (run_block (extension_handshake_block c21_bdecode) ex_ts dir_t.out c21_state
          c21_payload).toOption.map
        (fun f => (map.find (f.state.state_.get dir_t.out).extensions_ 3,
          map.find (f.state.state_.get dir_t.out).extensions_ 4294967299,
          (f.state.state_.get dir_t.out).state_))
      = some (some "b", none, state_t.length) := by
  decide


/-! ## The uTP checks of the extractor -/

theorem utp_options_zero (fuel : Nat) (pkt : List Nat) :
    utp_options fuel 0 pkt = Except.ok (some pkt) := by
  cases fuel <;> rfl

theorem utp_options_succ (fuel e : Nat) (pkt : List Nat) :
    utp_options (fuel + 1) (e + 1) pkt
      = if pkt.length < 2 then Except.ok none
        else if pkt.length < pkt.getD 1 0 + 2 then Except.ok none
        else utp_options fuel (pkt.getD 0 0) (pkt.drop (2 + pkt.getD 1 0)) := rfl

theorem utp_options_complete (ext : Nat) (pkt : List Nat) (n : Nat) (h : utp_chain ext pkt n) :
    ∀ fuel, pkt.length < fuel → utp_options fuel ext pkt = Except.ok (some (pkt.drop n)) := by
  induction h with
  | done pkt => intro fuel _; rw [utp_options_zero]; rfl
  | link ext next len body rest n hne hl _ ih =>
    intro fuel hf
    obtain ⟨e, rfl⟩ := Nat.exists_eq_succ_of_ne_zero hne
    cases fuel with
    | zero => omega
    | succ fuel =>
      have h1 : ¬ (next :: len :: (body ++ rest)).length < 2 := by
        simp only [List.length_cons]; omega
      have h2 : ¬ (next :: len :: (body ++ rest)).length
          < (next :: len :: (body ++ rest)).getD 1 0 + 2 := by
        simp only [List.length_cons, List.length_append, List.getD_cons_succ,
          List.getD_cons_zero]
        omega
      have h3 : (next :: len :: (body ++ rest)).drop
          (2 + (next :: len :: (body ++ rest)).getD 1 0) = rest := by
        simp only [List.getD_cons_succ, List.getD_cons_zero]
        rw [Nat.add_comm 2 len]
        simp only [List.drop_succ_cons]
        rw [← hl, List.drop_left]
      have h4 : (next :: len :: (body ++ rest)).drop (2 + len + n) = rest.drop n := by
        have e1 : 2 + len + n = (len + n) + 2 := by omega
        rw [e1]
        simp only [List.drop_succ_cons]
        rw [← hl, ← List.drop_drop, List.drop_left]
      rw [utp_options_succ, if_neg h1, if_neg h2, h3, h4]
      simp only [List.getD_cons_zero]
      apply ih
      simp only [List.length_cons, List.length_append] at hf
      omega

theorem utp_options_sound : ∀ (fuel ext : Nat) (pkt payload : List Nat),
    utp_options fuel ext pkt = Except.ok (some payload) →
    ∃ n, utp_chain ext pkt n ∧ payload = pkt.drop n := by
  intro fuel
  induction fuel with
  | zero =>
    intro ext pkt payload h
    cases ext with
    | zero =>
      rw [utp_options_zero] at h
      simp only [Except.ok.injEq, Option.some.injEq] at h
      exact ⟨0, utp_chain.done pkt, h.symm⟩
    | succ e => cases h
  | succ fuel ih =>
    intro ext pkt payload h
    cases ext with
    | zero =>
      rw [utp_options_zero] at h
      simp only [Except.ok.injEq, Option.some.injEq] at h
      exact ⟨0, utp_chain.done pkt, h.symm⟩
    | succ e =>
      rw [utp_options_succ] at h
      split at h
      · cases h
      · split at h
        · cases h
        · rename_i h1 h2
          match pkt, h, h1, h2 with
          | [], _, h1, _ => simp at h1
          | [_], _, h1, _ => simp at h1
          | next :: len :: tail, h, _, h2 =>
            simp only [List.getD_cons_succ, List.getD_cons_zero, List.length_cons] at h h2
            have e2 : 2 + len = len + 2 := by omega
            rw [e2] at h
            simp only [List.drop_succ_cons] at h
            obtain ⟨n, hc, hp⟩ := ih next (tail.drop len) payload h
            have hlen : (tail.take len).length = len := by
              rw [List.length_take]
              omega
            have hc2 := utp_chain.link (e + 1) next len (tail.take len) (tail.drop len) n
              (Nat.succ_ne_zero e) hlen hc
            rw [List.take_append_drop] at hc2
            refine ⟨2 + len + n, hc2, ?_⟩
            rw [hp]
            have e1 : 2 + len + n = (len + n) + 2 := by omega
            rw [e1]
            simp only [List.drop_succ_cons]
            rw [List.drop_drop]

theorem utp_options_total : ∀ (fuel ext : Nat) (pkt : List Nat), pkt.length < fuel →
    utp_options fuel ext pkt = Except.ok none
    ∨ ∃ payload, utp_options fuel ext pkt = Except.ok (some payload) := by
  intro fuel
  induction fuel with
  | zero => intro ext pkt h; omega
  | succ fuel ih =>
    intro ext pkt hf
    cases ext with
    | zero => exact Or.inr ⟨pkt, utp_options_zero _ _⟩
    | succ e =>
      rw [utp_options_succ]
      split
      · exact Or.inl rfl
      · split
        · exact Or.inl rfl
        · apply ih
          rw [List.length_drop]
          omega

theorem utp_accept_eq (ip_src ip_dst ip_off : Nat) (pkt : List Nat) (h28 : 28 ≤ pkt.length) :
    utp_accept ip_src ip_dst ip_off pkt
      = if (utphdr.read (pkt.drop 8)).type_ver % 16 = 1
            ∧ (utphdr.read (pkt.drop 8)).type_ver / 16 < 5
            ∧ (utphdr.read (pkt.drop 8)).extension < 3
            ∧ net16 pkt 0 ≠ 443 ∧ net16 pkt 2 ≠ 443 then
          match utp_options ((pkt.drop 28).length + 1) (utphdr.read (pkt.drop 8)).extension
              (pkt.drop 28) with
          | Except.error e => Except.error e
          | Except.ok none => Except.ok none
          | Except.ok (some payload) =>
            if ip_fragmented ip_off then Except.ok none
            else Except.ok (some
              ({ src := ip_src, dst := ip_dst, src_port := net16 pkt 0,
                 dst_port := net16 pkt 2 }, utphdr.read (pkt.drop 8), payload))
        else Except.ok none := by
  have h : ¬ pkt.length < 28 := by omega
  simp only [utp_accept, h, if_false, utphdr.get_version, utphdr.get_type, NUM_TYPES, ne_eq,
    ge_iff_le, ite_not]
  by_cases h1 : (utphdr.read (pkt.drop 8)).type_ver % 16 = 1
  · by_cases h2 : 5 ≤ (utphdr.read (pkt.drop 8)).type_ver / 16
    · have : ¬ (utphdr.read (pkt.drop 8)).type_ver / 16 < 5 := by omega
      simp [h1, h2, this]
    · have h2a : (utphdr.read (pkt.drop 8)).type_ver / 16 < 5 := by omega
      by_cases h3 : 3 ≤ (utphdr.read (pkt.drop 8)).extension
      · have : ¬ (utphdr.read (pkt.drop 8)).extension < 3 := by omega
        simp [h1, h2, h3, this]
      · have h3a : (utphdr.read (pkt.drop 8)).extension < 3 := by omega
        by_cases h4 : net16 pkt 0 = 443
        · simp [h1, h2, h3, h4]
        · by_cases h5 : net16 pkt 2 = 443
          · simp [h1, h2, h3, h4, h5]
          · simp only [h1, h2, h3, h4, h5, h2a, h3a, if_true, if_false, not_false_eq_true,
              and_self]
  · simp [h1]

theorem utp_accept_spec {H : Type} (hd : Handler H) (p : processor H) (ts : timeval)
    (ip_src ip_dst ip_off : Nat) (pkt : List Nat) (h28 : 28 ≤ pkt.length) :
    (∀ x, utp_accept ip_src ip_dst ip_off pkt = Except.ok (some x) ↔
      ((utphdr.read (pkt.drop 8)).type_ver % 16 = 1
        ∧ (utphdr.read (pkt.drop 8)).type_ver / 16 < 5
        ∧ (utphdr.read (pkt.drop 8)).extension < 3
        ∧ net16 pkt 0 ≠ 443 ∧ net16 pkt 2 ≠ 443
        ∧ (∃ n, utp_chain (utphdr.read (pkt.drop 8)).extension (pkt.drop 28) n
            ∧ x.2.2 = pkt.drop (28 + n))
        ∧ ip_fragmented ip_off = false
        ∧ x.1 = { src := ip_src, dst := ip_dst, src_port := net16 pkt 0,
                  dst_port := net16 pkt 2 }
        ∧ x.2.1 = utphdr.read (pkt.drop 8)))
    ∧ (utp_accept ip_src ip_dst ip_off pkt = Except.ok none
        ∨ ∃ x, utp_accept ip_src ip_dst ip_off pkt = Except.ok (some x))
    ∧ (utp_accept ip_src ip_dst ip_off pkt = Except.ok none →
        process_udp hd p ts ip_src ip_dst ip_off pkt = Except.ok p)
    ∧ (∀ x, utp_accept ip_src ip_dst ip_off pkt = Except.ok (some x) →
        process_udp hd p ts ip_src ip_dst ip_off pkt
          = Except.ok (process_utp hd p ts x.1 x.2.1 x.2.2))
    ∧ (utphdr.read (pkt.drop 8)).type_ver = pkt.getD 8 0
    ∧ (utphdr.read (pkt.drop 8)).extension = pkt.getD 9 0 := by
  have heq := utp_accept_eq ip_src ip_dst ip_off pkt h28
  have htot := utp_options_total ((pkt.drop 28).length + 1)
    (utphdr.read (pkt.drop 8)).extension (pkt.drop 28) (Nat.lt_succ_self _)
  refine ⟨?_, ?_, ?_, ?_, ?_, ?_⟩
  · intro x
    constructor
    · intro h
      rw [heq] at h
      split at h
      · rename_i hc
        obtain ⟨c1, c2, c3, c4, c5⟩ := hc
        cases ho : utp_options ((pkt.drop 28).length + 1)
            (utphdr.read (pkt.drop 8)).extension (pkt.drop 28) with
        | error e => rw [ho] at h; cases h
        | ok r =>
          cases r with
          | none => rw [ho] at h; cases h
          | some payload =>
            rw [ho] at h
            simp only at h
            split at h
            · cases h
            · rename_i hfr
              simp only [Except.ok.injEq, Option.some.injEq] at h
              subst h
              obtain ⟨n, hch, hp⟩ := utp_options_sound _ _ _ _ ho
              refine ⟨c1, c2, c3, c4, c5, ⟨n, hch, ?_⟩, by simpa using hfr, rfl, rfl⟩
              show payload = _
              rw [hp, List.drop_drop]
      · cases h
    · rintro ⟨c1, c2, c3, c4, c5, ⟨n, hch, hp⟩, hfr, hk, hh⟩
      have ho := utp_options_complete _ _ _ hch ((pkt.drop 28).length + 1)
        (Nat.lt_succ_self _)
      rw [heq, if_pos ⟨c1, c2, c3, c4, c5⟩, ho]
      simp only [hfr, Bool.false_eq_true, if_false]
      obtain ⟨k, hdr, pl⟩ := x
      simp only at hp hk hh
      rw [hk, hh, hp, List.drop_drop]
  · rw [heq]
    split
    · rcases htot with ho | ⟨payload, ho⟩
      · rw [ho]
        exact Or.inl rfl
      · rw [ho]
        simp only
        split
        · exact Or.inl rfl
        · exact Or.inr ⟨_, rfl⟩
    · exact Or.inl rfl
  · intro h
    simp only [process_udp, h]
  · intro x h
    simp only [process_udp, h]
  · simp [utphdr.read]
  · simp [utphdr.read]

theorem datagram_passes_gate (le : Bool) (w : Nat) (hw : w < 65536) (hoff : w &&& 8191 = 0) :
    ip_fragmented (ip_off_read le w) = false := by
  have h1 : w % 8192 = 0 := by
    have := Nat.and_pow_two_sub_one_eq_mod w 13
    rw [← hoff]
    exact this.symm
  obtain ⟨k, rfl⟩ : ∃ k, w = 8192 * k := ⟨w / 8192, by omega⟩
  have hk : k < 8 := by omega
  interval_cases k <;> cases le <;> decide

/-- C26 (uTP packet acceptance).  `pkt` are the bytes after the IP header of a UDP
datagram, at least 28; the IP packet carries the start of the datagram, with the UDP
header: the fragment offset in the 16 bits `w` of flags and fragment offset is zero,
whatever the flags are, and the program reads `ip_off` from `w` on a host of either
byte order.  The checks of the UDP branch end, and they let the packet through to the
uTP demultiplexer exactly when `type_ver mod 16 = 1`, `type_ver / 16 < 5`, the
`extension` field of the header is below 3, neither port is 443 and the chain of
extension headers is complete (`utp_chain`).  The demultiplexer then gets the
transport key made of the two addresses and the two ports, the header, and as payload
the bytes after the 28 bytes of the two headers and the `n` bytes of the chain.  A
packet that is not let through leaves the processor as it is. -/
theorem utp_acceptance {H : Type} (hd : Handler H) (p : processor H) (ts : timeval)
    (ip_src ip_dst : Nat) (le : Bool) (w : Nat) (pkt : List Nat) (h28 : 28 ≤ pkt.length)
    (hw : w < 65536) (hoff : w &&& 8191 = 0) :
    (∀ x, utp_accept ip_src ip_dst (ip_off_read le w) pkt = Except.ok (some x) ↔
      ((utphdr.read (pkt.drop 8)).type_ver % 16 = 1
        ∧ (utphdr.read (pkt.drop 8)).type_ver / 16 < 5
        ∧ (utphdr.read (pkt.drop 8)).extension < 3
        ∧ net16 pkt 0 ≠ 443 ∧ net16 pkt 2 ≠ 443
        ∧ (∃ n, utp_chain (utphdr.read (pkt.drop 8)).extension (pkt.drop 28) n
            ∧ x.2.2 = pkt.drop (28 + n))
        ∧ x.1 = { src := ip_src, dst := ip_dst, src_port := net16 pkt 0,
                  dst_port := net16 pkt 2 }
        ∧ x.2.1 = utphdr.read (pkt.drop 8)))
    ∧ (utp_accept ip_src ip_dst (ip_off_read le w) pkt = Except.ok none
        ∨ ∃ x, utp_accept ip_src ip_dst (ip_off_read le w) pkt = Except.ok (some x))
    ∧ (utp_accept ip_src ip_dst (ip_off_read le w) pkt = Except.ok none →
        process_udp hd p ts ip_src ip_dst (ip_off_read le w) pkt = Except.ok p)
    ∧ (∀ x, utp_accept ip_src ip_dst (ip_off_read le w) pkt = Except.ok (some x) →
        process_udp hd p ts ip_src ip_dst (ip_off_read le w) pkt
          = Except.ok (process_utp hd p ts x.1 x.2.1 x.2.2))
    ∧ (utphdr.read (pkt.drop 8)).type_ver = pkt.getD 8 0
    ∧ (utphdr.read (pkt.drop 8)).extension = pkt.getD 9 0 := by
  obtain ⟨g1, g2, g3, g4, g5, g6⟩ :=
    utp_accept_spec hd p ts ip_src ip_dst (ip_off_read le w) pkt h28
  have hfr := datagram_passes_gate le w hw hoff
  refine ⟨?_, g2, g3, g4, g5, g6⟩
  intro x
  rw [g1 x]
  constructor
  · rintro ⟨c1, c2, c3, c4, c5, c6, -, c8, c9⟩
    exact ⟨c1, c2, c3, c4, c5, c6, c8, c9⟩
  · rintro ⟨c1, c2, c3, c4, c5, c6, c8, c9⟩
    exact ⟨c1, c2, c3, c4, c5, c6, hfr, c8, c9⟩

/-- Witness for `utp_acceptance`: the datagram `c26_ext`, an `ST_SYN` with one extension
header of length 3, in an IP packet with the flag "don't fragment" (`w = 0x4000`) read
on a little-endian host. -/
theorem utp_acceptance_witness :
    28 ≤ c26_ext.length
    ∧ (16384 : Nat) &&& 8191 = 0
    ∧ utp_accept 10 20 (ip_off_read true 16384) c26_ext
        = Except.ok (some (ex_key,
            { type_ver := 65, extension := 1, connection_id := 7, seq_nr := 100 }, [9, 9])) :=
  ⟨by decide, by decide,
    ((utp_acceptance recorder c16_empty ⟨1, 0⟩ 10 20 true 16384 c26_ext (by decide)
        (by decide) (by decide)).1
      (ex_key, { type_ver := 65, extension := 1, connection_id := 7, seq_nr := 100 },
        [9, 9])).mpr
      ⟨by decide, by decide, by decide, by decide, by decide,
        ⟨5, utp_chain.link 1 0 3 [1, 2, 3] [9, 9] 0 (by decide) rfl (utp_chain.done [9, 9]),
          by decide⟩,
        by decide, by decide⟩⟩


/-! ## The transcript's existence -/

theorem log_step.refl (d : dir_t) (P : parse_bittorrent) : log_step d P P :=
  ⟨rfl, fun h => ⟨h, rfl⟩, fun h => Or.inl ⟨h, rfl⟩⟩

theorem log_step.trans {d : dir_t} {P Q S : parse_bittorrent} (h1 : log_step d P Q)
    (h2 : log_step d Q S) : log_step d P S := by
  refine ⟨h2.other.trans h1.other, ?_, ?_⟩
  · intro h
    obtain ⟨a, b⟩ := h1.past h
    obtain ⟨c, e⟩ := h2.past a
    exact ⟨c, e.trans b⟩
  · intro h
    rcases h1.before h with ⟨a, b⟩ | ⟨a, b⟩
    · rcases h2.before a with ⟨c, e⟩ | ⟨c, e⟩
      · exact Or.inl ⟨c, e.trans b⟩
      · exact Or.inr ⟨c, e⟩
    · obtain ⟨c, e⟩ := h2.past a
      exact Or.inr ⟨c, e.trans b⟩

theorem log_step.of_eq {d : dir_t} {P Q : parse_bittorrent}
    (ho : Q.state_.get (opposite d) = P.state_.get (opposite d))
    (hs : (Q.state_.get d).state_ = (P.state_.get d).state_)
    (hl : Q.log_.is_open = P.log_.is_open) : log_step d P Q :=
  ⟨ho, fun h => ⟨by rw [hs]; exact h, hl⟩, fun h => Or.inl ⟨by rw [hs]; exact h, hl⟩⟩

theorem parse_bittorrent.apply_opposite (P : parse_bittorrent) (d : dir_t) (o : outcome) :
    (P.apply d o).state_.get (opposite d) = P.state_.get (opposite d) := by
  cases d <;> rfl

theorem handshake_blocks_log : ∀ b ∈ handshake_blocks, block_log b := by
  intro b hb
  simp only [handshake_blocks, List.mem_cons, List.mem_singleton, List.not_mem_nil,
    or_false] at hb
  rcases hb with rfl | rfl | rfl | rfl
  · intro io s other o hg h
    simp only [protocol_block, decide_eq_true_eq] at hg
    simp only [protocol_block] at h
    split at h <;> cases h <;> simp [hg, rank]
  · intro io s other o hg h
    simp only [reserved_block, decide_eq_true_eq] at hg
    simp only [reserved_block] at h
    cases h
    simp [hg, rank]
  · intro io s other o hg h
    simp only [info_hash_block, decide_eq_true_eq] at hg
    simp only [info_hash_block] at h
    cases h
    simp [hg, rank]
  · intro io s other o hg h
    simp only [peer_id_block, decide_eq_true_eq] at hg
    simp only [peer_id_block] at h
    cases h
    simp [hg, rank]

theorem message_blocks_no_open (bd : bdecode_fn) :
    ∀ b ∈ message_blocks bd, ∀ io s other o, b.body io s other = Except.ok o →
      o.opens = false := by
  intro b hb
  simp only [message_blocks, List.mem_cons, List.mem_singleton, List.not_mem_nil,
    or_false] at hb
  rcases hb with rfl | rfl | rfl | rfl | rfl | rfl | rfl | rfl | rfl
  · intro io s other o h
    simp only [length_block] at h
    split at h
    · cases h
    · split at h <;> cases h <;> rfl
  · intro io s other o h
    simp only [msg_block] at h
    cases h; rfl
  · intro io s other o h
    simp only [have_block] at h
    split at h <;> cases h; rfl
  · intro io s other o h
    simp only [extension_block] at h
    split at h <;> cases h <;> rfl
  · intro io s other o h
    simp only [extension_handshake_block] at h
    cases h; rfl
  · intro io s other o h
    simp only [request_block] at h
    split at h <;> cases h; rfl
  · intro io s other o h
    simp only [piece_block] at h
    split at h <;> cases h; rfl
  · intro io s other o h
    simp only [dht_port_block] at h
    split at h <;> cases h; rfl
  · intro io s other o h
    simp only [bitfield_block] at h
    cases h; rfl

theorem block_ok_of_mem (bs : List block) :
    ∀ r, ranked bs r → ∀ b ∈ bs, ∃ k, r ≤ k ∧ block_ok b k := by
  induction bs with
  | nil => intro r _ b hb; cases hb
  | cons a t ih =>
    intro r hr b hb
    rcases List.mem_cons.mp hb with rfl | hb
    · exact ⟨r, Nat.le_refl _, hr.1⟩
    · obtain ⟨k, hk, hok⟩ := ih (r + 1) hr.2 b hb
      exact ⟨k, by omega, hok⟩

theorem message_blocks_log (bd : bdecode_fn) : ∀ b ∈ message_blocks bd, block_log b := by
  intro b hb io s other o hg h
  obtain ⟨k, hk, hok⟩ := block_ok_of_mem _ 4 (message_blocks_ranked bd) b hb
  have hr : rank s.state_ = k := (hok.guard_iff s.state_).mp hg
  have hno := message_blocks_no_open bd b hb io s other o h
  have hst := hok.nostop hk io s other o h
  have hf := (hok.fwd io s other o hg h hst).2
  have h3 : 3 ≤ rank o.s.state_ := by
    rcases hf with hf | hf
    · rw [hf]; decide
    · omega
  exact ⟨fun _ => ⟨h3, hno⟩, fun h2 => by omega⟩

theorem run_block_log (b : block) (hb : block_log b) (ts : timeval) (d : dir_t)
    (P : parse_bittorrent) (buf : List Nat) (f : flow)
    (h : run_block b ts d P buf = Except.ok f) : log_step d P f.state := by
  unfold run_block at h
  split at h
  · rename_i hg
    split at h
    · cases h
    · rename_i s rest he
      obtain ⟨hs1, _⟩ := ensure_buffer_fields _ _ _ _ _ he
      split at h
      · cases h
        exact log_step.of_eq (parse_bittorrent.get_set_opposite _ _ _)
          (by
            show ((P.set d s).state_.get d).state_ = _
            rw [parse_bittorrent.get_of_set]
            exact hs1) rfl
      · split at h
        · cases h
        · rename_i o ho
          have hbl := hb P.log_.is_open s (P.state_.get (opposite d)) o
            (by rw [hs1]; exact hg) ho
          rw [hs1] at hbl
          have hQ : log_step d P (P.apply d o) := by
            refine ⟨parse_bittorrent.apply_opposite _ _ _, ?_, ?_⟩
            · intro h3
              obtain ⟨a, c⟩ := hbl.1 h3
              rw [parse_bittorrent.apply_get]
              refine ⟨a, ?_⟩
              simp [parse_bittorrent.apply, c]
            · intro h2
              rw [parse_bittorrent.apply_get]
              rcases hbl.2 h2 with ⟨a, c⟩ | ⟨a, c⟩
              · left
                refine ⟨a, ?_⟩
                simp [parse_bittorrent.apply, c]
              · right
                exact ⟨a, c⟩
          split at h <;> cases h <;> exact hQ
  · cases h
    exact log_step.refl d P

theorem flow.state_after (o : List line) (f : flow) : (flow.after o f).state = f.state := by
  cases f <;> rfl

theorem run_blocks_log (ts : timeval) (d : dir_t) (bs : List block)
    (hbs : ∀ b ∈ bs, block_log b) :
    ∀ (P : parse_bittorrent) (buf : List Nat) (f : flow),
      run_blocks ts d bs P buf = Except.ok f → log_step d P f.state := by
  induction bs with
  | nil =>
    intro P buf f h
    cases h
    exact log_step.refl d P
  | cons a t ih =>
    intro P buf f h
    simp only [run_blocks] at h
    cases h1 : run_block a ts d P buf with
    | error e => rw [h1] at h; cases h
    | ok f1 =>
      have s1 := run_block_log a (hbs a (List.mem_cons_self _ _)) ts d P buf f1 h1
      rw [h1] at h
      cases f1 with
      | ret Q out =>
        cases h
        exact s1
      | next Q rest out =>
        simp only at h
        cases h2 : run_blocks ts d t Q rest with
        | error e => rw [h2] at h; cases h
        | ok f2 =>
          rw [h2] at h
          simp only [Except.map, Except.ok.injEq] at h
          subst h
          rw [flow.state_after]
          exact s1.trans (ih (fun b hb => hbs b (List.mem_cons_of_mem _ hb)) Q rest f2 h2)

theorem skip_block_log (ts : timeval) (d : dir_t) (Q : parse_bittorrent) (buf : List Nat) :
    log_step d Q (skip_block ts d Q buf).1 := by
  unfold skip_block
  split
  · rename_i hs
    simp only
    rw [parse_bittorrent.apply_plain]
    have h13 : 3 ≤ rank (Q.state_.get d).state_ := by rw [hs]; decide
    refine ⟨parse_bittorrent.get_set_opposite _ _ _, fun _ => ⟨?_, rfl⟩, fun h2 => by omega⟩
    rw [parse_bittorrent.get_of_set]
    simp only [skip_step]
    split
    · simp [rank]
    · simp [hs, rank]
  · exact log_step.refl d Q

theorem message_loop_log (bd : bdecode_fn) (ts : timeval) (d : dir_t) :
    ∀ (fuel : Nat) (P Q : parse_bittorrent) (buf : List Nat) (out : List line),
      message_loop bd ts d fuel P buf = Except.ok (Q, out) → log_step d P Q := by
  intro fuel
  induction fuel with
  | zero =>
    intro P Q buf out h
    cases buf with
    | nil =>
      simp only [message_loop, Except.ok.injEq, Prod.mk.injEq] at h
      rw [← h.1]
      exact log_step.refl d P
    | cons a t => cases h
  | succ fuel ih =>
    intro P Q buf out h
    cases buf with
    | nil =>
      simp only [message_loop, Except.ok.injEq, Prod.mk.injEq] at h
      rw [← h.1]
      exact log_step.refl d P
    | cons a t =>
      simp only [message_loop] at h
      cases h1 : run_blocks ts d (message_blocks bd) P (a :: t) with
      | error e => rw [h1] at h; cases h
      | ok f1 =>
        have s1 := run_blocks_log ts d _ (message_blocks_log bd) P (a :: t) f1 h1
        rw [h1] at h
        cases f1 with
        | ret Q1 o1 =>
          simp only [Except.ok.injEq, Prod.mk.injEq] at h
          rw [← h.1]
          exact s1
        | next Q1 rest o1 =>
          cases rest with
          | nil =>
            simp only [Except.ok.injEq, Prod.mk.injEq] at h
            rw [← h.1]
            exact s1
          | cons b r =>
            simp only at h
            cases h2 : message_loop bd ts d fuel (skip_block ts d Q1 (b :: r)).1
                (skip_block ts d Q1 (b :: r)).2.1 with
            | error e => rw [h2] at h; cases h
            | ok x =>
              rw [h2] at h
              simp only [result.after, Except.map, Except.ok.injEq, Prod.mk.injEq] at h
              have s3 := ih _ x.1 _ x.2 h2
              rw [← h.1]
              exact s1.trans ((skip_block_log ts d Q1 (b :: r)).trans s3)

theorem data_log (bd : bdecode_fn) (ts : timeval) (d : dir_t) (P Q : parse_bittorrent)
    (buf : List Nat) (out : List line) (h : P.data bd ts buf d = Except.ok (Q, out)) :
    log_step d P Q := by
  unfold parse_bittorrent.data at h
  split at h
  · simp only [Except.ok.injEq, Prod.mk.injEq] at h
    rw [← h.1]
    exact log_step.refl d P
  · split at h
    · simp only [Except.ok.injEq, Prod.mk.injEq] at h
      rw [← h.1]
      exact log_step.refl d P
    · cases h1 : run_blocks ts d handshake_blocks P buf with
      | error e => rw [h1] at h; cases h
      | ok f1 =>
        have s1 := run_blocks_log ts d _ handshake_blocks_log P buf f1 h1
        rw [h1] at h
        cases f1 with
        | ret Q1 o1 =>
          simp only [Except.ok.injEq, Prod.mk.injEq] at h
          rw [← h.1]
          exact s1
        | next Q1 rest o1 =>
          simp only at h
          cases h2 : message_loop bd ts d (3 * rest.length + 3) Q1 rest with
          | error e => rw [h2] at h; cases h
          | ok x =>
            rw [h2] at h
            simp only [result.after, Except.map, Except.ok.injEq, Prod.mk.injEq] at h
            rw [← h.1]
            exact s1.trans (message_loop_log bd ts d _ Q1 x.1 rest x.2 h2)

theorem dir_cases (d d1 : dir_t) : d1 = d ∨ d1 = opposite d := by
  cases d <;> cases d1 <;> simp [opposite]

theorem log_inv_step {d : dir_t} {P Q : parse_bittorrent} (h : log_step d P Q)
    (hi : P.log_.is_open = true ↔ ∃ d1, 3 ≤ rank (P.state_.get d1).state_) :
    Q.log_.is_open = true ↔ ∃ d1, 3 ≤ rank (Q.state_.get d1).state_ := by
  rcases Nat.lt_or_ge (rank (P.state_.get d).state_) 3 with h2 | h3
  · rcases h.before (by omega) with ⟨a, b⟩ | ⟨a, b⟩
    · rw [b, hi]
      constructor
      · rintro ⟨d1, hd1⟩
        rcases dir_cases d d1 with rfl | rfl
        · omega
        · exact ⟨opposite d, by rw [h.other]; exact hd1⟩
      · rintro ⟨d1, hd1⟩
        rcases dir_cases d d1 with rfl | rfl
        · omega
        · exact ⟨opposite d, by rw [← h.other]; exact hd1⟩
    · exact ⟨fun _ => ⟨d, a⟩, fun _ => b⟩
  · obtain ⟨a, b⟩ := h.past h3
    rw [b]
    exact ⟨fun _ => ⟨d, a⟩, fun _ => hi.mpr ⟨d, h3⟩⟩

theorem replay_log (bd : bdecode_fn) :
    ∀ (cs : List call) (h0 : result) (P : parse_bittorrent) (out : List line),
      replay (bittorrent_handler bd) h0 cs = Except.ok (P, out) →
      ∃ P0 out0, h0 = Except.ok (P0, out0)
        ∧ ((P0.log_.is_open = true ↔ ∃ d1, 3 ≤ rank (P0.state_.get d1).state_) →
            (P.log_.is_open = true ↔ ∃ d1, 3 ≤ rank (P.state_.get d1).state_)) := by
  intro cs
  induction cs with
  | nil =>
    intro h0 P out h
    exact ⟨P, out, h, fun hi => hi⟩
  | cons c t ih =>
    intro h0 P out h
    cases c with
    | data ts buf d =>
      obtain ⟨P1, o1, e1, hi1⟩ := ih _ P out h
      cases h0 with
      | error e => cases e1
      | ok x =>
        refine ⟨x.1, x.2, rfl, fun hi => hi1 ?_⟩
        simp only [bittorrent_handler, Except.bind] at e1
        cases hd : x.1.data bd ts buf d with
        | error e => rw [hd] at e1; cases e1
        | ok y =>
          rw [hd] at e1
          simp only [result.after, Except.map, Except.ok.injEq, Prod.mk.injEq] at e1
          rw [← e1.1]
          exact log_inv_step (data_log bd ts d x.1 y.1 buf y.2 hd) hi
    | event ts e d =>
      obtain ⟨P1, o1, e1, hi1⟩ := ih _ P out h
      cases h0 with
      | error e => cases e1
      | ok x =>
        refine ⟨x.1, x.2, rfl, fun hi => hi1 ?_⟩
        simp only [bittorrent_handler, Except.map, Except.ok.injEq, Prod.mk.injEq] at e1
        rw [← e1.1]
        exact hi

/-- C22 (transcript existence).  After any sequence of `data` and `event` calls on a
fresh dissector that have returned, `log_` is open exactly when some direction is in a
state after `info_hash` (its rank is at least 3: every state but `protocol`,
`reserved` and `info_hash`).  A call of `data` for direction `d` leaves an open `log_`
open, and when it opens `log_` the direction was in a state up to `info_hash` before
the call and is past it afterwards; `event` changes nothing of the state. -/
theorem transcript_existence (bdecode : bdecode_fn) (key : stream_key) :
    (∀ (cs : List call) (P : parse_bittorrent) (out : List line),
      replay (bittorrent_handler bdecode) ((bittorrent_handler bdecode).init key) cs
        = Except.ok (P, out) →
      (P.log_.is_open = true ↔ ∃ d, 3 ≤ rank (P.state_.get d).state_))
    ∧ (∀ (P Q : parse_bittorrent) (ts : timeval) (buf : List Nat) (d : dir_t)
        (out : List line), P.data bdecode ts buf d = Except.ok (Q, out) →
        (P.log_.is_open = true → Q.log_.is_open = true)
        ∧ (P.log_.is_open = false → Q.log_.is_open = true →
            rank (P.state_.get d).state_ ≤ 2 ∧ 3 ≤ rank (Q.state_.get d).state_))
    ∧ (∀ (P : parse_bittorrent) (ts : timeval) (e : socket_event_t) (d : dir_t),
        (P.event ts e d).1 = P)
    ∧ (∀ st : state_t,
        3 ≤ rank st
          ↔ st ≠ state_t.protocol ∧ st ≠ state_t.reserved ∧ st ≠ state_t.info_hash) := by
  refine ⟨?_, ?_, fun _ _ _ _ => rfl, ?_⟩
  · intro cs P out h
    obtain ⟨P0, out0, e0, hi⟩ := replay_log bdecode cs _ P out h
    apply hi
    simp only [bittorrent_handler, Except.ok.injEq, Prod.mk.injEq] at e0
    rw [← e0.1]
    constructor
    · intro ho
      cases ho
    · rintro ⟨d, hd⟩
      cases d <;> simp [parse_bittorrent.mk_, dir_array.get, rank] at hd
  · intro P Q ts buf d out h
    have hs := data_log bdecode ts d P Q buf out h
    constructor
    · intro ho
      rcases Nat.lt_or_ge (rank (P.state_.get d).state_) 3 with h2 | h3
      · rcases hs.before (by omega) with ⟨_, b⟩ | ⟨_, b⟩
        · rw [b]; exact ho
        · exact b
      · rw [(hs.past h3).2]; exact ho
    · intro hc ho
      rcases Nat.lt_or_ge (rank (P.state_.get d).state_) 3 with h2 | h3
      · rcases hs.before (by omega) with ⟨_, b⟩ | ⟨a, _⟩
        · rw [b, hc] at ho; cases ho
        · exact ⟨by omega, a⟩
      · rw [(hs.past h3).2, hc] at ho
        cases ho
  · intro st
    cases st <;> simp [rank]

theorem transcript_existence_witness :
    (replay (bittorrent_handler ex_bdecode) ((bittorrent_handler ex_bdecode).init ex_key)
        c22_calls).toOption.map (fun x => x.1) = some c23_state
    ∧ (c23_state.log_.is_open = true ↔ ∃ d, 3 ≤ rank (c23_state.state_.get d).state_) :=
  ⟨by decide, (transcript_existence ex_bdecode ex_key).1 c22_calls c23_state _ (by rfl)⟩


/-! ## Payload on TCP FIN and RST segments -/

theorem tcp_fin_frame {H : Type} (hd : Handler H) (c : tcp_state H) (ts : timeval)
    (d d1 : dir_t) :
    ((c.fin hd ts d).1.state_.get d1).seqnr = (c.state_.get d1).seqnr
    ∧ ((c.fin hd ts d).1.state_.get d1).ooo_ = (c.state_.get d1).ooo_ := by
  cases d <;> cases d1 <;> simp [tcp_state.fin, dir_array.get, dir_array.set]

/-- C37 (payload on FIN and RST segments).  A TCP segment without SYN that is routed
to the connection `c` stored under `k`, with direction `d`, and has FIN or RST set,
whatever its payload `pkt`: the connection is taken to `c.fin` when FIN is set (also
when RST is set as well) and to `c.rst` otherwise, never to `c.packet`.  The handler
receives the one event `fin` or `reset` and no `data` call, the expected sequence
number and the out-of-order map of both directions are those of `c`, the connection
is kept under `k` with this state or erased with its handler retained, and no other
entry of the table changes. -/
theorem fin_rst_payload {H : Type} (hd : Handler H) (p : processor H) (ts : timeval)
    (K : stream_key) (hdr : tcphdr) (pkt : List Nat) (k : stream_key) (c : tcp_state H)
    (d : dir_t) (hsyn : hdr.syn = false) (hr : tcp_route p K = some ((k, c), d))
    (hfr : hdr.fin = true ∨ hdr.rst = true) :
    tcp_deliver hd c ts hdr pkt d = (if hdr.fin then (c.fin hd ts d).1 else c.rst hd ts d)
    ∧ (tcp_deliver hd c ts hdr pkt d).handler
        = hd.event c.handler ts
            (if hdr.fin then socket_event_t.fin else socket_event_t.reset) d
    ∧ (∀ d1, ((tcp_deliver hd c ts hdr pkt d).state_.get d1).seqnr = (c.state_.get d1).seqnr
        ∧ ((tcp_deliver hd c ts hdr pkt d).state_.get d1).ooo_ = (c.state_.get d1).ooo_)
    ∧ ((map.find (process_tcp hd p ts K hdr pkt).tcp_streams_ k
          = some (tcp_deliver hd c ts hdr pkt d)
        ∧ (process_tcp hd p ts K hdr pkt).destroyed_ = p.destroyed_)
      ∨ (map.find (process_tcp hd p ts K hdr pkt).tcp_streams_ k = none
        ∧ (process_tcp hd p ts K hdr pkt).destroyed_
            = p.destroyed_ ++ [(tcp_deliver hd c ts hdr pkt d).handler]))
    ∧ (∀ k1, k1 ≠ k → map.find (process_tcp hd p ts K hdr pkt).tcp_streams_ k1
        = map.find p.tcp_streams_ k1) := by
  obtain ⟨h1, h2⟩ := process_tcp_routed hd p ts K hdr pkt hsyn k c d hr
  obtain ⟨g1, -, g3⟩ := tcp_dispatch_spec hd p ts k c hdr pkt d h2
  rw [h1]
  refine ⟨?_, ?_, ?_, g3, g1⟩
  · by_cases hf : hdr.fin = true
    · simp [tcp_deliver, hf]
    · rcases hfr with h | h
      · exact absurd h hf
      · simp [tcp_deliver, hf, h]
  · by_cases hf : hdr.fin = true
    · simp [tcp_deliver, hf, tcp_state.fin]
    · rcases hfr with h | h
      · exact absurd h hf
      · simp [tcp_deliver, hf, h, tcp_state.rst]
  · intro d1
    by_cases hf : hdr.fin = true
    · simpa [tcp_deliver, hf] using tcp_fin_frame hd c ts d d1
    · rcases hfr with h | h
      · exact absurd h hf
      · simp [tcp_deliver, hf, h, tcp_state.rst]

/-- Witness for `fin_rst_payload`: a segment of the initiator of `c9_conn` with FIN and
RST both set and the payload 1 2 3 at the expected sequence number 100.  The recorder
holds the one event `fin` and no payload, and the expected sequence number is still
100. -/
theorem fin_rst_payload_witness :
    tcp_route c9_proc ex_key = some ((ex_key, c9_conn), dir_t.out)
    ∧ (c9_conn.state_.get dir_t.out).seqnr = 100
    ∧ (map.find (process_tcp recorder c9_proc ⟨5, 0⟩ ex_key ⟨100, false, true, true, true⟩
          [1, 2, 3]).tcp_streams_ ex_key).map (fun c => (c.handler, (c.state_.get dir_t.out).seqnr))
        = some ([call.event ⟨5, 0⟩ socket_event_t.fin dir_t.out], 100)
    ∧ (tcp_deliver recorder c9_conn ⟨5, 0⟩ ⟨100, false, true, true, true⟩ [1, 2, 3]
          dir_t.out).handler
        = recorder.event c9_conn.handler ⟨5, 0⟩
            (if (⟨100, false, true, true, true⟩ : tcphdr).fin then socket_event_t.fin
              else socket_event_t.reset) dir_t.out :=
  ⟨by decide, by decide, by decide,
    (fin_rst_payload recorder c9_proc ⟨5, 0⟩ ex_key ⟨100, false, true, true, true⟩ [1, 2, 3]
      ex_key c9_conn dir_t.out rfl (by decide) (Or.inl rfl)).2.1⟩


/-! ## uTP routing after a SYN -/

theorem swap_swap (k : stream_key) : swap (swap k) = k := by
  cases k; rfl

theorem find_utp_stream_free {H : Type} (p : processor H) (T : stream_key) (C : Nat)
    (hC : C < u16)
    (hfree : ∀ k : utp_stream_key, k.ip = T ∨ k.ip = swap T → map.find p.utp_streams_ k = none) :
    p.find_utp_stream { ip := T, connid := C } = (none, dir_t.out) := by
  rw [find_utp_stream_eq p T C hC]
  have h : first_present p.utp_streams_ (utp_probes T C) = none := by
    rw [first_present_none]
    intro x hx
    apply hfree
    simp only [utp_probes, List.mem_cons, List.mem_singleton, List.not_mem_nil, or_false] at hx
    rcases hx with h | h | h | h <;> subst h <;> simp
  rw [h]

theorem process_utp_syn_table {H : Type} (hd : Handler H) (p : processor H) (ts : timeval)
    (T : stream_key) (hdr : utphdr) (pkt : List Nat) (hC : hdr.connection_id < u16)
    (hsyn : hdr.get_type = ST_SYN)
    (hfree : ∀ k : utp_stream_key, k.ip = T ∨ k.ip = swap T → map.find p.utp_streams_ k = none)
    (k1 : utp_stream_key) :
    map.find (process_utp hd p ts T hdr pkt).utp_streams_ k1
      = if k1 = { ip := T, connid := (hdr.connection_id + 1) % u16 }
        then some ((utp_state.mk_ hd { ip := T, connid := hdr.connection_id }).syn hdr dir_t.out)
        else map.find p.utp_streams_ k1 := by
  have hm : hdr.connection_id % u16 = hdr.connection_id := Nat.mod_eq_of_lt hC
  have hk : inc_connid { ip := T, connid := hdr.connection_id } 1
      = { ip := T, connid := (hdr.connection_id + 1) % u16 } := by
    simp only [inc_connid, connid_offset_one]
  have hnone := find_utp_stream_free p T hdr.connection_id hC hfree
  have hfresh : map.find p.utp_streams_
      ({ ip := T, connid := (hdr.connection_id + 1) % u16 } : utp_stream_key) = none :=
    hfree _ (Or.inl rfl)
  obtain ⟨e1, e2⟩ := map.emplace_cases p.utp_streams_
    ({ ip := T, connid := (hdr.connection_id + 1) % u16 } : utp_stream_key)
    (utp_state.mk_ hd { ip := T, connid := hdr.connection_id })
  rw [hfresh] at e1
  have hu : (process_utp hd p ts T hdr pkt).utp_streams_
      = map.replace (map.emplace p.utp_streams_
          ({ ip := T, connid := (hdr.connection_id + 1) % u16 } : utp_stream_key)
          (utp_state.mk_ hd { ip := T, connid := hdr.connection_id }))
        { ip := T, connid := (hdr.connection_id + 1) % u16 }
        ((utp_state.mk_ hd { ip := T, connid := hdr.connection_id }).syn hdr dir_t.out) := by
    simp only [process_utp, hm, hsyn, if_true, hnone, hk, e1, Option.getD_none]
  rw [hu]
  exact e2 _ _

/-- C34 (uTP routing after a SYN).  The transport key `T` differs from its reverse and
the table holds no key whose transport part is `T` or `reverse(T)`.  After an `ST_SYN`
with transport key `T` and connection id `C` the table holds the new connection under
`{T, (C + 1) mod 2^16}`.  For a 16 bit connection id `X`, `find_utp_stream({T, X})`
returns this entry with direction `out` if and only if `X = (C + 1) mod 2^16`, and
finds nothing otherwise; `find_utp_stream({reverse(T), X})` returns this entry with
direction `in` if and only if `X` is `C`, `(C + 1) mod 2^16` or `(C + 2) mod 2^16`, and
finds nothing otherwise. -/
theorem utp_routing_after_syn {H : Type} (hd : Handler H) (p : processor H) (ts : timeval)
    (T : stream_key) (hdr : utphdr) (pkt : List Nat) (X : Nat)
    (hT : T ≠ swap T) (hC : hdr.connection_id < u16) (hX : X < u16)
    (hsyn : hdr.get_type = ST_SYN)
    (hfree : ∀ k : utp_stream_key, k.ip = T ∨ k.ip = swap T →
      map.find p.utp_streams_ k = none) :
    ((process_utp hd p ts T hdr pkt).find_utp_stream { ip := T, connid := X }
        = (some ({ ip := T, connid := (hdr.connection_id + 1) % u16 },
            (utp_state.mk_ hd { ip := T, connid := hdr.connection_id }).syn hdr dir_t.out),
          dir_t.out)
      ↔ X = (hdr.connection_id + 1) % u16)
    ∧ (X ≠ (hdr.connection_id + 1) % u16 →
        (process_utp hd p ts T hdr pkt).find_utp_stream { ip := T, connid := X }
          = (none, dir_t.out))
    ∧ ((process_utp hd p ts T hdr pkt).find_utp_stream { ip := swap T, connid := X }
        = (some ({ ip := T, connid := (hdr.connection_id + 1) % u16 },
            (utp_state.mk_ hd { ip := T, connid := hdr.connection_id }).syn hdr dir_t.out),
          dir_t.in_)
      ↔ (X = hdr.connection_id ∨ X = (hdr.connection_id + 1) % u16
          ∨ X = (hdr.connection_id + 2) % u16))
    ∧ (¬ (X = hdr.connection_id ∨ X = (hdr.connection_id + 1) % u16
          ∨ X = (hdr.connection_id + 2) % u16) →
        (process_utp hd p ts T hdr pkt).find_utp_stream { ip := swap T, connid := X }
          = (none, dir_t.out)) := by
  have hq := process_utp_syn_table hd p ts T hdr pkt hC hsyn hfree
  have hT1 : ¬ swap T = T := fun e => hT e.symm
  have f1 : ∀ n, map.find p.utp_streams_ ({ ip := T, connid := n } : utp_stream_key) = none :=
    fun n => hfree _ (Or.inl rfl)
  have f2 : ∀ n, map.find p.utp_streams_ ({ ip := swap T, connid := n } : utp_stream_key)
      = none := fun n => hfree _ (Or.inr rfl)
  have a1 : (X + 1) % u16 = (hdr.connection_id + 1) % u16 ↔ X = hdr.connection_id := by
    simp only [u16] at *; omega
  have a2 : (X + u16 - 1) % u16 = (hdr.connection_id + 1) % u16
      ↔ X = (hdr.connection_id + 2) % u16 := by
    simp only [u16] at *; omega
  have e1 := find_utp_stream_eq (process_utp hd p ts T hdr pkt) T X hX
  have e2 := find_utp_stream_eq (process_utp hd p ts T hdr pkt) (swap T) X hX
  simp only [utp_probes, first_present, hq, utp_stream_key.mk.injEq, hT1, false_and,
    if_false, f1, f2, true_and, swap_swap, hT, a1, a2] at e1 e2
  rw [e1, e2]
  refine ⟨?_, ?_, ?_, ?_⟩
  · by_cases h : X = (hdr.connection_id + 1) % u16
    · simp [h]
    · simp [h]
  · intro h
    simp [h]
  · by_cases h1 : X = (hdr.connection_id + 1) % u16
    · rw [if_pos h1]
      simp [h1]
    · by_cases h2 : X = hdr.connection_id
      · rw [if_neg h1, if_pos h2, a1.mpr h2]
        simp [h2]
      · by_cases h3 : X = (hdr.connection_id + 2) % u16
        · rw [if_neg h1, if_neg h2, if_pos h3, a2.mpr h3]
          simp [h3]
        · rw [if_neg h1, if_neg h2, if_neg h3]
          simp [h1, h2, h3]
  · intro h
    simp only [not_or] at h
    rw [if_neg h.2.1, if_neg h.1, if_neg h.2.2]

/-- Witness for `utp_routing_after_syn`: the `ST_SYN` with connection id 7 on the empty
table.  The key `{ex_key, 7}` of the SYN itself finds nothing; the reverse key finds
the connection with connection id 7. -/
theorem utp_routing_after_syn_witness :
    ex_key ≠ swap ex_key
    ∧ ((process_utp recorder c16_empty ⟨1, 0⟩ ex_key c16_syn []).find_utp_stream
          { ip := ex_key, connid := 7 } = (none, dir_t.out))
    ∧ ((process_utp recorder c16_empty ⟨1, 0⟩ ex_key c16_syn []).find_utp_stream
          { ip := swap ex_key, connid := 7 }
        = (some ({ ip := ex_key, connid := (c16_syn.connection_id + 1) % u16 },
            (utp_state.mk_ recorder { ip := ex_key, connid := c16_syn.connection_id }).syn
              c16_syn dir_t.out),
          dir_t.in_)
      ↔ (7 = c16_syn.connection_id ∨ 7 = (c16_syn.connection_id + 1) % u16
          ∨ 7 = (c16_syn.connection_id + 2) % u16)) :=
  ⟨by decide,
    (utp_routing_after_syn recorder c16_empty ⟨1, 0⟩ ex_key c16_syn [] 7 (by decide)
      (by decide) (by decide) (by decide) (fun _ _ => rfl)).2.1 (by decide),
    (utp_routing_after_syn recorder c16_empty ⟨1, 0⟩ ex_key c16_syn [] 7 (by decide)
      (by decide) (by decide) (by decide) (fun _ _ => rfl)).2.2.1⟩


/-! ## Evaluations: `skip_` below zero, the handshake lines of the second direction -/

/-- C33 at a `have` message with length prefix 1.  Direction `out` of `c18_state` is in
state `length`; it is fed `c33_have`: the length prefix 1, the message id 4 and four
bytes more, which are the length prefix 7 of the next message.  The block for `have`
consumes these four bytes, so five bytes are consumed for a message of length 1;
`skip_ -= 4` takes `skip_` from 0 to 2^32 - 4 = 4294967292, `check_zero` reports that
many unexpected bytes and the direction ends in state `skip` with
`skip_ = 4294967292`. -/
theorem skip_below_zero :
    (c18_state.state_.get dir_t.out).state_ = state_t.length
    ∧ (c18_state.state_.get dir_t.out).buffer_ = []
    ∧ (c18_state.data ex_bdecode ⟨2, 0⟩ c33_have dir_t.out).toOption.map
        (fun x => ((x.1.state_.get dir_t.out).state_, (x.1.state_.get dir_t.out).skip_,
          (x.1.state_.get dir_t.out).offset_, x.2.map (fun l => l.ev)))
      = some (state_t.skip, 4294967292, 68 + 9,
          [log_event.have_ 7, log_event.unexpected_bytes 4294967292]) := by
  refine ⟨by decide, by decide, by decide⟩

/-- C35 when direction `in` is past `reserved` before direction `out` opens the
transcript.  The calls `c35_calls` are made on a fresh dissector: direction `in`
delivers 28 bytes of its handshake, with the reserved bytes 0 0 0 0 0 16 0 5, direction
`out` its 68 bytes, direction `in` its other 40 bytes.  Both directions end in state
`length`.  The transcript has the four lines of direction `out`, and of direction `in`
only `INFO-HASH` and `PEER-ID`: no `HANDSHAKE` and no `RESERVED` line, though the
reserved bytes are kept in `reserved_`. -/
theorem handshake_lines_missing :
    (replay (bittorrent_handler ex_bdecode) ((bittorrent_handler ex_bdecode).init ex_key)
        c35_calls).toOption.map
        (fun x => ((x.1.state_.get dir_t.in_).state_, (x.1.state_.get dir_t.out).state_,
          (x.1.state_.get dir_t.in_).reserved_, x.2.map (fun l => (l.d, l.ev))))
      = some (state_t.length, state_t.length, [0, 0, 0, 0, 0, 16, 0, 5],
          [(dir_t.out, log_event.handshake),
           (dir_t.out, log_event.reserved [0, 0, 0, 0, 0, 0, 0, 0]),
           (dir_t.out, log_event.info_hash (List.replicate 20 171)),
           (dir_t.out, log_event.peer_id (List.replicate 20 65)),
           (dir_t.in_, log_event.info_hash (List.replicate 20 171)),
           (dir_t.in_, log_event.peer_id (List.replicate 20 66))]) := by
  decide

/-- The claim C32 as it is written fails on the code.  After the bytes 7 8 9 at sequence number 2 and
then the bytes 1 2 3 4 5 at sequence number 0 the direction expects 5 and its map
still holds the key 2, for which (2 - 5) mod 2^32 = 2^32 - 3.  After one byte at
sequence number 5 and then `syn` with sequence number 9 the direction expects 10 and
its map holds the key 5, for which (5 - 10) mod 2^32 = 2^32 - 5. -/
theorem ooo_key_behind :
    (c32_overlap.state_.get dir_t.out).seqnr = 5
    ∧ map.find (c32_overlap.state_.get dir_t.out).ooo_ 2 = some [7, 8, 9]
    ∧ (2 + u32 - (c32_overlap.state_.get dir_t.out).seqnr) % u32 = 4294967293
    ∧ ¬ (2 + u32 - (c32_overlap.state_.get dir_t.out).seqnr) % u32 ≤ 2 ^ 31 - 1
    ∧ (c32_late_syn.state_.get dir_t.in_).seqnr = 10
    ∧ map.find (c32_late_syn.state_.get dir_t.in_).ooo_ 5 = some [1]
    ∧ ¬ (5 + u32 - (c32_late_syn.state_.get dir_t.in_).seqnr) % u32 ≤ 2 ^ 31 - 1 := by
  refine ⟨by decide, by decide, by decide, by decide, by decide, by decide, by decide⟩

/-- The claim C31 as it is written fails on the code.  The first line a fresh
dissector writes for the handshake of direction `out` at time 1.000500 starts with the
five characters of a colour escape, not with `>>`; the line `check_zero` writes for a
`choke` message with length prefix 2 has no time stamp; and the line written for an
extension message whose name, chosen by the peer, holds a line feed makes two lines of
the transcript, the second without direction and time stamp. -/
theorem line_with_escape :
    (c4_state.data ex_bdecode ex_ts c6_handshake dir_t.out).toOption.map
        (fun x => (x.2.map render_line).head?)
      = some (some "\x1b[33m>> 1.000 HANDSHAKE\n")
    ∧ (render_dir dir_t.out).length = 7
    ∧ (render_dir dir_t.in_).length = 7
    ∧ (c18_state.data ex_bdecode ex_ts c31_choke dir_t.out).toOption.map
        (fun x => x.2.map render_line)
      = some ["\x1b[33m>> 1.000 CHOKE\n",
              "\x1b[33m>> ERROR: unexpected bytes after message: 1\n"]
    ∧ c31_run.toOption.map (fun x => (x.2.map render_line).getLast?)
      = some (some "\x1b[34m<< 1.000 EXTENSION-MSG: a\nb\n") := by
  refine ⟨by decide, by decide, by decide, by decide, by decide⟩

/-! ## The keys of the out-of-order map -/

theorem tcp_packet_other_dir {H : Type} (hd : Handler H) (st : tcp_state H) (ts : timeval)
    (hdr : tcphdr) (buf : List Nat) (d d1 : dir_t) (h : d1 ≠ d) :
    (st.packet hd ts hdr buf d).state_.get d1 = st.state_.get d1 := by
  unfold tcp_state.packet
  split
  · rfl
  · simp only []
    split
    · split
      · exact dir_array.get_set_ne _ _ _ _ h
      · split <;> rfl
    · exact dir_array.get_set_ne _ _ _ _ h

theorem chain32_head {e e1 : Nat} {x : Nat × List Nat} {t : List (Nat × List Nat)}
    (h : Chain32 e (x :: t) e1) : x.1 = e := by
  cases h
  rfl

theorem tcp_drain_state {H : Type} (hd : Handler H) (ts : timeval) (d : dir_t) :
    ∀ (fuel : Nat) (s : tcp_side_state) (h h1 : H),
      (tcp_drain hd ts d fuel (s, h)).1 = (tcp_drain hd ts d fuel (s, h1)).1 := by
  intro fuel
  induction fuel with
  | zero => intro s h h1; rfl
  | succ n ih =>
    intro s h h1
    simp only [tcp_drain]
    cases map.find s.ooo_ s.seqnr with
    | none => rfl
    | some p => exact ih _ _ _

theorem tcp_packet_state {H : Type} (hd : Handler H) (st st1 : tcp_state H) (ts : timeval)
    (hdr : tcphdr) (buf : List Nat) (d : dir_t) (h : st.state_ = st1.state_) :
    (st.packet hd ts hdr buf d).state_ = (st1.packet hd ts hdr buf d).state_ := by
  unfold tcp_state.packet
  rw [h]
  split
  · exact h
  · simp only []
    split
    · split
      · rfl
      · split <;> first | rfl | exact h
    · show st1.state_.set d _ = st1.state_.set d _
      rw [tcp_drain_state hd ts d _ _ (hd.data st.handler ts buf d)
        (hd.data st1.handler ts buf d)]

theorem tcp_feed_state {H : Type} (hd : Handler H) (d : dir_t) :
    ∀ (pkts : List (timeval × tcphdr × List Nat)) (st st1 : tcp_state H),
      st.state_ = st1.state_ → (tcp_feed hd d st pkts).state_ = (tcp_feed hd d st1 pkts).state_ := by
  intro pkts
  induction pkts with
  | nil => intro st st1 h; exact h
  | cons x t ih =>
    intro st st1 h
    simp only [tcp_feed, List.foldl_cons]
    exact ih _ _ (tcp_packet_state hd st st1 x.1 x.2.1 x.2.2 d h)

theorem tile_payload (segs : List (List Nat)) (start : Nat) (x : Nat × List Nat)
    (hx : x ∈ tile start segs) : x.2 ∈ segs := by
  have := List.mem_map_of_mem Prod.snd hx
  rwa [tile_map_snd] at this

/-- A segment of the tiling that has arrived before arrives again: it is behind the
expected sequence number, or it is in the out-of-order map; the direction stays as it
is and nothing is delivered. -/
theorem tcp_packet_again (segs : List (List Nat)) (start : Nat) {A : List (Nat × List Nat)}
    {d : dir_t} (hne : ∀ p ∈ segs, p ≠ []) (hlen : segs.flatten.length < (u32 - 1) / 2)
    (st : tcp_state (List call)) (ts : timeval) (hdr : tcphdr) (buf : List Nat)
    (hT : (hdr.seq, buf) ∈ tile start segs) (hA : (hdr.seq, buf) ∈ A)
    (inv : TcpInv (tile start segs) start ((start + segs.flatten.length) % u32) d st A) :
    TcpInv (tile start segs) start ((start + segs.flatten.length) % u32) d
      (st.packet recorder ts hdr buf d) A := by
  have hpw : List.Pairwise ahead32 (tile start segs) := tile_pairwise segs hne _ hlen
  obtain ⟨done, todo, inv, hst⟩ := inv
  have hbuf : buf ≠ [] := hne _ (tile_payload segs start _ hT)
  have hlt : (st.state_.get d).seqnr < u32 := by
    rw [inv.seq_eq]
    exact Nat.mod_lt _ (by decide)
  obtain ⟨δ, hδ, hseq⟩ := tile_mem segs _ _ hT
  simp only at hδ hseq
  have hk : hdr.seq < u32 := by
    rw [hseq]
    exact Nat.mod_lt _ (by decide)
  have hsplit := inv.split
  have hmem := hT
  rw [hsplit] at hmem
  rcases List.mem_append.mp hmem with hd | htd
  · -- delivered before: the segment is behind
    have hbehind : hdr.seq ≠ (st.state_.get d).seqnr
        ∧ ¬ (hdr.seq + u32 - (st.state_.get d).seqnr) % u32 < 2147483647 := by
      cases todo with
      | nil =>
        have hall : (done.map Prod.snd).flatten.length = segs.flatten.length := by
          have := congrArg (List.map Prod.snd) hsplit
          rw [tile_map_snd, List.append_nil] at this
          rw [← this]
        have he := inv.seq_eq
        rw [hall] at he
        have hpos : 0 < buf.length := List.length_pos.mpr hbuf
        generalize (st.state_.get d).seqnr = e at he hlt ⊢
        generalize segs.flatten.length = L at he hδ hlen
        generalize buf.length = n at hδ hpos
        simp only [u32] at *
        omega
      | cons y t =>
        have hy := chain32_head inv.chain
        have hah : ahead32 (hdr.seq, buf) y := by
          have := hpw
          rw [hsplit] at this
          exact (List.pairwise_append.mp this).2.2 _ hd _ (List.mem_cons_self _ _)
        obtain ⟨a1, a2⟩ := hah
        simp only [hy] at a1 a2
        generalize (st.state_.get d).seqnr = e at a1 a2 hlt ⊢
        simp only [u32] at *
        omega
    rw [tcp_packet_behind recorder ts st hdr buf d hbuf hbehind.1 hbehind.2]
    split
    · refine ⟨done, todo, ?_, hst⟩
      have hp : payloads d (recorder.event st.handler ts socket_event_t.seqnr_mismatch d)
          = payloads d st.handler := by
        simp [recorder, payloads_append, payloads]
      exact ⟨inv.split, by rw [hp]; exact inv.del_eq, inv.seq_eq, inv.chain, inv.buf_sound,
        inv.buf_complete, inv.done_arrived⟩
    · exact ⟨done, todo, inv, hst⟩
  · -- not delivered: the segment is in the map
    have hfind := inv.buf_complete _ htd hA
    simp only at hfind
    cases todo with
    | nil => simp at htd
    | cons y t =>
      have hy := chain32_head inv.chain
      have hyA := hst y rfl
      have hpw2 : List.Pairwise ahead32 (y :: t) := by
        have := hpw
        rw [hsplit] at this
        exact (List.pairwise_append.mp this).2.1
      rcases List.mem_cons.mp htd with h | h
      · rw [h] at hA
        exact absurd hA hyA
      · obtain ⟨a1, a2⟩ := (List.pairwise_cons.mp hpw2).1 _ h
        simp only [hy] at a1 a2
        have hlen0 : ¬ buf.length = 0 := fun h6 => hbuf (List.length_eq_zero.mp h6)
        have hp : st.packet recorder ts hdr buf d = st := by
          have hemp : map.emplace (st.state_.get d).ooo_ hdr.seq buf = (st.state_.get d).ooo_ := by
            simp [map.emplace, hfind]
          simp only [tcp_state.packet, hlen0, if_false, a1, ne_eq, not_false_eq_true, if_true,
            a2, hemp]
          have : ({ st.state_.get d with ooo_ := (st.state_.get d).ooo_ } : tcp_side_state)
              = st.state_.get d := rfl
          rw [this, dir_array.set_get]
        rw [hp]
        exact ⟨done, y :: t, inv, hst⟩

theorem tcp_feed_inv_any (segs : List (List Nat)) (start : Nat) {d : dir_t}
    (hne : ∀ p ∈ segs, p ≠ []) (hlen : segs.flatten.length < (u32 - 1) / 2) :
    ∀ (pkts : List (timeval × tcphdr × List Nat)) (st : tcp_state (List call))
      (A : List (Nat × List Nat)),
      TcpInv (tile start segs) start ((start + segs.flatten.length) % u32) d st A →
      (∀ x ∈ pkts.map seq_payload, x ∈ tile start segs) →
      ∃ A1, TcpInv (tile start segs) start ((start + segs.flatten.length) % u32) d
        (tcp_feed recorder d st pkts) A1 := by
  have hpw : List.Pairwise ahead32 (tile start segs) := tile_pairwise segs hne _ hlen
  have hnd := pairwise_ahead_nodup _ hpw
  intro pkts
  induction pkts with
  | nil =>
    intro st A inv _
    exact ⟨A, inv⟩
  | cons x t ih =>
    intro st A inv hx
    have hx0 : (x.2.1.seq, x.2.2) ∈ tile start segs := hx (seq_payload x) (by simp)
    have hrest : ∀ y ∈ t.map seq_payload, y ∈ tile start segs :=
      fun y hy => hx y (by simp only [List.map_cons]; exact List.mem_cons_of_mem _ hy)
    simp only [tcp_feed, List.foldl_cons]
    by_cases hA : (x.2.1.seq, x.2.2) ∈ A
    · exact ih _ A (tcp_packet_again segs start hne hlen st x.1 x.2.1 x.2.2 hx0 hA inv) hrest
    · exact ih _ _ (tcp_packet_inv hnd hpw st x.1 x.2.1 x.2.2 hx0 hA inv) hrest

/-- C32 (keys of the out-of-order map), amended.  A direction `d` whose out-of-order
map is empty is initialised by `syn`; then `packet` is called for it on the packets
`arr`, each of which is a segment of one tiling of a stream of fewer than 2^31 - 1
bytes that starts at `syn.seq + 1`, in any order and any number of times (no two
segments overlap).  In the state reached every key `k` of the out-of-order map of the
direction is strictly ahead of its expected sequence number:
`(k - expected_seq) mod 2^32` is at least 1 and less than 2^31 - 1.  The members `fin`
and `rst`, and `syn` and `packet` for the other direction, change neither the expected
sequence number nor the out-of-order map of a direction. -/
theorem ooo_keys_ahead (st0 : tcp_state (List call)) (d : dir_t) (syn : tcphdr)
    (segs : List (List Nat)) (arr : List (timeval × tcphdr × List Nat))
    (hooo : (st0.state_.get d).ooo_ = [])
    (hne : ∀ p ∈ segs, p ≠ [])
    (hlen : segs.flatten.length < 2 ^ 31 - 1)
    (hsub : ∀ x ∈ arr.map seq_payload, x ∈ tile (syn.seq + 1) segs) :
    (∀ k p,
      map.find ((tcp_feed recorder d (st0.syn syn d) arr).state_.get d).ooo_ k = some p →
      1 ≤ (k + u32 - ((tcp_feed recorder d (st0.syn syn d) arr).state_.get d).seqnr) % u32
      ∧ (k + u32 - ((tcp_feed recorder d (st0.syn syn d) arr).state_.get d).seqnr) % u32
          < 2 ^ 31 - 1)
    ∧ (∀ (st : tcp_state (List call)) (ts : timeval) (d1 d2 : dir_t),
        ((st.fin recorder ts d1).1.state_.get d2).seqnr = (st.state_.get d2).seqnr
        ∧ ((st.fin recorder ts d1).1.state_.get d2).ooo_ = (st.state_.get d2).ooo_
        ∧ (st.rst recorder ts d1).state_.get d2 = st.state_.get d2)
    ∧ (∀ (st : tcp_state (List call)) (ts : timeval) (hdr : tcphdr) (buf : List Nat)
        (d1 d2 : dir_t), d2 ≠ d1 →
        (st.packet recorder ts hdr buf d1).state_.get d2 = st.state_.get d2
        ∧ (st.syn hdr d1).state_.get d2 = st.state_.get d2) := by
  refine ⟨?_, ?_, ?_⟩
  · have hlen1 : segs.flatten.length < (u32 - 1) / 2 := by simpa [u32] using hlen
    have hpw : List.Pairwise ahead32 (tile (syn.seq + 1) segs) := tile_pairwise segs hne _ hlen1
    -- the same connection with a handler that has received nothing
    have hst : ∀ S : tcp_state (List call), S.state_ = st0.state_ →
        (tcp_feed recorder d (st0.syn syn d) arr).state_
          = (tcp_feed recorder d (S.syn syn d) arr).state_ :=
      fun S hS => tcp_feed_state recorder d arr _ _ (by simp [tcp_state.syn, hS])
    rw [hst { st0 with handler := [] } rfl]
    generalize hS : ({ st0 with handler := [] } : tcp_state (List call)) = S
    have hSooo : (S.state_.get d).ooo_ = [] := by rw [← hS]; exact hooo
    have hSdel : payloads d S.handler = [] := by rw [← hS]; rfl
    have inv0 : TcpInv (tile (syn.seq + 1) segs) (syn.seq + 1)
        ((syn.seq + 1 + segs.flatten.length) % u32) d (S.syn syn d) [] := by
      refine ⟨[], tile (syn.seq + 1) segs, ⟨rfl, ?_, ?_, ?_, ?_, ?_, ?_⟩, ?_⟩
      · simpa [tcp_state.syn] using hSdel
      · simp [tcp_state.syn, dir_array.get_set]
      · have := tile_chain segs hne (syn.seq + 1)
        simpa [tcp_state.syn, dir_array.get_set] using this
      · intro q p hq
        simp [tcp_state.syn, dir_array.get_set, hSooo, map.find] at hq
      · intro x _ hx; simp at hx
      · intro x hx; simp at hx
      · intro x _ hx; simp at hx
    obtain ⟨A, done, todo, inv, hhead⟩ :=
      tcp_feed_inv_any segs (syn.seq + 1) hne hlen1 arr (S.syn syn d) [] inv0 hsub
    intro k p hf
    obtain ⟨hmem, hA⟩ := inv.buf_sound k p hf
    have hlt : ((tcp_feed recorder d (S.syn syn d) arr).state_.get d).seqnr < u32 := by
      rw [inv.seq_eq]
      exact Nat.mod_lt _ (by decide)
    have hk : k < u32 := by
      have hT : (k, p) ∈ tile (syn.seq + 1) segs := by
        rw [inv.split]
        exact List.mem_append_right _ hmem
      obtain ⟨δ, -, h2⟩ := tile_mem segs _ _ hT
      simp only at h2
      rw [h2]
      exact Nat.mod_lt _ (by decide)
    cases todo with
    | nil => simp at hmem
    | cons x t =>
      have hx := chain32_head inv.chain
      have hxA := hhead x rfl
      have hpw2 : List.Pairwise ahead32 (x :: t) := by
        have := hpw
        rw [inv.split] at this
        exact (List.pairwise_append.mp this).2.1
      rcases List.mem_cons.mp hmem with h | h
      · rw [h] at hA
        exact absurd hA hxA
      · have ha := (List.pairwise_cons.mp hpw2).1 (k, p) h
        obtain ⟨a1, a2⟩ := ha
        simp only [hx] at a1 a2
        generalize ((tcp_feed recorder d (S.syn syn d) arr).state_.get d).seqnr = e
          at hlt a1 a2 ⊢
        simp only [u32] at *
        omega
  · intro st ts d1 d2
    exact ⟨(tcp_fin_frame recorder st ts d1 d2).1, (tcp_fin_frame recorder st ts d1 d2).2, rfl⟩
  · intro st ts hdr buf d1 d2 h
    refine ⟨tcp_packet_other_dir recorder st ts hdr buf d1 d2 h, ?_⟩
    simp only [tcp_state.syn]
    exact dir_array.get_set_ne _ _ _ _ h

/-- Witness for `ooo_keys_ahead`: the stream 1 2 3 4 5 starts at sequence number 0; its last segment arrives
twice and its second segment once, the first has not arrived.  The map holds the keys 2
and 3, the direction expects 0. -/
theorem ooo_keys_ahead_witness :
    ((tcp_feed recorder dir_t.out (c1_fresh.syn c1_syn dir_t.out)
        [c1_pkt 3 [4, 5], c1_pkt 2 [3], c1_pkt 3 [4, 5]]).state_.get dir_t.out).seqnr = 0
    ∧ map.find ((tcp_feed recorder dir_t.out (c1_fresh.syn c1_syn dir_t.out)
        [c1_pkt 3 [4, 5], c1_pkt 2 [3], c1_pkt 3 [4, 5]]).state_.get dir_t.out).ooo_ 3
        = some [4, 5]
    ∧ (1 ≤ (3 + u32 - ((tcp_feed recorder dir_t.out (c1_fresh.syn c1_syn dir_t.out)
          [c1_pkt 3 [4, 5], c1_pkt 2 [3], c1_pkt 3 [4, 5]]).state_.get dir_t.out).seqnr) % u32
      ∧ (3 + u32 - ((tcp_feed recorder dir_t.out (c1_fresh.syn c1_syn dir_t.out)
          [c1_pkt 3 [4, 5], c1_pkt 2 [3], c1_pkt 3 [4, 5]]).state_.get dir_t.out).seqnr) % u32
          < 2 ^ 31 - 1) :=
  ⟨by decide, by decide,
    (ooo_keys_ahead c1_fresh dir_t.out c1_syn [[1, 2], [3], [4, 5]]
      [c1_pkt 3 [4, 5], c1_pkt 2 [3], c1_pkt 3 [4, 5]] (by decide) (by decide) (by decide)
      (by decide)).1 3 [4, 5] (by decide)⟩

/-! ## The format of the transcript lines -/

theorem check_zero_stamped (s : bittorrent_side_state) :
    ∀ e ∈ (check_zero s).1, ∀ ev, e = entry.bare ev → ∃ n, ev = log_event.unexpected_bytes n := by
  intro e he ev hev
  subst hev
  unfold check_zero at he
  split at he
  · simp at he
  · simp only [List.mem_singleton, entry.bare.injEq] at he
    exact ⟨_, he⟩

theorem stamped_append (l : List entry) (s : bittorrent_side_state)
    (hl : ∀ e ∈ l, ∃ ev, e = entry.stamped ev) :
    ∀ e ∈ l ++ (check_zero s).1, ∀ ev, e = entry.bare ev →
      ∃ n, ev = log_event.unexpected_bytes n := by
  intro e he ev hev
  rcases List.mem_append.mp he with h | h
  · obtain ⟨ev1, h1⟩ := hl e h
    rw [h1] at hev
    cases hev
  · exact check_zero_stamped s e h ev hev

theorem msg_switch_stamped (s : bittorrent_side_state) (msg : Nat) :
    ∀ e ∈ (msg_switch s msg).1, ∀ ev, e = entry.bare ev →
      ∃ n, ev = log_event.unexpected_bytes n := by
  unfold msg_switch
  split <;>
    first
    | exact stamped_append _ s (by simp)
    | (intro e he ev hev; subst hev; simp at he)

theorem handshake_blocks_stamped : ∀ b ∈ handshake_blocks, block_stamped b := by
  intro b hb
  simp only [handshake_blocks, List.mem_cons, List.mem_singleton, List.not_mem_nil,
    or_false] at hb
  rcases hb with rfl | rfl | rfl | rfl
  · intro io s other o h e he ev hev
    subst hev
    simp only [protocol_block] at h
    split at h <;> cases h
    · simp at he
    · cases io <;> simp at he
  · intro io s other o h e he ev hev
    subst hev
    simp only [reserved_block] at h
    cases h
    cases io <;> simp at he
  · intro io s other o h e he ev hev
    subst hev
    simp only [info_hash_block] at h
    cases h
    cases io <;> simp at he
  · intro io s other o h e he ev hev
    subst hev
    simp only [peer_id_block] at h
    cases h
    simp at he

theorem message_blocks_stamped (bd : bdecode_fn) : ∀ b ∈ message_blocks bd, block_stamped b := by
  intro b hb
  simp only [message_blocks, List.mem_cons, List.mem_singleton, List.not_mem_nil,
    or_false] at hb
  rcases hb with rfl | rfl | rfl | rfl | rfl | rfl | rfl | rfl | rfl
  · -- length
    intro io s other o h e he ev hev
    subst hev
    simp only [length_block] at h
    split at h
    · cases h
    · split at h <;> cases h <;> (simp only [] at he; split at he <;> simp at he)
  · -- msg
    intro io s other o h e he ev hev
    simp only [msg_block] at h
    cases h
    exact msg_switch_stamped _ _ e he ev hev
  · -- have
    intro io s other o h e he ev hev
    simp only [have_block] at h
    split at h
    · cases h
    · cases h
      refine stamped_append _ _ ?_ e he ev hev
      intro e1 h1
      split at h1 <;> simp at h1 <;> exact ⟨_, h1⟩
  · -- extension
    intro io s other o h e he ev hev
    subst hev
    simp only [extension_block] at h
    split at h <;> cases h
    · simp at he
    · simp only [] at he
      split at he <;> simp at he
  · -- extension handshake
    intro io s other o h e he ev hev
    subst hev
    simp only [extension_handshake_block] at h
    cases h
    simp only [] at he
    split at he <;> simp at he
  · -- request
    intro io s other o h e he ev hev
    simp only [request_block] at h
    split at h
    · cases h
      refine stamped_append _ _ ?_ e he ev hev
      intro e1 h1
      split at h1 <;> simp at h1 <;> exact ⟨_, h1⟩
    · cases h
  · -- piece
    intro io s other o h e he ev hev
    subst hev
    simp only [piece_block] at h
    split at h <;> cases h
    simp at he
  · -- dht_port
    intro io s other o h e he ev hev
    simp only [dht_port_block] at h
    split at h
    · cases h
    · cases h
      exact stamped_append _ _ (by simp) e he ev hev
  · -- bitfield
    intro io s other o h e he ev hev
    subst hev
    simp only [bitfield_block] at h
    cases h
    simp at he

theorem entry_line_of_call (ts : timeval) (d : dir_t) (e : entry)
    (h : ∀ ev, e = entry.bare ev → ∃ n, ev = log_event.unexpected_bytes n) :
    line.of_call ts d (e.line ts d) := by
  cases e with
  | stamped ev => exact ⟨rfl, Or.inl rfl⟩
  | bare ev => exact ⟨rfl, Or.inr (h ev rfl)⟩

theorem written_of_call (P : parse_bittorrent) (ts : timeval) (d : dir_t) (o : outcome)
    (h : ∀ e ∈ o.lines, ∀ ev, e = entry.bare ev → ∃ n, ev = log_event.unexpected_bytes n) :
    ∀ l ∈ P.written ts d o, line.of_call ts d l := by
  intro l hl
  unfold parse_bittorrent.written at hl
  split at hl
  · obtain ⟨e, he, rfl⟩ := List.mem_map.mp hl
    exact entry_line_of_call ts d e (h e he)
  · simp at hl

theorem run_block_lines (b : block) (hb : block_stamped b) (ts : timeval) (d : dir_t)
    (P : parse_bittorrent) (buf : List Nat) (f : flow)
    (h : run_block b ts d P buf = Except.ok f) : ∀ l ∈ f.lines, line.of_call ts d l := by
  unfold run_block at h
  split at h
  · split at h
    · cases h
    · split at h
      · cases h
        intro l hl
        simp [flow.lines] at hl
      · split at h
        · cases h
        · rename_i o ho
          have hw := written_of_call P ts d o (hb _ _ _ o ho)
          split at h <;> cases h <;> exact hw
  · cases h
    intro l hl
    simp [flow.lines] at hl

theorem flow.lines_after (o : List line) (f : flow) : (flow.after o f).lines = o ++ f.lines := by
  cases f <;> rfl

theorem run_blocks_lines (ts : timeval) (d : dir_t) (bs : List block)
    (hbs : ∀ b ∈ bs, block_stamped b) :
    ∀ (P : parse_bittorrent) (buf : List Nat) (f : flow),
      run_blocks ts d bs P buf = Except.ok f → ∀ l ∈ f.lines, line.of_call ts d l := by
  induction bs with
  | nil =>
    intro P buf f h
    cases h
    intro l hl
    simp [flow.lines] at hl
  | cons a t ih =>
    intro P buf f h
    simp only [run_blocks] at h
    cases h1 : run_block a ts d P buf with
    | error e => rw [h1] at h; cases h
    | ok f1 =>
      have s1 := run_block_lines a (hbs a (List.mem_cons_self _ _)) ts d P buf f1 h1
      rw [h1] at h
      cases f1 with
      | ret Q out =>
        cases h
        exact s1
      | next Q rest out =>
        simp only at h
        cases h2 : run_blocks ts d t Q rest with
        | error e => rw [h2] at h; cases h
        | ok f2 =>
          rw [h2] at h
          simp only [Except.map, Except.ok.injEq] at h
          subst h
          rw [flow.lines_after]
          intro l hl
          rcases List.mem_append.mp hl with h3 | h3
          · exact s1 l h3
          · exact ih (fun b hb => hbs b (List.mem_cons_of_mem _ hb)) Q rest f2 h2 l h3

theorem skip_block_of_call (ts : timeval) (d : dir_t) (Q : parse_bittorrent) (buf : List Nat) :
    ∀ l ∈ (skip_block ts d Q buf).2.2, line.of_call ts d l := by
  unfold skip_block
  split
  · apply written_of_call
    intro e he ev hev
    subst hev
    simp [skip_step] at he
  · intro l hl
    simp at hl

theorem message_loop_lines (bd : bdecode_fn) (ts : timeval) (d : dir_t) :
    ∀ (fuel : Nat) (P Q : parse_bittorrent) (buf : List Nat) (out : List line),
      message_loop bd ts d fuel P buf = Except.ok (Q, out) →
      ∀ l ∈ out, line.of_call ts d l := by
  intro fuel
  induction fuel with
  | zero =>
    intro P Q buf out h
    cases buf with
    | nil =>
      simp only [message_loop, Except.ok.injEq, Prod.mk.injEq] at h
      rw [← h.2]
      intro l hl
      simp at hl
    | cons a t => cases h
  | succ fuel ih =>
    intro P Q buf out h
    cases buf with
    | nil =>
      simp only [message_loop, Except.ok.injEq, Prod.mk.injEq] at h
      rw [← h.2]
      intro l hl
      simp at hl
    | cons a t =>
      simp only [message_loop] at h
      cases h1 : run_blocks ts d (message_blocks bd) P (a :: t) with
      | error e => rw [h1] at h; cases h
      | ok f1 =>
        have s1 := run_blocks_lines ts d _ (message_blocks_stamped bd) P (a :: t) f1 h1
        rw [h1] at h
        cases f1 with
        | ret Q1 o1 =>
          simp only [Except.ok.injEq, Prod.mk.injEq] at h
          rw [← h.2]
          exact s1
        | next Q1 rest o1 =>
          cases rest with
          | nil =>
            simp only [Except.ok.injEq, Prod.mk.injEq] at h
            rw [← h.2]
            exact s1
          | cons b r =>
            simp only at h
            cases h2 : message_loop bd ts d fuel (skip_block ts d Q1 (b :: r)).1
                (skip_block ts d Q1 (b :: r)).2.1 with
            | error e => rw [h2] at h; cases h
            | ok x =>
              rw [h2] at h
              simp only [result.after, Except.map, Except.ok.injEq, Prod.mk.injEq] at h
              have s3 := ih _ x.1 _ x.2 h2
              rw [← h.2]
              intro l hl
              rcases List.mem_append.mp hl with h3 | h3
              · rcases List.mem_append.mp h3 with h4 | h4
                · exact s1 l h4
                · exact skip_block_of_call ts d Q1 (b :: r) l h4
              · exact s3 l h3

theorem data_lines (bd : bdecode_fn) (ts : timeval) (d : dir_t) (P Q : parse_bittorrent)
    (buf : List Nat) (out : List line) (h : P.data bd ts buf d = Except.ok (Q, out)) :
    ∀ l ∈ out, line.of_call ts d l := by
  unfold parse_bittorrent.data at h
  split at h
  · simp only [Except.ok.injEq, Prod.mk.injEq] at h
    rw [← h.2]
    intro l hl
    simp at hl
  · split at h
    · simp only [Except.ok.injEq, Prod.mk.injEq] at h
      rw [← h.2]
      intro l hl
      split at hl
      · simp only [List.mem_singleton] at hl
        rw [hl]
        exact ⟨rfl, Or.inl rfl⟩
      · simp at hl
    · cases h1 : run_blocks ts d handshake_blocks P buf with
      | error e => rw [h1] at h; cases h
      | ok f1 =>
        have s1 := run_blocks_lines ts d _ handshake_blocks_stamped P buf f1 h1
        rw [h1] at h
        cases f1 with
        | ret Q1 o1 =>
          simp only [Except.ok.injEq, Prod.mk.injEq] at h
          rw [← h.2]
          exact s1
        | next Q1 rest o1 =>
          simp only at h
          cases h2 : message_loop bd ts d (3 * rest.length + 3) Q1 rest with
          | error e => rw [h2] at h; cases h
          | ok x =>
            rw [h2] at h
            simp only [result.after, Except.map, Except.ok.injEq, Prod.mk.injEq] at h
            rw [← h.2]
            intro l hl
            rcases List.mem_append.mp hl with h3 | h3
            · exact s1 l h3
            · exact message_loop_lines bd ts d _ Q1 x.1 rest x.2 h2 l h3

theorem render_of_call (ts : timeval) (d : dir_t) (l : line) (h : line.of_call ts d l)
    (hn : ∀ n, l.ev ≠ log_event.unexpected_bytes n) :
    render_line l = render_dir d ++ " " ++ render_ts ts ++ render_event l.ev ++ "\n" := by
  obtain ⟨h1, h2 | ⟨n, h2⟩⟩ := h
  · simp only [render_line, h1, h2, String.append_assoc]
  · exact absurd h2 (hn n)

set_option maxRecDepth 1000000 in
theorem pad_millis (m : Nat) (hm : m < 1000) :
    pad_number 10 3 m
      = String.mk [Nat.digitChar (m / 100), Nat.digitChar (m / 10 % 10), Nat.digitChar (m % 10)] := by
  revert m
  decide

theorem render_event_blank (ev : log_event) : ∃ t, render_event ev = " " ++ t := by
  cases ev <;> simp only [render_event, String.append_assoc] <;> exact ⟨_, rfl⟩

theorem digitChar_ne_lf (n : Nat) : Nat.digitChar n ≠ '\n' := by
  by_cases h : n < 16
  · interval_cases n <;> decide
  · have e : Nat.digitChar n = '*' := by
      unfold Nat.digitChar
      repeat rw [if_neg (by omega)]
    rw [e]
    decide

theorem toDigitsCore_no_lf (b : Nat) :
    ∀ (fuel n : Nat) (ds : List Char), '\n' ∉ ds → '\n' ∉ Nat.toDigitsCore b fuel n ds := by
  intro fuel
  induction fuel with
  | zero => intro n ds h; simpa [Nat.toDigitsCore] using h
  | succ f ih =>
    intro n ds h
    simp only [Nat.toDigitsCore]
    have h1 : '\n' ∉ Nat.digitChar (n % b) :: ds := by
      intro hc
      rcases List.mem_cons.mp hc with h2 | h2
      · exact digitChar_ne_lf _ h2.symm
      · exact h h2
    split
    · exact h1
    · exact ih _ _ h1

theorem toDigits_no_lf (b n : Nat) : '\n' ∉ Nat.toDigits b n :=
  toDigitsCore_no_lf b _ _ _ (by simp)

theorem nat_no_lf (n : Nat) : '\n' ∉ (toString n).data :=
  toDigits_no_lf 10 n

theorem int_no_lf (v : Int) : '\n' ∉ (toString v).data := by
  cases v with
  | ofNat m => exact toDigits_no_lf 10 m
  | negSucc m =>
    show '\n' ∉ ("-" ++ Nat.repr (Nat.succ m)).data
    rw [String.data_append]
    intro h
    rcases List.mem_append.mp h with h | h
    · revert h; decide
    · exact toDigits_no_lf 10 _ h

theorem pad_number_no_lf (b w n : Nat) : '\n' ∉ (pad_number b w n).data := by
  simp only [pad_number, List.mem_append, not_or]
  exact ⟨fun h => by simp [List.mem_replicate] at h, toDigits_no_lf b n⟩

theorem join_no_lf (l : List String) (h : ∀ s ∈ l, '\n' ∉ s.data) :
    '\n' ∉ (String.join l).data := by
  have key : ∀ (l : List String) (acc : String), '\n' ∉ acc.data → (∀ s ∈ l, '\n' ∉ s.data) →
      '\n' ∉ (l.foldl (fun r s => r ++ s) acc).data := by
    intro l
    induction l with
    | nil => intro acc ha _; simpa using ha
    | cons x t ih =>
      intro acc ha hl
      simp only [List.foldl_cons]
      apply ih
      · rw [String.data_append]
        intro hc
        rcases List.mem_append.mp hc with h1 | h1
        · exact ha h1
        · exact hl x (List.mem_cons_self _ _) h1
      · exact fun s hs => hl s (List.mem_cons_of_mem _ hs)
  exact key l "" (by decide) h

theorem hex_bytes_no_lf (b : List Nat) : '\n' ∉ (hex_bytes b).data := by
  apply join_no_lf
  intro s hs
  obtain ⟨c, -, rfl⟩ := List.mem_map.mp hs
  exact pad_number_no_lf 16 2 c

theorem bit_string_no_lf (b : List Nat) : '\n' ∉ (bit_string b).data := by
  apply join_no_lf
  intro s hs
  obtain ⟨c, -, rfl⟩ := List.mem_map.mp hs
  exact pad_number_no_lf 2 8 _

set_option maxRecDepth 100000 in
theorem printable_char (c : Nat) (h1 : 32 ≤ c) (h2 : c < 127) : Char.ofNat c ≠ '\n' := by
  interval_cases c <;> decide

theorem printable_no_lf (b : List Nat) : '\n' ∉ (printable b).data := by
  simp only [printable, List.mem_map, not_exists, not_and]
  intro c _
  split
  · rename_i h
    exact printable_char c h.1 h.2
  · decide

theorem msg_type_name_no_lf (msg : Int) : '\n' ∉ (msg_type_name msg).data := by
  unfold msg_type_name
  simp only []
  split
  · rename_i h
    obtain ⟨h0, h1⟩ := h
    simp only [List.length_cons, List.length_nil] at h1
    generalize msg.toNat = k at h1
    interval_cases k <;> decide
  · simp only [String.data_append, List.mem_append, not_or]
    exact ⟨⟨by decide, int_no_lf msg⟩, by decide⟩

theorem render_dir_no_lf (d : dir_t) : '\n' ∉ (render_dir d).data := by
  cases d <;> decide

theorem render_ts_no_lf (ts : timeval) : '\n' ∉ (render_ts ts).data := by
  simp only [render_ts, String.data_append, List.mem_append, not_or]
  exact ⟨⟨nat_no_lf _, by decide⟩, pad_number_no_lf 10 3 _⟩

theorem render_socket_event_no_lf (e : socket_event_t) :
    '\n' ∉ (render_socket_event e).data := by
  cases e <;> decide

theorem lit_no_lf (a b : String) (ha : '\n' ∉ a.data) (hb : '\n' ∉ b.data) :
    '\n' ∉ (a ++ b).data := by
  rw [String.data_append]
  intro h
  rcases List.mem_append.mp h with h | h
  · exact ha h
  · exact hb h

/-- The text of an event the dissector makes itself holds no line feed. -/
theorem render_event_no_lf (ev : log_event) (h : ev.foreign_text = false) :
    '\n' ∉ (render_event ev).data := by
  cases ev <;> simp only [log_event.foreign_text, Bool.true_eq_false] at h <;>
    simp only [render_event] <;>
    first
    | decide
    | (repeat' apply lit_no_lf) <;>
        first
        | decide
        | exact nat_no_lf _
        | exact hex_bytes_no_lf _
        | exact bit_string_no_lf _
        | exact printable_no_lf _
        | exact msg_type_name_no_lf _
        | exact render_socket_event_no_lf _
        | exact toDigits_no_lf _ _

/-- C31 (format of the transcript lines), amended.  What a call `data(ts, buf, d)`
writes in one statement, other than the line of `check_zero`, and what a call
`event(ts, e, d)` writes, is the direction, a blank, the time stamp, the text of the
event, which begins with a blank, and a line feed; everything written ends with a line
feed.  It is one line of the transcript when the text of the event holds no line feed,
which is so for every event but the three whose text comes from outside the dissector
(`foreign_text`: the name of an extension, the printed extension handshake, the error
message of the decoder).  The direction is written as a colour escape followed by two
characters: `ESC[34m<<` for `in` and `ESC[33m>>` for `out`.  The time stamp is the
seconds, a dot and `tv_usec / 1000` padded with zeros to three digits; for
`tv_usec < 10^6` these are the three decimal digits of the milliseconds. -/
theorem transcript_line_format (bd : bdecode_fn) (P : parse_bittorrent) (ts : timeval)
    (buf : List Nat) (d : dir_t) (e : socket_event_t) :
    (∀ Q out, P.data bd ts buf d = Except.ok (Q, out) →
      ∀ l ∈ out, (∀ n, l.ev ≠ log_event.unexpected_bytes n) →
        render_line l = render_dir d ++ " " ++ render_ts ts ++ render_event l.ev ++ "\n"
        ∧ ('\n' ∉ (render_event l.ev).data →
            '\n' ∉ (render_dir d ++ " " ++ render_ts ts ++ render_event l.ev).data)
        ∧ (l.ev.foreign_text = false → '\n' ∉ (render_event l.ev).data))
    ∧ (∀ l ∈ (P.event ts e d).2,
        render_line l
          = render_dir d ++ " " ++ render_ts ts ++ " " ++ render_socket_event e ++ "\n"
        ∧ '\n' ∉ (render_dir d ++ " " ++ render_ts ts ++ " " ++ render_socket_event e).data)
    ∧ (∀ l : line, ∃ t, render_line l = t ++ "\n")
    ∧ (∀ ev, ∃ t, render_event ev = " " ++ t)
    ∧ render_dir dir_t.in_ = "\x1b[34m<<"
    ∧ render_dir dir_t.out = "\x1b[33m>>"
    ∧ render_ts ts = toString ts.tv_sec ++ "." ++ pad_number 10 3 (ts.tv_usec / 1000)
    ∧ (ts.tv_usec < 1000000 →
        pad_number 10 3 (ts.tv_usec / 1000)
          = String.mk [Nat.digitChar (ts.tv_usec / 1000 / 100),
              Nat.digitChar (ts.tv_usec / 1000 / 10 % 10),
              Nat.digitChar (ts.tv_usec / 1000 % 10)]) := by
  have hhead : '\n' ∉ (render_dir d ++ " " ++ render_ts ts).data :=
    lit_no_lf _ _ (lit_no_lf _ _ (render_dir_no_lf d) (by decide)) (render_ts_no_lf ts)
  refine ⟨?_, ?_, fun l => ⟨_, rfl⟩, render_event_blank, rfl, rfl, rfl, ?_⟩
  · intro Q out h l hl hn
    exact ⟨render_of_call ts d l (data_lines bd ts d P Q buf out h l hl) hn,
      fun h1 => lit_no_lf _ _ hhead h1, render_event_no_lf l.ev⟩
  · intro l hl
    simp only [parse_bittorrent.event] at hl
    split at hl
    · simp only [List.mem_singleton] at hl
      rw [hl]
      refine ⟨by simp only [render_line, render_event, String.append_assoc], ?_⟩
      exact lit_no_lf _ _ (lit_no_lf _ _ hhead (by decide)) (render_socket_event_no_lf e)
    · simp at hl
  · intro h
    exact pad_millis _ (by omega)

/-- Witness for `transcript_line_format`: the first line of the handshake of direction
`out` on a fresh dissector, at time 1.000500. -/
theorem transcript_line_format_witness :
    (render_line ⟨dir_t.out, some ex_ts, log_event.handshake⟩
        = render_dir dir_t.out ++ " " ++ render_ts ex_ts ++ render_event log_event.handshake
          ++ "\n"
      ∧ ('\n' ∉ (render_event log_event.handshake).data →
          '\n' ∉ (render_dir dir_t.out ++ " " ++ render_ts ex_ts
            ++ render_event log_event.handshake).data)
      ∧ (log_event.handshake.foreign_text = false →
          '\n' ∉ (render_event log_event.handshake).data))
    ∧ (ex_ts.tv_usec < 1000000 →
        pad_number 10 3 (ex_ts.tv_usec / 1000)
          = String.mk [Nat.digitChar (ex_ts.tv_usec / 1000 / 100),
              Nat.digitChar (ex_ts.tv_usec / 1000 / 10 % 10),
              Nat.digitChar (ex_ts.tv_usec / 1000 % 10)]) :=
  ⟨(transcript_line_format ex_bdecode c4_state ex_ts c6_handshake dir_t.out
      socket_event_t.fin).1 c18_state _ (by rfl)
      ⟨dir_t.out, some ex_ts, log_event.handshake⟩ (by decide) (by simp),
    (transcript_line_format ex_bdecode c4_state ex_ts c6_handshake dir_t.out
      socket_event_t.fin).2.2.2.2.2.2.2⟩

/-! ## Termination of the dissector -/

theorem run_block_no_div (b : block) (r : Nat) (hok : block_ok b r) (ts : timeval) (d : dir_t)
    (P : parse_bittorrent) (buf : List Nat) :
    run_block b ts d P buf ≠ Except.error fault.diverges := by
  intro h
  unfold run_block at h
  split at h
  · split at h
    · rename_i e he
      cases h
      unfold ensure_buffer at he
      split at he
      · cases he
      · split at he <;> cases he
    · split at h
      · cases h
      · split at h
        · rename_i e he
          cases h
          exact hok.no_div _ _ _ he
        · split at h <;> cases h
  · cases h

theorem run_blocks_no_div (ts : timeval) (d : dir_t) (bs : List block) :
    ∀ r, ranked bs r → ∀ (P : parse_bittorrent) (buf : List Nat),
      run_blocks ts d bs P buf ≠ Except.error fault.diverges := by
  induction bs with
  | nil =>
    intro r _ P buf h
    cases h
  | cons a t ih =>
    intro r hr P buf h
    simp only [run_blocks] at h
    cases h1 : run_block a ts d P buf with
    | error e =>
      rw [h1] at h
      cases h
      exact run_block_no_div a r hr.1 ts d P buf h1
    | ok f =>
      rw [h1] at h
      cases f with
      | ret Q out => cases h
      | next Q rest out =>
        simp only at h
        cases h2 : run_blocks ts d t Q rest with
        | error e =>
          rw [h2] at h
          simp only [Except.map, Except.error.injEq] at h
          subst h
          exact ih (r + 1) hr.2 Q rest h2
        | ok f2 =>
          rw [h2] at h
          cases h

theorem run_blocks_end (ts : timeval) (d : dir_t) (bs : List block) :
    ∀ r, ranked bs r → r + bs.length ≤ 13 →
    ∀ (P Q : parse_bittorrent) (buf rest : List Nat) (out : List line),
      run_blocks ts d bs P buf = Except.ok (flow.next Q rest out) →
      (Q = P ∧ rest = buf ∧ out = [] ∧ ∀ b ∈ bs, ¬ b.guard (P.state_.get d).state_ = true)
      ∨ ((Q.state_.get d).buffer_ = []
          ∧ ((Q.state_.get d).state_ = state_t.length
            ∨ r + bs.length ≤ rank (Q.state_.get d).state_)
          ∧ rest.length ≤ buf.length
          ∧ (rest.length = buf.length →
              rest = buf ∧ ∃ b ∈ bs, b.guard (P.state_.get d).state_ = true
                ∧ b.need (P.state_.get d).skip_ ≤ (P.state_.get d).buffer_.length)) := by
  induction bs with
  | nil =>
    intro r _ _ P Q buf rest out h
    simp only [run_blocks] at h
    cases h
    exact Or.inl ⟨rfl, rfl, rfl, fun b hb => by simp at hb⟩
  | cons a t ih =>
    intro r hr h13 P Q buf rest out h
    simp only [List.length_cons] at h13
    simp only [run_blocks] at h
    cases h1 : run_block a ts d P buf with
    | error e => simp [h1] at h
    | ok f =>
      cases f with
      | ret Q1 o1 => simp [h1] at h
      | next Q1 rest1 o1 =>
        simp only [h1] at h
        cases h2 : run_blocks ts d t Q1 rest1 with
        | error e => simp [h2, Except.map] at h
        | ok f2 =>
          cases f2 with
          | ret Q2 o2 => simp [h2, Except.map, flow.after] at h
          | next Q2 rest2 o2 =>
            simp only [h2, Except.map, flow.after, Except.ok.injEq, flow.next.injEq] at h
            obtain ⟨rfl, rfl, rfl⟩ := h
            have hi := ih (r + 1) hr.2 (by omega) Q1 Q2 rest1 rest2 o2 h2
            rcases run_block_next a r hr.1 ts d P Q1 buf rest1 o1 h1 with
              ⟨hg, rfl, rfl, rfl⟩ | ⟨hg, hl, hb, hs, hz⟩
            · rcases hi with ⟨k1, k2, k3, k4⟩ | ⟨k1, k2, k3, k4⟩
              · refine Or.inl ⟨k1, k2, by simp [k3], ?_⟩
                intro b hb
                rcases List.mem_cons.mp hb with h | h
                · rw [h]; simp [hg]
                · exact k4 b h
              · refine Or.inr ⟨k1, ?_, k3, ?_⟩
                · simp only [List.length_cons]
                  rcases k2 with h | h
                  · exact Or.inl h
                  · exact Or.inr (by omega)
                · intro hc
                  obtain ⟨e1, b, hb1, hb2⟩ := k4 hc
                  exact ⟨e1, b, List.mem_cons_of_mem _ hb1, hb2⟩
            · rcases hi with ⟨k1, k2, k3, k4⟩ | ⟨k1, k2, k3, k4⟩
              · subst k1; subst k2
                refine Or.inr ⟨hb, ?_, hl, ?_⟩
                · rcases hs with h | h
                  · exact Or.inl h
                  · right
                    simp only [List.length_cons]
                    by_contra hcon
                    obtain ⟨b, hb1, hg1⟩ := ranked_covers t (r + 1) hr.2
                      (Q2.state_.get d).state_ (by omega) (by omega)
                    exact k4 b hb1 hg1
                · intro hc
                  exact ⟨(hz hc).1, a, List.mem_cons_self _ _, hg, (hz hc).2⟩
              · refine Or.inr ⟨k1, ?_, by omega, ?_⟩
                · simp only [List.length_cons]
                  rcases k2 with h | h
                  · exact Or.inl h
                  · exact Or.inr (by omega)
                · intro hc
                  have h1c : rest1.length = buf.length := by omega
                  obtain ⟨e1, hfull⟩ := hz h1c
                  have h2c : rest2.length = rest1.length := by omega
                  exact ⟨(k4 h2c).1.trans e1, a, List.mem_cons_self _ _, hg, hfull⟩

theorem zero_need_block (bd : bdecode_fn) (b : block) (hb : b ∈ message_blocks bd)
    (s : bittorrent_side_state) (hg : b.guard s.state_ = true) (hn : b.need s.skip_ = 0) :
    (s.state_ = state_t.bitfield ∨ s.state_ = state_t.extension_handshake) ∧ s.skip_ = 0 := by
  simp only [message_blocks, List.mem_cons, List.mem_singleton, List.not_mem_nil,
    or_false] at hb
  rcases hb with rfl | rfl | rfl | rfl | rfl | rfl | rfl | rfl | rfl
  · simp [length_block] at hn
  · simp [msg_block] at hn
  · simp [have_block] at hn
  · simp [extension_block] at hn
  · simp only [extension_handshake_block] at hn hg
    exact ⟨Or.inr (by simpa using hg), hn⟩
  · simp [request_block] at hn
  · simp [piece_block] at hn
  · simp [dht_port_block] at hn
  · simp only [bitfield_block] at hn hg
    exact ⟨Or.inl (by simpa using hg), hn⟩

/-- What one iteration of the message loop that goes on to the next one does: `P` and
`buf` are the state and the slice it starts with, `Q` and `rest` what the blocks leave,
and the `skip` block leaves a slice that is not empty. -/
theorem loop_iter_cases (bd : bdecode_fn) (ts : timeval) (d : dir_t)
    (P Q : parse_bittorrent) (buf rest : List Nat) (out : List line)
    (h4 : 4 ≤ rank (P.state_.get d).state_)
    (h : run_blocks ts d (message_blocks bd) P buf = Except.ok (flow.next Q rest out))
    (hr : (skip_block ts d Q rest).2.1 ≠ []) :
    ((skip_block ts d Q rest).1.state_.get d).state_ = state_t.length
    ∧ (((skip_block ts d Q rest).2.1.length < buf.length
        ∧ (idle (P.state_.get d) = 0 →
            ((skip_block ts d Q rest).1.state_.get d).buffer_ = []))
      ∨ ((skip_block ts d Q rest).2.1 = buf
        ∧ idle ((skip_block ts d Q rest).1.state_.get d) < idle (P.state_.get d)
        ∧ (((P.state_.get d).state_ = state_t.skip ∧ (P.state_.get d).skip_ = 0)
          ∨ ∃ b ∈ message_blocks bd, b.guard (P.state_.get d).state_ = true
              ∧ b.need (P.state_.get d).skip_ ≤ (P.state_.get d).buffer_.length))) := by
  have hblen : (message_blocks bd).length = 9 := rfl
  have hsk : ∀ S : parse_bittorrent, (S.state_.get d).state_ = state_t.skip →
      (skip_block ts d S rest).2.1 ≠ [] →
      ((skip_block ts d S rest).1.state_.get d).state_ = state_t.length
      ∧ ((skip_block ts d S rest).1.state_.get d).buffer_ = (S.state_.get d).buffer_
      ∧ (skip_block ts d S rest).2.1.length ≤ rest.length
      ∧ ((skip_block ts d S rest).2.1.length = rest.length →
          (skip_block ts d S rest).2.1 = rest ∧ (S.state_.get d).skip_ = 0) := by
    intro S hs hne
    simp only [skip_block, hs, if_true, parse_bittorrent.apply_get, skip_step] at hne ⊢
    have hdl : (List.drop (min rest.length (S.state_.get d).skip_) rest).length
        = rest.length - min rest.length (S.state_.get d).skip_ := List.length_drop _ _
    have hpos : 0 < (List.drop (min rest.length (S.state_.get d).skip_) rest).length :=
      List.length_pos.mpr hne
    have h0 : (S.state_.get d).skip_ - min rest.length (S.state_.get d).skip_ = 0 := by omega
    rw [if_pos h0]
    refine ⟨rfl, rfl, by omega, ?_⟩
    intro he
    have hz : min rest.length (S.state_.get d).skip_ = 0 := by omega
    rw [hz]
    exact ⟨rfl, by omega⟩
  rcases run_blocks_end ts d _ 4 (message_blocks_ranked bd) (by rw [hblen]) P Q buf rest out h
    with ⟨k1, k2, k3, k4⟩ | ⟨k1, k2, k3, k4⟩
  · -- no block is for the state: it is `skip`
    subst k1; subst k2
    by_cases hs : (Q.state_.get d).state_ = state_t.skip
    · obtain ⟨j1, j2, j3, j4⟩ := hsk Q hs hr
      refine ⟨j1, ?_⟩
      have hidle : idle (Q.state_.get d) = 2 := by simp [idle, hs]
      by_cases hc : (skip_block ts d Q rest).2.1.length = rest.length
      · right
        refine ⟨(j4 hc).1, ?_, Or.inl ⟨hs, (j4 hc).2⟩⟩
        rw [hidle]
        unfold idle
        rw [j1]
        simp only [reduceCtorEq, if_false]
        split <;> omega
      · left
        exact ⟨by omega, fun h0 => by omega⟩
    · -- a state of the message loop other than `skip` has its block
      exfalso
      have h13 : rank (Q.state_.get d).state_ < 4 + (message_blocks bd).length := by
        rw [hblen]
        by_contra hcon
        exact hs (rank_skip _ (by omega))
      obtain ⟨b, hb, hg⟩ := ranked_covers _ 4 (message_blocks_ranked bd) _ h4 h13
      exact k4 b hb hg
  · -- some block was run
    by_cases hs : (Q.state_.get d).state_ = state_t.skip
    · obtain ⟨j1, j2, j3, j4⟩ := hsk Q hs hr
      refine ⟨j1, ?_⟩
      by_cases hc : (skip_block ts d Q rest).2.1.length = buf.length
      · right
        have hc1 : (skip_block ts d Q rest).2.1.length = rest.length := by omega
        have hc2 : rest.length = buf.length := by omega
        obtain ⟨e1, b, hb, hg, hn⟩ := k4 hc2
        refine ⟨(j4 hc1).1.trans e1, ?_, Or.inr ⟨b, hb, hg, hn⟩⟩
        have hP : idle (P.state_.get d) = 1 := by
          have hrk := ranked_guard _ 4 (message_blocks_ranked bd) b hb _ hg
          rw [hblen] at hrk
          unfold idle
          have n1 : (P.state_.get d).state_ ≠ state_t.skip := by
            intro hx
            rw [hx] at hrk
            simp [rank] at hrk
          rw [if_neg n1]
          have n2 : ¬ ((P.state_.get d).state_ = state_t.length
              ∧ (P.state_.get d).buffer_ = []) := by
            intro ⟨hx, hy⟩
            have hb4 : b.guard state_t.length = true := by rw [← hx]; exact hg
            have := zero_need_block bd b hb (P.state_.get d) hg (by rw [hy] at hn; simpa using hn)
            rw [hx] at this
            rcases this.1 with h | h <;> cases h
          rw [if_neg n2]
        rw [hP]
        unfold idle
        rw [j1, j2, k1]
        simp
      · left
        refine ⟨by omega, fun _ => ?_⟩
        rw [j2, k1]
    · rw [skip_block_other ts d Q rest hs] at hr ⊢
      have hlen : (Q.state_.get d).state_ = state_t.length := by
        rcases k2 with h | h
        · exact h
        · rw [hblen] at h
          exact absurd (rank_skip _ h) hs
      refine ⟨hlen, ?_⟩
      by_cases hc : rest.length = buf.length
      · right
        obtain ⟨e1, b, hb, hg, hn⟩ := k4 hc
        refine ⟨e1, ?_, Or.inr ⟨b, hb, hg, hn⟩⟩
        have hP : idle (P.state_.get d) = 1 := by
          have hrk := ranked_guard _ 4 (message_blocks_ranked bd) b hb _ hg
          rw [hblen] at hrk
          unfold idle
          have n1 : (P.state_.get d).state_ ≠ state_t.skip := by
            intro hx
            rw [hx] at hrk
            simp [rank] at hrk
          rw [if_neg n1]
          have n2 : ¬ ((P.state_.get d).state_ = state_t.length
              ∧ (P.state_.get d).buffer_ = []) := by
            intro ⟨hx, hy⟩
            have := zero_need_block bd b hb (P.state_.get d) hg (by rw [hy] at hn; simpa using hn)
            rw [hx] at this
            rcases this.1 with h | h <;> cases h
          rw [if_neg n2]
        rw [hP]
        simp [idle, hlen, k1]
      · left
        exact ⟨by show rest.length < buf.length; omega, fun _ => k1⟩

theorem idle_of_length (s : bittorrent_side_state) (h : s.state_ = state_t.length) :
    idle s ≤ 1 ∧ (s.buffer_ = [] → idle s = 0) := by
  unfold idle
  rw [h]
  simp only [reduceCtorEq, if_false, true_and]
  constructor
  · split <;> omega
  · intro hb
    rw [if_pos hb]

theorem message_loop_bound (bd : bdecode_fn) (ts : timeval) (d : dir_t) :
    ∀ (fuel : Nat) (P : parse_bittorrent) (buf : List Nat),
      4 ≤ rank (P.state_.get d).state_ →
      (buf ≠ [] → buf.length + idle (P.state_.get d) ≤ fuel) →
      message_loop bd ts d fuel P buf ≠ Except.error fault.diverges := by
  intro fuel
  induction fuel with
  | zero =>
    intro P buf _ h
    cases buf with
    | nil => simp [message_loop]
    | cons a t =>
      have := h (by simp)
      simp at this
  | succ f ih =>
    intro P buf h4 h
    cases buf with
    | nil => simp [message_loop]
    | cons a t =>
      have hf := h (by simp)
      obtain ⟨k1, k2⟩ := run_blocks_keeps ts d _ 4 (message_blocks_ranked bd) (Nat.le_refl _)
        P (a :: t) h4
      simp only [message_loop]
      cases h1 : run_blocks ts d (message_blocks bd) P (a :: t) with
      | error e =>
        intro hc
        cases hc
        exact k1 h1
      | ok fl =>
        cases fl with
        | ret Q out => simp
        | next Q rest out =>
          cases rest with
          | nil => simp
          | cons b rest =>
            simp only
            have hQ := (k2 _ h1).1
            simp only [flow.state] at hQ
            apply result.after_ne_diverges
            apply ih
            · exact (skip_block_keeps ts d Q (b :: rest) hQ).1
            · intro hne
              obtain ⟨c1, c2⟩ := loop_iter_cases bd ts d P Q (a :: t) (b :: rest) out h4 h1 hne
              obtain ⟨i1, i2⟩ := idle_of_length _ c1
              rcases c2 with ⟨c3, c4⟩ | ⟨c3, c4, _⟩
              · by_cases h0 : idle (P.state_.get d) = 0
                · rw [i2 (c4 h0)]
                  omega
                · omega
              · rw [c3]
                omega

theorem ranked_unique (bs : List block) :
    ∀ r, ranked bs r → ∀ b ∈ bs, ∀ b1 ∈ bs, ∀ st, b.guard st = true → b1.guard st = true →
      b1 = b := by
  induction bs with
  | nil => intro r _ b hb; simp at hb
  | cons a t ih =>
    intro r hr b hb b1 hb1 st hg hg1
    rcases List.mem_cons.mp hb with h | h
    · rcases List.mem_cons.mp hb1 with h1 | h1
      · rw [h, h1]
      · exfalso
        subst h
        have e1 := (hr.1.guard_iff st).mp hg
        have e2 := (ranked_guard t (r + 1) hr.2 b1 h1 st hg1).1
        omega
    · rcases List.mem_cons.mp hb1 with h1 | h1
      · exfalso
        subst h1
        have e1 := (hr.1.guard_iff st).mp hg1
        have e2 := (ranked_guard t (r + 1) hr.2 b h st hg).1
        omega
      · exact ih (r + 1) hr.2 b h b1 h1 st hg hg1

theorem side_ready_of_empty (bd : bdecode_fn) (s : bittorrent_side_state)
    (h : s.buffer_ = []) : side_ready bd s :=
  fun _ => ⟨fun _ => h, fun _ _ _ => Or.inl h⟩

theorem side_ready_of_rank (bd : bdecode_fn) (s : bittorrent_side_state)
    (h : rank s.state_ < 4) : side_ready bd s :=
  fun h4 => absurd h4 (by omega)

theorem handshake_stop : ∀ b ∈ handshake_blocks, ∀ io s other o,
    b.guard s.state_ = true → b.body io s other = Except.ok o → o.stop = true →
    rank o.s.state_ < 4 := by
  intro b hb io s other o hg h hs
  simp only [handshake_blocks, List.mem_cons, List.mem_singleton, List.not_mem_nil,
    or_false] at hb
  rcases hb with rfl | rfl | rfl | rfl
  · simp only [protocol_block] at h hg
    split at h
    · cases h
      have : s.state_ = state_t.protocol := by simpa using hg
      rw [this]
      decide
    · cases h
      cases hs
  · simp only [reserved_block] at h
    cases h
    cases hs
  · simp only [info_hash_block] at h
    cases h
    cases hs
  · simp only [peer_id_block] at h
    cases h
    cases hs

/-- One block leaves the buffer of the direction as `side_ready` says: `b` is a block
of the message loop, or a block before it. -/
theorem run_block_ready (bd : bdecode_fn) (b : block) (r : Nat) (hok : block_ok b r)
    (hb : b ∈ message_blocks bd ∨ b ∈ handshake_blocks)
    (ts : timeval) (d : dir_t) (P : parse_bittorrent) (buf : List Nat) (f : flow)
    (hP : side_ready bd (P.state_.get d))
    (h : run_block b ts d P buf = Except.ok f) : side_ready bd (f.state.state_.get d) := by
  unfold run_block at h
  split at h
  · rename_i hg
    split at h
    · cases h
    · rename_i s rest he
      obtain ⟨hs1, hs2⟩ := ensure_buffer_fields _ _ _ _ _ he
      split at h
      · rename_i hshort
        cases h
        show side_ready bd ((P.set d s).state_.get d)
        rw [parse_bittorrent.get_of_set]
        intro h4
        rw [hs1] at h4 ⊢
        rw [hs2]
        have hrk := (hok.guard_iff _).mp hg
        rcases hb with hb | hb
        · have hr12 := (ranked_guard _ 4 (message_blocks_ranked bd) b hb _ hg).2
          refine ⟨?_, ?_⟩
          · intro hsk
            rw [hsk] at hr12
            simp [rank, message_blocks] at hr12
          · intro b1 hb1 hg1
            have := ranked_unique _ 4 (message_blocks_ranked bd) b hb b1 hb1 _ hg hg1
            rw [this]
            exact Or.inr hshort
        · have hr3 := (ranked_guard _ 0 handshake_blocks_ranked b hb _ hg).2
          simp only [handshake_blocks, List.length_cons, List.length_nil] at hr3
          omega
      · split at h
        · cases h
        · rename_i o ho
          have hg' : b.guard s.state_ = true := by rw [hs1]; exact hg
          have hready : side_ready bd o.s := by
            by_cases hstop : o.stop = true
            · rcases hb with hb | hb
              · have hr4 := (ranked_guard _ 4 (message_blocks_ranked bd) b hb _ hg).1
                have hrk := (hok.guard_iff _).mp hg
                have := hok.nostop (by omega) _ _ _ _ ho
                rw [this] at hstop
                cases hstop
              · exact side_ready_of_rank bd _ (handshake_stop b hb _ _ _ _ hg' ho hstop)
            · have hstop' : o.stop = false := by simpa using hstop
              exact side_ready_of_empty bd _ (hok.fwd _ _ _ _ hg' ho hstop').1
          split at h <;> cases h <;>
            (show side_ready bd ((P.apply d o).state_.get d)
             rw [parse_bittorrent.apply_get]
             exact hready)
  · cases h
    exact hP

theorem run_blocks_ready (bd : bdecode_fn) (ts : timeval) (d : dir_t) (bs : List block) :
    ∀ r, ranked bs r → (∀ b ∈ bs, b ∈ message_blocks bd ∨ b ∈ handshake_blocks) →
    ∀ (P : parse_bittorrent) (buf : List Nat) (f : flow),
      side_ready bd (P.state_.get d) → run_blocks ts d bs P buf = Except.ok f →
      side_ready bd (f.state.state_.get d) := by
  induction bs with
  | nil =>
    intro r _ _ P buf f hP h
    cases h
    exact hP
  | cons a t ih =>
    intro r hr hmem P buf f hP h
    simp only [run_blocks] at h
    cases h1 : run_block a ts d P buf with
    | error e => rw [h1] at h; cases h
    | ok f1 =>
      have s1 := run_block_ready bd a r hr.1 (hmem a (List.mem_cons_self _ _)) ts d P buf f1 hP h1
      rw [h1] at h
      cases f1 with
      | ret Q out =>
        cases h
        exact s1
      | next Q rest out =>
        simp only at h
        cases h2 : run_blocks ts d t Q rest with
        | error e => rw [h2] at h; cases h
        | ok f2 =>
          rw [h2] at h
          simp only [Except.map, Except.ok.injEq] at h
          subst h
          rw [flow.state_after]
          exact ih (r + 1) hr.2 (fun b hb => hmem b (List.mem_cons_of_mem _ hb)) Q rest f2 s1 h2

theorem skip_block_ready (bd : bdecode_fn) (ts : timeval) (d : dir_t) (Q : parse_bittorrent)
    (buf : List Nat) (hQ : side_ready bd (Q.state_.get d)) :
    side_ready bd ((skip_block ts d Q buf).1.state_.get d) := by
  unfold skip_block
  split
  · rename_i hs
    simp only [parse_bittorrent.apply_get]
    apply side_ready_of_empty
    have hb : (Q.state_.get d).buffer_ = [] := (hQ (by rw [hs]; decide)).1 hs
    simp only [skip_step]
    split <;> exact hb
  · exact hQ

theorem message_loop_ready (bd : bdecode_fn) (ts : timeval) (d : dir_t) :
    ∀ (fuel : Nat) (P Q : parse_bittorrent) (buf : List Nat) (out : List line),
      side_ready bd (P.state_.get d) →
      message_loop bd ts d fuel P buf = Except.ok (Q, out) →
      side_ready bd (Q.state_.get d) := by
  have hmem : ∀ b ∈ message_blocks bd, b ∈ message_blocks bd ∨ b ∈ handshake_blocks :=
    fun b hb => Or.inl hb
  intro fuel
  induction fuel with
  | zero =>
    intro P Q buf out hP h
    cases buf with
    | nil =>
      simp only [message_loop, Except.ok.injEq, Prod.mk.injEq] at h
      rw [← h.1]
      exact hP
    | cons a t => cases h
  | succ fuel ih =>
    intro P Q buf out hP h
    cases buf with
    | nil =>
      simp only [message_loop, Except.ok.injEq, Prod.mk.injEq] at h
      rw [← h.1]
      exact hP
    | cons a t =>
      simp only [message_loop] at h
      cases h1 : run_blocks ts d (message_blocks bd) P (a :: t) with
      | error e => rw [h1] at h; cases h
      | ok f1 =>
        have s1 := run_blocks_ready bd ts d _ 4 (message_blocks_ranked bd) hmem P (a :: t) f1
          hP h1
        rw [h1] at h
        cases f1 with
        | ret Q1 o1 =>
          simp only [Except.ok.injEq, Prod.mk.injEq] at h
          rw [← h.1]
          exact s1
        | next Q1 rest o1 =>
          cases rest with
          | nil =>
            simp only [Except.ok.injEq, Prod.mk.injEq] at h
            rw [← h.1]
            exact s1
          | cons b r =>
            simp only at h
            cases h2 : message_loop bd ts d fuel (skip_block ts d Q1 (b :: r)).1
                (skip_block ts d Q1 (b :: r)).2.1 with
            | error e => rw [h2] at h; cases h
            | ok x =>
              rw [h2] at h
              simp only [result.after, Except.map, Except.ok.injEq, Prod.mk.injEq] at h
              rw [← h.1]
              exact ih _ x.1 _ x.2 (skip_block_ready bd ts d Q1 (b :: r) s1) h2

theorem data_ready (bd : bdecode_fn) (ts : timeval) (d : dir_t) (P Q : parse_bittorrent)
    (buf : List Nat) (out : List line) (hP : side_ready bd (P.state_.get d))
    (h : P.data bd ts buf d = Except.ok (Q, out)) : side_ready bd (Q.state_.get d) := by
  have hmem : ∀ b ∈ handshake_blocks, b ∈ message_blocks bd ∨ b ∈ handshake_blocks :=
    fun b hb => Or.inr hb
  unfold parse_bittorrent.data at h
  split at h
  · simp only [Except.ok.injEq, Prod.mk.injEq] at h
    rw [← h.1]
    exact hP
  · split at h
    · simp only [Except.ok.injEq, Prod.mk.injEq] at h
      rw [← h.1]
      exact hP
    · cases h1 : run_blocks ts d handshake_blocks P buf with
      | error e => rw [h1] at h; cases h
      | ok f1 =>
        have s1 := run_blocks_ready bd ts d _ 0 handshake_blocks_ranked hmem P buf f1 hP h1
        rw [h1] at h
        cases f1 with
        | ret Q1 o1 =>
          simp only [Except.ok.injEq, Prod.mk.injEq] at h
          rw [← h.1]
          exact s1
        | next Q1 rest o1 =>
          simp only at h
          cases h2 : message_loop bd ts d (3 * rest.length + 3) Q1 rest with
          | error e => rw [h2] at h; cases h
          | ok x =>
            rw [h2] at h
            simp only [result.after, Except.map, Except.ok.injEq, Prod.mk.injEq] at h
            rw [← h.1]
            exact message_loop_ready bd ts d _ Q1 x.1 rest x.2 s1 h2

theorem replay_ready (bd : bdecode_fn) :
    ∀ (cs : List call) (h0 : result) (P : parse_bittorrent) (out : List line),
      replay (bittorrent_handler bd) h0 cs = Except.ok (P, out) →
      ∃ P0 out0, h0 = Except.ok (P0, out0)
        ∧ ((∀ d1, side_ready bd (P0.state_.get d1)) → ∀ d1, side_ready bd (P.state_.get d1)) := by
  intro cs
  induction cs with
  | nil =>
    intro h0 P out h
    exact ⟨P, out, h, fun hi => hi⟩
  | cons c t ih =>
    intro h0 P out h
    cases c with
    | data ts buf d =>
      obtain ⟨P1, o1, e1, hi1⟩ := ih _ P out h
      cases h0 with
      | error e => cases e1
      | ok x =>
        refine ⟨x.1, x.2, rfl, fun hi => hi1 ?_⟩
        simp only [bittorrent_handler, Except.bind] at e1
        cases hd : x.1.data bd ts buf d with
        | error e => rw [hd] at e1; cases e1
        | ok y =>
          rw [hd] at e1
          simp only [result.after, Except.map, Except.ok.injEq, Prod.mk.injEq] at e1
          rw [← e1.1]
          intro d1
          rcases dir_cases d d1 with rfl | rfl
          · exact data_ready bd ts d1 x.1 y.1 buf y.2 (hi d1) hd
          · rw [(data_log bd ts d x.1 y.1 buf y.2 hd).other]
            exact hi _
    | event ts e d =>
      obtain ⟨P1, o1, e1, hi1⟩ := ih _ P out h
      cases h0 with
      | error e => cases e1
      | ok x =>
        refine ⟨x.1, x.2, rfl, fun hi => hi1 ?_⟩
        simp only [bittorrent_handler, Except.map, Except.ok.injEq, Prod.mk.injEq] at e1
        rw [← e1.1]
        exact hi

/-- C36 (termination of the dissector).  For every dissector state `P`, direction `d`
and slice `buf`, `data` ends: its result is not that of a loop that runs out of
iterations.  When the blocks before the message loop fall through with the state `Q`
and the rest `rest` of the slice, `Q` is past the handshake and the result of `data` is
that of the loop limited to `2 * |rest| + 1` iterations, with `|rest| ≤ |buf|`; for
every state past the handshake the loop ends within that many iterations, and more
iterations granted change nothing.  In every state reached from a fresh dissector by
calls of `data` and `event`, the buffer of each direction is as `side_ready` says (it
holds fewer bytes than the state waits for); the blocks before the loop and every
iteration of the loop keep it so.  An iteration that starts with such a buffer and does
not return uses up the slice, or consumes at least one byte of it, or consumes none and
moves the direction to state `length` from `bitfield`, `extension_handshake` or `skip`
with `skip_ = 0`. -/
theorem dissector_terminates (bd : bdecode_fn) (ts : timeval) (d : dir_t)
    (P : parse_bittorrent) (buf : List Nat) :
    P.data bd ts buf d ≠ Except.error fault.diverges
    ∧ (∀ Q rest out, P.disabled_ = false → buf ≠ [] →
        run_blocks ts d handshake_blocks P buf = Except.ok (flow.next Q rest out) →
        rest.length ≤ buf.length ∧ 4 ≤ rank (Q.state_.get d).state_
        ∧ P.data bd ts buf d
            = result.after out (message_loop bd ts d (2 * rest.length + 1) Q rest)
        ∧ (side_ready bd (P.state_.get d) → side_ready bd (Q.state_.get d)))
    ∧ (∀ (Q : parse_bittorrent) (rest : List Nat), 4 ≤ rank (Q.state_.get d).state_ →
        message_loop bd ts d (2 * rest.length + 1) Q rest ≠ Except.error fault.diverges
        ∧ ∀ f, 2 * rest.length + 1 ≤ f →
            message_loop bd ts d f Q rest = message_loop bd ts d (2 * rest.length + 1) Q rest)
    ∧ (∀ (Q Q1 : parse_bittorrent) (rest rest1 : List Nat) (out : List line),
        4 ≤ rank (Q.state_.get d).state_ → side_ready bd (Q.state_.get d) → rest ≠ [] →
        run_blocks ts d (message_blocks bd) Q rest = Except.ok (flow.next Q1 rest1 out) →
        side_ready bd ((skip_block ts d Q1 rest1).1.state_.get d)
        ∧ 4 ≤ rank ((skip_block ts d Q1 rest1).1.state_.get d).state_
        ∧ (rest1 = []
          ∨ (skip_block ts d Q1 rest1).2.1.length < rest.length
          ∨ ((skip_block ts d Q1 rest1).2.1 = rest
            ∧ ((skip_block ts d Q1 rest1).1.state_.get d).state_ = state_t.length
            ∧ ((Q.state_.get d).state_ = state_t.bitfield
              ∨ (Q.state_.get d).state_ = state_t.extension_handshake
              ∨ (Q.state_.get d).state_ = state_t.skip)
            ∧ (Q.state_.get d).skip_ = 0)))
    ∧ (∀ (key : stream_key) (cs : List call) (Q : parse_bittorrent) (out : List line),
        replay (bittorrent_handler bd) ((bittorrent_handler bd).init key) cs
          = Except.ok (Q, out) →
        ∀ d1, side_ready bd (Q.state_.get d1)) := by
  have hloop : ∀ (Q : parse_bittorrent) (rest : List Nat), 4 ≤ rank (Q.state_.get d).state_ →
      message_loop bd ts d (2 * rest.length + 1) Q rest ≠ Except.error fault.diverges := by
    intro Q rest h4
    apply message_loop_bound bd ts d _ Q rest h4
    intro hne
    have := idle_le (Q.state_.get d)
    have := List.length_pos.mpr hne
    omega
  have hhs : ∀ Q rest out,
      run_blocks ts d handshake_blocks P buf = Except.ok (flow.next Q rest out) →
      rest.length ≤ buf.length ∧ 4 ≤ rank (Q.state_.get d).state_ := by
    intro Q rest out h
    constructor
    · rcases run_blocks_end ts d _ 0 handshake_blocks_ranked (by simp [handshake_blocks])
          P Q buf rest out h with ⟨_, k2, _⟩ | ⟨_, _, k3, _⟩
      · rw [k2]
      · exact k3
    · exact (run_blocks_next_rank ts d _ 0 handshake_blocks_ranked (by simp [handshake_blocks])
        P Q buf rest out (Nat.zero_le _) h).1
  refine ⟨?_, ?_, ?_, ?_, ?_⟩
  · by_cases hdis : P.disabled_ = true
    · rw [data_of_disabled bd ts d P buf hdis]
      intro h
      cases h
    · have hdis' : P.disabled_ = false := by simpa using hdis
      by_cases hb : buf = []
      · subst hb
        simp [parse_bittorrent.data, hdis']
      · cases h1 : run_blocks ts d handshake_blocks P buf with
        | error e =>
          rw [data_of_error bd ts d P buf e hb hdis' h1]
          intro hc
          cases hc
          exact run_blocks_no_div ts d _ 0 handshake_blocks_ranked P buf h1
        | ok fl =>
          cases fl with
          | ret Q out =>
            rw [data_of_ret bd ts d P Q buf out hb hdis' h1]
            intro hc
            cases hc
          | next Q rest out =>
            rw [data_of_next bd ts d P Q buf rest out hb hdis' h1]
            apply result.after_ne_diverges
            apply message_loop_ends bd ts d _ Q rest (hhs Q rest out h1).2
            have := idle_le (Q.state_.get d)
            omega
  · intro Q rest out hdis hb h1
    obtain ⟨a1, a2⟩ := hhs Q rest out h1
    refine ⟨a1, a2, ?_, ?_⟩
    · rw [data_of_next bd ts d P Q buf rest out hb hdis h1,
        message_loop_fuel_le bd ts d Q rest _ (hloop Q rest a2) (3 * rest.length + 3)
          (by omega)]
    · intro hP
      exact run_blocks_ready bd ts d _ 0 handshake_blocks_ranked (fun b hb => Or.inr hb)
        P buf _ hP h1
  · intro Q rest h4
    exact ⟨hloop Q rest h4, message_loop_fuel_le bd ts d Q rest _ (hloop Q rest h4)⟩
  · intro Q Q1 rest rest1 out h4 hQ hrest h
    have hQ1 : side_ready bd (Q1.state_.get d) :=
      run_blocks_ready bd ts d _ 4 (message_blocks_ranked bd) (fun b hb => Or.inl hb)
        Q rest _ hQ h
    have h41 := ((run_blocks_keeps ts d _ 4 (message_blocks_ranked bd) (Nat.le_refl _) Q rest
      h4).2 _ h).1
    simp only [flow.state] at h41
    refine ⟨skip_block_ready bd ts d Q1 rest1 hQ1, (skip_block_keeps ts d Q1 rest1 h41).1, ?_⟩
    by_cases hr1 : rest1 = []
    · exact Or.inl hr1
    · right
      by_cases hne : (skip_block ts d Q1 rest1).2.1 = []
      · left
        rw [hne]
        exact List.length_pos.mpr hrest
      · obtain ⟨c1, c2⟩ := loop_iter_cases bd ts d Q Q1 rest rest1 out h4 h hne
        rcases c2 with ⟨c3, _⟩ | ⟨c3, _, c5⟩
        · exact Or.inl c3
        · refine Or.inr ⟨c3, c1, ?_⟩
          rcases c5 with ⟨s1, s2⟩ | ⟨b, hb, hg, hn⟩
          · exact ⟨Or.inr (Or.inr s1), s2⟩
          · have hz : b.need (Q.state_.get d).skip_ = 0 := by
              rcases (hQ h4).2 b hb hg with h0 | h0
              · rw [h0] at hn
                simpa using hn
              · omega
            obtain ⟨z1, z2⟩ := zero_need_block bd b hb (Q.state_.get d) hg hz
            refine ⟨?_, z2⟩
            rcases z1 with z | z
            · exact Or.inl z
            · exact Or.inr (Or.inl z)
  · intro key cs Q out h
    obtain ⟨P0, out0, e0, hi⟩ := replay_ready bd cs _ Q out h
    apply hi
    intro d1
    simp only [bittorrent_handler, Except.ok.injEq, Prod.mk.injEq] at e0
    rw [← e0.1]
    exact side_ready_of_empty bd _ (by cases d1 <;> rfl)

/-- Witness for `dissector_terminates`: direction `out` of `c36_skip`, reached by a handshake and a `piece` message
with length prefix 9, is in state `skip` with `skip_ = 0` and an empty buffer, and gets
four bytes.  The first iteration of the loop consumes none of them and leaves the
direction in state `length`; the loop ends within nine iterations. -/
theorem dissector_terminates_witness :
    4 ≤ rank (c36_skip.state_.get dir_t.out).state_
    ∧ (c36_skip.state_.get dir_t.out).state_ = state_t.skip
    ∧ (c36_skip.state_.get dir_t.out).skip_ = 0
    ∧ (c36_skip.state_.get dir_t.out).buffer_ = []
    ∧ (skip_block ⟨3, 0⟩ dir_t.out c36_skip [0, 0, 0, 0]).2.1 = [0, 0, 0, 0]
    ∧ 4 ≤ rank ((skip_block ⟨3, 0⟩ dir_t.out c36_skip [0, 0, 0, 0]).1.state_.get
        dir_t.out).state_
    ∧ message_loop ex_bdecode ⟨3, 0⟩ dir_t.out (2 * [0, 0, 0, 0].length + 1) c36_skip
        [0, 0, 0, 0] ≠ Except.error fault.diverges :=
  ⟨by decide, by decide, by decide, by decide, by decide,
    ((dissector_terminates ex_bdecode ⟨3, 0⟩ dir_t.out c36_skip [0, 0, 0, 0]).2.2.2.1
      c36_skip c36_skip [0, 0, 0, 0] [0, 0, 0, 0] [] (by decide)
      (fun _ => ⟨fun _ => by decide, fun _ _ _ => Or.inl (by decide)⟩) (by decide)
      (by rfl)).2.1,
    ((dissector_terminates ex_bdecode ⟨3, 0⟩ dir_t.out c36_skip [0, 0, 0, 0]).2.2.1
      c36_skip [0, 0, 0, 0] (by decide)).1⟩

end BtTrace
